import Mathlib

/-!
FaCT++ kernel: role box, taxonomy builder, completion graph, DL trees and the
saving and loading of the internal state.

A shallow embedding of parts of the FaCT++ description-logic reasoner
(`Kernel/tRole.h`, `Kernel/Taxonomy.cpp`, `Kernel/dlCompletionGraph.cpp`,
`Kernel/dltree.h`, `Kernel/SaveLoad.cpp`) together with theorems about them.

Pointers of the C++ code are indices into heaps; a heap is a total function
from indices to objects, `NULL` is `none`.  A C++ `assert` that fails is an
absent result (`none`) or an explicit outcome of the operation.  Streams are
lists of characters with the state bits of `std::istream`; the extraction and
insertion operators of the C++ library are modelled next to the code that
uses them.
-/

namespace FaCT

/-! ## Description-logic trees (dltree.h) -/

/-- Modelled from the spec: the tokens of a `TLexeme` that `dltree.h` uses (the
declaration, in tLexeme.h, is outside the sources at hand): concept constants,
names, role expressions and the concept connectives. -/
inductive Token
  | TOP | BOTTOM | CNAME | INAME | RNAME | UROLE | INV
  | NOT | AND | OR | EXISTS | FORALL | GE | LE
  deriving DecidableEq, Repr

/-- A lexeme: a token and its datum (`getToken()`, `getData()`). -/
structure TLexeme where
  /-- The token. -/
  token : Token
  /-- The datum: the number of a number restriction, the id of a name. -/
  data : Nat
  deriving DecidableEq, Repr

/-- The type `DLTree` (`TsTTree <TLexeme>`): `NULL` or a node with an element and
two children. -/
inductive DLTree
  | null
  | node (element : TLexeme) (left right : DLTree)
  deriving DecidableEq, Repr

/-- Function `isConst` of dltree.h. -/
def isConst : DLTree → Bool
  | .null => false
  | .node e _ _ =>
    match e.token with
    | .TOP => true
    | .BOTTOM => true
    | _ => false

/-- Function `isName` of dltree.h. -/
def isName : DLTree → Bool
  | .null => false
  | .node e _ _ =>
    match e.token with
    | .CNAME => true
    | .INAME => true
    | _ => false

/-- Function `isCN` of dltree.h. -/
def isCN (t : DLTree) : Bool := isConst t || isName t

/-- Modelled from the spec: `createSNFNot` (declared `extern` in dltree.h, defined
outside the sources at hand): `mkNot(Not(x)) = x`, otherwise a `Not` node. -/
def createSNFNot : DLTree → DLTree
  | .node ⟨.NOT, _⟩ x _ => x
  | C => .node ⟨.NOT, 0⟩ C .null

/-- Modelled from the spec: `createSNFAnd` (declared `extern` in dltree.h): the
SNF constructor `mkAnd`, an `And` node over the two formulas. -/
def createSNFAnd (C D : DLTree) : DLTree := .node ⟨.AND, 0⟩ C D

/-- Modelled from the spec: `createSNFForall` (declared `extern` in dltree.h):
the SNF constructor `mkForall`, a `Forall` node over the role and the formula. -/
def createSNFForall (R C : DLTree) : DLTree := .node ⟨.FORALL, 0⟩ R C

/-- Modelled from the spec: `createSNFGE` (declared `extern` in dltree.h): the
SNF constructor `mkGE(n,R,C)`, an `AtLeast` node. -/
def createSNFGE (n : Nat) (R C : DLTree) : DLTree := .node ⟨.GE, n⟩ R C

/-- Function `createSNFOr`: `C or D -> not(not C and not D)`. -/
def createSNFOr (C D : DLTree) : DLTree :=
  createSNFNot (createSNFAnd (createSNFNot C) (createSNFNot D))

/-- Function `createSNFExists`: `ER.C -> not AR.not C`. -/
def createSNFExists (R C : DLTree) : DLTree :=
  createSNFNot (createSNFForall R (createSNFNot C))

/-- Function `createSNFLE`: `n ? new DLTree ( TLexeme ( LE, n ), R, C ) :
createSNFForall ( R, createSNFNot(C) )`. -/
def createSNFLE (n : Nat) (R C : DLTree) : DLTree :=
  if n ≠ 0 then .node ⟨.LE, n⟩ R C else createSNFForall R (createSNFNot C)

/-- Function `createSNFwC`; `none` when `assert ( T == AND || T == OR )` fails. -/
def createSNFwC (T : Token) (C D : DLTree) : Option DLTree :=
  if T = .AND ∨ T = .OR then
    if T = .AND then some (createSNFAnd C D) else some (createSNFOr C D)
  else none

/-- Function `createSNFwR`; `none` in the `default` case (`assert (0)`). -/
def createSNFwR (T : Token) (n : Nat) (R C : DLTree) : Option DLTree :=
  match T with
  | .LE => some (createSNFLE n R C)
  | .GE => some (createSNFGE n R C)
  | .EXISTS => some (createSNFExists R C)
  | .FORALL => some (createSNFForall R C)
  | _ => none

/-- Function `rebuildSNF`; `none` in the `default` case (`assert(0)`). -/
def rebuildSNF (lex : TLexeme) (C1 C2 : DLTree) : Option DLTree :=
  match lex.token with
  | .NOT => some (createSNFNot C1)
  | .AND => some (createSNFAnd C1 C2)
  | .FORALL => some (createSNFForall C1 C2)
  | .LE => some (createSNFLE lex.data C1 C2)
  | _ => none

/-- The tokens that are concept connectives (non-atomic; constants, names and
role expressions are not). -/
def isConnective : Token → Bool
  | .NOT => true
  | .AND => true
  | .OR => true
  | .EXISTS => true
  | .FORALL => true
  | .GE => true
  | .LE => true
  | _ => false

/-- The connectives that occur in a tree. -/
def connectives : DLTree → List Token
  | .null => []
  | .node e l r => (if isConnective e.token then [e.token] else []) ++ connectives l ++ connectives r

/-- The tree contains only connectives of the list `allowed`. -/
def OnlyConnectives (allowed : List Token) (t : DLTree) : Prop :=
  ∀ tok ∈ connectives t, tok ∈ allowed

/-- The connectives the spec names for SNF: `Not`, `And`, `Forall`, `AtLeast`. -/
def specConnectives : List Token := [.NOT, .AND, .FORALL, .GE]

/-- The connectives of the trees the constructors build: those of the spec and
`LE` (at-most with a positive number). -/
def snfConnectives : List Token := [.NOT, .AND, .FORALL, .GE, .LE]

/-! ## Role box (`Kernel/tRole.h`) -/

/-- Index of a role in the role heap (a `TRole*`). -/
abbrev RoleId := Nat

/-- Class `TRole`: the members that the embedded methods read or write.
`Synonym` is the synonym pointer that `TRole` inherits from
`ClassifiableEntry` (`NULL` when the entry is not a synonym). -/
structure TRole where
  /-- Synonym pointer of `ClassifiableEntry`. -/
  Synonym : Option RoleId := none
  /-- Member `transitive`. -/
  transitive : Bool := false
  /-- Member `reflexive`. -/
  reflexive : Bool := false
  /-- Member `Inverse`. -/
  Inverse : Option RoleId := none
  /-- Member `DataRole`. -/
  DataRole : Bool := false
  /-- Member `Descendant`. -/
  Descendant : List RoleId := []
  /-- Member `Disjoint` (a `std::set<TRole*>`, kept as a list without order meaning). -/
  Disjoint : List RoleId := []
  /-- Member `pDomain`: the domain as a concept description, `NULL` by default. -/
  pDomain : DLTree := .null
  /-- Member `bpDomain`: the domain as a bipolar pointer, `bpINVALID` by default. -/
  bpDomain : Int := 0
  deriving DecidableEq, Repr

/-- The role heap. -/
abbrev RoleBox := RoleId → TRole

/-- Write one object of a heap. -/
def setAt {α : Type} (h : Nat → α) (i : Nat) (x : α) : Nat → α :=
  fun j => if j = i then x else h j

/-- Constructor `TRole::TRole(name)`: `transitive(false)`, `reflexive(false)`,
`Inverse(NULL)`, `pDomain(NULL)`, `bpDomain(bpINVALID)`, `DataRole(false)`; a new
entry is no synonym.  `bpINVALID` is the bipolar pointer `0`. -/
def TRole.new : TRole :=
  { Synonym := none, transitive := false, reflexive := false, Inverse := none,
    DataRole := false, Descendant := [], Disjoint := [], pDomain := .null, bpDomain := 0 }

/-- Method `isSynonym()` of `ClassifiableEntry`. -/
def isSynonym (rb : RoleBox) (r : RoleId) : Bool := (rb r).Synonym.isSome

/-- Method `TRole::resolveSynonym`: `isSynonym() ? getSynonym() : this`. -/
def resolveSynonym (rb : RoleBox) (r : RoleId) : RoleId :=
  match (rb r).Synonym with
  | some s => s
  | none => r

/-- Method `TRole::inverse`: `assert (Inverse != NULL); return Inverse->resolveSynonym();`. -/
def inverse (rb : RoleBox) (r : RoleId) : Option RoleId :=
  match (rb r).Inverse with
  | none => none
  | some i => some (resolveSynonym rb i)

/-- Method `TRole::setInverse`: `assert (Inverse == NULL); Inverse = p;`. -/
def setInverse (rb : RoleBox) (r p : RoleId) : Option RoleBox :=
  match (rb r).Inverse with
  | some _ => none
  | none => some (setAt rb r { rb r with Inverse := some p })

/-- Method `TRole::isTransitive`. -/
def isTransitive (rb : RoleBox) (r : RoleId) : Bool := (rb r).transitive

/-- Method `TRole::setTransitive`: `transitive = true; inverse()->transitive = true;`. -/
def setTransitive (rb : RoleBox) (r : RoleId) : Option RoleBox :=
  let rb1 := setAt rb r { rb r with transitive := true }
  (inverse rb1 r).map fun i => setAt rb1 i { rb1 i with transitive := true }

/-- Method `TRole::isDataRole`. -/
def isDataRole (rb : RoleBox) (r : RoleId) : Bool := (rb r).DataRole

/-- Method `TRole::setDataRole`: returns `true` (error) and changes nothing when
the role is transitive, otherwise sets `DataRole` and returns `false`. -/
def setDataRole (rb : RoleBox) (r : RoleId) : RoleBox × Bool :=
  if isTransitive rb r then (rb, true)
  else (setAt rb r { rb r with DataRole := true }, false)

/-- The loop of `TRole::addDisjointRole` over the descendants of `R`:
`Disjoint.insert(*p); (*p)->Disjoint.insert(this);`. -/
def addDisjointLoop (this : RoleId) : List RoleId → RoleBox → RoleBox
  | [], rb => rb
  | p :: ps, rb =>
    let rb1 := setAt rb this { rb this with Disjoint := p :: (rb this).Disjoint }
    let rb2 := setAt rb1 p { rb1 p with Disjoint := this :: (rb1 p).Disjoint }
    addDisjointLoop this ps rb2

/-- Method `TRole::addDisjointRole`: `Disjoint.insert(R)` and then the loop over
`R->begin_desc() .. R->end_desc()`. -/
def addDisjointRole (rb : RoleBox) (this R : RoleId) : RoleBox :=
  let rb1 := setAt rb this { rb this with Disjoint := R :: (rb this).Disjoint }
  addDisjointLoop this (rb1 R).Descendant rb1

/-- A sequence of `setTransitive` calls. -/
def setTransitiveAll : List RoleId → RoleBox → Option RoleBox
  | [], rb => some rb
  | r :: rs, rb =>
    match setTransitive rb r with
    | none => none
    | some rb1 => setTransitiveAll rs rb1

/-- Every role has its `Inverse` pointer set, and the role it points to points
back (the role box sets inverses in pairs). -/
def InversesSet (rb : RoleBox) : Prop :=
  ∀ r, ∃ i, (rb r).Inverse = some i ∧ (rb i).Inverse = some r

/-- Roles as the constructor leaves them, apart from the inverse pointer:
not transitive, no synonym. -/
def FreshRoles (rb : RoleBox) : Prop :=
  ∀ r, (rb r).transitive = false ∧ (rb r).Synonym = none

/-- Two role pairs `0/1` and `2/3` with mutual inverse pointers, where role `0`
is a synonym of `2` and role `1` a synonym of `3`; every other role is its own
inverse. -/
def synonymBox : RoleBox := fun r =>
  match r with
  | 0 => { TRole.new with Inverse := some 1, Synonym := some 2 }
  | 1 => { TRole.new with Inverse := some 0, Synonym := some 3 }
  | 2 => { TRole.new with Inverse := some 3 }
  | 3 => { TRole.new with Inverse := some 2 }
  | n + 4 => { TRole.new with Inverse := some (n + 4) }

/-- Fresh roles in pairs: `2k` and `2k+1` are inverse to each other. -/
def pairBox : RoleBox := fun r =>
  { TRole.new with Inverse := some (if r % 2 = 0 then r + 1 else r - 1) }

/-- Roles `0` (= R) with descendant `1`, and `2` (= S) with descendant `3`. -/
def disjointBox : RoleBox := fun r =>
  match r with
  | 0 => { TRole.new with Descendant := [1] }
  | 2 => { TRole.new with Descendant := [3] }
  | _ => TRole.new

/-- The invariant kept by `setTransitive`: no synonyms, inverse pointers in
pairs, and a role and the role its `Inverse` points to agree on `transitive`. -/
def TransInv (rb : RoleBox) : Prop :=
  (∀ r, (rb r).Synonym = none) ∧ InversesSet rb ∧
    ∀ r i, (rb r).Inverse = some i → (rb r).transitive = (rb i).transitive

/-! ## Taxonomy builder (`Kernel/Taxonomy.cpp`) -/

/-- Index of a classifiable entry (a `ClassifiableEntry*`). -/
abbrev EntryId := Nat

/-- Index of a taxonomy vertex (a `TaxonomyVertex*`). -/
abbrev VertexId := Nat

/-- Modelled from the spec: class `ClassifiableEntry` (`taxNamEntry.h` is not
part of the sources at hand).  A named entry carries its told-subsumer list, its
synonym pointer and the back-link to its taxonomy vertex; an entry counts as
classified when that back-link is set, which is how `classifyCycle` makes
entries "classified and of the same class" with `setTaxVertex` alone. -/
structure ClassifiableEntry where
  /-- The list returned by `getTold()`. -/
  told : List EntryId := []
  /-- The pointer returned by `getTaxVertex()`. -/
  taxVertex : Option VertexId := none
  /-- The pointer returned by `getSynonym()`. -/
  pSynonym : Option EntryId := none
  deriving DecidableEq, Repr

/-- Modelled from the spec: class `TaxonomyVertex` (`taxVertex.h` is not part of
the sources at hand): parent and child links (both directions) and the
`valued` bit used during a classification walk. -/
structure TaxonomyVertex where
  /-- Links in the up direction (parents). -/
  up : List VertexId := []
  /-- Links in the down direction (children). -/
  down : List VertexId := []
  /-- The bit read by `isValued()`. -/
  valued : Bool := false
  deriving DecidableEq, Repr

/-- Class `Taxonomy`: the members used by the embedded methods.  The top of
`waitStack` is the head of the list. -/
structure Taxonomy where
  /-- Heap of classifiable entries. -/
  entries : EntryId → ClassifiableEntry
  /-- Heap of taxonomy vertices. -/
  vertices : VertexId → TaxonomyVertex
  /-- Member `Graph`. -/
  Graph : List VertexId := []
  /-- Member `Current`. -/
  Current : Option VertexId := none
  /-- Member `curEntry`. -/
  curEntry : Option EntryId := none
  /-- Member `waitStack`. -/
  waitStack : List EntryId := []

/-- The virtual methods of `Taxonomy` that `Taxonomy.cpp` calls without
defining them; they are parameters of the embedding. -/
structure TaxonomyOps where
  /-- Method `doClassification(p)`. -/
  doClassification : EntryId → Taxonomy → Taxonomy
  /-- Method `needToldClassification(p)`. -/
  needToldClassification : EntryId → Taxonomy → Bool

/-- How a classification call ends. -/
inductive TaxResult where
  /-- The call returned with this state. -/
  | returned (t : Taxonomy)
  /-- An `assert` failed in this state. -/
  | assertFailed (t : Taxonomy)
  /-- The embedding ran out of fuel. -/
  | outOfFuel

/-- Method `isClassified()` of `ClassifiableEntry`. -/
def isClassified (t : Taxonomy) (e : EntryId) : Bool := (t.entries e).taxVertex.isSome

/-- Method `setTaxVertex(v)` of `ClassifiableEntry`. -/
def setTaxVertex (t : Taxonomy) (e : EntryId) (v : Option VertexId) : Taxonomy :=
  { t with entries := setAt t.entries e { t.entries e with taxVertex := v } }

/-- Method `waitStack.push(p)`. -/
def pushWait (t : Taxonomy) (e : EntryId) : Taxonomy :=
  { t with waitStack := e :: t.waitStack }

/-- Method `waitStack.pop()`. -/
def popWait (t : Taxonomy) : Taxonomy :=
  { t with waitStack := t.waitStack.tail }

/-- The loop of `Taxonomy::checkToldSubsumers` over the told subsumers of the
top of the stack; `recur` is the recursive call `checkToldSubsumers()`.
A classified told subsumer is skipped; an unclassified one that is on the
stack is pushed again and ends the loop with `false`; one that needs no told
classification is skipped; any other is pushed and the answer is that of the
recursive call. -/
def checkToldLoop (ops : TaxonomyOps) (recur : Taxonomy → Option (Taxonomy × Bool)) :
    List EntryId → Taxonomy → Option (Taxonomy × Bool)
  | [], t => some (t, true)
  | r :: rest, t =>
    if isClassified t r then checkToldLoop ops recur rest t
    else if t.waitStack.contains r then some (pushWait t r, false)
    else if !ops.needToldClassification r t then checkToldLoop ops recur rest t
    else recur (pushWait t r)

/-- Method `Taxonomy::checkToldSubsumers`; `none` when the fuel is used up or
the stack is empty (`assert ( !waitStack.empty () )`). -/
def checkToldSubsumers (ops : TaxonomyOps) : Nat → Taxonomy → Option (Taxonomy × Bool)
  | 0, _ => none
  | fuel + 1, t =>
    match t.waitStack with
    | [] => none
    | top :: _ => checkToldLoop ops (checkToldSubsumers ops fuel) (t.entries top).told t

/-- Method `Taxonomy::classifyTop`: `doClassification(p)` for the top `p` of
the stack, then `waitStack.pop()`; `none` when the stack is empty. -/
def classifyTop (ops : TaxonomyOps) (t : Taxonomy) : Option Taxonomy :=
  match t.waitStack with
  | [] => none
  | p :: _ => some (popWait (ops.doClassification p t))

/-- The `while ( !waitStack.empty() )` loop of `Taxonomy::classifyCycle`:
`waitStack.top()->setTaxVertex ( p->getTaxVertex() ); waitStack.pop();`. -/
def classifyCycleLoop (p : EntryId) : Nat → Taxonomy → Taxonomy
  | 0, t => t
  | n + 1, t =>
    match t.waitStack with
    | [] => t
    | e :: _ => classifyCycleLoop p n (popWait (setTaxVertex t e (t.entries p).taxVertex))

/-- Method `Taxonomy::classifyCycle`: classify the top element, give its
taxonomy vertex to every element left on the stack, and end in `assert (0)`.
Every path ends in a failed assertion; the state is the one reached there. -/
def classifyCycle (ops : TaxonomyOps) (t : Taxonomy) : TaxResult :=
  match t.waitStack with
  | [] => .assertFailed t
  | p :: _ =>
    match classifyTop ops t with
    | none => .assertFailed t
    | some t1 => .assertFailed (classifyCycleLoop p t1.waitStack.length t1)

/-- The `while ( !waitStack.empty () )` loop of `Taxonomy::classifyEntry`. -/
def classifyEntryLoop (ops : TaxonomyOps) (fuelTold : Nat) : Nat → Taxonomy → TaxResult
  | 0, t => if t.waitStack.isEmpty then .returned t else .outOfFuel
  | fuel + 1, t =>
    if t.waitStack.isEmpty then .returned t
    else
      match checkToldSubsumers ops fuelTold t with
      | none => .outOfFuel
      | some (t1, true) =>
        match classifyTop ops t1 with
        | none => .assertFailed t1
        | some t2 => classifyEntryLoop ops fuelTold fuel t2
      | some (t1, false) => classifyCycle ops t1

/-- Method `Taxonomy::classifyEntry`: `assert ( waitStack.empty () )`, push `p`,
run the loop. -/
def classifyEntry (ops : TaxonomyOps) (fuelTold fuel : Nat) (t : Taxonomy) (p : EntryId) :
    TaxResult :=
  if t.waitStack.isEmpty then classifyEntryLoop ops fuelTold fuel (pushWait t p)
  else .assertFailed t

/-- Method `isValued()` of a taxonomy vertex. -/
def isValued (t : Taxonomy) (v : VertexId) : Bool := (t.vertices v).valued

/-- The inner loop of `Taxonomy::setNonRedundantCandidates` over the children
of `par`: `true` as soon as a child is valued (`stillParent = false; break`). -/
def hasValuedChild (t : Taxonomy) : List VertexId → Bool
  | [] => false
  | q :: qs => if isValued t q then true else hasValuedChild t qs

/-- Modelled from the spec: method `addNeighbour(upDirection, p)` of
`TaxonomyVertex`, which adds `p` to the links of the given direction. -/
def addNeighbour (x : TaxonomyVertex) (upDirection : Bool) (p : VertexId) : TaxonomyVertex :=
  if upDirection then { x with up := x.up ++ [p] } else { x with down := x.down ++ [p] }

/-- The outer loop of `Taxonomy::setNonRedundantCandidates` over the told
subsumers; `none` when a `NULL` pointer (`getTaxVertex()` of an unclassified
entry, or `Current`) is dereferenced. -/
def setNonRedundantLoop : List EntryId → Taxonomy → Option Taxonomy
  | [], t => some t
  | p :: ps, t =>
    match (t.entries p).taxVertex with
    | none => none
    | some par =>
      if hasValuedChild t (t.vertices par).down then setNonRedundantLoop ps t
      else
        match t.Current with
        | none => none
        | some cur =>
          setNonRedundantLoop ps
            { t with vertices := setAt t.vertices cur (addNeighbour (t.vertices cur) true par) }

/-- Method `Taxonomy::setNonRedundantCandidates`. -/
def setNonRedundantCandidates (t : Taxonomy) (v : List EntryId) : Option Taxonomy :=
  setNonRedundantLoop v t

/-- Modelled from the spec: method `propagateValueUp(true)` of `TaxonomyVertex`
(not part of the sources at hand), which labels the vertex and all its
ancestors as valued; a vertex that is valued already is left alone together
with its ancestors. -/
def propagateValueUp : Nat → (VertexId → TaxonomyVertex) → VertexId → (VertexId → TaxonomyVertex)
  | 0, vs, _ => vs
  | fuel + 1, vs, v =>
    if (vs v).valued then vs
    else (vs v).up.foldl (fun acc p => propagateValueUp fuel acc p)
      (setAt vs v { vs v with valued := true })

/-- Method `Taxonomy::setToldSubsumers`: every classified told subsumer
propagates the value up from its vertex; the others are skipped. -/
def setToldSubsumers (fuel : Nat) : List EntryId → Taxonomy → Taxonomy
  | [], t => t
  | p :: ps, t =>
    match (t.entries p).taxVertex with
    | none => setToldSubsumers fuel ps t
    | some x => setToldSubsumers fuel ps { t with vertices := propagateValueUp fuel t.vertices x }

/-- Vertex `a` is a proper ancestor of vertex `b`: there is a non-empty chain of
child links from `a` down to `b`. -/
def ProperAncestor (vs : VertexId → TaxonomyVertex) (a b : VertexId) : Prop :=
  Relation.TransGen (fun x y => y ∈ (vs x).down) a b

/-- The taxonomy vertex of entry `e` is `x`. -/
def VertexOf (t : Taxonomy) (e : EntryId) (x : VertexId) : Prop :=
  (t.entries e).taxVertex = some x

/-- The valued labels are exactly the upward closure of the vertices of the
told subsumers `v`: a vertex is valued iff it is the vertex of a told subsumer
or a proper ancestor of one. -/
def ValuedIsUpClosure (t : Taxonomy) (v : List EntryId) : Prop :=
  ∀ x, isValued t x = true ↔
    ∃ s ∈ v, ∃ q, VertexOf t s q ∧ (x = q ∨ ProperAncestor t.vertices x q)

/-- A chain taxonomy `0 ← 1 ← 2 ← 3` (vertex `0` on top), with entry `i`
classified at vertex `i` for `i ≤ 3`, and a separate vertex `9` as `Current`. -/
def chainTaxonomy : Taxonomy :=
  { entries := fun e => if e ≤ 3 then { taxVertex := some e } else {}
    vertices := fun x =>
      match x with
      | 0 => { down := [1] }
      | 1 => { up := [0], down := [2] }
      | 2 => { up := [1], down := [3] }
      | 3 => { up := [2] }
      | _ => {}
    Graph := [0, 1, 2, 3]
    Current := some 9 }

/-- Two unclassified entries `0` and `1`, each the only told subsumer of the
other. -/
def cycleTaxonomy : Taxonomy :=
  { entries := fun e =>
      match e with
      | 0 => { told := [1] }
      | 1 => { told := [0] }
      | _ => {}
    vertices := fun _ => {} }

/-- A stand-in for the virtual methods: `doClassification(p)` gives `p` a vertex
of its own, and every told subsumer needs told classification. -/
def simpleOps : TaxonomyOps :=
  { doClassification := fun p t => setTaxVertex t p (some p)
    needToldClassification := fun _ _ => true }

/-- Entry `b` is the first told subsumer of `a` that is not yet classified. -/
def ToldNext (t : Taxonomy) (a b : EntryId) : Prop :=
  ∃ pre post, (t.entries a).told = pre ++ b :: post ∧ ∀ x ∈ pre, isClassified t x = true

/-- Vertex `b` is reached from vertex `a` by following parent links (zero or
more): `b` is `a` or an ancestor of `a`. -/
def UpReach (vs : VertexId → TaxonomyVertex) (a b : VertexId) : Prop :=
  Relation.ReflTransGen (fun x y => y ∈ (vs x).up) a b

/-- The decision taken by one round of the outer loop of
`setNonRedundantCandidates`: the vertex of `s` when none of its children is
valued. -/
def parentCandidate (t : Taxonomy) (s : EntryId) : Option VertexId :=
  match (t.entries s).taxVertex with
  | none => none
  | some par => if hasValuedChild t (t.vertices par).down then none else some par

/-- Vertex `q` is the taxonomy vertex of one of the told subsumers `v`. -/
def isToldVertex (t : Taxonomy) (v : List EntryId) (q : VertexId) : Bool :=
  v.any fun s => (t.entries s).taxVertex == some q

/-- The parents in the words of the spec: the vertices of those told subsumers
`S` in `v` for which no child of `S` is also a told subsumer. -/
def nonRedundantBySpec (t : Taxonomy) (v : List EntryId) : List VertexId :=
  v.filterMap fun s =>
    match (t.entries s).taxVertex with
    | none => none
    | some par => if (t.vertices par).down.any (isToldVertex t v) then none else some par

/-- No valued vertex outside `E` has a parent that is not valued. -/
def ClosedExcept (E : VertexId → Prop) (vs : VertexId → TaxonomyVertex) : Prop :=
  ∀ a, ¬ E a → (vs a).valued = true → ∀ b ∈ (vs a).up, (vs b).valued = true

/-- The chain taxonomy after the labels of the told subsumers `1` and `3` were
propagated: the vertices `0 .. 3` are valued. -/
def valuedChain : Taxonomy :=
  { entries := fun e => if e ≤ 3 then { taxVertex := some e } else {}
    vertices := fun x =>
      match x with
      | 0 => { down := [1], valued := true }
      | 1 => { up := [0], down := [2], valued := true }
      | 2 => { up := [1], down := [3], valued := true }
      | 3 => { up := [2], valued := true }
      | _ => {}
    Graph := [0, 1, 2, 3]
    Current := some 9 }

/-! ## Completion graph (`Kernel/dlCompletionGraph.cpp`) -/

/-- Index of a completion-graph node (a `DlCompletionTree*`); it is the node id. -/
abbrev NodeId := Nat

/-- Index of an arc in the edge heap (a `DlCompletionTreeArc*`). -/
abbrev ArcId := Nat

/-- A dependency set: the set of branching levels a fact depends on. -/
abbrev DepSet := Finset Nat

/-- Modelled from the spec: class `DlCompletionTreeArc` (not part of the sources
at hand).  An arc is directed and paired with its reverse arc; it carries a
role, a dep-set and a validity flag (`isIBlocked()` is true once the arc was
invalidated). -/
structure DlCompletionTreeArc where
  /-- The role returned by `getRole()`. -/
  Role : RoleId
  /-- The dep-set of the arc. -/
  depSet : DepSet
  /-- The node returned by `getArcEnd()`. -/
  ArcEnd : NodeId
  /-- The reverse arc. -/
  Reverse : ArcId
  /-- The flag returned by `isIBlocked()`. -/
  iBlocked : Bool
  deriving DecidableEq

/-- Modelled from the spec: the state a node puts on its save stack:
its level and the sizes of its two arc lists. -/
structure NodeSaveState where
  /-- Level of the node when it was saved. -/
  curLevel : Nat
  /-- Size of the predecessor list. -/
  nPars : Nat
  /-- Size of the successor list. -/
  nSons : Nat
  deriving DecidableEq

/-- Modelled from the spec: class `DlCompletionTree` (not part of the sources at
hand): kind of the node, predecessor and successor arc lists, inequality
relation, p-blocker with its dep-set, and the save stack for branch-local
restoration.  The concept label is left out: none of the embedded operations
reads or writes it. -/
structure DlCompletionTree where
  /-- Answer of `isNominalNode()`; `isBlockableNode()` is its negation. -/
  nominal : Bool
  /-- Arcs `beginp() .. endp()`. -/
  Parent : List ArcId
  /-- Arcs `begins() .. ends()`. -/
  Son : List ArcId
  /-- Inequality relation: nodes this node must differ from, with dep-sets. -/
  IR : List (NodeId × DepSet)
  /-- The p-blocker and the dep-set of the blocking, when `isPBlocked()`. -/
  pBlocked : Option (NodeId × DepSet)
  /-- Branching level of the last save of the node. -/
  curLevel : Nat
  /-- Save stack of the node, top first. -/
  saves : List NodeSaveState
  deriving DecidableEq

/-- Struct `SaveState` of the graph: `nNodes` and `sNodes`. -/
structure SaveState where
  /-- Saved `endUsed`. -/
  nNodes : Nat
  /-- Saved `SavedNodes.size()`. -/
  sNodes : Nat
  deriving DecidableEq

/-- Modelled from the spec: an entry of the rare log, which undoes one
infrequent edit (`setPBlocked`, an inequality addition, a change of an arc). -/
inductive Restorer where
  /-- Put back the p-blocker of a node. -/
  | pBlocked (node : NodeId) (old : Option (NodeId × DepSet))
  /-- Cut the inequality relation of a node back to its old size. -/
  | ir (node : NodeId) (oldSize : Nat)
  /-- Put back the old content of an arc. -/
  | arc (a : ArcId) (old : DlCompletionTreeArc)
  deriving DecidableEq

/-- Class `DlCompletionGraph`: node arena `NodeBase` with `endUsed`, edge heap
`CTEdgeHeap` with the number `nEdges` of arcs handed out, `SavedNodes`, the
save `Stack` (bottom first), `branchingLevel` and the rare log `RareStack`
(newest first, each entry with the level it was logged at). -/
structure DlCompletionGraph where
  /-- Node arena. -/
  NodeBase : NodeId → DlCompletionTree
  /-- Number of nodes in use. -/
  endUsed : Nat
  /-- Edge heap. -/
  CTEdgeHeap : ArcId → DlCompletionTreeArc
  /-- Number of arcs handed out by `CTEdgeHeap.get()`. -/
  nEdges : Nat
  /-- Nodes saved so far. -/
  SavedNodes : List NodeId
  /-- Stack of graph save states. -/
  Stack : List SaveState
  /-- Current branching level. -/
  branchingLevel : Nat
  /-- Rare log. -/
  RareStack : List (Nat × Restorer)

/-- Method `saveRare(p)`: log a restorer at the current branching level. -/
def saveRare (g : DlCompletionGraph) (r : Restorer) : DlCompletionGraph :=
  { g with RareStack := (g.branchingLevel, r) :: g.RareStack }

/-- Modelled from the spec: the effect of one restorer. -/
def applyRestorer (r : Restorer) (g : DlCompletionGraph) : DlCompletionGraph :=
  match r with
  | .pBlocked node old =>
    { g with NodeBase := setAt g.NodeBase node { g.NodeBase node with pBlocked := old } }
  | .ir node oldSize =>
    { g with
      NodeBase := setAt g.NodeBase node
        { g.NodeBase node with IR := (g.NodeBase node).IR.take oldSize } }
  | .arc a old => { g with CTEdgeHeap := setAt g.CTEdgeHeap a old }

/-- Modelled from the spec: the loop of `RareStack.restore(level)`, which undoes
the entries logged above `level`, newest first, and drops them from the log. -/
def restoreRareLoop (level : Nat) : List (Nat × Restorer) → DlCompletionGraph → DlCompletionGraph
  | [], g => { g with RareStack := [] }
  | (l, r) :: rest, g =>
    if level < l then restoreRareLoop level rest (applyRestorer r g)
    else { g with RareStack := (l, r) :: rest }

/-- Modelled from the spec: method `RareStack.restore(level)`. -/
def restoreRare (level : Nat) (g : DlCompletionGraph) : DlCompletionGraph :=
  restoreRareLoop level g.RareStack g

/-- Modelled from the spec: method `saveNode(node, level)`: a node whose level is
below `level` pushes its state on its own save stack, takes `level` as its
level and is recorded in `SavedNodes`; a node saved at `level` already is left
alone. -/
def saveNode (g : DlCompletionGraph) (node : NodeId) (level : Nat) : DlCompletionGraph :=
  if (g.NodeBase node).curLevel < level then
    { g with
      NodeBase := setAt g.NodeBase node
        { g.NodeBase node with
          saves := { curLevel := (g.NodeBase node).curLevel,
                     nPars := (g.NodeBase node).Parent.length,
                     nSons := (g.NodeBase node).Son.length } :: (g.NodeBase node).saves
          curLevel := level }
      SavedNodes := g.SavedNodes ++ [node] }
  else g

/-- Modelled from the spec: pop the save stack of a node down to `level`: states
saved at a level above `level` are discarded, the first one saved at a level
not above `level` is returned. -/
def popSaves (level : Nat) : List NodeSaveState → Option NodeSaveState × List NodeSaveState
  | [] => (none, [])
  | s :: rest => if level < s.curLevel then popSaves level rest else (some s, rest)

/-- Modelled from the spec: method `restoreNode(node, level)`: a node whose level
is above `level` goes back to the state it had at `level` (all mutations above
`level` are reverted): its level and the sizes of its arc lists. -/
def restoreNode (g : DlCompletionGraph) (node : NodeId) (level : Nat) : DlCompletionGraph :=
  if level < (g.NodeBase node).curLevel then
    match popSaves level (g.NodeBase node).saves with
    | (none, rest) =>
      { g with NodeBase := setAt g.NodeBase node { g.NodeBase node with saves := rest } }
    | (some s, rest) =>
      { g with
        NodeBase := setAt g.NodeBase node
          { g.NodeBase node with
            curLevel := s.curLevel
            Parent := (g.NodeBase node).Parent.take s.nPars
            Son := (g.NodeBase node).Son.take s.nSons
            saves := rest } }
  else g

/-- Modelled from the spec: method `addParent(arc)` of a node. -/
def addParent (g : DlCompletionGraph) (node : NodeId) (a : ArcId) : DlCompletionGraph :=
  { g with
    NodeBase := setAt g.NodeBase node
      { g.NodeBase node with Parent := (g.NodeBase node).Parent ++ [a] } }

/-- Modelled from the spec: method `addChild(arc)` of a node. -/
def addChild (g : DlCompletionGraph) (node : NodeId) (a : ArcId) : DlCompletionGraph :=
  { g with
    NodeBase := setAt g.NodeBase node
      { g.NodeBase node with Son := (g.NodeBase node).Son ++ [a] } }

/-- Modelled from the spec: node creation (`createNode(kind)`): the next node of
the arena is initialised at the current branching level and `endUsed` grows. -/
def getNewNode (g : DlCompletionGraph) (nominal : Bool) : DlCompletionGraph × NodeId :=
  ({ g with
     NodeBase := setAt g.NodeBase g.endUsed
       { nominal := nominal, Parent := [], Son := [], IR := [], pBlocked := none,
         curLevel := g.branchingLevel, saves := [] }
     endUsed := g.endUsed + 1 }, g.endUsed)

/-- The first lines of `DlCompletionGraph::createEdge`: two arcs are taken from
the heap, `forward->init(roleName, dep, to)` and
`backward->init(roleName->inverse(), dep, from)`, and each is made the reverse
of the other.  `inv` is `TRole::inverse` (total once the inverse pointers are
set). -/
def initArcs (inv : RoleId → RoleId) (g : DlCompletionGraph) (from_ to_ : NodeId)
    (roleName : RoleId) (dep : DepSet) : DlCompletionGraph :=
  { g with
    CTEdgeHeap := setAt
      (setAt g.CTEdgeHeap g.nEdges
        { Role := roleName, depSet := dep, ArcEnd := to_, Reverse := g.nEdges + 1,
          iBlocked := false })
      (g.nEdges + 1)
      { Role := inv roleName, depSet := dep, ArcEnd := from_, Reverse := g.nEdges,
        iBlocked := false }
    nEdges := g.nEdges + 2 }

/-- Method `DlCompletionGraph::createEdge`: the two arcs are created, both nodes
are saved with `saveNode ( node, branchingLevel )`, and the arcs are attached:
`from->addParent(forward); to->addChild(backward)` for an up-link,
`from->addChild(forward); to->addParent(backward)` otherwise.  Returns the
forward arc. -/
def createEdge (inv : RoleId → RoleId) (g : DlCompletionGraph) (from_ to_ : NodeId)
    (isUpLink : Bool) (roleName : RoleId) (dep : DepSet) : DlCompletionGraph × ArcId :=
  let forward := g.nEdges
  let backward := g.nEdges + 1
  let g1 := initArcs inv g from_ to_ roleName dep
  let g2 := saveNode (saveNode g1 from_ g1.branchingLevel) to_ g1.branchingLevel
  let g3 :=
    if isUpLink then addChild (addParent g2 from_ forward) to_ backward
    else addParent (addChild g2 from_ forward) to_ backward
  (g3, forward)

/-- Modelled from the spec: method `invalidateEdge(arc)`: clears both directions;
the arcs stay in the heap but are ignored; the old arcs go to the rare log. -/
def invalidateEdge (g : DlCompletionGraph) (a : ArcId) : DlCompletionGraph :=
  let g1 := saveRare
    { g with CTEdgeHeap := setAt g.CTEdgeHeap a { g.CTEdgeHeap a with iBlocked := true } }
    (.arc a (g.CTEdgeHeap a))
  let b := (g1.CTEdgeHeap a).Reverse
  saveRare
    { g1 with CTEdgeHeap := setAt g1.CTEdgeHeap b { g1.CTEdgeHeap b with iBlocked := true } }
    (.arc b (g1.CTEdgeHeap b))

/-- Modelled from the spec: search of the arcs of `node` (predecessors first)
for a valid arc to `to` labelled with role `R`. -/
def getEdgeLabelled (g : DlCompletionGraph) (node : NodeId) (R : RoleId) (to_ : NodeId) :
    Option ArcId :=
  ((g.NodeBase node).Parent ++ (g.NodeBase node).Son).find? fun a =>
    (g.CTEdgeHeap a).ArcEnd == to_ && (g.CTEdgeHeap a).Role == R && !(g.CTEdgeHeap a).iBlocked

/-- Modelled from the spec: method `addRoleLabel(from, to, isUpLink, R, dep)`:
when `from` already has a valid arc to `to` labelled `R`, `dep` is added to the
dep-set of that arc (logged in the rare log) rather than creating a duplicate;
otherwise the edge is created.  Returns the arc. -/
def addRoleLabel (inv : RoleId → RoleId) (g : DlCompletionGraph) (from_ to_ : NodeId)
    (isUpLink : Bool) (R : RoleId) (dep : DepSet) : DlCompletionGraph × ArcId :=
  match getEdgeLabelled g from_ R to_ with
  | some a =>
    (saveRare
      { g with
        CTEdgeHeap := setAt g.CTEdgeHeap a
          { g.CTEdgeHeap a with depSet := (g.CTEdgeHeap a).depSet ∪ dep } }
      (.arc a (g.CTEdgeHeap a)), a)
  | none => createEdge inv g from_ to_ isUpLink R dep

/-- Modelled from the spec: method `isReflexiveEdge()` of an arc: the arc and its
reverse end in the same node. -/
def isReflexiveEdge (g : DlCompletionGraph) (a : ArcId) : Bool :=
  (g.CTEdgeHeap a).ArcEnd == (g.CTEdgeHeap (g.CTEdgeHeap a).Reverse).ArcEnd

/-- Method `DlCompletionGraph::moveEdge`: `NULL` for a purged edge and for a
successor edge that does not lead to a nominal node; otherwise a non-reflexive
edge is re-created at `node` by `addRoleLabel` with the role of the edge and
the dep-set `dep` (in the opposite direction when `node` already has an arc to
the same end in the other list), and the old edge is invalidated. -/
def moveEdge (inv : RoleId → RoleId) (g : DlCompletionGraph) (node : NodeId) (edge : ArcId)
    (isUpLink : Bool) (dep : DepSet) : DlCompletionGraph × Option ArcId :=
  if (g.CTEdgeHeap edge).iBlocked then (g, none)
  else if !isUpLink && !(g.NodeBase (g.CTEdgeHeap edge).ArcEnd).nominal then (g, none)
  else if !isReflexiveEdge g edge then
    let to_ := (g.CTEdgeHeap edge).ArcEnd
    let arcs := if isUpLink then (g.NodeBase node).Son else (g.NodeBase node).Parent
    let r :=
      if arcs.any (fun p => (g.CTEdgeHeap p).ArcEnd == to_) then
        addRoleLabel inv g node to_ (!isUpLink) (g.CTEdgeHeap edge).Role dep
      else addRoleLabel inv g node to_ isUpLink (g.CTEdgeHeap edge).Role dep
    (invalidateEdge r.1 edge, some r.2)
  else (invalidateEdge g edge, none)

/-- The two loops of `DlCompletionGraph::Merge` over the arcs of `from`:
`temp = moveEdge ( to, *q, isUpLink, dep ); if ( temp != NULL ) edges.push_back(temp);`. -/
def moveEdges (inv : RoleId → RoleId) (to_ : NodeId) (isUpLink : Bool) (dep : DepSet) :
    List ArcId → DlCompletionGraph × List ArcId → DlCompletionGraph × List ArcId
  | [], acc => acc
  | q :: qs, (g, edges) =>
    match moveEdge inv g to_ q isUpLink dep with
    | (g1, some temp) => moveEdges inv to_ isUpLink dep qs (g1, edges ++ [temp])
    | (g1, none) => moveEdges inv to_ isUpLink dep qs (g1, edges)

/-- Modelled from the spec: method `updateIR(to, from, dep)`: everything that is
unequal to `from` becomes unequal to `to` under the combined dep-set; the old
size of the relation goes to the rare log. -/
def updateIR (g : DlCompletionGraph) (to_ from_ : NodeId) (dep : DepSet) : DlCompletionGraph :=
  saveRare
    { g with
      NodeBase := setAt g.NodeBase to_
        { g.NodeBase to_ with
          IR := (g.NodeBase to_).IR ++ (g.NodeBase from_).IR.map fun x => (x.1, x.2 ∪ dep) } }
    (.ir to_ (g.NodeBase to_).IR.length)

/-- Modelled from the spec: method `setPBlocked(root, dep)` of a node together
with the `saveRare` around it: the node becomes p-blocked by `root` with
dep-set `dep`, and the old blocker goes to the rare log. -/
def setPBlocked (g : DlCompletionGraph) (p root : NodeId) (dep : DepSet) : DlCompletionGraph :=
  saveRare
    { g with NodeBase := setAt g.NodeBase p { g.NodeBase p with pBlocked := some (root, dep) } }
    (.pBlocked p (g.NodeBase p).pBlocked)

/-- Method `isPBlocked()` of a node. -/
def isPBlocked (g : DlCompletionGraph) (p : NodeId) : Bool := (g.NodeBase p).pBlocked.isSome

/-- Method `DlCompletionGraph::Purge`, with fuel for the recursion: nothing for a
p-blocked node; otherwise the node is p-blocked by `root`, its blockable
successors are purged and its edges to nominal successors are invalidated. -/
def Purge : Nat → DlCompletionGraph → NodeId → NodeId → DepSet → DlCompletionGraph
  | 0, g, _, _, _ => g
  | fuel + 1, g, p, root, dep =>
    if isPBlocked g p then g
    else
      (g.NodeBase p).Son.foldl
        (fun acc q =>
          if !(acc.NodeBase (acc.CTEdgeHeap q).ArcEnd).nominal then
            Purge fuel acc (acc.CTEdgeHeap q).ArcEnd root dep
          else invalidateEdge acc q)
        (setPBlocked g p root dep)

/-- Method `DlCompletionGraph::Merge`: move the predecessor arcs of `from` to
`to`, then the successor arcs that lead to nominal nodes, update the inequality
relation and purge `from`.  Returns the graph and the list `edges`. -/
def Merge (inv : RoleId → RoleId) (g : DlCompletionGraph) (from_ to_ : NodeId) (dep : DepSet) :
    DlCompletionGraph × List ArcId :=
  let r1 := moveEdges inv to_ true dep (g.NodeBase from_).Parent (g, [])
  let r2 := moveEdges inv to_ false dep (g.NodeBase from_).Son r1
  let g3 := updateIR r2.1 to_ from_ dep
  (Purge (g3.endUsed + 1) g3 from_ to_ dep, r2.2)

/-- Method `DlCompletionGraph::save`. -/
def save (g : DlCompletionGraph) : DlCompletionGraph :=
  { g with
    Stack := g.Stack ++ [{ nNodes := g.endUsed, sNodes := g.SavedNodes.length }]
    branchingLevel := g.branchingLevel + 1 }

/-- Modelled from the spec: method `Stack.pop(level)`: the stack is cut down to
`level` states and the last of them is popped; `none` when there are fewer. -/
def popStack (stack : List SaveState) (level : Nat) : Option (SaveState × List SaveState) :=
  match level with
  | 0 => none
  | k + 1 =>
    match stack.get? k with
    | none => none
    | some s => some (s, stack.take k)

/-- The loop of `DlCompletionGraph::restore` over the nodes saved since the
save: `if ( (*p)->getId() < endUsed ) restoreNode ( (*p), level );`. -/
def restoreNodes (level : Nat) : List NodeId → DlCompletionGraph → DlCompletionGraph
  | [], g => g
  | p :: ps, g =>
    if p < g.endUsed then restoreNodes level ps (restoreNode g p level)
    else restoreNodes level ps g

/-- Method `DlCompletionGraph::restore`; `none` when `assert ( level > 0 )` fails
or the save stack has no state for `level`. -/
def restore (g : DlCompletionGraph) (level : Nat) : Option DlCompletionGraph :=
  if level = 0 then none
  else
    let g1 := restoreRare level { g with branchingLevel := level }
    match popStack g1.Stack level with
    | none => none
    | some (s, stack) =>
      let g2 : DlCompletionGraph := { g1 with Stack := stack, endUsed := s.nNodes }
      let g3 := restoreNodes level (g2.SavedNodes.drop s.sNodes) g2
      some { g3 with SavedNodes := g3.SavedNodes.take s.sNodes }

/-- A mutation of the completion graph. -/
inductive Mutation where
  /-- Node creation. -/
  | newNode (nominal : Bool)
  /-- A call of `createEdge`. -/
  | createEdge (from_ to_ : NodeId) (isUpLink : Bool) (roleName : RoleId) (dep : DepSet)
  /-- A call of `Merge`. -/
  | merge (from_ to_ : NodeId) (dep : DepSet)
  /-- A call of `Purge`. -/
  | purge (p root : NodeId) (dep : DepSet)

/-- Perform one mutation. -/
def applyMutation (inv : RoleId → RoleId) (g : DlCompletionGraph) : Mutation → DlCompletionGraph
  | .newNode nominal => (getNewNode g nominal).1
  | .createEdge from_ to_ isUpLink roleName dep => (createEdge inv g from_ to_ isUpLink roleName dep).1
  | .merge from_ to_ dep => (Merge inv g from_ to_ dep).1
  | .purge p root dep => Purge (g.endUsed + 1) g p root dep

/-- Perform a sequence of mutations. -/
def applyMutations (inv : RoleId → RoleId) : List Mutation → DlCompletionGraph → DlCompletionGraph
  | [], g => g
  | m :: ms, g => applyMutations inv ms (applyMutation inv g m)

/-- What `Purge` keeps: the arc lists and kinds of all nodes, the ends, roles,
reverse arcs and dep-sets of all arcs, `endUsed`, every blocker that is set,
and every invalidation. -/
structure PurgeFrame (g r : DlCompletionGraph) : Prop where
  /-- Successor lists are kept. -/
  son : ∀ n, (r.NodeBase n).Son = (g.NodeBase n).Son
  /-- Predecessor lists are kept. -/
  parent : ∀ n, (r.NodeBase n).Parent = (g.NodeBase n).Parent
  /-- Node kinds are kept. -/
  nominal : ∀ n, (r.NodeBase n).nominal = (g.NodeBase n).nominal
  /-- Arc ends are kept. -/
  arcEnd : ∀ a, (r.CTEdgeHeap a).ArcEnd = (g.CTEdgeHeap a).ArcEnd
  /-- Arc roles are kept. -/
  role : ∀ a, (r.CTEdgeHeap a).Role = (g.CTEdgeHeap a).Role
  /-- Reverse arcs are kept. -/
  rev : ∀ a, (r.CTEdgeHeap a).Reverse = (g.CTEdgeHeap a).Reverse
  /-- Dep-sets of arcs are kept. -/
  dep : ∀ a, (r.CTEdgeHeap a).depSet = (g.CTEdgeHeap a).depSet
  /-- Invalid arcs stay invalid. -/
  iBlocked : ∀ a, (g.CTEdgeHeap a).iBlocked = true → (r.CTEdgeHeap a).iBlocked = true
  /-- A blocker that is set stays as it is. -/
  blocked : ∀ n x, (g.NodeBase n).pBlocked = some x → (r.NodeBase n).pBlocked = some x
  /-- The arena sizes and the level are kept. -/
  sizes : r.endUsed = g.endUsed ∧ r.nEdges = g.nEdges ∧ r.branchingLevel = g.branchingLevel

/-- Node `b` is a blockable successor of node `a` that is not p-blocked in `g`. -/
def PurgeStep (g : DlCompletionGraph) (a b : NodeId) : Prop :=
  ∃ q ∈ (g.NodeBase a).Son, (g.CTEdgeHeap q).ArcEnd = b ∧ (g.NodeBase b).nominal = false ∧
    isPBlocked g b = false

/-- Node `n` is reached from `p` through successor arcs that pass only through
blockable nodes that are not p-blocked in `g`. -/
def PurgeReach (g : DlCompletionGraph) (p n : NodeId) : Prop :=
  Relation.ReflTransGen (PurgeStep g) p n

/-- The nodes below `N` that are not p-blocked. -/
def unblockedNodes (N : Nat) (g : DlCompletionGraph) : Finset NodeId :=
  (Finset.range N).filter fun n => isPBlocked g n = false

/-- All successor arcs of the nodes in use end in nodes in use. -/
def SonsInUse (g : DlCompletionGraph) : Prop :=
  ∀ n < g.endUsed, ∀ q ∈ (g.NodeBase n).Son, (g.CTEdgeHeap q).ArcEnd < g.endUsed

/-- What the steps of `Merge` before the final `Purge` keep, for a merge with
dep-set `dep`: arcs handed out before keep their end, role and reverse, stay
invalid once invalid, and their dep-set at most gains `dep`; arcs handed out
since have the dep-set `dep`; nodes keep their kind and blocker, and their arc
lists only grow, by arcs that are handed out. -/
structure MergeExt (dep : DepSet) (g r : DlCompletionGraph) : Prop where
  /-- The edge heap only grows. -/
  nEdges : g.nEdges ≤ r.nEdges
  /-- Arc ends are kept. -/
  arcEnd : ∀ a < g.nEdges, (r.CTEdgeHeap a).ArcEnd = (g.CTEdgeHeap a).ArcEnd
  /-- Arc roles are kept. -/
  role : ∀ a < g.nEdges, (r.CTEdgeHeap a).Role = (g.CTEdgeHeap a).Role
  /-- Reverse arcs are kept. -/
  rev : ∀ a < g.nEdges, (r.CTEdgeHeap a).Reverse = (g.CTEdgeHeap a).Reverse
  /-- Invalid arcs stay invalid. -/
  iBlocked : ∀ a < g.nEdges, (g.CTEdgeHeap a).iBlocked = true → (r.CTEdgeHeap a).iBlocked = true
  /-- Dep-sets of old arcs at most gain `dep`. -/
  depOld : ∀ a < g.nEdges, (r.CTEdgeHeap a).depSet = (g.CTEdgeHeap a).depSet ∨
    (r.CTEdgeHeap a).depSet = (g.CTEdgeHeap a).depSet ∪ dep
  /-- New arcs have the dep-set `dep`. -/
  depNew : ∀ a, g.nEdges ≤ a → a < r.nEdges → (r.CTEdgeHeap a).depSet = dep
  /-- Node kinds are kept. -/
  nominal : ∀ n, (r.NodeBase n).nominal = (g.NodeBase n).nominal
  /-- Predecessor lists grow by arcs handed out. -/
  parent : ∀ n, ∃ l, (r.NodeBase n).Parent = (g.NodeBase n).Parent ++ l ∧ ∀ q ∈ l, q < r.nEdges
  /-- Successor lists grow by arcs handed out. -/
  son : ∀ n, ∃ l, (r.NodeBase n).Son = (g.NodeBase n).Son ++ l ∧ ∀ q ∈ l, q < r.nEdges
  /-- Blockers are kept. -/
  blocked : ∀ n, (r.NodeBase n).pBlocked = (g.NodeBase n).pBlocked
  /-- The node arena keeps its size. -/
  endUsed : r.endUsed = g.endUsed

/-- Node `n` is reached from `p` through successor arcs that pass only through
blockable nodes. -/
def BlockableReach (g : DlCompletionGraph) (p n : NodeId) : Prop :=
  Relation.ReflTransGen
    (fun a b => ∃ q ∈ (g.NodeBase a).Son, (g.CTEdgeHeap q).ArcEnd = b ∧
      (g.NodeBase b).nominal = false) p n

/-- A completion graph without nodes and arcs, at the first branching level. -/
def emptyGraph : DlCompletionGraph :=
  { NodeBase := fun _ =>
      { nominal := false, Parent := [], Son := [], IR := [], pBlocked := none, curLevel := 0,
        saves := [] }
    endUsed := 0
    CTEdgeHeap := fun _ =>
      { Role := 0, depSet := ∅, ArcEnd := 0, Reverse := 0, iBlocked := true }
    nEdges := 0
    SavedNodes := []
    Stack := []
    branchingLevel := 1
    RareStack := [] }

/-- Inverse of roles that come in pairs `2k`, `2k+1`. -/
def pairInverse : RoleId → RoleId := fun r => if r % 2 = 0 then r + 1 else r - 1

/-- Three blockable nodes in a chain `0 → 1 → 2` and a fourth node `3`. -/
def chainGraph : DlCompletionGraph :=
  applyMutations pairInverse
    [.newNode false, .newNode false, .newNode false, .newNode true,
      .createEdge 0 1 false 2 {1}, .createEdge 1 2 false 4 ∅] emptyGraph

/-- The chain `0 → 1 → 2` built in another order: node `1` is purged (p-blocked
by node `3`) before it gets its successor `2`. -/
def purgedChainGraph : DlCompletionGraph :=
  applyMutations pairInverse
    [.newNode false, .newNode false, .newNode false, .newNode true,
      .createEdge 0 1 false 2 ∅, .purge 1 3 ∅, .createEdge 1 2 false 4 ∅] emptyGraph

/-- Three blockable nodes and one edge `0 → 1` with role `2` and dep-set `{1}`;
node `1` has the single predecessor arc `1`, which leads to node `0`. -/
def mergeGraph : DlCompletionGraph :=
  applyMutations pairInverse
    [.newNode false, .newNode false, .newNode false, .createEdge 0 1 false 2 {1}] emptyGraph

/-- Apply the restorers of a piece of the rare log, newest first. -/
def undoAll : List (Nat × Restorer) → DlCompletionGraph → DlCompletionGraph
  | [], g => g
  | e :: rest, g => undoAll rest (applyRestorer e.2 g)

/-- Two graphs agree on what the rare log restores: the p-blocker and the
inequality relation of the first `N` nodes, and the first `A` arcs. -/
def RareEqOn (N A : Nat) (g r : DlCompletionGraph) : Prop :=
  (∀ n < N, (g.NodeBase n).pBlocked = (r.NodeBase n).pBlocked ∧
    (g.NodeBase n).IR = (r.NodeBase n).IR) ∧
  ∀ a < A, g.CTEdgeHeap a = r.CTEdgeHeap a

/-- Two graphs agree on what the nodes save themselves: kind, level, save stack
and arc lists of every node. -/
def NodeStructEq (g r : DlCompletionGraph) : Prop :=
  ∀ n, (r.NodeBase n).nominal = (g.NodeBase n).nominal ∧
    (r.NodeBase n).curLevel = (g.NodeBase n).curLevel ∧
    (r.NodeBase n).saves = (g.NodeBase n).saves ∧
    (r.NodeBase n).Parent = (g.NodeBase n).Parent ∧
    (r.NodeBase n).Son = (g.NodeBase n).Son

/-- How a node looks after a save at level `L` and some mutations, compared
with the node `old` before the save: either it was not saved since and has its
old level, save stack and arc lists, or it was saved, has a level above `L`,
its old state on top of its save stack, and arc lists that extend the old
ones. -/
def NodeSim (L : Nat) (old new : DlCompletionTree) : Prop :=
  new.nominal = old.nominal ∧
  ((new.curLevel = old.curLevel ∧ new.saves = old.saves ∧ new.Parent = old.Parent ∧
      new.Son = old.Son) ∨
    (L < new.curLevel ∧
      new.saves = { curLevel := old.curLevel, nPars := old.Parent.length,
                    nSons := old.Son.length } :: old.saves ∧
      (∃ l, new.Parent = old.Parent ++ l) ∧ ∃ l, new.Son = old.Son ++ l))

/-- The relation between a graph `g` and a graph `r` reached from `save g` by
mutations. -/
structure SaveSim (g r : DlCompletionGraph) : Prop where
  /-- The level is the one after the save. -/
  level : r.branchingLevel = g.branchingLevel + 1
  /-- The save stack holds the state of the save on top. -/
  stack : r.Stack = g.Stack ++ [{ nNodes := g.endUsed, sNodes := g.SavedNodes.length }]
  /-- The node arena did not shrink. -/
  endUsed : g.endUsed ≤ r.endUsed
  /-- The edge heap did not shrink. -/
  nEdges : g.nEdges ≤ r.nEdges
  /-- `SavedNodes` grew at its end, and holds every old node saved since. -/
  saved : ∃ extra, r.SavedNodes = g.SavedNodes ++ extra ∧
    ∀ n < g.endUsed, g.branchingLevel < (r.NodeBase n).curLevel → n ∈ extra
  /-- Every old node is as it was or saved. -/
  nodes : ∀ n < g.endUsed, NodeSim g.branchingLevel (g.NodeBase n) (r.NodeBase n)
  /-- The rare log grew at its top, by entries above the old level, and undoing
  them gives the old blockers, inequality relations and arcs. -/
  rare : ∃ new, r.RareStack = new ++ g.RareStack ∧ (∀ e ∈ new, g.branchingLevel < e.1) ∧
    RareEqOn g.endUsed g.nEdges (undoAll new r) g

/-- Well-formedness of the levels of a graph: the save stack has one state per
level below the current one (levels start at 1), no node in use and no entry
of the rare log is above the current level. -/
structure LevelsOK (g : DlCompletionGraph) : Prop where
  /-- One save state per level below the current one. -/
  stack : g.Stack.length + 1 = g.branchingLevel
  /-- No node is above the current level. -/
  nodes : ∀ n < g.endUsed, (g.NodeBase n).curLevel ≤ g.branchingLevel
  /-- No rare-log entry is above the current level. -/
  rare : ∀ e ∈ g.RareStack, e.1 ≤ g.branchingLevel

/-- The state of the loop of `restore`: the fields outside the nodes are those
of `x0`, and each old node has its old kind and is as it was or saved. -/
structure RestoreInv (g x0 x : DlCompletionGraph) : Prop where
  /-- The arena size is kept. -/
  endUsed : x.endUsed = x0.endUsed
  /-- The list of saved nodes is kept. -/
  saved : x.SavedNodes = x0.SavedNodes
  /-- The save stack is kept. -/
  stack : x.Stack = x0.Stack
  /-- The rare log is kept. -/
  rareStack : x.RareStack = x0.RareStack
  /-- The arcs are kept. -/
  heap : x.CTEdgeHeap = x0.CTEdgeHeap
  /-- The level is kept. -/
  level : x.branchingLevel = x0.branchingLevel
  /-- Blockers and inequality relations are kept. -/
  rare : ∀ n, ((x.NodeBase n).IR = (x0.NodeBase n).IR ∧
    (x.NodeBase n).pBlocked = (x0.NodeBase n).pBlocked)
  /-- Every old node is as it was or saved. -/
  nodes : ∀ n < g.endUsed, NodeSim g.branchingLevel (g.NodeBase n) (x.NodeBase n)

/-! ## Saving and loading the internal state (SaveLoad.cpp) -/

/-- Model of `std::istream`: the characters not read yet and the state bits
`eofbit` and `failbit`. -/
structure IStream where
  /-- The characters not read yet. -/
  buf : List Char
  /-- The end of the input was hit by a read. -/
  eofbit : Bool
  /-- An extraction failed. -/
  failbit : Bool

/-- Method `good()` of a stream. -/
def IStream.good (i : IStream) : Bool := !i.eofbit && !i.failbit

/-- A fresh stream over a text. -/
def IStream.ofText (text : List Char) : IStream := { buf := text, eofbit := false, failbit := false }

/-- Function `isspace` of the C locale. -/
def isSpace (c : Char) : Bool :=
  c == ' ' || c == '\n' || c == '\t' || c == '\r' || c == Char.ofNat 11 || c == Char.ofNat 12

/-- Decimal digits. -/
def isDigit (c : Char) : Bool := decide (48 ≤ c.toNat) && decide (c.toNat ≤ 57)

/-- Skip leading white space (what a formatted extraction does first). -/
def skipSpace : List Char → List Char
  | [] => []
  | c :: cs => if isSpace c then skipSpace cs else c :: cs

/-- The stream state after a formatted extraction found only white space up to
the end of the input. -/
def IStream.atEnd : IStream := { buf := [], eofbit := true, failbit := true }

/-- Model of `i >> c` for a `char`: white space is skipped and one character is
read; nothing is read from a stream that is not good or holds only white
space. -/
def extractChar (i : IStream) : Option Char × IStream :=
  if i.good then
    match skipSpace i.buf with
    | [] => (none, IStream.atEnd)
    | c :: rest => (some c, { i with buf := rest })
  else (none, { i with failbit := true })

/-- The longest prefix without white space, and the rest. -/
def readWord : List Char → List Char × List Char
  | [] => ([], [])
  | c :: cs => if isSpace c then ([], c :: cs) else ((readWord cs).1.cons c, (readWord cs).2)

/-- Model of `i >> str` for a `std::string`: white space is skipped and the
characters up to the next white space are read; `none` (the string is left as
it was) when the stream is not good or holds only white space. -/
def extractString (i : IStream) : Option (List Char) × IStream :=
  if i.good then
    match skipSpace i.buf with
    | [] => (none, IStream.atEnd)
    | c :: cs =>
      (some (readWord (c :: cs)).1,
        { i with buf := (readWord (c :: cs)).2, eofbit := (readWord (c :: cs)).2.isEmpty })
  else (none, { i with failbit := true })

/-- The longest prefix of decimal digits, and the rest. -/
def readDigits : List Char → List Char × List Char
  | [] => ([], [])
  | c :: cs => if isDigit c then ((readDigits cs).1.cons c, (readDigits cs).2) else ([], c :: cs)

/-- The number a string of decimal digits denotes. -/
def decimalValue (ds : List Char) : Nat := ds.foldl (fun acc c => 10 * acc + (c.toNat - 48)) 0

/-- The sign and the digits of a number: an optional `+` or `-`, then decimal
digits.  Gives the sign, the digits and the rest. -/
def readNumber : List Char → Bool × List Char × List Char
  | [] => (false, [], [])
  | c :: cs =>
    if c = '-' then (true, readDigits cs)
    else if c = '+' then (false, readDigits cs)
    else (false, readDigits (c :: cs))

/-- The number of values of `unsigned int` when `int` has `bytesInInt` bytes. -/
def uintBound (bytesInInt : Nat) : Nat := 2 ^ (8 * bytesInInt)

/-- The number of non-negative values of `int` when `int` has `bytesInInt`
bytes. -/
def intBound (bytesInInt : Nat) : Nat := 2 ^ (8 * bytesInInt - 1)

/-- Model of `i >> ret` for an `unsigned int`: white space is skipped, then a
number is read; the extraction fails (`none`) when the stream is not good, when
there is no digit and when the number does not fit; a number with a minus sign
is negated modulo `uintBound`. -/
def extractUInt (bytesInInt : Nat) (i : IStream) : Option Nat × IStream :=
  if i.good then
    match skipSpace i.buf with
    | [] => (none, IStream.atEnd)
    | c :: cs =>
      match readNumber (c :: cs) with
      | (neg, digits, rest) =>
        if digits.isEmpty ∨ uintBound bytesInInt ≤ decimalValue digits then
          (none, { buf := rest, eofbit := rest.isEmpty, failbit := true })
        else
          (some (if neg then (uintBound bytesInInt - decimalValue digits) % uintBound bytesInInt
            else decimalValue digits),
            { i with buf := rest, eofbit := rest.isEmpty })
  else (none, { i with failbit := true })

/-- Model of `i >> ret` for an `int`: as for `unsigned int`, with the range of
`int`. -/
def extractInt (bytesInInt : Nat) (i : IStream) : Option Int × IStream :=
  if i.good then
    match skipSpace i.buf with
    | [] => (none, IStream.atEnd)
    | c :: cs =>
      match readNumber (c :: cs) with
      | (neg, digits, rest) =>
        if digits.isEmpty ∨ (if neg then intBound bytesInInt < decimalValue digits
            else intBound bytesInInt ≤ decimalValue digits) then
          (none, { buf := rest, eofbit := rest.isEmpty, failbit := true })
        else
          (some (if neg then - (decimalValue digits : Int) else (decimalValue digits : Int)),
            { i with buf := rest, eofbit := rest.isEmpty })
  else (none, { i with failbit := true })

/-- At most `k` characters up to (not including) the next newline, and the
rest. -/
def readLine : Nat → List Char → List Char × List Char
  | 0, cs => ([], cs)
  | _ + 1, [] => ([], [])
  | k + 1, c :: cs =>
    if c = '\n' then ([], c :: cs) else ((readLine k cs).1.cons c, (readLine k cs).2)

/-- Model of `i.getline ( name, count, '\n' )`: no white space is skipped; up to
`count - 1` characters are stored; the newline that follows is read and
dropped; `eofbit` when the input ends first, `failbit` when neither the end nor
a newline follows the stored characters, or nothing at all was read. -/
def getline (i : IStream) (count : Nat) : List Char × IStream :=
  if i.good then
    match (readLine (count - 1) i.buf).2 with
    | [] => ((readLine (count - 1) i.buf).1,
        { buf := [], eofbit := true, failbit := (readLine (count - 1) i.buf).1.isEmpty })
    | c :: rest =>
      if c = '\n' then ((readLine (count - 1) i.buf).1, { i with buf := rest })
      else ((readLine (count - 1) i.buf).1, { i with buf := c :: rest, failbit := true })
  else ([], { i with failbit := true })

/-- Decimal digits of a number, most significant first (fuel `n + 1` is
enough for `n`). -/
def showNatAux : Nat → Nat → List Char → List Char
  | 0, _, acc => acc
  | fuel + 1, n, acc =>
    if n < 10 then Char.ofNat (48 + n) :: acc
    else showNatAux fuel (n / 10) (Char.ofNat (48 + n % 10) :: acc)

/-- Model of `o << n` for an `unsigned int`: the decimal digits. -/
def showNat (n : Nat) : List Char := showNatAux (n + 1) n []

/-- Model of `o << n` for an `int`: a minus sign for a negative number, then the
decimal digits. -/
def showInt (n : Int) : List Char :=
  if n < 0 then '-' :: showNat n.natAbs else showNat n.natAbs

/-- What can go wrong in save and load: `EFPPSaveLoad(C)` of `expectChar`,
`EFPPSaveLoad(name, save)` of `CHECK_FILE_STATE`, the `EFPPSaveLoad` of `SaveKB`,
and a failed `assert`. -/
inductive SaveLoadFailure
  | expected (C : Char)
  | fileState (save : Bool)
  | unclassified
  | assertFailed
  deriving DecidableEq

/-- Function `expectChar`: `i >> c; if ( c != C ) throw EFPPSaveLoad(C);`.  When
the extraction fails `c` was never set; the model takes the comparison to fail
then. -/
def expectChar (i : IStream) (C : Char) : Except SaveLoadFailure IStream :=
  match extractChar i with
  | (some c, i1) => if c ≠ C then .error (.expected C) else .ok i1
  | (none, _) => .error (.expected C)

/-- Function `saveUInt` (the branch in use, `#else`): `o << "(" << n << ")"`. -/
def saveUInt (n : Nat) : List Char := '(' :: (showNat n ++ [')'])

/-- Function `saveSInt`: `o << "(" << n << ")"`. -/
def saveSInt (n : Int) : List Char := '(' :: (showInt n ++ [')'])

/-- Function `loadUInt`: `expectChar(i,'('); i >> ret; expectChar(i,')'); return ret;`
(when `i >> ret` fails the stream is not good and the second `expectChar`
throws). -/
def loadUInt (bytesInInt : Nat) (i : IStream) : Except SaveLoadFailure (Nat × IStream) :=
  match expectChar i '(' with
  | .error e => .error e
  | .ok i1 =>
    match expectChar (extractUInt bytesInInt i1).2 ')' with
    | .error e => .error e
    | .ok i2 => .ok (((extractUInt bytesInInt i1).1).getD 0, i2)

/-- Function `loadSInt`. -/
def loadSInt (bytesInInt : Nat) (i : IStream) : Except SaveLoadFailure (Int × IStream) :=
  match expectChar i '(' with
  | .error e => .error e
  | .ok i1 =>
    match expectChar (extractInt bytesInInt i1).2 ')' with
    | .error e => .error e
    | .ok i2 => .ok (((extractInt bytesInInt i1).1).getD 0, i2)

/-- Names of named entries (C strings). -/
abbrev EntryName := List Char

/-- Modelled from the spec: the values of `KBStatus`, in the order of the status
machine `Empty → Loading → CChecked → Classified → Realised` (the `enum` is
declared outside the sources at hand).  A status read from a file is the
number cast to the `enum`, so the model keeps the number. -/
abbrev KBStatus := Nat

/-- Status `kbEmpty`. -/
def kbEmpty : KBStatus := 0

/-- Status `kbLoading`. -/
def kbLoading : KBStatus := 1

/-- Status `kbCChecked`. -/
def kbCChecked : KBStatus := 2

/-- Status `kbClassified`. -/
def kbClassified : KBStatus := 3

/-- Status `kbRealised`. -/
def kbRealised : KBStatus := 4

/-- Modelled from the spec: method `get(name)` of `TNECollection` (tNECollection.h
is outside the sources at hand): the entry with that name, registered at the
end of the collection when there is none yet.  A collection is the list of the
names of its entries, in the order of registration. -/
def TNECollection.get (names : List EntryName) (name : EntryName) : List EntryName :=
  if name ∈ names then names else names ++ [name]

/-- The first loop of `TNECollection<T>::Save`:
`if ( maxLength < (curLength = strlen((*p)->getName())) ) maxLength = curLength;`
on `unsigned int`. -/
def maxNameLength (bytesInInt : Nat) (names : List EntryName) : Nat :=
  names.foldl
    (fun maxLength name =>
      if maxLength < name.length % uintBound bytesInInt then name.length % uintBound bytesInInt
      else maxLength)
    0

/-- Method `TNECollection<T>::Save`: the number of entries and the maximal length
of a name, each framed, then every name followed by a newline; the entries
themselves write nothing (`TNamedEntry::Save` is empty). -/
def TNECollection.Save (bytesInInt : Nat) (names : List EntryName) : List Char :=
  saveUInt (names.length % uintBound bytesInInt) ++ saveUInt (maxNameLength bytesInInt names) ++
    (names.map fun name => name ++ ['\n']).flatten

/-- The loop `i.getline ( name, maxLength, '\n' ); get(name);` of
`TNECollection<T>::Load`, `collSize` times. -/
def registerNames (maxLength : Nat) : Nat → List EntryName → IStream → List EntryName × IStream
  | 0, names, i => (names, i)
  | j + 1, names, i =>
    registerNames maxLength j (TNECollection.get names (getline i maxLength).1)
      (getline i maxLength).2

/-- Method `TNECollection<T>::Load`: the collection after the call, and the stream
or the failure (`assert ( size() == 0 )`, an `EFPPSaveLoad` of `loadUInt`).  The
entries themselves read nothing (`TNamedEntry::Load` is empty). -/
def TNECollection.Load (bytesInInt : Nat) (names : List EntryName) (i : IStream) :
    List EntryName × Except SaveLoadFailure IStream :=
  if names.length ≠ 0 then (names, .error .assertFailed)
  else
    match loadUInt bytesInInt i with
    | .error e => (names, .error e)
    | .ok (collSize, i1) =>
      match loadUInt bytesInInt i1 with
      | .error e => (names, .error e)
      | .ok (maxLength, i2) =>
        ((registerNames ((maxLength + 1) % uintBound bytesInInt) collSize names i2).1,
          .ok (registerNames ((maxLength + 1) % uintBound bytesInInt) collSize names i2).2)

/-- Modelled from the spec: the part of a `TBox` that is saved: its status and
the collections of concepts and of individuals (dlTBox.h is outside the sources
at hand). -/
structure TBox where
  /-- The status of the KB. -/
  Status : KBStatus
  /-- The collection of concepts. -/
  Concepts : List EntryName
  /-- The collection of individuals. -/
  Individuals : List EntryName

/-- Method `TBox::Save`. -/
def TBox.Save (bytesInInt : Nat) (t : TBox) : List Char :=
  ['\n', 'C'] ++ TNECollection.Save bytesInInt t.Concepts ++ ['I'] ++
    TNECollection.Save bytesInInt t.Individuals ++ ['K', 'B']

/-- Method `TBox::Load`: the TBox after the call (also when it fails half-way),
and the stream or the failure. -/
def TBox.Load (bytesInInt : Nat) (t : TBox) (i : IStream) (status : KBStatus) :
    TBox × Except SaveLoadFailure IStream :=
  match expectChar i 'C' with
  | .error e => ({ t with Status := status }, .error e)
  | .ok i1 =>
    match TNECollection.Load bytesInInt t.Concepts i1 with
    | (concepts, .error e) => ({ t with Status := status, Concepts := concepts }, .error e)
    | (concepts, .ok i2) =>
      match expectChar i2 'I' with
      | .error e => ({ t with Status := status, Concepts := concepts }, .error e)
      | .ok i3 =>
        match TNECollection.Load bytesInInt t.Individuals i3 with
        | (individuals, .error e) =>
          ({ Status := status, Concepts := concepts, Individuals := individuals }, .error e)
        | (individuals, .ok i4) =>
          match expectChar i4 'K' with
          | .error e =>
            ({ Status := status, Concepts := concepts, Individuals := individuals }, .error e)
          | .ok i5 =>
            match expectChar i5 'B' with
            | .error e =>
              ({ Status := status, Concepts := concepts, Individuals := individuals }, .error e)
            | .ok i6 =>
              ({ Status := status, Concepts := concepts, Individuals := individuals }, .ok i6)

/-- Modelled from the spec: the part of a `ReasoningKernel` that save and load
use: the pointer to the KB, `NULL` when there is none (Kernel.h is outside the
sources at hand). -/
structure ReasoningKernel where
  /-- The KB, if any. -/
  pTBox : Option TBox

/-- Modelled from the spec: method `getStatus()`: `kbEmpty` without a KB, else the
status of the KB. -/
def getStatus (k : ReasoningKernel) : KBStatus :=
  match k.pTBox with
  | none => kbEmpty
  | some t => t.Status

/-- Modelled from the spec: method `releaseKB()`: the KB is dropped. -/
def releaseKB (_k : ReasoningKernel) : ReasoningKernel := { pTBox := none }

/-- Modelled from the spec: method `newKB()`: a fresh KB (status `Loading`, empty
collections) is created unless there is a KB already. -/
def newKB (k : ReasoningKernel) : ReasoningKernel :=
  match k.pTBox with
  | none => { pTBox := some { Status := kbLoading, Concepts := [], Individuals := [] } }
  | some _ => k

/-- The magic string `ReasoningKernel::InternalStateFileHeader`. -/
def InternalStateFileHeader : List Char := "FaCT++InternalStateDump1.0".toList

/-- Method `ReasoningKernel::SaveHeader`:
`o << InternalStateFileHeader << "\n" << Version << "\n" << bytesInInt << "\n"`.
`Version` and `bytesInInt` (`sizeof(int)`) are taken as parameters. -/
def SaveHeader (Version : List Char) (bytesInInt : Nat) : List Char :=
  InternalStateFileHeader ++ ['\n'] ++ Version ++ ['\n'] ++ showInt bytesInInt ++ ['\n']

/-- Method `ReasoningKernel::LoadHeader`: `true` means that the header is
rejected.  The comparison of the second word with `Version` is commented out in
the source (`FIXME!! we don't check version equivalence for now`), so `Version`
is not used.  When `i >> n` fails `n` holds no number that was read; the model
rejects the header then. -/
def LoadHeader (_Version : List Char) (bytesInInt : Nat) (i : IStream) : Bool × IStream :=
  if (extractString i).1.getD [] ≠ InternalStateFileHeader then (true, (extractString i).2)
  else
    match extractInt bytesInInt (extractString (extractString i).2).2 with
    | (none, i3) => (true, i3)
    | (some n, i3) => if n ≠ (bytesInInt : Int) then (true, i3) else (false, i3)

/-- Method `ReasoningKernel::SaveOptions`. -/
def SaveOptions : List Char := "Options\n".toList

/-- Method `ReasoningKernel::LoadOptions`: one word is read and dropped. -/
def LoadOptions (i : IStream) : IStream := (extractString i).2

/-- Method `ReasoningKernel::SaveKB`: what is written, and the failure if any: the
framed status; nothing more for `kbEmpty`; an `EFPPSaveLoad` for `kbLoading`;
otherwise the TBox. -/
def SaveKB (bytesInInt : Nat) (k : ReasoningKernel) : List Char × Option SaveLoadFailure :=
  if getStatus k = kbEmpty then (saveUInt (getStatus k % uintBound bytesInInt), none)
  else if getStatus k = kbLoading then
    (saveUInt (getStatus k % uintBound bytesInInt), some .unclassified)
  else
    match k.pTBox with
    | some t => (saveUInt (getStatus k % uintBound bytesInInt) ++ TBox.Save bytesInInt t, none)
    | none => (saveUInt (getStatus k % uintBound bytesInInt), none)

/-- Method `ReasoningKernel::LoadKB`: the kernel after the call (also when it
fails half-way), and the stream or the failure.  `initCacheAndFlags()` resets
query caches, which are not part of the model. -/
def LoadKB (bytesInInt : Nat) (k : ReasoningKernel) (i : IStream) :
    ReasoningKernel × Except SaveLoadFailure IStream :=
  match loadUInt bytesInInt i with
  | .error e => (k, .error e)
  | .ok (status, i1) =>
    if status = kbEmpty then (k, .ok i1)
    else
      match (newKB k).pTBox with
      | none => (newKB k, .ok i1)
      | some t =>
        ({ pTBox := some (TBox.Load bytesInInt t i1 status).1 },
          (TBox.Load bytesInInt t i1 status).2)

/-- Method `ReasoningKernel::Save`: the text of the file, and the failure if any
(the output stream itself stays good in the model). -/
def Save (Version : List Char) (bytesInInt : Nat) (k : ReasoningKernel) :
    List Char × Option SaveLoadFailure :=
  (SaveHeader Version bytesInInt ++ SaveOptions ++ (SaveKB bytesInInt k).1,
    (SaveKB bytesInInt k).2)

/-- Method `ReasoningKernel::Load`: `file` is the text of the file, `none` when it
cannot be opened.  The kernel after the call, and the failure if any. -/
def Load (Version : List Char) (bytesInInt : Nat) (k : ReasoningKernel)
    (file : Option (List Char)) : ReasoningKernel × Option SaveLoadFailure :=
  match file with
  | none => (k, some (.fileState false))
  | some text =>
    if (LoadHeader Version bytesInInt (IStream.ofText text)).1 then
      (releaseKB k, some (.fileState false))
    else if !(LoadHeader Version bytesInInt (IStream.ofText text)).2.good then
      (releaseKB k, some (.fileState false))
    else if !(LoadOptions (LoadHeader Version bytesInInt (IStream.ofText text)).2).good then
      (releaseKB k, some (.fileState false))
    else
      match LoadKB bytesInInt (releaseKB k)
        (LoadOptions (LoadHeader Version bytesInInt (IStream.ofText text)).2) with
      | (k1, .error e) => (k1, some e)
      | (k1, .ok i4) => if i4.good then (k1, none) else (k1, some (.fileState false))

/-- A collection as `TNECollection` keeps it, with names that `Save` can write: the
names are unique, the number of entries and the lengths of the names (plus the
terminator) fit `unsigned int`, and no name contains a newline. -/
def SavableNames (bytesInInt : Nat) (names : List EntryName) : Prop :=
  names.Nodup ∧ (∀ n ∈ names, '\n' ∉ n) ∧ names.length < uintBound bytesInInt ∧
    ∀ n ∈ names, n.length + 1 < uintBound bytesInInt

/-- The kernel that `Load` builds from the saved state of `k`: no KB when the
status of `k` is `kbEmpty`, else the KB of `k`. -/
def loadedKernel (k : ReasoningKernel) : ReasoningKernel :=
  if getStatus k = kbEmpty then { pTBox := none } else k

/-- A kernel without KB. -/
def emptyKernel : ReasoningKernel := ⟨none⟩

/-- A kernel with a classified KB: concepts `A` and `Bc`, individual `i`. -/
def classifiedKernel : ReasoningKernel :=
  ⟨some ⟨kbClassified, ["A".toList, "Bc".toList], ["i".toList]⟩⟩

/-- A kernel with a realised KB: concept `B`. -/
def realisedKernel : ReasoningKernel := ⟨some ⟨kbRealised, ["B".toList], []⟩⟩

/-- A kernel with a KB in status `CChecked` whose one concept has a newline in
its name. -/
def newlineKernel : ReasoningKernel := ⟨some ⟨kbCChecked, ["a\nb".toList], []⟩⟩

/-- A kernel with a KB in status `Loading` and empty collections. -/
def loadingKernel : ReasoningKernel := ⟨some ⟨kbLoading, [], []⟩⟩

/-! ## Role box: indices, domain and range, role automata -/

/-- Function `getRoleIndex`: `(i>0) ? 2*i : -2*i+1` on the `int` `i`, returned as
`unsigned int`: the result is reduced modulo `2^32`. -/
def getRoleIndex (i : Int) : Nat := ((if i > 0 then 2 * i else -2 * i + 1) % 2 ^ 32).toNat

/-- Method `TRole::setDomain`: nothing when the tree is the domain already
(`equalTrees`, syntactic equality), else `pDomain = createSNFAnd ( pDomain, p )`. -/
def setDomain (rb : RoleBox) (r : RoleId) (p : DLTree) : RoleBox :=
  if (rb r).pDomain = p then rb
  else setAt rb r { rb r with pDomain := createSNFAnd (rb r).pDomain p }

/-- Method `TRole::setRange`: `inverse()->setDomain(p)`; `none` when the `assert`
of `inverse()` fails. -/
def setRange (rb : RoleBox) (r : RoleId) (p : DLTree) : Option RoleBox :=
  match inverse rb r with
  | none => none
  | some i => some (setDomain rb i p)

/-- Method `TRole::getTDomain`. -/
def getTDomain (rb : RoleBox) (r : RoleId) : DLTree := (rb r).pDomain

/-- Method `TRole::getTRange`: `inverse()->pDomain`. -/
def getTRange (rb : RoleBox) (r : RoleId) : Option DLTree :=
  match inverse rb r with
  | none => none
  | some i => some (rb i).pDomain

/-- Method `TRole::setBPDomain`. -/
def setBPDomain (rb : RoleBox) (r : RoleId) (p : Int) : RoleBox :=
  setAt rb r { rb r with bpDomain := p }

/-- Method `TRole::getBPDomain`. -/
def getBPDomain (rb : RoleBox) (r : RoleId) : Int := (rb r).bpDomain

/-- Method `TRole::getBPRange`: `inverse()->bpDomain`. -/
def getBPRange (rb : RoleBox) (r : RoleId) : Option Int :=
  match inverse rb r with
  | none => none
  | some i => some (rb i).bpDomain

/-- The relation `Disjoint` of a role box is symmetric. -/
def DisjointSymmetric (rb : RoleBox) : Prop :=
  ∀ X Y, Y ∈ (rb X).Disjoint ↔ X ∈ (rb Y).Disjoint

/-- Synonym links in a chain: role `0` is a synonym of `1`, and `1` of `2`. -/
def synonymChainBox : RoleBox := fun r =>
  match r with
  | 0 => { TRole.new with Synonym := some 1 }
  | 1 => { TRole.new with Synonym := some 2 }
  | _ => TRole.new

/-- Two roles `0` and `1` that are inverse to each other, and a role `2` whose
`Inverse` pointer leads to `0`, a synonym of role `3`; role `3` has the domain
`C`. -/
def rangeBox (C : DLTree) : RoleBox := fun r =>
  match r with
  | 0 => { TRole.new with Inverse := some 1, Synonym := some 3 }
  | 1 => { TRole.new with Inverse := some 0 }
  | 2 => { TRole.new with Inverse := some 0 }
  | 3 => { TRole.new with Inverse := some 1, pDomain := C, bpDomain := 7 }
  | _ => TRole.new

/-! ## Taxonomy: insertion of the current vertex -/

/-- The vertex and entry heaps that the methods of a taxonomy vertex work on. -/
abbrev TaxHeaps := (EntryId → ClassifiableEntry) × (VertexId → TaxonomyVertex)

/-- The methods of `TaxonomyVertex` that `Taxonomy::insertEntry` calls on `Current`
(taxVertex.h is outside the sources at hand); they are parameters of the
embedding.  As methods of a vertex they work on the vertices and the entries,
not on the members `Graph` and `Current` of the taxonomy. -/
structure VertexOps where
  /-- Method `incorporateSynonym()` of the vertex: the heaps after the call, and
  the result: the vertex that the given one is a synonym of, `NULL` if there
  is none. -/
  incorporateSynonym : VertexId → TaxHeaps → TaxHeaps × Option VertexId
  /-- Method `incorporate()` of the vertex. -/
  incorporate : VertexId → TaxHeaps → TaxHeaps

/-- Method `Taxonomy::insertEntry`: `none` when `assert ( Current != NULL )` fails.
If `Current->incorporateSynonym ()` finds a vertex, `Current` is deleted; else
`Current->incorporate ()` and `Graph.push_back ( Current )`.  Then
`Current = NULL`. -/
def insertEntry (vops : VertexOps) (t : Taxonomy) : Option Taxonomy :=
  match t.Current with
  | none => none
  | some cur =>
    match vops.incorporateSynonym cur (t.entries, t.vertices) with
    | (h, some _) => some { t with entries := h.1, vertices := h.2, Current := none }
    | (h, none) =>
      some { t with
        entries := (vops.incorporate cur h).1
        vertices := (vops.incorporate cur h).2
        Graph := t.Graph ++ [cur]
        Current := none }

/-- A stand-in for the vertex methods: a vertex is a synonym of vertex `0` when
it has no parent links, and `incorporate()` records the vertex as a child of
its parents. -/
def simpleVertexOps : VertexOps :=
  { incorporateSynonym := fun cur h => (h, if (h.2 cur).up.isEmpty then some 0 else none)
    incorporate := fun cur h =>
      (h.1, (h.2 cur).up.foldl (fun vs p => setAt vs p { vs p with down := (vs p).down ++ [cur] })
        h.2) }

/-- The chain taxonomy with a current vertex `9` below vertex `3`. -/
def chainTaxonomyBelow : Taxonomy :=
  { chainTaxonomy with vertices := setAt chainTaxonomy.vertices 9 { up := [3] } }

/-! ## Role automata of role compositions -/

/-- The methods of `RoleAutomaton` that `tRole.h` calls (RAutomaton.h is outside
the sources at hand) and the method `TRole::completeAutomaton` (declared in
tRole.h, defined elsewhere); they are parameters of the embedding, over any
type `RA` of automata. -/
structure AutomatonOps (RA : Type) where
  /-- `A.initChain(RA)`: the automaton `A` after the call. -/
  initChain : RA → RA → RA
  /-- `A.addToChain(RA)`. -/
  addToChain : RA → RA → RA
  /-- `A.addRBegRA()`. -/
  addRBegRA : RA → RA
  /-- `A.addREndRA()`. -/
  addREndRA : RA → RA
  /-- `A.addChainRA()`. -/
  addChainRA : RA → RA
  /-- `R->completeAutomaton()`: the automata of all roles after the call. -/
  completeAutomaton : RoleId → (RoleId → RA) → (RoleId → RA)

/-- Method `TRole::completeAutomatonByRole` of the role `this`:
`assert ( !R->isSynonym() ); assert ( R != this ); R->completeAutomaton();
return R->getAutomaton();`.  Gives the automata after the call; the result is
the automaton of `R` among them. -/
def completeAutomatonByRole {RA : Type} (ops : AutomatonOps RA) (rb : RoleBox) (this R : RoleId)
    (A : RoleId → RA) : Option (RoleId → RA) :=
  if isSynonym rb R then none
  else if R = this then none
  else some (ops.completeAutomaton R A)

/-- The loop of `TRole::createChain`: `A.addToChain(completeAutomatonByRole(*p))`. -/
def addToChainLoop {RA : Type} (ops : AutomatonOps RA) (rb : RoleBox) (this : RoleId) :
    List RoleId → (RoleId → RA) → Option (RoleId → RA)
  | [], A => some A
  | p :: ps, A =>
    match completeAutomatonByRole ops rb this p A with
    | none => none
    | some A1 => addToChainLoop ops rb this ps (setAt A1 this (ops.addToChain (A1 this) (A1 p)))

/-- Method `TRole::createChain` (`init non-empty chain of role automata`) over
the roles of a range; `none` for an empty range, whose `*begin` does not exist,
and when an `assert` of `completeAutomatonByRole` fails. -/
def createChain {RA : Type} (ops : AutomatonOps RA) (rb : RoleBox) (this : RoleId) :
    List RoleId → (RoleId → RA) → Option (RoleId → RA)
  | [], _ => none
  | b :: rest, A =>
    match completeAutomatonByRole ops rb this b A with
    | none => none
    | some A1 => addToChainLoop ops rb this rest (setAt A1 this (ops.initChain (A1 this) (A1 b)))

/-- Method `TRole::addSubCompositionAutomaton` of the role `this`. -/
def addSubCompositionAutomaton {RA : Type} (ops : AutomatonOps RA) (rb : RoleBox) (this : RoleId)
    (RS : List RoleId) (A : RoleId → RA) : Option (RoleId → RA) :=
  match RS with
  | [] => some A
  | front :: rest =>
    if resolveSynonym rb front = this then
      (createChain ops rb this rest A).map fun A1 => setAt A1 this (ops.addRBegRA (A1 this))
    else if resolveSynonym rb ((front :: rest).getLast (List.cons_ne_nil _ _)) = this then
      (createChain ops rb this (front :: rest).dropLast A).map
        fun A1 => setAt A1 this (ops.addREndRA (A1 this))
    else
      (createChain ops rb this (front :: rest) A).map
        fun A1 => setAt A1 this (ops.addChainRA (A1 this))

/-- A stand-in for the automaton methods: an automaton is the list of the calls
made on it, each with the number of calls that the argument automaton had. -/
def logOps : AutomatonOps (List (String × Nat)) :=
  { initChain := fun A B => A ++ [("initChain", B.length)]
    addToChain := fun A B => A ++ [("addToChain", B.length)]
    addRBegRA := fun A => A ++ [("addRBegRA", 0)]
    addREndRA := fun A => A ++ [("addREndRA", 0)]
    addChainRA := fun A => A ++ [("addChainRA", 0)]
    completeAutomaton := fun R A => setAt A R (A R ++ [("complete", 0)]) }

/-- The chain graph after `save`, a new node `4`, a second `save`, and an edge
from node `0` to node `4`: nodes `0` and `4` are saved at level 3. -/
def twoSavesGraph : DlCompletionGraph :=
  applyMutations pairInverse [.createEdge 0 4 false 6 ∅]
    (save (applyMutations pairInverse [.newNode false] (save chainGraph)))

/-- Arc `q` is neither a successor arc that leads to a nominal node nor the
reverse of one (in a graph built by `createEdge` the reverse of a successor arc
is a predecessor arc). -/
def NoNominalLink (g : DlCompletionGraph) (q : ArcId) : Prop :=
  ∀ a, ∀ q1 ∈ (g.NodeBase a).Son, (g.NodeBase (g.CTEdgeHeap q1).ArcEnd).nominal = true →
    q1 ≠ q ∧ (g.CTEdgeHeap q1).Reverse ≠ q

/-- A nominal node `0` and a blockable node `1` with the edges `0 → 1` (arcs `0`,
`1`) and `1 → 0` (arcs `2`, `3`). -/
def nominalCycleGraph : DlCompletionGraph :=
  applyMutations pairInverse
    [.newNode true, .newNode false, .createEdge 0 1 false 2 ∅, .createEdge 1 0 false 4 ∅]
    emptyGraph

/-! ## Taxonomy: classification over an acyclic told-subsumer graph -/

/-- What `classifyEntry` relies on in the virtual method `doClassification(p)`:
it leaves the wait stack and the told subsumers alone, classifies `p`, and
keeps classified entries classified. -/
structure ClassifiesEntries (ops : TaxonomyOps) : Prop where
  /-- The wait stack is left alone. -/
  stack : ∀ p t, (ops.doClassification p t).waitStack = t.waitStack
  /-- The told subsumers are left alone. -/
  told : ∀ p t e, ((ops.doClassification p t).entries e).told = (t.entries e).told
  /-- The entry is classified afterwards. -/
  classifies : ∀ p t, isClassified (ops.doClassification p t) p = true
  /-- Classified entries stay classified. -/
  keeps : ∀ p t e, isClassified t e = true → isClassified (ops.doClassification p t) e = true

/-- Entry `b` is a told subsumer of entry `a`. -/
def ToldSubsumer (t : Taxonomy) (b a : EntryId) : Prop := b ∈ (t.entries a).told

/-- The told-subsumer graph is finite and acyclic below every entry: there is no
infinite chain of told subsumers. -/
def ToldAcyclic (t : Taxonomy) : Prop := WellFounded (ToldSubsumer t)

/-- The told subsumer `x` is no obstacle to a classification in state `t`: it is
classified or needs no told classification. -/
def toldDone (ops : TaxonomyOps) (t : Taxonomy) (x : EntryId) : Bool :=
  isClassified t x || !ops.needToldClassification x t

/-- Told subsumers first: all told subsumers of `c` that need told classification
are classified in state `t`. -/
def toldSubsumersDone (ops : TaxonomyOps) (t : Taxonomy) (c : EntryId) : Bool :=
  (t.entries c).told.all (toldDone ops t)

/-- The loop of `Taxonomy::classifyEntry` with a monitor: before `classifyTop()`
classifies the top `d` of the stack, the monitor checks that the told
subsumers of `d` come first, and stops with a failure when they do not. -/
def classifyEntryLoopMonitored (ops : TaxonomyOps) (fuelTold : Nat) : Nat → Taxonomy → TaxResult
  | 0, t => if t.waitStack.isEmpty then .returned t else .outOfFuel
  | fuel + 1, t =>
    if t.waitStack.isEmpty then .returned t
    else
      match checkToldSubsumers ops fuelTold t with
      | none => .outOfFuel
      | some (t1, true) =>
        match t1.waitStack with
        | [] => .assertFailed t1
        | d :: _ =>
          if toldSubsumersDone ops t1 d then
            match classifyTop ops t1 with
            | none => .assertFailed t1
            | some t2 => classifyEntryLoopMonitored ops fuelTold fuel t2
          else .assertFailed t1
      | some (t1, false) => classifyCycle ops t1

/-- Method `Taxonomy::classifyEntry` with the monitored loop. -/
def classifyEntryMonitored (ops : TaxonomyOps) (fuelTold fuel : Nat) (t : Taxonomy)
    (p : EntryId) : TaxResult :=
  if t.waitStack.isEmpty then classifyEntryLoopMonitored ops fuelTold fuel (pushWait t p)
  else .assertFailed t

/-- Four unclassified entries in a diamond: `3` has the told subsumers `1` and
`2`, each of which has the told subsumer `0`. -/
def diamondTaxonomy : Taxonomy :=
  { entries := fun e =>
      match e with
      | 1 => { told := [0] }
      | 2 => { told := [0] }
      | 3 => { told := [1, 2] }
      | _ => {}
    vertices := fun _ => {} }

/-! ## Datatype reasoner (DataReasoning.h) -/

/-- A pointer `const TDataEntry*`: `none` is `NULL`, `some e` points to the data
entry `e`. -/
abbrev DataPtr := Option Nat

/-- Type `DepDTE`: `std::pair<const TDataEntry*, DepSet>`. -/
abbrev DepDTE := DataPtr × DepSet

/-- The methods of `TDataInterval` that `DataReasoning.h` calls (the class is
outside the sources at hand); they are parameters of the embedding, over any
type `I` of intervals. -/
structure IntervalOps (I : Type) where
  /-- The constructor `TDataInterval()`. -/
  fresh : I
  /-- `Constraints.update ( min, excl, value )`: the interval after the call, and
  the answer (`true` when the interval was changed). -/
  update : Bool → Bool → DataPtr → I → I × Bool
  /-- `constraints.empty()`. -/
  empty : I → Bool

/-- Class `DataTypeAppearance::DepInterval`: data interval with dep-sets. -/
structure DepInterval (I : Type) where
  /-- Member `Constraints`: interval itself. -/
  Constraints : I
  /-- Member `minDep`: dep-set for the min border of the interval. -/
  minDep : DepSet
  /-- Member `maxDep`: dep-set for the max border of the interval. -/
  maxDep : DepSet
  deriving DecidableEq

/-- Class `DataTypeAppearance`; `negValues` is the vector `Base` of the class
`SingleValues`. -/
structure DataTypeAppearance (I : Type) where
  /-- Member `PType`: positive type appearance. -/
  PType : DepDTE
  /-- Member `NType`: negative type appearance. -/
  NType : DepDTE
  /-- Member `Constraints`: interval of possible values. -/
  Constraints : List (DepInterval I)
  /-- Member `negValues`: negated single values. -/
  negValues : List DepDTE
  /-- Member `accDep`: accumulated dep-set. -/
  accDep : DepSet
  deriving DecidableEq

/-- The methods that `DataTypeReasoner` calls and `DataReasoning.h` only
declares (`DataTypeAppearance::update`, `DataTypeAppearance::addInterval`) or
that belong to `TDataEntry` (`getType`, `getFacet`; tDataEntry.h is outside the
sources at hand); they are parameters of the embedding. -/
structure AppearanceOps (I : Type) where
  /-- `value->getType()`. -/
  getType : Nat → DataPtr
  /-- The interval `*c->getFacet()`. -/
  getFacet : Nat → I
  /-- `type.update ( min, excl, c, dep )`: the appearance after the call, and the
  answer. -/
  update : Bool → Bool → Nat → DepSet → DataTypeAppearance I → DataTypeAppearance I × Bool
  /-- `type.addInterval ( pos, constraints, dep )`: the appearance after the call,
  and the answer. -/
  addInterval : Bool → I → DepSet → DataTypeAppearance I → DataTypeAppearance I × Bool

/-- The constructor `DepInterval()`. -/
def DepInterval.new {I : Type} (iops : IntervalOps I) : DepInterval I :=
  { Constraints := iops.fresh, minDep := ∅, maxDep := ∅ }

/-- Method `DepInterval::update`:
`if ( !Constraints.update ( min, excl, value ) ) return false; maxDep = dep;
return true;`. -/
def DepInterval.update {I : Type} (iops : IntervalOps I) (d : DepInterval I) (min excl : Bool)
    (value : DataPtr) (dep : DepSet) : DepInterval I × Bool :=
  if (iops.update min excl value d.Constraints).2 then
    ({ d with Constraints := (iops.update min excl value d.Constraints).1, maxDep := dep }, true)
  else ({ d with Constraints := (iops.update min excl value d.Constraints).1 }, false)

/-- The constructor `DataTypeAppearance()`: null pairs and empty vectors. -/
def DataTypeAppearance.new {I : Type} : DataTypeAppearance I :=
  { PType := (none, ∅), NType := (none, ∅), Constraints := [], negValues := [], accDep := ∅ }

/-- Method `DataTypeAppearance::clear`. -/
def DataTypeAppearance.clear {I : Type} (iops : IntervalOps I) (_a : DataTypeAppearance I) :
    DataTypeAppearance I :=
  { PType := (none, ∅), NType := (none, ∅), Constraints := [DepInterval.new iops],
    negValues := [], accDep := ∅ }

/-- Method `hasPType()`: `PType.first != NULL`. -/
def DataTypeAppearance.hasPType {I : Type} (a : DataTypeAppearance I) : Bool := a.PType.1.isSome

/-- Method `hasNType()`: `NType.first != NULL`. -/
def DataTypeAppearance.hasNType {I : Type} (a : DataTypeAppearance I) : Bool := a.NType.1.isSome

/-- Method `setPType ( const DepDTE& type )`. -/
def DataTypeAppearance.setPType {I : Type} (a : DataTypeAppearance I) (type : DepDTE) :
    DataTypeAppearance I :=
  if !a.hasPType then { a with PType := type } else a

/-- Method `setPType ( const TDataEntry* value, const DepSet& dep )`, the
overload that stores `value->getType()`. -/
def DataTypeAppearance.setPTypeOfValue {I : Type} (aops : AppearanceOps I)
    (a : DataTypeAppearance I) (value : Nat) (dep : DepSet) : DataTypeAppearance I :=
  if !a.hasPType then { a with PType := (aops.getType value, dep) } else a

/-- Method `addNegValue`: `negValues.add(value)`, a `push_back`. -/
def DataTypeAppearance.addNegValue {I : Type} (a : DataTypeAppearance I) (value : DepDTE) :
    DataTypeAppearance I :=
  { a with negValues := a.negValues ++ [value] }

/-- Class `DataTypeReasoner`: the vector `Types` and the map `Map` from datatype
pointers to indices (the DAG `DLHeap` is not used by the embedded methods). -/
structure DataTypeReasoner (I : Type) where
  /-- Member `Types`: vector of a types. -/
  Types : List (DataTypeAppearance I)
  /-- Member `Map`: `none` for a key that is not in the map. -/
  Map : DataPtr → Option Nat

/-- The constructor `DataTypeReasoner(dag)`: no types, empty map. -/
def DataTypeReasoner.new {I : Type} : DataTypeReasoner I := { Types := [], Map := fun _ => none }

/-- Method `getDTAbyType`: `return Types[Map[dataType]]` (the `assert` is
compiled only with `ENABLE_CHECKING`).  `Map[dataType]` of `std::map` inserts
the key with the value `0` when it is missing.  The reference returned is the
index into `Types`; `none` when the index is out of bounds. -/
def DataTypeReasoner.getDTAbyType {I : Type} (r : DataTypeReasoner I) (dataType : DataPtr) :
    Option (DataTypeReasoner I × Nat) :=
  match r.Map dataType with
  | some i => if i < r.Types.length then some (r, i) else none
  | none =>
    if 0 < r.Types.length then some ({ r with Map := Function.update r.Map dataType (some 0) }, 0)
    else none

/-- Method `getDTAbyValue`: `getDTAbyType(dataValue->getType())`. -/
def DataTypeReasoner.getDTAbyValue {I : Type} (aops : AppearanceOps I) (r : DataTypeReasoner I)
    (dataValue : Nat) : Option (DataTypeReasoner I × Nat) :=
  r.getDTAbyType (aops.getType dataValue)

/-- Method `processNegativeDV`: `getDTAbyValue(c.first).addNegValue(c); return
false;`.  `none` when `c.first` is `NULL` or the index is out of bounds. -/
def DataTypeReasoner.processNegativeDV {I : Type} (aops : AppearanceOps I)
    (r : DataTypeReasoner I) (c : DepDTE) : Option (DataTypeReasoner I × Bool) :=
  match c.1 with
  | none => none
  | some v =>
    match r.getDTAbyValue aops v with
    | none => none
    | some (r1, i) =>
      match r1.Types[i]? with
      | none => none
      | some type => some ({ r1 with Types := r1.Types.set i (type.addNegValue c) }, false)

/-- Method `processRestriction`. -/
def DataTypeReasoner.processRestriction {I : Type} (aops : AppearanceOps I)
    (r : DataTypeReasoner I) (pos min excl : Bool) (c : Nat) (dep : DepSet) :
    Option (DataTypeReasoner I × Bool) :=
  match r.getDTAbyValue aops c with
  | none => none
  | some (r1, i) =>
    match r1.Types[i]? with
    | none => none
    | some type =>
      some ({ r1 with
              Types := r1.Types.set i
                (aops.update min excl c dep (if pos then type.setPType (some c, dep) else type)).1 },
        (aops.update min excl c dep (if pos then type.setPType (some c, dep) else type)).2)

/-- Method `processDataExpr`. -/
def DataTypeReasoner.processDataExpr {I : Type} (iops : IntervalOps I) (aops : AppearanceOps I)
    (r : DataTypeReasoner I) (pos : Bool) (c : Nat) (dep : DepSet) :
    Option (DataTypeReasoner I × Bool) :=
  if iops.empty (aops.getFacet c) then some (r, false)
  else
    match r.getDTAbyValue aops c with
    | none => none
    | some (r1, i) =>
      match r1.Types[i]? with
      | none => none
      | some type =>
        some ({ r1 with
                Types := r1.Types.set i
                  (aops.addInterval pos (aops.getFacet c) dep
                    (if pos then type.setPType (some c, dep) else type)).1 },
          (aops.addInterval pos (aops.getFacet c) dep
            (if pos then type.setPType (some c, dep) else type)).2)

/-- Method `registerDataType`: `Map[p] = Types.size();
Types.push_back(DataTypeAppearance());`. -/
def DataTypeReasoner.registerDataType {I : Type} (r : DataTypeReasoner I) (p : DataPtr) :
    DataTypeReasoner I :=
  { Types := r.Types ++ [DataTypeAppearance.new],
    Map := Function.update r.Map p (some r.Types.length) }

/-- Method `DataTypeReasoner::clear`: `p->clear()` for every element of `Types`. -/
def DataTypeReasoner.clear {I : Type} (iops : IntervalOps I) (r : DataTypeReasoner I) :
    DataTypeReasoner I :=
  { r with Types := r.Types.map (DataTypeAppearance.clear iops) }

/-- A stand-in for `TDataInterval`: an optional lower and an optional upper
border, data entries being numbers; `update` puts the value at the border and
answers whether the border has changed; no interval is empty. -/
def borderOps : IntervalOps (Option Nat × Option Nat) :=
  { fresh := (none, none)
    update := fun min _ value i =>
      if min then ((value, i.2), decide (value ≠ i.1)) else ((i.1, value), decide (value ≠ i.2))
    empty := fun _ => false }

/-- A stand-in for the methods of `TDataEntry` and `DataTypeAppearance`: the
entries `0` and `1` are datatypes, every other entry is a value or expression
of the datatype `1`, with a fresh facet; `update` updates every interval of the
appearance, `addInterval` leaves the appearance alone. -/
def valueOps : AppearanceOps (Option Nat × Option Nat) :=
  { getType := fun e => if e ≤ 1 then none else some 1
    getFacet := fun _ => (none, none)
    update := fun min excl c dep a =>
      ({ a with
         Constraints := a.Constraints.map
           fun d => (DepInterval.update borderOps d min excl (some c) dep).1 },
        a.Constraints.any fun d => (DepInterval.update borderOps d min excl (some c) dep).2)
    addInterval := fun _ _ _ a => (a, false) }

/-- The reasoner with the datatypes `0` and `1` registered and cleared. -/
def twoTypesReasoner : DataTypeReasoner (Option Nat × Option Nat) :=
  ((DataTypeReasoner.new.registerDataType (some 0)).registerDataType (some 1)).clear borderOps

/-! ## Taxonomy: synonyms of classified entries, and the stack of a cycle -/

/-- The members that `Taxonomy::classifySynonym` uses beside those of the
structure `Taxonomy`: the flag `willInsertIntoTaxonomy`, and the synonym list
of every taxonomy vertex.  Modelled from the spec: `addSynonym(p)` of
`TaxonomyVertex` (taxVertex.h is outside the sources at hand) appends `p` to
the synonym list of the vertex. -/
structure SynonymTaxonomy extends Taxonomy where
  /-- Member `willInsertIntoTaxonomy`. -/
  willInsertIntoTaxonomy : Bool
  /-- The synonym list of each vertex. -/
  synonyms : VertexId → List EntryId

/-- How a call of `classifySynonym` ends. -/
inductive SynonymResult where
  /-- The call returned with this state and this answer. -/
  | returned (t : SynonymTaxonomy) (answer : Bool)
  /-- An `assert` failed. -/
  | assertFailed
  /-- The embedding ran out of fuel. -/
  | outOfFuel

/-- The loop `while ( syn->isSynonym() ) syn = syn->getSynonym();` of
`Taxonomy::classifySynonym`; `isSynonym()` is `getSynonym() != NULL`. -/
def realRepresentative (t : Taxonomy) : Nat → EntryId → Option EntryId
  | 0, _ => none
  | fuel + 1, syn =>
    match (t.entries syn).pSynonym with
    | none => some syn
    | some s => realRepresentative t fuel s

/-- Method `Taxonomy::classifySynonym`. -/
def classifySynonym (fuel : Nat) (t : SynonymTaxonomy) : SynonymResult :=
  match t.curEntry with
  | none => .assertFailed
  | some cur =>
    match (t.entries cur).pSynonym with
    | none => .returned t false
    | some syn =>
      if !t.willInsertIntoTaxonomy then .assertFailed
      else
        match realRepresentative t.toTaxonomy fuel syn with
        | none => .outOfFuel
        | some rep =>
          match (t.entries rep).taxVertex with
          | none => .assertFailed
          | some v =>
            .returned
              { t with
                synonyms := setAt t.synonyms v (t.synonyms v ++ [cur])
                Current := none
                curEntry := none }
              true

/-- Entry `a` has the synonym `b`. -/
def SynonymLink (t : Taxonomy) (a b : EntryId) : Prop := (t.entries a).pSynonym = some b

/-- Entry `0` is classified with the vertex `7`; entry `1` is a synonym of `0`,
entry `2` a synonym of `1`, and entry `2` is the current entry, with the
current vertex `9`. -/
def synonymTaxonomy : SynonymTaxonomy :=
  { entries := fun e =>
      match e with
      | 0 => { taxVertex := some 7 }
      | 1 => { pSynonym := some 0 }
      | 2 => { pSynonym := some 1 }
      | _ => {}
    vertices := fun _ => {}
    Current := some 9
    curEntry := some 2
    willInsertIntoTaxonomy := true
    synonyms := fun _ => [] }

/-- Three unclassified entries: `0` has the told subsumer `1`, which has the
told subsumer `2`, which has the told subsumer `1`; entry `0` leads into the
cycle of `1` and `2` without being part of it. -/
def lassoTaxonomy : Taxonomy :=
  { entries := fun e =>
      match e with
      | 0 => { told := [1] }
      | 1 => { told := [2] }
      | 2 => { told := [1] }
      | _ => {}
    vertices := fun _ => {} }

/-- The state in which `checkToldSubsumers` finds the cycle of `lassoTaxonomy`
during `classifyEntry(0)`: the stack holds `1`, `2`, `1`, `0` (top first). -/
def lassoCycleFound : Taxonomy := { lassoTaxonomy with waitStack := [1, 2, 1, 0] }

/-- The range of roles that `TRole::addSubCompositionAutomaton` of the role `this`
hands to `createChain` for the composition `RS`: `RS.begin()+1 .. RS.end()` when
the first role resolves to `this`, else `RS.begin() .. RS.end()-1` when the last
role resolves to `this`, else all of `RS`. -/
def chainRange (rb : RoleBox) (this : RoleId) (RS : List RoleId) : List RoleId :=
  match RS with
  | [] => []
  | front :: rest =>
    if resolveSynonym rb front = this then rest
    else if resolveSynonym rb ((front :: rest).getLast (List.cons_ne_nil _ _)) = this then
      (front :: rest).dropLast
    else front :: rest

/-! ## Purge: the depth of the recursion and the rare log -/

/-- Method `DlCompletionGraph::Purge` with the depth of the recursion bounded by
`fuel`: `none` when the bound is reached, else the graph after the call. -/
def PurgeBounded : Nat → DlCompletionGraph → NodeId → NodeId → DepSet → Option DlCompletionGraph
  | 0, _, _, _, _ => none
  | fuel + 1, g, p, root, dep =>
    if isPBlocked g p then some g
    else
      (g.NodeBase p).Son.foldlM
        (fun acc q =>
          if !(acc.NodeBase (acc.CTEdgeHeap q).ArcEnd).nominal then
            PurgeBounded fuel acc (acc.CTEdgeHeap q).ArcEnd root dep
          else some (invalidateEdge acc q))
        (setPBlocked g p root dep)

/-- The nodes of the `setPBlocked` entries of a piece of the rare log. -/
def pBlockedLog (l : List (Nat × Restorer)) : List NodeId :=
  l.filterMap fun e =>
    match e.2 with
    | .pBlocked n _ => some n
    | _ => none

/-- Two blockable nodes `0` and `1` whose successor arcs form a cycle: edges
`0 → 1` and `1 → 0`; and a nominal node `2`. -/
def blockableCycleGraph : DlCompletionGraph :=
  applyMutations pairInverse
    [.newNode false, .newNode false, .newNode true,
      .createEdge 0 1 false 2 ∅, .createEdge 1 0 false 4 ∅] emptyGraph

/-- The chain of automata that "builds the chain from" a range of roles stands
for, in the words of `createChain` (`init non-empty chain of role automata`):
the automaton of the first role is completed and starts the chain in the
automaton of `this` (`initChain`); then the automaton of every further role,
in the order of the range, is completed and added to the chain (`addToChain`).
An empty range builds nothing. -/
def chainFrom {RA : Type} (ops : AutomatonOps RA) (this : RoleId) :
    List RoleId → (RoleId → RA) → (RoleId → RA)
  | [], A => A
  | b :: rest, A =>
    rest.foldl
      (fun A1 p =>
        setAt (ops.completeAutomaton p A1) this
          (ops.addToChain (ops.completeAutomaton p A1 this) (ops.completeAutomaton p A1 p)))
      (setAt (ops.completeAutomaton b A) this
        (ops.initChain (ops.completeAutomaton b A this) (ops.completeAutomaton b A b)))

/-- `Merge` in the words of the spec: the predecessor arcs of `from` are moved to
`to`; then, for each successor arc of `from` that leads to a nominal node, the
arc is redirected to `to` (blockable successors are left); then the inequality
relation is updated and `from` is purged. -/
def MergeNominalOnly (inv : RoleId → RoleId) (g : DlCompletionGraph) (from_ to_ : NodeId)
    (dep : DepSet) : DlCompletionGraph × List ArcId :=
  let r1 := moveEdges inv to_ true dep (g.NodeBase from_).Parent (g, [])
  let r2 := moveEdges inv to_ false dep
    ((g.NodeBase from_).Son.filter fun x => (g.NodeBase (g.CTEdgeHeap x).ArcEnd).nominal) r1
  let g3 := updateIR r2.1 to_ from_ dep
  (Purge (g3.endUsed + 1) g3 from_ to_ dep, r2.2)

/-- The arc `q` is handed out by the heap, like all successor arcs of the graph,
and it is no successor arc that leads to a nominal node nor the reverse of
one. -/
structure ArcGuard (q : ArcId) (r : DlCompletionGraph) : Prop where
  /-- The arc is handed out. -/
  hq : q < r.nEdges
  /-- All successor arcs are handed out. -/
  alloc : ∀ a, ∀ q1 ∈ (r.NodeBase a).Son, q1 < r.nEdges
  /-- The arc is tied to no arc to a nominal node. -/
  link : NoNominalLink r q

/-- A blockable node `0` with the successor arcs `0` to the blockable node `1`
and `2` to the nominal node `2`; and a nominal node `3`. -/
def mergeSuccessorsGraph : DlCompletionGraph :=
  applyMutations pairInverse
    [.newNode false, .newNode false, .newNode true, .newNode true,
      .createEdge 0 1 false 2 ∅, .createEdge 0 2 false 4 ∅] emptyGraph

/-- Two blockable nodes `0` and `1` and an edge from node `0` to itself: the
successor arc `0` and the predecessor arc `1` of node `0`. -/
def selfLoopGraph : DlCompletionGraph :=
  applyMutations pairInverse
    [.newNode false, .newNode false, .createEdge 0 0 false 2 ∅] emptyGraph

/-! ## Theorems -/

/-! ### Heap access -/

theorem setAt_same {α : Type} (h : Nat → α) (i : Nat) (x : α) : setAt h i x i = x := by
  simp [setAt]

theorem setAt_other {α : Type} (h : Nat → α) (i j : Nat) (x : α) (hne : j ≠ i) :
    setAt h i x j = h j := by
  simp [setAt, hne]

/-! ### Role box -/

theorem synonymBox_inversesSet : InversesSet synonymBox := by
  intro r
  match r with
  | 0 => exact ⟨1, rfl, rfl⟩
  | 1 => exact ⟨0, rfl, rfl⟩
  | 2 => exact ⟨3, rfl, rfl⟩
  | 3 => exact ⟨2, rfl, rfl⟩
  | n + 4 => exact ⟨n + 4, rfl, rfl⟩

theorem pairBox_inversesSet : InversesSet pairBox := by
  intro (r : Nat)
  refine ⟨if r % 2 = 0 then r + 1 else r - 1, rfl, ?_⟩
  show some (if (if r % 2 = 0 then r + 1 else r - 1) % 2 = 0
      then (if r % 2 = 0 then r + 1 else r - 1) + 1
      else (if r % 2 = 0 then r + 1 else r - 1) - 1) = some r
  congr 1
  by_cases h : r % 2 = 0
  · have h1 : ¬ (r + 1) % 2 = 0 := by omega
    simp [h, h1]
  · have h1 : (r - 1) % 2 = 0 := by omega
    have h2 : r - 1 + 1 = r := by omega
    simp [h, h1, h2]

theorem pairBox_fresh : FreshRoles pairBox := fun _ => ⟨rfl, rfl⟩

/-- C8, the claim as stated fails: in `synonymBox` all inverse pointers are set
in pairs, yet taking the inverse of role `0` twice gives role `2` (the role
that `0` is a synonym of) and not role `0`. -/
theorem inverse_inverse_synonym_counterexample :
    InversesSet synonymBox ∧
      (inverse synonymBox 0).bind (inverse synonymBox) = some 2 ∧
      (inverse synonymBox 0).bind (inverse synonymBox) ≠ some 0 :=
  ⟨synonymBox_inversesSet, rfl, by decide⟩

/-- C8 as amended: in a role box whose inverse pointers are set in pairs, for a
role `r` that is not a synonym and whose inverse role is not a synonym,
`r.inverse().inverse()` is `r`. -/
theorem inverse_inverse_primary (rb : RoleBox) (r i : RoleId)
    (hset : InversesSet rb) (hi : (rb r).Inverse = some i)
    (hr : (rb r).Synonym = none) (his : (rb i).Synonym = none) :
    (inverse rb r).bind (inverse rb) = some r := by
  obtain ⟨j, hj, hback⟩ := hset r
  have hij : j = i := by
    rw [hi] at hj
    exact (Option.some.inj hj).symm
  subst hij
  simp [inverse, resolveSynonym, hi, his, hback, hr]

theorem inverse_inverse_primary_witness :
    (inverse pairBox 0).bind (inverse pairBox) = some 0 :=
  inverse_inverse_primary pairBox 0 1 pairBox_inversesSet rfl rfl rfl

theorem inverse_of_noSynonym (rb : RoleBox) (r i : RoleId)
    (hsyn : ∀ x, (rb x).Synonym = none) (hi : (rb r).Inverse = some i) :
    inverse rb r = some i := by
  simp [inverse, resolveSynonym, hi, hsyn i]

theorem setAt_proj {α β : Type} (h : Nat → α) (i : Nat) (x : α) (f : α → β)
    (hf : f x = f (h i)) (j : Nat) : f (setAt h i x j) = f (h j) := by
  by_cases hj : j = i
  · subst hj; rw [setAt_same]; exact hf
  · rw [setAt_other _ _ _ _ hj]

theorem setTransitive_TransInv (rb : RoleBox) (r : RoleId) (h : TransInv rb) :
    ∃ rb1, setTransitive rb r = some rb1 ∧ TransInv rb1 := by
  obtain ⟨hsyn, hset, htr⟩ := h
  obtain ⟨i, hi, hback⟩ := hset r
  obtain ⟨rb1, hrb1⟩ : ∃ rb1 : RoleBox, rb1 = setAt rb r { rb r with transitive := true } :=
    ⟨_, rfl⟩
  obtain ⟨rb2, hrb2⟩ : ∃ rb2 : RoleBox, rb2 = setAt rb1 i { rb1 i with transitive := true } :=
    ⟨_, rfl⟩
  -- the two writes only touch the member transitive
  have hInv1 : ∀ x, (rb1 x).Inverse = (rb x).Inverse := fun x => by
    rw [hrb1]; refine setAt_proj rb r _ TRole.Inverse ?_ x; rfl
  have hSyn1 : ∀ x, (rb1 x).Synonym = (rb x).Synonym := fun x => by
    rw [hrb1]; refine setAt_proj rb r _ TRole.Synonym ?_ x; rfl
  have hInv2 : ∀ x, (rb2 x).Inverse = (rb x).Inverse := fun x => by
    rw [hrb2, ← hInv1]; refine setAt_proj rb1 i _ TRole.Inverse ?_ x; rfl
  have hSyn2 : ∀ x, (rb2 x).Synonym = (rb x).Synonym := fun x => by
    rw [hrb2, ← hSyn1]; refine setAt_proj rb1 i _ TRole.Synonym ?_ x; rfl
  have hTr1 : ∀ x, (rb1 x).transitive = (decide (x = r) || (rb x).transitive) := by
    intro x
    rw [hrb1]
    by_cases hxr : x = r
    · subst hxr; rw [setAt_same]; simp
    · rw [setAt_other _ _ _ _ hxr]; simp [hxr]
  have hTr2 : ∀ x, (rb2 x).transitive
      = (decide (x = i) || (decide (x = r) || (rb x).transitive)) := by
    intro x
    rw [hrb2]
    by_cases hx : x = i
    · subst hx; rw [setAt_same]; simp
    · rw [setAt_other _ _ _ _ hx, hTr1]; simp [hx]
  have hinv : inverse rb1 r = some i := by
    unfold inverse
    rw [hInv1 r, hi]
    show some (resolveSynonym rb1 i) = some i
    unfold resolveSynonym
    rw [hSyn1 i, hsyn i]
  have hrun : setTransitive rb r = some rb2 := by
    show Option.map _ (inverse (setAt rb r { rb r with transitive := true }) r) = some rb2
    rw [← hrb1, hinv, hrb2]
    rfl
  refine ⟨rb2, hrun, fun x => by rw [hSyn2]; exact hsyn x, ?_, ?_⟩
  · intro x
    obtain ⟨y, hy, hyb⟩ := hset x
    exact ⟨y, by rw [hInv2]; exact hy, by rw [hInv2]; exact hyb⟩
  · intro x y hxy
    rw [hInv2] at hxy
    rw [hTr2, hTr2]
    -- the inverse of y is x
    obtain ⟨y1, hy1, hyb⟩ := hset x
    have : y1 = y := by rw [hxy] at hy1; exact (Option.some.inj hy1).symm
    subst this
    by_cases hxi : x = i
    · subst hxi
      have : y1 = r := by rw [hback] at hxy; exact (Option.some.inj hxy).symm
      subst this
      simp
    · by_cases hxr : x = r
      · subst hxr
        have : y1 = i := by rw [hi] at hxy; exact (Option.some.inj hxy).symm
        subst this
        simp
      · have hyi : y1 ≠ i := by
          intro hc; subst hc
          rw [hback] at hyb
          exact hxr (Option.some.inj hyb).symm
        have hyr : y1 ≠ r := by
          intro hc; subst hc
          rw [hi] at hyb
          exact hxi (Option.some.inj hyb).symm
        simp [hxi, hxr, hyi, hyr, htr x y1 hxy]

theorem setTransitiveAll_TransInv (calls : List RoleId) :
    ∀ rb, TransInv rb → ∃ rb1, setTransitiveAll calls rb = some rb1 ∧ TransInv rb1 := by
  induction calls with
  | nil => intro rb h; exact ⟨rb, rfl, h⟩
  | cons r rs ih =>
    intro rb h
    obtain ⟨rb1, h1, hinv1⟩ := setTransitive_TransInv rb r h
    obtain ⟨rb2, h2, hinv2⟩ := ih rb1 hinv1
    exact ⟨rb2, by simp only [setTransitiveAll, h1, h2], hinv2⟩

/-- C9: starting from freshly constructed roles whose inverse pointers are set
in pairs, every sequence of `setTransitive` calls succeeds, and in the state it
reaches every role has an inverse and is transitive if and only if its inverse
is transitive. -/
theorem transitive_iff_inverse_transitive (rb : RoleBox) (calls : List RoleId)
    (hfresh : FreshRoles rb) (hset : InversesSet rb) :
    ∃ rb1, setTransitiveAll calls rb = some rb1 ∧
      ∀ r, ∃ i, inverse rb1 r = some i ∧
        (isTransitive rb1 r = true ↔ isTransitive rb1 i = true) := by
  have h0 : TransInv rb :=
    ⟨fun r => (hfresh r).2, hset, fun r i _ => by rw [(hfresh r).1, (hfresh i).1]⟩
  obtain ⟨rb1, hrun, hsyn, hset1, htr⟩ := setTransitiveAll_TransInv calls rb h0
  refine ⟨rb1, hrun, fun r => ?_⟩
  obtain ⟨i, hi, _⟩ := hset1 r
  exact ⟨i, inverse_of_noSynonym rb1 r i hsyn hi, by
    unfold isTransitive; rw [htr r i hi]⟩

theorem transitive_iff_inverse_transitive_witness :
    ∃ rb1, setTransitiveAll [0, 3] pairBox = some rb1 ∧
      ∀ r, ∃ i, inverse rb1 r = some i ∧
        (isTransitive rb1 r = true ↔ isTransitive rb1 i = true) :=
  transitive_iff_inverse_transitive pairBox [0, 3] pairBox_fresh pairBox_inversesSet

/-- C10, the code at the failing input: a fresh role `0` (inverse `1`) is first
declared a data role, which succeeds (`setDataRole` returns `false`), and is
then declared transitive; `setTransitive` goes through and the role ends up
both a data role and transitive.  In the other order `setDataRole` reports the
error and leaves the flag unset. -/
theorem dataRole_then_transitive_both :
    (setDataRole pairBox 0).2 = false ∧
      (∃ rb1, setTransitive (setDataRole pairBox 0).1 0 = some rb1 ∧
        isDataRole rb1 0 = true ∧ isTransitive rb1 0 = true) ∧
      (∃ rb2, setTransitive pairBox 0 = some rb2 ∧
        (setDataRole rb2 0).2 = true ∧ isDataRole (setDataRole rb2 0).1 0 = false) :=
  ⟨rfl, ⟨_, rfl, rfl, rfl⟩, ⟨_, rfl, rfl, rfl⟩⟩

/-- C5, the code at the failing input: `R = 0` has the descendant `1` and
`S = 2` has the descendant `3`; after `R.addDisjointRole(S)` and
`S.addDisjointRole(R)` the `Disjoint` set of the descendant `1` holds only `S`,
and that of the descendant `3` only `R`: the pair of descendants is not
recorded in either direction. -/
theorem addDisjointRole_misses_descendant_pair :
    ((addDisjointRole (addDisjointRole disjointBox 0 2) 2 0) 1).Disjoint = [2] ∧
      ((addDisjointRole (addDisjointRole disjointBox 0 2) 2 0) 3).Disjoint = [0] ∧
      3 ∉ ((addDisjointRole (addDisjointRole disjointBox 0 2) 2 0) 1).Disjoint ∧
      1 ∉ ((addDisjointRole (addDisjointRole disjointBox 0 2) 2 0) 3).Disjoint :=
  ⟨rfl, rfl, by decide, by decide⟩

/-! ### Taxonomy: told-subsumer cycles -/

theorem checkToldLoop_skip (ops : TaxonomyOps) (recur : Taxonomy → Option (Taxonomy × Bool))
    (t : Taxonomy) (b : EntryId) (post : List EntryId)
    (hb : isClassified t b = false) (hneed : ops.needToldClassification b t = true) :
    ∀ pre : List EntryId, (∀ x ∈ pre, isClassified t x = true) →
      checkToldLoop ops recur (pre ++ b :: post) t =
        if t.waitStack.contains b then some (pushWait t b, false) else recur (pushWait t b) := by
  intro pre
  induction pre with
  | nil =>
    intro _
    simp [checkToldLoop, hb, hneed]
  | cons x xs ih =>
    intro hx
    have hx1 : isClassified t x = true := hx x (List.mem_cons_self _ _)
    have := ih (fun y hy => hx y (List.mem_cons_of_mem _ hy))
    simp only [List.cons_append, checkToldLoop, hx1, if_true]
    exact this

theorem checkToldSubsumers_walk (ops : TaxonomyOps) (c0 : EntryId) :
    ∀ (suf : List EntryId) (a : EntryId) (st : List EntryId) (fuel : Nat) (t : Taxonomy),
      t.waitStack = a :: st →
      (∀ c ∈ c0 :: suf, isClassified t c = false) →
      (∀ c ∈ c0 :: suf, ∀ t1, ops.needToldClassification c t1 = true) →
      List.Chain' (ToldNext t) (a :: suf ++ [c0]) →
      c0 ∈ a :: st → (∀ x ∈ suf, x ∉ a :: st) → suf.Nodup → suf.length + 1 ≤ fuel →
      checkToldSubsumers ops fuel t =
        some ({ t with waitStack := c0 :: (suf.reverse ++ a :: st) }, false) := by
  intro suf
  induction suf with
  | nil =>
    intro a st fuel t hst hunc hneed hchain hc0 _ _ hfuel
    obtain ⟨f, rfl⟩ : ∃ f, fuel = f + 1 := ⟨fuel - 1, by simp at hfuel; omega⟩
    have hnext : ToldNext t a c0 := by
      simpa [List.chain'_cons] using hchain
    obtain ⟨pre, post, htold, hpre⟩ := hnext
    simp only [checkToldSubsumers, hst, htold]
    rw [checkToldLoop_skip ops _ t c0 post (hunc c0 (List.mem_cons_self _ _))
      (hneed c0 (List.mem_cons_self _ _) t) pre hpre]
    have : t.waitStack.contains c0 = true := by
      rw [hst]; simpa using hc0
    rw [if_pos this]
    simp [pushWait, hst]
  | cons s suf ih =>
    intro a st fuel t hst hunc hneed hchain hc0 hfresh hnodup hfuel
    obtain ⟨f, rfl⟩ : ∃ f, fuel = f + 1 := ⟨fuel - 1, by simp at hfuel; omega⟩
    have hchain1 : ToldNext t a s ∧ List.Chain' (ToldNext t) (s :: suf ++ [c0]) := by
      simpa [List.chain'_cons] using hchain
    obtain ⟨⟨pre, post, htold, hpre⟩, hrest⟩ := hchain1
    have hs_unc : isClassified t s = false :=
      hunc s (List.mem_cons_of_mem _ (List.mem_cons_self _ _))
    have hs_need : ops.needToldClassification s t = true :=
      hneed s (List.mem_cons_of_mem _ (List.mem_cons_self _ _)) t
    have hs_notin : t.waitStack.contains s = false := by
      rw [hst]
      have := hfresh s (List.mem_cons_self _ _)
      simpa using this
    simp only [checkToldSubsumers, hst, htold]
    rw [checkToldLoop_skip ops _ t s post hs_unc hs_need pre hpre]
    rw [hs_notin]
    simp only [Bool.false_eq_true, if_false]
    have hnd : s ∉ suf ∧ suf.Nodup := by simpa using hnodup
    have key := ih s (a :: st) f (pushWait t s) (by simp [pushWait, hst])
      (fun c hc => by
        have : c ∈ c0 :: s :: suf := by
          rcases List.mem_cons.mp hc with h | h
          · exact h ▸ List.mem_cons_self _ _
          · exact List.mem_cons_of_mem _ (List.mem_cons_of_mem _ h)
        exact hunc c this)
      (fun c hc => by
        have : c ∈ c0 :: s :: suf := by
          rcases List.mem_cons.mp hc with h | h
          · exact h ▸ List.mem_cons_self _ _
          · exact List.mem_cons_of_mem _ (List.mem_cons_of_mem _ h)
        exact hneed c this)
      hrest (List.mem_cons_of_mem _ hc0)
      (fun x hx hmem => by
        rcases List.mem_cons.mp hmem with h | h
        · exact hnd.1 (h ▸ hx)
        · exact hfresh x (List.mem_cons_of_mem _ hx) h)
      hnd.2 (by simp at hfuel ⊢; omega)
    rw [key]
    simp [pushWait, List.reverse_cons, List.append_assoc]

theorem classifyCycleLoop_spec (p : EntryId) :
    ∀ (n : Nat) (t : Taxonomy), t.waitStack.length ≤ n →
      (classifyCycleLoop p n t).waitStack = [] ∧
      ∀ e, ((classifyCycleLoop p n t).entries e).taxVertex =
        if e ∈ t.waitStack then (t.entries p).taxVertex else (t.entries e).taxVertex := by
  intro n
  induction n with
  | zero =>
    intro t hlen
    have : t.waitStack = [] := List.length_eq_zero.mp (Nat.le_zero.mp hlen)
    simp [classifyCycleLoop, this]
  | succ n ih =>
    intro t hlen
    cases hst : t.waitStack with
    | nil => simp [classifyCycleLoop, hst]
    | cons e rest =>
      have hlen1 : rest.length ≤ n := by rw [hst] at hlen; simpa using hlen
      obtain ⟨h1, h2⟩ := ih (popWait (setTaxVertex t e (t.entries p).taxVertex))
        (by simpa [popWait, setTaxVertex, hst] using hlen1)
      simp only [classifyCycleLoop, hst]
      refine ⟨h1, fun x => ?_⟩
      rw [h2 x]
      have hp : ((popWait (setTaxVertex t e (t.entries p).taxVertex)).entries p).taxVertex
          = (t.entries p).taxVertex := by
        by_cases hpe : p = e
        · subst hpe; simp [popWait, setTaxVertex, setAt]
        · simp [popWait, setTaxVertex, setAt, hpe]
      have hw : (popWait (setTaxVertex t e (t.entries p).taxVertex)).waitStack = rest := by
        simp [popWait, setTaxVertex, hst]
      rw [hp, hw]
      by_cases hxe : x = e
      · subst hxe
        simp [popWait, setTaxVertex, setAt]
      · by_cases hxr : x ∈ rest
        · simp [hxr]
        · simp [hxr, hxe, popWait, setTaxVertex, setAt]

/-- The common part of the told-cycle results: on a told-subsumer cycle
`c0 → … → c0` the call `classifyEntry(c0)` ends in the failed `assert (0)` of
`classifyCycle`, with an empty wait stack and one taxonomy vertex for all
entries of the cycle. -/
theorem classifyEntry_cycle_aux (ops : TaxonomyOps) (t : Taxonomy) (c0 : EntryId)
    (rest : List EntryId) (fuelTold fuel : Nat)
    (hstack : t.waitStack = [])
    (hnodup : (c0 :: rest).Nodup)
    (hunc : ∀ c ∈ c0 :: rest, isClassified t c = false)
    (hneed : ∀ c ∈ c0 :: rest, ∀ t1, ops.needToldClassification c t1 = true)
    (hchain : List.Chain' (ToldNext t) (c0 :: rest ++ [c0]))
    (hframe : ∀ p t1, (ops.doClassification p t1).waitStack = t1.waitStack)
    (hfuelTold : rest.length + 1 ≤ fuelTold) (hfuel : 1 ≤ fuel) :
    ∃ t1, classifyEntry ops fuelTold fuel t c0 = .assertFailed t1 ∧ t1.waitStack = [] ∧
      ∀ c ∈ c0 :: rest, (t1.entries c).taxVertex = (t1.entries c0).taxVertex := by
  obtain ⟨f, rfl⟩ : ∃ f, fuel = f + 1 := ⟨fuel - 1, by omega⟩
  have hnd : c0 ∉ rest ∧ rest.Nodup := by simpa using hnodup
  have hwalk := checkToldSubsumers_walk ops c0 rest c0 [] fuelTold (pushWait t c0)
    (by simp [pushWait, hstack]) hunc hneed hchain (List.mem_cons_self _ _)
    (fun x hx hmem => by
      have : x = c0 := by simpa using hmem
      exact hnd.1 (this ▸ hx))
    hnd.2 hfuelTold
  obtain ⟨tc, htc⟩ : ∃ tc : Taxonomy,
      tc = { pushWait t c0 with waitStack := c0 :: (rest.reverse ++ [c0]) } := ⟨_, rfl⟩
  rw [← htc] at hwalk
  have htcs : tc.waitStack = c0 :: (rest.reverse ++ [c0]) := by rw [htc]
  obtain ⟨t2, ht2⟩ : ∃ t2 : Taxonomy, t2 = popWait (ops.doClassification c0 tc) := ⟨_, rfl⟩
  have ht2s : t2.waitStack = rest.reverse ++ [c0] := by
    rw [ht2]; simp [popWait, hframe, htcs]
  obtain ⟨h1, h2⟩ := classifyCycleLoop_spec c0 t2.waitStack.length t2 (le_refl _)
  refine ⟨classifyCycleLoop c0 t2.waitStack.length t2, ?_, h1, ?_⟩
  · simp only [classifyEntry, hstack, List.isEmpty_nil, if_true, classifyEntryLoop]
    have : (pushWait t c0).waitStack.isEmpty = false := by simp [pushWait]
    simp only [this, Bool.false_eq_true, if_false, hwalk, classifyCycle, htcs, classifyTop]
    rw [← ht2]
  · intro c hc
    have hcmem : c ∈ t2.waitStack := by
      rw [ht2s]
      rcases List.mem_cons.mp hc with h | h
      · simp [h]
      · simp [h]
    have hc0mem : c0 ∈ t2.waitStack := by rw [ht2s]; simp
    rw [h2 c, h2 c0, if_pos hcmem, if_pos hc0mem]

/-- The run of `classifyEntry` on a cycle: for unclassified entries `c0 :: rest`
that need told classification and whose told subsumers form a cycle (each one
has the next as its first unclassified told subsumer, the last one has `c0`),
`classifyEntry(c0)` reaches the closing `assert (0)` of `classifyCycle` with
the wait stack empty and all entries of the cycle at one taxonomy vertex. -/
theorem classifyEntry_told_cycle (ops : TaxonomyOps) (t : Taxonomy) (c0 : EntryId)
    (rest : List EntryId) (fuelTold fuel : Nat)
    (hstack : t.waitStack = [])
    (hnodup : (c0 :: rest).Nodup)
    (hunc : ∀ c ∈ c0 :: rest, isClassified t c = false)
    (hneed : ∀ c ∈ c0 :: rest, ∀ t1, ops.needToldClassification c t1 = true)
    (hchain : List.Chain' (ToldNext t) (c0 :: rest ++ [c0]))
    (hframe : ∀ p t1, (ops.doClassification p t1).waitStack = t1.waitStack)
    (hfuelTold : rest.length + 1 ≤ fuelTold) (hfuel : 1 ≤ fuel) :
    ∃ t1, classifyEntry ops fuelTold fuel t c0 = .assertFailed t1 ∧ t1.waitStack = [] ∧
      ∀ c ∈ c0 :: rest, (t1.entries c).taxVertex = (t1.entries c0).taxVertex :=
  classifyEntry_cycle_aux ops t c0 rest fuelTold fuel hstack hnodup hunc hneed hchain hframe
    hfuelTold hfuel

theorem cycleTaxonomy_chain : List.Chain' (ToldNext cycleTaxonomy) (0 :: [1] ++ [0]) := by
  have h01 : ToldNext cycleTaxonomy 0 1 := ⟨[], [], rfl, by simp⟩
  have h10 : ToldNext cycleTaxonomy 1 0 := ⟨[], [], rfl, by simp⟩
  simp [List.chain'_cons, h01, h10]

theorem classifyEntry_told_cycle_witness :
    ∃ t1, classifyEntry simpleOps 5 5 cycleTaxonomy 0 = .assertFailed t1 ∧ t1.waitStack = [] ∧
      ∀ c ∈ [0, 1], (t1.entries c).taxVertex = (t1.entries 0).taxVertex :=
  classifyEntry_told_cycle simpleOps cycleTaxonomy 0 [1] 5 5 rfl (by decide) (by decide)
    (fun _ _ _ => rfl) cycleTaxonomy_chain (fun _ _ => rfl) (by decide) (by decide)

/-- C4, the code against the claim: for the two entries `0` and `1` that are told
subsumers of each other (and need told classification), `classifyEntry(0)`
finds the cycle, empties the wait stack and puts both entries at one taxonomy
vertex, as the claim says, but it does not complete normally: the run ends in
the `assert (0)` that closes `classifyCycle`, and for no fuel does the call
return. -/
theorem classifyEntry_cycle_asserts :
    (∃ t1, classifyEntry simpleOps 5 5 cycleTaxonomy 0 = .assertFailed t1 ∧ t1.waitStack = [] ∧
        (t1.entries 0).taxVertex = (t1.entries 1).taxVertex ∧
        (t1.entries 0).taxVertex.isSome = true) ∧
      ∀ fuelTold fuel t1, classifyEntry simpleOps fuelTold fuel cycleTaxonomy 0 ≠ .returned t1 := by
  refine ⟨⟨_, rfl, rfl, rfl, rfl⟩, ?_⟩
  intro fuelTold fuel t1 h
  cases fuel with
  | zero => simp [classifyEntry, classifyEntryLoop, cycleTaxonomy, pushWait] at h
  | succ f =>
    by_cases hft : 2 ≤ fuelTold
    · obtain ⟨t2, h2, _⟩ := classifyEntry_cycle_aux simpleOps cycleTaxonomy 0 [1] fuelTold (f + 1)
        rfl (by decide) (by decide) (fun _ _ _ => rfl) cycleTaxonomy_chain (fun _ _ => rfl)
        (by simpa using hft) (by omega)
      rw [h2] at h
      cases h
    · have : fuelTold = 0 ∨ fuelTold = 1 := by omega
      rcases this with h0 | h1
      · subst h0
        have : classifyEntry simpleOps 0 (f + 1) cycleTaxonomy 0 = .outOfFuel := rfl
        rw [this] at h
        cases h
      · subst h1
        have : classifyEntry simpleOps 1 (f + 1) cycleTaxonomy 0 = .outOfFuel := rfl
        rw [this] at h
        cases h

/-! ### Taxonomy: told subsumers of a completely defined concept -/

theorem UpReach_congr (vs ws : VertexId → TaxonomyVertex) (h : ∀ x, (ws x).up = (vs x).up)
    (a b : VertexId) : UpReach ws a b → UpReach vs a b := by
  intro hab
  exact Relation.ReflTransGen.mono (fun x y hxy => by rw [← h x]; exact hxy) hab

theorem foldl_mem_invariant {α β : Type} (f : α → β → α) (P : α → Prop) :
    ∀ (l : List β) (a : α), P a → (∀ acc, ∀ b ∈ l, P acc → P (f acc b)) → P (l.foldl f a) := by
  intro l
  induction l with
  | nil => intro a ha _; exact ha
  | cons b bs ih =>
    intro a ha hstep
    exact ih (f a b) (hstep a b (List.mem_cons_self _ _) ha)
      (fun acc c hc hacc => hstep acc c (List.mem_cons_of_mem _ hc) hacc)

/-- What `propagateValueUp` leaves alone and what it may label: links are kept,
valued vertices stay valued, and a newly valued vertex is reached from the
start vertex by parent links. -/
theorem propagateValueUp_sound :
    ∀ (fuel : Nat) (vs : VertexId → TaxonomyVertex) (v : VertexId),
      (∀ x, ((propagateValueUp fuel vs v) x).up = (vs x).up) ∧
      (∀ x, ((propagateValueUp fuel vs v) x).down = (vs x).down) ∧
      (∀ x, (vs x).valued = true → ((propagateValueUp fuel vs v) x).valued = true) ∧
      (∀ x, ((propagateValueUp fuel vs v) x).valued = true →
        (vs x).valued = true ∨ UpReach vs v x) := by
  intro fuel
  induction fuel with
  | zero =>
    intro vs v
    exact ⟨fun _ => rfl, fun _ => rfl, fun _ hx => hx, fun _ hx => Or.inl hx⟩
  | succ fuel ih =>
    intro vs v
    by_cases hv : (vs v).valued = true
    · have hunfold : propagateValueUp (fuel + 1) vs v = vs := by
        simp [propagateValueUp, hv]
      rw [hunfold]
      exact ⟨fun _ => rfl, fun _ => rfl, fun _ hx => hx, fun _ hx => Or.inl hx⟩
    · have hunfold : propagateValueUp (fuel + 1) vs v =
          (vs v).up.foldl (fun acc p => propagateValueUp fuel acc p)
            (setAt vs v { vs v with valued := true }) := by
        simp [propagateValueUp, hv]
      rw [hunfold]
      apply foldl_mem_invariant (fun acc p => propagateValueUp fuel acc p)
        (fun acc => (∀ x, (acc x).up = (vs x).up) ∧ (∀ x, (acc x).down = (vs x).down) ∧
          (∀ x, (vs x).valued = true → (acc x).valued = true) ∧
          (∀ x, (acc x).valued = true → (vs x).valued = true ∨ UpReach vs v x))
      · refine ⟨fun x => ?_, fun x => ?_, fun x hx => ?_, fun x hx => ?_⟩
        · refine setAt_proj vs v _ TaxonomyVertex.up ?_ x; rfl
        · refine setAt_proj vs v _ TaxonomyVertex.down ?_ x; rfl
        · by_cases hxv : x = v
          · subst hxv; rw [setAt_same]
          · rw [setAt_other _ _ _ _ hxv]; exact hx
        · by_cases hxv : x = v
          · subst hxv; exact Or.inr Relation.ReflTransGen.refl
          · rw [setAt_other _ _ _ _ hxv] at hx; exact Or.inl hx
      · intro acc p hp ⟨hup, hdown, hmono, hsound⟩
        obtain ⟨iup, idown, imono, isound⟩ := ih acc p
        refine ⟨fun x => (iup x).trans (hup x), fun x => (idown x).trans (hdown x),
          fun x hx => imono x (hmono x hx), fun x hx => ?_⟩
        rcases isound x hx with h | h
        · exact hsound x h
        · right
          exact Relation.ReflTransGen.head hp (UpReach_congr vs acc hup p x h)

/-- With enough fuel `propagateValueUp` labels its start vertex and keeps the
valued set closed under parents (outside an exempted set `E`). -/
theorem propagateValueUp_complete (rank : VertexId → Nat) :
    ∀ (fuel : Nat) (vs : VertexId → TaxonomyVertex) (v : VertexId) (E : VertexId → Prop),
      (∀ a b, b ∈ (vs a).up → rank b < rank a) → rank v < fuel → ClosedExcept E vs →
      ClosedExcept E (propagateValueUp fuel vs v) ∧
        ((propagateValueUp fuel vs v) v).valued = true := by
  intro fuel
  induction fuel with
  | zero => intro vs v E _ hf; omega
  | succ fuel ih =>
    intro vs v E hrank hfuel hclosed
    by_cases hv : (vs v).valued = true
    · simp [propagateValueUp, hv, hclosed]
    · have hunfold : propagateValueUp (fuel + 1) vs v =
          (vs v).up.foldl (fun acc p => propagateValueUp fuel acc p)
            (setAt vs v { vs v with valued := true }) := by
        simp [propagateValueUp, hv]
      -- invariant of the loop over the parents of v
      have hinv : ∀ (l : List VertexId) (acc : VertexId → TaxonomyVertex),
          (∀ p ∈ l, p ∈ (vs v).up) →
          ((∀ x, (acc x).up = (vs x).up) ∧ ClosedExcept (fun a => E a ∨ a = v) acc ∧
            (acc v).valued = true) →
          ((∀ x, ((l.foldl (fun acc p => propagateValueUp fuel acc p) acc) x).up = (vs x).up) ∧
            ClosedExcept (fun a => E a ∨ a = v)
              (l.foldl (fun acc p => propagateValueUp fuel acc p) acc) ∧
            ((l.foldl (fun acc p => propagateValueUp fuel acc p) acc) v).valued = true ∧
            (∀ p ∈ l, ((l.foldl (fun acc p => propagateValueUp fuel acc p) acc) p).valued = true) ∧
            (∀ x, (acc x).valued = true →
              ((l.foldl (fun acc p => propagateValueUp fuel acc p) acc) x).valued = true)) := by
        intro l
        induction l with
        | nil =>
          intro acc _ ⟨h1, h2, h3⟩
          exact ⟨h1, h2, h3, fun p hp => absurd hp (List.not_mem_nil _), fun x hx => hx⟩
        | cons p ps ihl =>
          intro acc hmem ⟨h1, h2, h3⟩
          have hp : p ∈ (vs v).up := hmem p (List.mem_cons_self _ _)
          have hrk : rank p < fuel := by
            have := hrank v p hp
            omega
          obtain ⟨c1, c2⟩ := ih acc p (fun a => E a ∨ a = v)
            (fun a b hb => hrank a b (by rw [← h1 a]; exact hb)) hrk h2
          obtain ⟨s1, _, s3, _⟩ := propagateValueUp_sound fuel acc p
          obtain ⟨r1, r2, r3, r4, r5⟩ := ihl (propagateValueUp fuel acc p)
            (fun q hq => hmem q (List.mem_cons_of_mem _ hq))
            ⟨fun x => (s1 x).trans (h1 x), c1, s3 v h3⟩
          refine ⟨r1, r2, r3, fun q hq => ?_, fun x hx => r5 x (s3 x hx)⟩
          rcases List.mem_cons.mp hq with h | h
          · subst h; exact r5 q c2
          · exact r4 q h
      have hbase : (∀ x, ((setAt vs v { vs v with valued := true }) x).up = (vs x).up) ∧
          ClosedExcept (fun a => E a ∨ a = v) (setAt vs v { vs v with valued := true }) ∧
          ((setAt vs v { vs v with valued := true }) v).valued = true := by
        have hup : ∀ x, ((setAt vs v { vs v with valued := true }) x).up = (vs x).up := by
          intro x
          refine setAt_proj vs v _ TaxonomyVertex.up ?_ x; rfl
        refine ⟨hup, ?_, by rw [setAt_same]⟩
        intro a ha hval b hb
        have hav : a ≠ v := fun h => ha (Or.inr h)
        rw [setAt_other _ _ _ _ hav] at hval
        rw [hup a] at hb
        have := hclosed a (fun h => ha (Or.inl h)) hval b hb
        by_cases hbv : b = v
        · subst hbv; rw [setAt_same]
        · rw [setAt_other _ _ _ _ hbv]; exact this
      obtain ⟨r1, r2, r3, r4, _⟩ := hinv (vs v).up _ (fun p hp => hp) hbase
      rw [hunfold]
      refine ⟨?_, r3⟩
      intro a ha hval b hb
      by_cases hav : a = v
      · subst hav
        rw [r1 a] at hb
        exact r4 b hb
      · exact r2 a (fun h => h.elim ha hav) hval b hb

theorem closed_reach_valued (vs : VertexId → TaxonomyVertex)
    (hclosed : ClosedExcept (fun _ => False) vs) (a b : VertexId)
    (hreach : UpReach vs a b) (ha : (vs a).valued = true) : (vs b).valued = true := by
  induction hreach with
  | refl => exact ha
  | tail _ hstep ih => exact hclosed _ (fun h => h) ih _ hstep

/-- The labels after `setToldSubsumers`: links, entries and `Current` are
kept, and a vertex is valued iff it was valued before or is reached by parent
links from the vertex of a told subsumer. -/
theorem setToldSubsumers_valued (fuel : Nat) (rank : VertexId → Nat) :
    ∀ (v : List EntryId) (t : Taxonomy),
      (∀ a b, b ∈ (t.vertices a).up → rank b < rank a) →
      (∀ s ∈ v, ∀ q, VertexOf t s q → rank q < fuel) →
      ClosedExcept (fun _ => False) t.vertices →
      (setToldSubsumers fuel v t).entries = t.entries ∧
      (setToldSubsumers fuel v t).Current = t.Current ∧
      (∀ x, ((setToldSubsumers fuel v t).vertices x).up = (t.vertices x).up) ∧
      (∀ x, ((setToldSubsumers fuel v t).vertices x).down = (t.vertices x).down) ∧
      ClosedExcept (fun _ => False) (setToldSubsumers fuel v t).vertices ∧
      ∀ x, isValued (setToldSubsumers fuel v t) x = true ↔
        (isValued t x = true ∨ ∃ s ∈ v, ∃ q, VertexOf t s q ∧ UpReach t.vertices q x) := by
  intro v
  induction v with
  | nil =>
    intro t _ _ hclosed
    refine ⟨rfl, rfl, fun _ => rfl, fun _ => rfl, hclosed, fun x => ?_⟩
    simp [setToldSubsumers]
  | cons p ps ih =>
    intro t hrank hfuel hclosed
    cases hp : (t.entries p).taxVertex with
    | none =>
      have hunfold : setToldSubsumers fuel (p :: ps) t = setToldSubsumers fuel ps t := by
        simp [setToldSubsumers, hp]
      rw [hunfold]
      obtain ⟨h1, h2, h3, h4, h5, h6⟩ := ih t hrank
        (fun s hs q hq => hfuel s (List.mem_cons_of_mem _ hs) q hq) hclosed
      refine ⟨h1, h2, h3, h4, h5, fun x => ?_⟩
      rw [h6 x]
      constructor
      · rintro (h | ⟨s, hs, q, hq, hr⟩)
        · exact Or.inl h
        · exact Or.inr ⟨s, List.mem_cons_of_mem _ hs, q, hq, hr⟩
      · rintro (h | ⟨s, hs, q, hq, hr⟩)
        · exact Or.inl h
        · rcases List.mem_cons.mp hs with h | h
          · subst h
            unfold VertexOf at hq
            rw [hp] at hq
            cases hq
          · exact Or.inr ⟨s, h, q, hq, hr⟩
    | some q0 =>
      obtain ⟨t1, ht1⟩ : ∃ t1 : Taxonomy,
          t1 = { t with vertices := propagateValueUp fuel t.vertices q0 } := ⟨_, rfl⟩
      have hunfold : setToldSubsumers fuel (p :: ps) t = setToldSubsumers fuel ps t1 := by
        simp [setToldSubsumers, hp, ht1]
      rw [hunfold]
      obtain ⟨s1, s2, s3, s4⟩ := propagateValueUp_sound fuel t.vertices q0
      obtain ⟨c1, c2⟩ := propagateValueUp_complete rank fuel t.vertices q0 (fun _ => False)
        hrank (hfuel p (List.mem_cons_self _ _) q0 hp) hclosed
      have hent : t1.entries = t.entries := by rw [ht1]
      have hvs : t1.vertices = propagateValueUp fuel t.vertices q0 := by rw [ht1]
      have hup1 : ∀ x, (t1.vertices x).up = (t.vertices x).up := by rw [hvs]; exact s1
      obtain ⟨h1, h2, h3, h4, h5, h6⟩ := ih t1
        (fun a b hb => hrank a b (by rw [← hup1 a]; exact hb))
        (fun s hs q hq => hfuel s (List.mem_cons_of_mem _ hs) q
          (by unfold VertexOf at hq ⊢; rw [← hent]; exact hq))
        (by rw [hvs]; exact c1)
      refine ⟨h1.trans hent, h2.trans (by rw [ht1]), fun x => (h3 x).trans (hup1 x),
        fun x => (h4 x).trans (by rw [hvs]; exact s2 x), h5, fun x => ?_⟩
      rw [h6 x]
      have hval1 : isValued t1 x = true ↔
          (isValued t x = true ∨ UpReach t.vertices q0 x) := by
        unfold isValued
        rw [hvs]
        constructor
        · exact s4 x
        · rintro (h | h)
          · exact s3 x h
          · refine closed_reach_valued _ c1 q0 x ?_ c2
            exact UpReach_congr _ t.vertices (fun y => (s1 y).symm) q0 x h
      constructor
      · rintro (h | ⟨s, hs, q, hq, hr⟩)
        · rcases hval1.mp h with h | h
          · exact Or.inl h
          · exact Or.inr ⟨p, List.mem_cons_self _ _, q0, hp, h⟩
        · refine Or.inr ⟨s, List.mem_cons_of_mem _ hs, q, ?_, ?_⟩
          · unfold VertexOf at hq ⊢; rw [← hent]; exact hq
          · exact UpReach_congr t.vertices t1.vertices hup1 q x hr
      · rintro (h | ⟨s, hs, q, hq, hr⟩)
        · exact Or.inl (hval1.mpr (Or.inl h))
        · rcases List.mem_cons.mp hs with h | h
          · subst h
            have : q = q0 := by
              unfold VertexOf at hq
              rw [hp] at hq
              exact (Option.some.inj hq).symm
            subst this
            exact Or.inl (hval1.mpr (Or.inr hr))
          · refine Or.inr ⟨s, h, q, ?_, ?_⟩
            · unfold VertexOf at hq ⊢; rw [hent]; exact hq
            · exact UpReach_congr t1.vertices t.vertices (fun y => (hup1 y).symm) q x hr

theorem hasValuedChild_iff (t : Taxonomy) (l : List VertexId) :
    hasValuedChild t l = true ↔ ∃ c ∈ l, isValued t c = true := by
  induction l with
  | nil => simp [hasValuedChild]
  | cons q qs ih =>
    by_cases hq : isValued t q = true
    · simp [hasValuedChild, hq]
    · simp [hasValuedChild, hq, ih]

theorem hasValuedChild_congr (t t1 : Taxonomy) (h : ∀ x, isValued t1 x = isValued t x)
    (l : List VertexId) : hasValuedChild t1 l = hasValuedChild t l := by
  induction l with
  | nil => rfl
  | cons q qs ih => simp [hasValuedChild, h q, ih]

theorem parentCandidate_congr (t t1 : Taxonomy) (hent : t1.entries = t.entries)
    (hval : ∀ x, isValued t1 x = isValued t x)
    (hdown : ∀ x, (t1.vertices x).down = (t.vertices x).down) (s : EntryId) :
    parentCandidate t1 s = parentCandidate t s := by
  unfold parentCandidate
  rw [hent]
  cases (t.entries s).taxVertex with
  | none => rfl
  | some par => simp only [hdown par, hasValuedChild_congr t t1 hval]

/-- The outer loop of `setNonRedundantCandidates`: entries, `Current`, child
links and labels are kept, and the parents of `Current` grow by the candidates
that pass the test, in the order of the told subsumers. -/
theorem setNonRedundantLoop_spec (cur : VertexId) :
    ∀ (v : List EntryId) (t : Taxonomy), t.Current = some cur →
      (∀ s ∈ v, isClassified t s = true) →
      ∃ t1, setNonRedundantLoop v t = some t1 ∧ t1.entries = t.entries ∧
        t1.Current = t.Current ∧
        (∀ x, (t1.vertices x).down = (t.vertices x).down) ∧
        (∀ x, isValued t1 x = isValued t x) ∧
        (t1.vertices cur).up = (t.vertices cur).up ++ v.filterMap (parentCandidate t) := by
  intro v
  induction v with
  | nil =>
    intro t _ _
    exact ⟨t, rfl, rfl, rfl, fun _ => rfl, fun _ => rfl, by simp⟩
  | cons p ps ih =>
    intro t hcur hcls
    have hp : isClassified t p = true := hcls p (List.mem_cons_self _ _)
    obtain ⟨par, hpar⟩ : ∃ par, (t.entries p).taxVertex = some par := by
      unfold isClassified at hp
      exact Option.isSome_iff_exists.mp hp
    by_cases hchild : hasValuedChild t (t.vertices par).down = true
    · obtain ⟨t1, h1, h2, h3, h4, h5, h6⟩ := ih t hcur
        (fun s hs => hcls s (List.mem_cons_of_mem _ hs))
      refine ⟨t1, ?_, h2, h3, h4, h5, ?_⟩
      · simp [setNonRedundantLoop, hpar, hchild, h1]
      · rw [h6]
        have : parentCandidate t p = none := by simp [parentCandidate, hpar, hchild]
        simp [List.filterMap_cons, this]
    · obtain ⟨t2, ht2⟩ : ∃ t2 : Taxonomy, t2 =
          { t with vertices := setAt t.vertices cur (addNeighbour (t.vertices cur) true par) } :=
        ⟨_, rfl⟩
      have hent : t2.entries = t.entries := by rw [ht2]
      have hcur2 : t2.Current = some cur := by rw [ht2]; exact hcur
      have hdown : ∀ x, (t2.vertices x).down = (t.vertices x).down := by
        intro x; rw [ht2]
        refine setAt_proj t.vertices cur _ TaxonomyVertex.down ?_ x
        simp [addNeighbour]
      have hval : ∀ x, isValued t2 x = isValued t x := by
        intro x; unfold isValued; rw [ht2]
        refine setAt_proj t.vertices cur _ TaxonomyVertex.valued ?_ x
        simp [addNeighbour]
      have hupc : (t2.vertices cur).up = (t.vertices cur).up ++ [par] := by
        rw [ht2]; simp [setAt_same, addNeighbour]
      obtain ⟨t1, h1, h2, h3, h4, h5, h6⟩ := ih t2 hcur2
        (fun s hs => by
          have := hcls s (List.mem_cons_of_mem _ hs)
          unfold isClassified at this ⊢
          rw [hent]; exact this)
      refine ⟨t1, ?_, h2.trans hent, h3.trans (hcur2.trans hcur.symm),
        fun x => (h4 x).trans (hdown x), fun x => (h5 x).trans (hval x), ?_⟩
      · rw [ht2] at h1
        simp only [hcur] at h1
        simp only [setNonRedundantLoop, hpar, hchild, hcur, Bool.false_eq_true, if_false]
        exact h1
      · rw [h6, hupc]
        have hcand : parentCandidate t p = some par := by
          simp [parentCandidate, hpar, hchild]
        have hcongr : ps.filterMap (parentCandidate t2) = ps.filterMap (parentCandidate t) := by
          congr 1
          funext s
          exact parentCandidate_congr t t2 hent hval hdown s
        simp [List.filterMap_cons, hcand, hcongr]

theorem mem_filterMap_parentCandidate (t : Taxonomy) (v : List EntryId) (x : VertexId) :
    x ∈ v.filterMap (parentCandidate t) ↔
      ∃ s ∈ v, VertexOf t s x ∧ ∀ c ∈ (t.vertices x).down, isValued t c = false := by
  rw [List.mem_filterMap]
  constructor
  · rintro ⟨s, hs, hc⟩
    refine ⟨s, hs, ?_⟩
    unfold parentCandidate at hc
    cases hv : (t.entries s).taxVertex with
    | none => rw [hv] at hc; cases hc
    | some par =>
      rw [hv] at hc
      by_cases hchild : hasValuedChild t (t.vertices par).down = true
      · simp [hchild] at hc
      · simp [hchild] at hc
        subst hc
        refine ⟨hv, fun c hc => ?_⟩
        by_contra hcv
        exact hchild ((hasValuedChild_iff t _).mpr ⟨c, hc, by simpa using hcv⟩)
  · rintro ⟨s, hs, hv, hno⟩
    refine ⟨s, hs, ?_⟩
    unfold VertexOf at hv
    have hchild : ¬ hasValuedChild t (t.vertices x).down = true := by
      intro h
      obtain ⟨c, hc, hcv⟩ := (hasValuedChild_iff t _).mp h
      rw [hno c hc] at hcv
      cases hcv
    simp [parentCandidate, hv, hchild]

/-- C6 as amended: for a completely defined concept whose told subsumers `v`
are all classified, with the labels cleared before `setToldSubsumers(v)`, the
parents that `setNonRedundantCandidates(v)` adds to the `Current` vertex are
exactly the vertices of those told subsumers `S` in `v` for which no child of
`S` is valued, that is, no child of `S` is the vertex of a told subsumer or an
ancestor (by parent links) of the vertex of one. -/
theorem setNonRedundantCandidates_parents (t0 : Taxonomy) (v : List EntryId) (cur : VertexId)
    (fuel : Nat) (rank : VertexId → Nat)
    (hcur : t0.Current = some cur)
    (hcls : ∀ s ∈ v, isClassified t0 s = true)
    (hclear : ∀ x, isValued t0 x = false)
    (hrank : ∀ a b, b ∈ (t0.vertices a).up → rank b < rank a)
    (hfuel : ∀ s ∈ v, ∀ q, VertexOf t0 s q → rank q < fuel) :
    ∃ t1 added, setNonRedundantCandidates (setToldSubsumers fuel v t0) v = some t1 ∧
      (t1.vertices cur).up = (t0.vertices cur).up ++ added ∧
      ∀ x, x ∈ added ↔ ∃ s ∈ v, VertexOf t0 s x ∧
        ∀ c ∈ (t0.vertices x).down,
          ¬ ∃ s1 ∈ v, ∃ q, VertexOf t0 s1 q ∧ UpReach t0.vertices q c := by
  have hclosed : ClosedExcept (fun _ => False) t0.vertices := by
    intro a _ ha
    have := hclear a
    unfold isValued at this
    rw [this] at ha
    cases ha
  obtain ⟨e1, e2, e3, e4, _, e6⟩ := setToldSubsumers_valued fuel rank v t0 hrank hfuel hclosed
  obtain ⟨t1, h1, _, _, _, _, h6⟩ := setNonRedundantLoop_spec cur v (setToldSubsumers fuel v t0)
    (e2.trans hcur)
    (fun s hs => by
      have := hcls s hs
      unfold isClassified at this ⊢
      rw [e1]; exact this)
  refine ⟨t1, v.filterMap (parentCandidate (setToldSubsumers fuel v t0)), h1, ?_, fun x => ?_⟩
  · rw [h6, e3 cur]
  · rw [mem_filterMap_parentCandidate]
    have hvx : ∀ s y, VertexOf (setToldSubsumers fuel v t0) s y ↔ VertexOf t0 s y := by
      intro s y; unfold VertexOf; rw [e1]
    constructor
    · rintro ⟨s, hs, hv, hno⟩
      refine ⟨s, hs, (hvx s x).mp hv, fun c hc hex => ?_⟩
      have hval := (e6 c).mpr (Or.inr hex)
      rw [hno c (by rw [e4 x]; exact hc)] at hval
      cases hval
    · rintro ⟨s, hs, hv, hno⟩
      refine ⟨s, hs, (hvx s x).mpr hv, fun c hc => ?_⟩
      rw [e4 x] at hc
      by_contra hcv
      have hcv1 : isValued (setToldSubsumers fuel v t0) c = true := by simpa using hcv
      rcases (e6 c).mp hcv1 with h | h
      · rw [hclear c] at h; cases h
      · exact hno c hc h

theorem chainTaxonomy_rank :
    ∀ a b, b ∈ (chainTaxonomy.vertices a).up → id b < id a := by
  intro a b hb
  match a with
  | 0 => simp [chainTaxonomy] at hb
  | 1 => simp [chainTaxonomy] at hb; subst hb; decide
  | 2 => simp [chainTaxonomy] at hb; subst hb; decide
  | 3 => simp [chainTaxonomy] at hb; subst hb; decide
  | n + 4 => simp [chainTaxonomy] at hb

theorem chainTaxonomy_clear : ∀ x, isValued chainTaxonomy x = false := by
  intro x
  match x with
  | 0 => rfl
  | 1 => rfl
  | 2 => rfl
  | 3 => rfl
  | n + 4 => rfl

theorem chainTaxonomy_fuel :
    ∀ s ∈ [1, 3], ∀ q, VertexOf chainTaxonomy s q → id q < 5 := by
  intro s hs q hq
  simp at hs
  rcases hs with h | h <;> subst h <;> simp [VertexOf, chainTaxonomy] at hq <;> subst hq <;>
    decide

theorem setNonRedundantCandidates_parents_witness :
    ∃ t1 added, setNonRedundantCandidates (setToldSubsumers 5 [1, 3] chainTaxonomy) [1, 3]
        = some t1 ∧
      (t1.vertices 9).up = (chainTaxonomy.vertices 9).up ++ added ∧
      ∀ x, x ∈ added ↔ ∃ s ∈ [1, 3], VertexOf chainTaxonomy s x ∧
        ∀ c ∈ (chainTaxonomy.vertices x).down,
          ¬ ∃ s1 ∈ [1, 3], ∃ q, VertexOf chainTaxonomy s1 q ∧ UpReach chainTaxonomy.vertices q c :=
  setNonRedundantCandidates_parents chainTaxonomy [1, 3] 9 5 id rfl (by decide)
    chainTaxonomy_clear chainTaxonomy_rank chainTaxonomy_fuel

/-- C6, the claim as stated fails: in the chain taxonomy `0 ← 1 ← 2 ← 3` with
told subsumers `1` and `3`, the only child `2` of vertex `1` is not a told
subsumer, so in the words of the claim the parents are the vertices `1` and
`3`; the code gives `Current` the single parent `3`, because the child `2` is
valued as an ancestor of `3`. -/
theorem setNonRedundantCandidates_counterexample :
    (setNonRedundantCandidates (setToldSubsumers 5 [1, 3] chainTaxonomy) [1, 3]).map
        (fun t => (t.vertices 9).up) = some [3] ∧
      nonRedundantBySpec (setToldSubsumers 5 [1, 3] chainTaxonomy) [1, 3] = [1, 3] ∧
      (1 : VertexId) ∈ nonRedundantBySpec (setToldSubsumers 5 [1, 3] chainTaxonomy) [1, 3] ∧
      (1 : VertexId) ∉ [3] :=
  ⟨rfl, rfl, by decide, by decide⟩

theorem ProperAncestor_congr (vs ws : VertexId → TaxonomyVertex)
    (h : ∀ x, (ws x).down = (vs x).down) (a b : VertexId) :
    ProperAncestor ws a b → ProperAncestor vs a b := by
  intro hab
  exact Relation.TransGen.mono (fun x y hxy => by rw [← h x]; exact hxy) hab

/-- C7: when the valued labels are exactly the upward closure of the vertices
of the told subsumers, the parents that `setNonRedundantCandidates` adds to
`Current` are transitively reduced: none of them is a proper ancestor of
another one. -/
theorem nonRedundant_parents_reduced (t : Taxonomy) (v : List EntryId) (cur : VertexId)
    (hcur : t.Current = some cur)
    (hcls : ∀ s ∈ v, isClassified t s = true)
    (hclosure : ValuedIsUpClosure t v) :
    ∃ t1 added, setNonRedundantCandidates t v = some t1 ∧
      (t1.vertices cur).up = (t.vertices cur).up ++ added ∧
      ∀ a ∈ added, ∀ b ∈ added, ¬ ProperAncestor t1.vertices a b := by
  obtain ⟨t1, h1, _, _, h4, _, h6⟩ := setNonRedundantLoop_spec cur v t hcur hcls
  refine ⟨t1, v.filterMap (parentCandidate t), h1, h6, fun a ha b hb hanc => ?_⟩
  obtain ⟨_, _, _, hno⟩ := (mem_filterMap_parentCandidate t v a).mp ha
  obtain ⟨sb, hsb, hvb, _⟩ := (mem_filterMap_parentCandidate t v b).mp hb
  have hanc0 : ProperAncestor t.vertices a b := ProperAncestor_congr t.vertices t1.vertices h4 a b hanc
  obtain ⟨c, hc, hcb⟩ := Relation.TransGen.head'_iff.mp hanc0
  have hval : isValued t c = true := by
    refine (hclosure c).mpr ⟨sb, hsb, b, hvb, ?_⟩
    rcases Relation.reflTransGen_iff_eq_or_transGen.mp hcb with h | h
    · exact Or.inl h.symm
    · exact Or.inr h
  rw [hno c hc] at hval
  cases hval

theorem valuedChain_closure : ValuedIsUpClosure valuedChain [1, 3] := by
  have h23 : ProperAncestor valuedChain.vertices 2 3 :=
    Relation.TransGen.single (by simp [valuedChain])
  have h13 : ProperAncestor valuedChain.vertices 1 3 :=
    Relation.TransGen.head (by simp [valuedChain]) h23
  have h03 : ProperAncestor valuedChain.vertices 0 3 :=
    Relation.TransGen.head (by simp [valuedChain]) h13
  intro x
  match x with
  | 0 => exact ⟨fun _ => ⟨3, by simp, 3, rfl, Or.inr h03⟩, fun _ => rfl⟩
  | 1 => exact ⟨fun _ => ⟨3, by simp, 3, rfl, Or.inr h13⟩, fun _ => rfl⟩
  | 2 => exact ⟨fun _ => ⟨3, by simp, 3, rfl, Or.inr h23⟩, fun _ => rfl⟩
  | 3 => exact ⟨fun _ => ⟨3, by simp, 3, rfl, Or.inl rfl⟩, fun _ => rfl⟩
  | n + 4 =>
    constructor
    · intro h; cases h
    · rintro ⟨s, hs, q, hq, hx⟩
      exfalso
      rcases hx with h | h
      · simp at hs
        rcases hs with h1 | h1 <;> subst h1 <;> simp [VertexOf, valuedChain] at hq <;>
          subst hq <;> simp at h
      · obtain ⟨c, hc, _⟩ := Relation.TransGen.head'_iff.mp h
        simp [valuedChain] at hc

theorem nonRedundant_parents_reduced_witness :
    ∃ t1 added, setNonRedundantCandidates valuedChain [1, 3] = some t1 ∧
      (t1.vertices 9).up = (valuedChain.vertices 9).up ++ added ∧
      ∀ a ∈ added, ∀ b ∈ added, ¬ ProperAncestor t1.vertices a b :=
  nonRedundant_parents_reduced valuedChain [1, 3] 9 rfl (by decide) valuedChain_closure

/-! ### Completion graph: purge -/

theorem PurgeFrame.frame_refl (g : DlCompletionGraph) : PurgeFrame g g :=
  ⟨fun _ => rfl, fun _ => rfl, fun _ => rfl, fun _ => rfl, fun _ => rfl, fun _ => rfl,
    fun _ => rfl, fun _ h => h, fun _ _ h => h, rfl, rfl, rfl⟩

theorem PurgeFrame.frame_trans {g r s : DlCompletionGraph} (h1 : PurgeFrame g r)
    (h2 : PurgeFrame r s) : PurgeFrame g s :=
  ⟨fun n => (h2.son n).trans (h1.son n), fun n => (h2.parent n).trans (h1.parent n),
    fun n => (h2.nominal n).trans (h1.nominal n), fun a => (h2.arcEnd a).trans (h1.arcEnd a),
    fun a => (h2.role a).trans (h1.role a), fun a => (h2.rev a).trans (h1.rev a),
    fun a => (h2.dep a).trans (h1.dep a), fun a h => h2.iBlocked a (h1.iBlocked a h),
    fun n x h => h2.blocked n x (h1.blocked n x h),
    h2.sizes.1.trans h1.sizes.1, h2.sizes.2.1.trans h1.sizes.2.1,
    h2.sizes.2.2.trans h1.sizes.2.2⟩

theorem invalidateEdge_frame (g : DlCompletionGraph) (a : ArcId) :
    PurgeFrame g (invalidateEdge g a) := by
  have key : ∀ {β : Type} (f : DlCompletionTreeArc → β),
      (∀ x : DlCompletionTreeArc, f { x with iBlocked := true } = f x) →
      ∀ y, f ((invalidateEdge g a).CTEdgeHeap y) = f (g.CTEdgeHeap y) := by
    intro β f hf y
    unfold invalidateEdge saveRare
    simp only []
    rw [setAt_proj _ _ _ f (hf _) y, setAt_proj _ _ _ f (hf _) y]
  refine ⟨fun _ => rfl, fun _ => rfl, fun _ => rfl, key _ (fun _ => rfl), key _ (fun _ => rfl),
    key _ (fun _ => rfl), key _ (fun _ => rfl), ?_, fun _ _ h => h, rfl, rfl, rfl⟩
  intro y hy
  unfold invalidateEdge saveRare
  simp only []
  by_cases h2 : y = (setAt g.CTEdgeHeap a { g.CTEdgeHeap a with iBlocked := true } a).Reverse
  · rw [h2, setAt_same]
  · rw [setAt_other _ _ _ _ h2]
    by_cases h1 : y = a
    · rw [h1, setAt_same]
    · rw [setAt_other _ _ _ _ h1]; exact hy

theorem setPBlocked_frame (g : DlCompletionGraph) (p root : NodeId) (dep : DepSet)
    (hp : isPBlocked g p = false) : PurgeFrame g (setPBlocked g p root dep) := by
  have key : ∀ {β : Type} (f : DlCompletionTree → β),
      (∀ x : DlCompletionTree, f { x with pBlocked := some (root, dep) } = f x) →
      ∀ y, f ((setPBlocked g p root dep).NodeBase y) = f (g.NodeBase y) := by
    intro β f hf y
    unfold setPBlocked saveRare
    simp only []
    rw [setAt_proj _ _ _ f (hf _) y]
  refine ⟨key _ (fun _ => rfl), key _ (fun _ => rfl), key _ (fun _ => rfl), fun _ => rfl,
    fun _ => rfl, fun _ => rfl, fun _ => rfl, fun _ h => h, ?_, rfl, rfl, rfl⟩
  intro n x hn
  have hne : n ≠ p := by
    intro h
    subst h
    unfold isPBlocked at hp
    rw [hn] at hp
    cases hp
  unfold setPBlocked saveRare
  simp only []
  rw [setAt_other _ _ _ _ hne]
  exact hn

theorem setPBlocked_self (g : DlCompletionGraph) (p root : NodeId) (dep : DepSet) :
    ((setPBlocked g p root dep).NodeBase p).pBlocked = some (root, dep) := by
  unfold setPBlocked saveRare
  simp only []
  rw [setAt_same]

theorem Purge_blocked_eq (fuel : Nat) (g : DlCompletionGraph) (p root : NodeId) (dep : DepSet)
    (hp : isPBlocked g p = true) : Purge (fuel + 1) g p root dep = g := by
  simp [Purge, hp]

theorem Purge_unblocked_eq (fuel : Nat) (g : DlCompletionGraph) (p root : NodeId) (dep : DepSet)
    (hp : isPBlocked g p = false) :
    Purge (fuel + 1) g p root dep =
      (g.NodeBase p).Son.foldl
        (fun acc q =>
          if !(acc.NodeBase (acc.CTEdgeHeap q).ArcEnd).nominal then
            Purge fuel acc (acc.CTEdgeHeap q).ArcEnd root dep
          else invalidateEdge acc q)
        (setPBlocked g p root dep) := by
  simp [Purge, hp]

theorem Purge_frame (root : NodeId) (dep : DepSet) :
    ∀ (fuel : Nat) (g : DlCompletionGraph) (p : NodeId),
      PurgeFrame g (Purge fuel g p root dep) := by
  intro fuel
  induction fuel with
  | zero => intro g p; exact PurgeFrame.frame_refl g
  | succ fuel ih =>
    intro g p
    by_cases hp : isPBlocked g p = true
    · rw [Purge_blocked_eq fuel g p root dep hp]; exact PurgeFrame.frame_refl g
    · have hp0 : isPBlocked g p = false := by simpa using hp
      rw [Purge_unblocked_eq fuel g p root dep hp0]
      apply foldl_mem_invariant _ (fun acc => PurgeFrame g acc)
      · exact setPBlocked_frame g p root dep hp0
      · intro acc q _ hacc
        by_cases hn : (acc.NodeBase (acc.CTEdgeHeap q).ArcEnd).nominal = true
        · simp only [hn, Bool.not_true, Bool.false_eq_true, if_false]
          exact hacc.frame_trans (invalidateEdge_frame acc q)
        · have hn0 : (acc.NodeBase (acc.CTEdgeHeap q).ArcEnd).nominal = false := by simpa using hn
          simp only [hn0, Bool.not_false, if_true]
          exact hacc.frame_trans (ih acc _)

theorem isPBlocked_mono {g r : DlCompletionGraph} (h : PurgeFrame g r) (n : NodeId)
    (hn : isPBlocked g n = true) : isPBlocked r n = true := by
  unfold isPBlocked at hn ⊢
  obtain ⟨x, hx⟩ := Option.isSome_iff_exists.mp hn
  rw [h.blocked n x hx]
  rfl

theorem unblockedNodes_mono (N : Nat) {g r : DlCompletionGraph} (h : PurgeFrame g r) :
    unblockedNodes N r ⊆ unblockedNodes N g := by
  intro n hn
  simp only [unblockedNodes, Finset.mem_filter] at hn ⊢
  refine ⟨hn.1, ?_⟩
  by_contra hc
  have : isPBlocked g n = true := by simpa using hc
  rw [isPBlocked_mono h n this] at hn
  exact absurd hn.2 (by decide)

theorem unblockedNodes_setPBlocked (N : Nat) (g : DlCompletionGraph) (p root : NodeId)
    (dep : DepSet) (hp : isPBlocked g p = false) (hpN : p < N) :
    (unblockedNodes N (setPBlocked g p root dep)).card < (unblockedNodes N g).card := by
  apply Finset.card_lt_card
  refine ⟨unblockedNodes_mono N (setPBlocked_frame g p root dep hp), ?_⟩
  intro hsub
  have hmem : p ∈ unblockedNodes N g := by
    simp only [unblockedNodes, Finset.mem_filter, Finset.mem_range]
    exact ⟨hpN, hp⟩
  have := hsub hmem
  simp only [unblockedNodes, Finset.mem_filter, isPBlocked, setPBlocked_self] at this
  have h2 := this.2
  simp at h2

/-- The loop of `Purge` over the successor arcs keeps the frame. -/
theorem purgeLoop_frame (fuel : Nat) (root : NodeId) (dep : DepSet) (l : List ArcId)
    (acc : DlCompletionGraph) :
    PurgeFrame acc (l.foldl
      (fun acc q =>
        if !(acc.NodeBase (acc.CTEdgeHeap q).ArcEnd).nominal then
          Purge fuel acc (acc.CTEdgeHeap q).ArcEnd root dep
        else invalidateEdge acc q) acc) := by
  apply foldl_mem_invariant _ (fun r => PurgeFrame acc r)
  · exact PurgeFrame.frame_refl acc
  · intro r q _ hr
    by_cases hn : (r.NodeBase (r.CTEdgeHeap q).ArcEnd).nominal = true
    · simp only [hn, Bool.not_true, Bool.false_eq_true, if_false]
      exact hr.frame_trans (invalidateEdge_frame r q)
    · have hn0 : (r.NodeBase (r.CTEdgeHeap q).ArcEnd).nominal = false := by simpa using hn
      simp only [hn0, Bool.not_false, if_true]
      exact hr.frame_trans (Purge_frame root dep fuel r _)

/-- With enough fuel `Purge` p-blocks its node, and every node it newly
p-blocks has all its blockable successors p-blocked at the end. -/
theorem Purge_closure (root : NodeId) (dep : DepSet) (N : Nat) :
    ∀ (fuel : Nat) (g : DlCompletionGraph) (p : NodeId),
      (∀ n < N, ∀ q ∈ (g.NodeBase n).Son, (g.CTEdgeHeap q).ArcEnd < N) → p < N →
      (unblockedNodes N g).card < fuel →
      isPBlocked (Purge fuel g p root dep) p = true ∧
      ∀ n, isPBlocked (Purge fuel g p root dep) n = true → isPBlocked g n = false →
        ∀ q ∈ (g.NodeBase n).Son, (g.NodeBase (g.CTEdgeHeap q).ArcEnd).nominal = false →
          isPBlocked (Purge fuel g p root dep) (g.CTEdgeHeap q).ArcEnd = true := by
  intro fuel
  induction fuel with
  | zero => intro g p _ _ hf; omega
  | succ fuel ih =>
    intro g p hwf hpN hfuel
    by_cases hp : isPBlocked g p = true
    · rw [Purge_blocked_eq fuel g p root dep hp]
      refine ⟨hp, fun n hn hn0 => ?_⟩
      rw [hn] at hn0; cases hn0
    · have hp0 : isPBlocked g p = false := by simpa using hp
      rw [Purge_unblocked_eq fuel g p root dep hp0]
      obtain ⟨F, hF⟩ : ∃ F : DlCompletionGraph → ArcId → DlCompletionGraph,
          F = fun acc q =>
            if !(acc.NodeBase (acc.CTEdgeHeap q).ArcEnd).nominal then
              Purge fuel acc (acc.CTEdgeHeap q).ArcEnd root dep
            else invalidateEdge acc q := ⟨_, rfl⟩
      rw [← hF]
      have hFframe : ∀ l acc, PurgeFrame acc (List.foldl F acc l) := by
        intro l acc; rw [hF]; exact purgeLoop_frame fuel root dep l acc
      obtain ⟨g1, hg1⟩ : ∃ g1, g1 = setPBlocked g p root dep := ⟨_, rfl⟩
      rw [← hg1]
      have hfr1 : PurgeFrame g g1 := by rw [hg1]; exact setPBlocked_frame g p root dep hp0
      have hcard1 : (unblockedNodes N g1).card < fuel := by
        have := unblockedNodes_setPBlocked N g p root dep hp0 hpN
        rw [← hg1] at this
        omega
      -- invariant of the loop over the successor arcs of p
      have hloop : ∀ (l : List ArcId) (acc : DlCompletionGraph),
          (∀ q ∈ l, q ∈ (g.NodeBase p).Son) → PurgeFrame g1 acc →
          (∀ n, isPBlocked acc n = true → isPBlocked g n = false → n ≠ p →
            ∀ q ∈ (g.NodeBase n).Son, (g.NodeBase (g.CTEdgeHeap q).ArcEnd).nominal = false →
              isPBlocked acc (g.CTEdgeHeap q).ArcEnd = true) →
          (∀ n, isPBlocked (List.foldl F acc l) n = true → isPBlocked g n = false → n ≠ p →
            ∀ q ∈ (g.NodeBase n).Son, (g.NodeBase (g.CTEdgeHeap q).ArcEnd).nominal = false →
              isPBlocked (List.foldl F acc l) (g.CTEdgeHeap q).ArcEnd = true) ∧
          (∀ q ∈ l, (g.NodeBase (g.CTEdgeHeap q).ArcEnd).nominal = false →
            isPBlocked (List.foldl F acc l) (g.CTEdgeHeap q).ArcEnd = true) := by
        intro l
        induction l with
        | nil =>
          intro acc _ _ hJ
          exact ⟨hJ, fun q hq => absurd hq (List.not_mem_nil _)⟩
        | cons q qs ihl =>
          intro acc hmem hfr hJ
          have hq : q ∈ (g.NodeBase p).Son := hmem q (List.mem_cons_self _ _)
          have hfrg : PurgeFrame g acc := hfr1.frame_trans hfr
          have hend : (acc.CTEdgeHeap q).ArcEnd = (g.CTEdgeHeap q).ArcEnd := hfrg.arcEnd q
          have hnomeq : (acc.NodeBase (acc.CTEdgeHeap q).ArcEnd).nominal
              = (g.NodeBase (g.CTEdgeHeap q).ArcEnd).nominal := by
            rw [hend]; exact hfrg.nominal _
          -- one round of the loop
          have hstep : PurgeFrame g1 (F acc q) ∧
              (∀ n, isPBlocked (F acc q) n = true → isPBlocked g n = false → n ≠ p →
                ∀ q1 ∈ (g.NodeBase n).Son,
                  (g.NodeBase (g.CTEdgeHeap q1).ArcEnd).nominal = false →
                  isPBlocked (F acc q) (g.CTEdgeHeap q1).ArcEnd = true) ∧
              ((g.NodeBase (g.CTEdgeHeap q).ArcEnd).nominal = false →
                isPBlocked (F acc q) (g.CTEdgeHeap q).ArcEnd = true) := by
            by_cases hn : (g.NodeBase (g.CTEdgeHeap q).ArcEnd).nominal = true
            · have hFq : F acc q = invalidateEdge acc q := by
                rw [hF]; simp only [hnomeq, hn, Bool.not_true, Bool.false_eq_true, if_false]
              rw [hFq]
              refine ⟨hfr.frame_trans (invalidateEdge_frame acc q), ?_, fun h => ?_⟩
              · intro n hbn hgn hnp q1 hq1 hnom
                exact hJ n hbn hgn hnp q1 hq1 hnom
              · rw [hn] at h; cases h
            · have hn0 : (g.NodeBase (g.CTEdgeHeap q).ArcEnd).nominal = false := by
                simpa using hn
              have hnom2 : (acc.NodeBase (g.CTEdgeHeap q).ArcEnd).nominal = false := by
                rw [hfrg.nominal]; exact hn0
              have hFq : F acc q = Purge fuel acc (g.CTEdgeHeap q).ArcEnd root dep := by
                rw [hF]; simp only [hend, hnom2, Bool.not_false, if_true]
              rw [hFq]
              have hwfacc : ∀ n < N, ∀ q1 ∈ (acc.NodeBase n).Son,
                  (acc.CTEdgeHeap q1).ArcEnd < N := by
                intro n hn1 q1 hq1
                rw [hfrg.arcEnd q1]
                exact hwf n hn1 q1 (by rw [← hfrg.son n]; exact hq1)
              have hcard : (unblockedNodes N acc).card < fuel :=
                lt_of_le_of_lt (Finset.card_le_card (unblockedNodes_mono N hfr)) hcard1
              obtain ⟨i1, i2⟩ := ih acc (g.CTEdgeHeap q).ArcEnd hwfacc (hwf p hpN q hq) hcard
              have hfrP := Purge_frame root dep fuel acc (g.CTEdgeHeap q).ArcEnd
              refine ⟨hfr.frame_trans hfrP, ?_, fun _ => i1⟩
              intro n hbn hgn hnp q1 hq1 hnom
              by_cases hacc : isPBlocked acc n = true
              · exact isPBlocked_mono hfrP _ (hJ n hacc hgn hnp q1 hq1 hnom)
              · have hacc0 : isPBlocked acc n = false := by simpa using hacc
                have := i2 n hbn hacc0 q1 (by rw [hfrg.son n]; exact hq1)
                  (by rw [hfrg.arcEnd q1, hfrg.nominal]; exact hnom)
                rw [hfrg.arcEnd q1] at this
                exact this
          obtain ⟨s1, s2, s3⟩ := hstep
          obtain ⟨r1, r2⟩ := ihl (F acc q) (fun x hx => hmem x (List.mem_cons_of_mem _ hx)) s1 s2
          refine ⟨r1, fun x hx hnom => ?_⟩
          rcases List.mem_cons.mp hx with h | h
          · subst h
            exact isPBlocked_mono (hFframe qs (F acc x)) _ (s3 hnom)
          · exact r2 x h hnom
      have hJ1 : ∀ n, isPBlocked g1 n = true → isPBlocked g n = false → n ≠ p →
          ∀ q ∈ (g.NodeBase n).Son, (g.NodeBase (g.CTEdgeHeap q).ArcEnd).nominal = false →
            isPBlocked g1 (g.CTEdgeHeap q).ArcEnd = true := by
        intro n hbn hgn hnp
        exfalso
        rw [hg1] at hbn
        unfold isPBlocked setPBlocked saveRare at hbn
        simp only [] at hbn
        rw [setAt_other _ _ _ _ hnp] at hbn
        unfold isPBlocked at hgn
        rw [hgn] at hbn
        cases hbn
      obtain ⟨r1, r2⟩ := hloop (g.NodeBase p).Son g1 (fun q hq => hq) (PurgeFrame.frame_refl g1) hJ1
      have hpb1 : isPBlocked g1 p = true := by
        rw [hg1]; unfold isPBlocked; rw [setPBlocked_self]; rfl
      refine ⟨isPBlocked_mono (hFframe _ g1) p hpb1, ?_⟩
      intro n hbn hgn q hq hnom
      by_cases hnp : n = p
      · subst hnp
        exact r2 q hq hnom
      · exact r1 n hbn hgn hnp q hq hnom

/-! ### Completion graph: merge -/

theorem MergeExt.ext_refl (dep : DepSet) (g : DlCompletionGraph) : MergeExt dep g g :=
  ⟨le_refl _, fun _ _ => rfl, fun _ _ => rfl, fun _ _ => rfl, fun _ _ h => h,
    fun _ _ => Or.inl rfl, fun a h1 h2 => absurd h2 (not_lt.mpr h1), fun _ => rfl,
    fun _ => ⟨[], by simp, by simp⟩, fun _ => ⟨[], by simp, by simp⟩, fun _ => rfl, rfl⟩

theorem MergeExt.ext_trans {dep : DepSet} {g r s : DlCompletionGraph} (h1 : MergeExt dep g r)
    (h2 : MergeExt dep r s) : MergeExt dep g s := by
  have hlt : ∀ a, a < g.nEdges → a < r.nEdges := fun a ha => lt_of_lt_of_le ha h1.nEdges
  refine ⟨le_trans h1.nEdges h2.nEdges,
    fun a ha => (h2.arcEnd a (hlt a ha)).trans (h1.arcEnd a ha),
    fun a ha => (h2.role a (hlt a ha)).trans (h1.role a ha),
    fun a ha => (h2.rev a (hlt a ha)).trans (h1.rev a ha),
    fun a ha h => h2.iBlocked a (hlt a ha) (h1.iBlocked a ha h), ?_, ?_,
    fun n => (h2.nominal n).trans (h1.nominal n), ?_, ?_,
    fun n => (h2.blocked n).trans (h1.blocked n), h2.endUsed.trans h1.endUsed⟩
  · intro a ha
    rcases h1.depOld a ha with e1 | e1 <;> rcases h2.depOld a (hlt a ha) with e2 | e2
    · exact Or.inl (e2.trans e1)
    · exact Or.inr (by rw [e2, e1])
    · exact Or.inr (e2.trans e1)
    · exact Or.inr (by rw [e2, e1, Finset.union_assoc, Finset.union_self])
  · intro a ha1 ha2
    by_cases har : a < r.nEdges
    · rcases h2.depOld a har with e2 | e2
      · rw [e2, h1.depNew a ha1 har]
      · rw [e2, h1.depNew a ha1 har, Finset.union_self]
    · exact h2.depNew a (not_lt.mp har) ha2
  · intro n
    obtain ⟨l1, e1, b1⟩ := h1.parent n
    obtain ⟨l2, e2, b2⟩ := h2.parent n
    refine ⟨l1 ++ l2, by rw [e2, e1, List.append_assoc], fun q hq => ?_⟩
    rcases List.mem_append.mp hq with h | h
    · exact lt_of_lt_of_le (b1 q h) h2.nEdges
    · exact b2 q h
  · intro n
    obtain ⟨l1, e1, b1⟩ := h1.son n
    obtain ⟨l2, e2, b2⟩ := h2.son n
    refine ⟨l1 ++ l2, by rw [e2, e1, List.append_assoc], fun q hq => ?_⟩
    rcases List.mem_append.mp hq with h | h
    · exact lt_of_lt_of_le (b1 q h) h2.nEdges
    · exact b2 q h

theorem MergeExt.of_frame (dep : DepSet) {g r : DlCompletionGraph} (h : PurgeFrame g r)
    (hb : ∀ n, (r.NodeBase n).pBlocked = (g.NodeBase n).pBlocked) : MergeExt dep g r :=
  ⟨le_of_eq h.sizes.2.1.symm, fun a _ => h.arcEnd a, fun a _ => h.role a, fun a _ => h.rev a,
    fun a _ => h.iBlocked a, fun a _ => Or.inl (h.dep a),
    fun a h1 h2 => absurd (h.sizes.2.1 ▸ h2) (not_lt.mpr h1), h.nominal,
    fun n => ⟨[], by simp [h.parent n], by simp⟩, fun n => ⟨[], by simp [h.son n], by simp⟩,
    hb, h.sizes.1⟩

theorem invalidateEdge_ext (dep : DepSet) (g : DlCompletionGraph) (a : ArcId) :
    MergeExt dep g (invalidateEdge g a) :=
  MergeExt.of_frame dep (invalidateEdge_frame g a) (fun _ => rfl)

theorem initArcs_ext (inv : RoleId → RoleId) (g : DlCompletionGraph) (from_ to_ : NodeId)
    (R : RoleId) (dep : DepSet) : MergeExt dep g (initArcs inv g from_ to_ R dep) := by
  have hold : ∀ a < g.nEdges, (initArcs inv g from_ to_ R dep).CTEdgeHeap a = g.CTEdgeHeap a := by
    intro a ha
    unfold initArcs
    simp only []
    rw [setAt_other _ _ _ _ (by omega), setAt_other _ _ _ _ (by omega)]
  refine ⟨by unfold initArcs; simp, fun a ha => by rw [hold a ha], fun a ha => by rw [hold a ha],
    fun a ha => by rw [hold a ha], fun a ha h => by rw [hold a ha]; exact h,
    fun a ha => Or.inl (by rw [hold a ha]), ?_, fun _ => rfl,
    fun _ => ⟨[], by simp [initArcs], by simp⟩, fun _ => ⟨[], by simp [initArcs], by simp⟩,
    fun _ => rfl, rfl⟩
  intro a h1 h2
  have h2' : a < g.nEdges + 2 := h2
  by_cases h : a = g.nEdges + 1
  · unfold initArcs; simp only []; rw [h, setAt_same]
  · have : a = g.nEdges := by omega
    unfold initArcs; simp only []
    rw [setAt_other _ _ _ _ h, this, setAt_same]

theorem saveNode_node (g : DlCompletionGraph) (node : NodeId) (level : Nat) {β : Type}
    (f : DlCompletionTree → β)
    (hf : ∀ (x : DlCompletionTree) (s : List NodeSaveState) (l : Nat),
      f { x with saves := s, curLevel := l } = f x) (n : NodeId) :
    f ((saveNode g node level).NodeBase n) = f (g.NodeBase n) := by
  unfold saveNode
  split
  · simp only []
    exact setAt_proj _ _ _ f (hf _ _ _) n
  · rfl

theorem saveNode_ext (dep : DepSet) (g : DlCompletionGraph) (node : NodeId) (level : Nat) :
    MergeExt dep g (saveNode g node level) := by
  have hh : (saveNode g node level).CTEdgeHeap = g.CTEdgeHeap := by
    unfold saveNode; split <;> rfl
  have hn : (saveNode g node level).nEdges = g.nEdges := by
    unfold saveNode; split <;> rfl
  have he : (saveNode g node level).endUsed = g.endUsed := by
    unfold saveNode; split <;> rfl
  refine ⟨le_of_eq hn.symm, fun a _ => by rw [hh], fun a _ => by rw [hh], fun a _ => by rw [hh],
    fun a _ h => by rw [hh]; exact h, fun a _ => Or.inl (by rw [hh]),
    fun a h1 h2 => absurd (hn ▸ h2) (not_lt.mpr h1),
    saveNode_node g node level _ (fun _ _ _ => rfl),
    fun n => ⟨[], by simp [saveNode_node g node level DlCompletionTree.Parent (fun _ _ _ => rfl) n],
      by simp⟩,
    fun n => ⟨[], by simp [saveNode_node g node level DlCompletionTree.Son (fun _ _ _ => rfl) n],
      by simp⟩,
    saveNode_node g node level _ (fun _ _ _ => rfl), he⟩

theorem addParent_ext (dep : DepSet) (g : DlCompletionGraph) (node : NodeId) (a : Nat)
    (ha : a < g.nEdges) : MergeExt dep g (addParent g node a) := by
  have key : ∀ {β : Type} (f : DlCompletionTree → β),
      (∀ (x : DlCompletionTree) (l : List ArcId), f { x with Parent := l } = f x) →
      ∀ n, f ((addParent g node a).NodeBase n) = f (g.NodeBase n) := by
    intro β f hf n
    unfold addParent
    simp only []
    exact setAt_proj _ _ _ f (hf _ _) n
  refine ⟨le_refl _, fun _ _ => rfl, fun _ _ => rfl, fun _ _ => rfl, fun _ _ h => h,
    fun _ _ => Or.inl rfl, fun b h1 h2 => absurd h2 (not_lt.mpr h1), key _ (fun _ _ => rfl), ?_,
    fun n => ⟨[], by simp [key DlCompletionTree.Son (fun _ _ => rfl) n], by simp⟩,
    key _ (fun _ _ => rfl), rfl⟩
  intro n
  by_cases hn : n = node
  · subst hn
    refine ⟨[a], ?_, fun q hq => ?_⟩
    · unfold addParent; simp only []; rw [setAt_same]
    · simp at hq; subst hq; exact ha
  · refine ⟨[], ?_, by simp⟩
    unfold addParent; simp only []; rw [setAt_other _ _ _ _ hn]; simp

theorem addChild_ext (dep : DepSet) (g : DlCompletionGraph) (node : NodeId) (a : Nat)
    (ha : a < g.nEdges) : MergeExt dep g (addChild g node a) := by
  have key : ∀ {β : Type} (f : DlCompletionTree → β),
      (∀ (x : DlCompletionTree) (l : List ArcId), f { x with Son := l } = f x) →
      ∀ n, f ((addChild g node a).NodeBase n) = f (g.NodeBase n) := by
    intro β f hf n
    unfold addChild
    simp only []
    exact setAt_proj _ _ _ f (hf _ _) n
  refine ⟨le_refl _, fun _ _ => rfl, fun _ _ => rfl, fun _ _ => rfl, fun _ _ h => h,
    fun _ _ => Or.inl rfl, fun b h1 h2 => absurd h2 (not_lt.mpr h1), key _ (fun _ _ => rfl),
    fun n => ⟨[], by simp [key DlCompletionTree.Parent (fun _ _ => rfl) n], by simp⟩, ?_,
    key _ (fun _ _ => rfl), rfl⟩
  intro n
  by_cases hn : n = node
  · subst hn
    refine ⟨[a], ?_, fun q hq => ?_⟩
    · unfold addChild; simp only []; rw [setAt_same]
    · simp at hq; subst hq; exact ha
  · refine ⟨[], ?_, by simp⟩
    unfold addChild; simp only []; rw [setAt_other _ _ _ _ hn]; simp

theorem createEdge_fst (inv : RoleId → RoleId) (g : DlCompletionGraph) (from_ to_ : NodeId)
    (isUpLink : Bool) (R : RoleId) (dep : DepSet) :
    (createEdge inv g from_ to_ isUpLink R dep).1 =
      if isUpLink then
        addChild (addParent (saveNode (saveNode (initArcs inv g from_ to_ R dep) from_
          g.branchingLevel) to_ g.branchingLevel) from_ g.nEdges) to_ (g.nEdges + 1)
      else
        addParent (addChild (saveNode (saveNode (initArcs inv g from_ to_ R dep) from_
          g.branchingLevel) to_ g.branchingLevel) from_ g.nEdges) to_ (g.nEdges + 1) := rfl

theorem createEdge_ext (inv : RoleId → RoleId) (g : DlCompletionGraph) (from_ to_ : NodeId)
    (isUpLink : Bool) (R : RoleId) (dep : DepSet) :
    MergeExt dep g (createEdge inv g from_ to_ isUpLink R dep).1 := by
  rw [createEdge_fst]
  have h1 := initArcs_ext inv g from_ to_ R dep
  have h2 := saveNode_ext dep (initArcs inv g from_ to_ R dep) from_ g.branchingLevel
  have h3 := saveNode_ext dep (saveNode (initArcs inv g from_ to_ R dep) from_ g.branchingLevel)
    to_ g.branchingLevel
  have hn : (saveNode (saveNode (initArcs inv g from_ to_ R dep) from_ g.branchingLevel) to_
      g.branchingLevel).nEdges = g.nEdges + 2 := by
    have e3 : ∀ (x : DlCompletionGraph) (n l : Nat), (saveNode x n l).nEdges = x.nEdges := by
      intro x n l; unfold saveNode; split <;> rfl
    rw [e3, e3]; rfl
  obtain ⟨g2, hg2⟩ : ∃ g2, g2 = saveNode (saveNode (initArcs inv g from_ to_ R dep) from_
      g.branchingLevel) to_ g.branchingLevel := ⟨_, rfl⟩
  rw [← hg2] at h3 hn ⊢
  have h123 : MergeExt dep g g2 := (h1.ext_trans h2).ext_trans h3
  cases isUpLink with
  | true =>
    simp only [if_true]
    have h4 := addParent_ext dep g2 from_ g.nEdges (by omega)
    have h5 := addChild_ext dep (addParent g2 from_ g.nEdges) to_ (g.nEdges + 1)
      (by show g.nEdges + 1 < g2.nEdges; omega)
    exact (h123.ext_trans h4).ext_trans h5
  | false =>
    simp only [Bool.false_eq_true, if_false]
    have h4 := addChild_ext dep g2 from_ g.nEdges (by omega)
    have h5 := addParent_ext dep (addChild g2 from_ g.nEdges) to_ (g.nEdges + 1)
      (by show g.nEdges + 1 < g2.nEdges; omega)
    exact (h123.ext_trans h4).ext_trans h5

theorem addDep_ext (dep : DepSet) (g : DlCompletionGraph) (a : ArcId) (r : Restorer) :
    MergeExt dep g (saveRare
      { g with
        CTEdgeHeap := setAt g.CTEdgeHeap a
          { g.CTEdgeHeap a with depSet := (g.CTEdgeHeap a).depSet ∪ dep } } r) := by
  have key : ∀ {β : Type} (f : DlCompletionTreeArc → β),
      (∀ (x : DlCompletionTreeArc) (d : DepSet), f { x with depSet := d } = f x) →
      ∀ y, f ((setAt g.CTEdgeHeap a
          { g.CTEdgeHeap a with depSet := (g.CTEdgeHeap a).depSet ∪ dep }) y)
        = f (g.CTEdgeHeap y) := by
    intro β f hf y
    exact setAt_proj _ _ _ f (hf _ _) y
  refine ⟨le_refl _, fun y _ => key DlCompletionTreeArc.ArcEnd (fun _ _ => rfl) y,
    fun y _ => key DlCompletionTreeArc.Role (fun _ _ => rfl) y,
    fun y _ => key DlCompletionTreeArc.Reverse (fun _ _ => rfl) y,
    fun y _ h => by
      have := key DlCompletionTreeArc.iBlocked (fun _ _ => rfl) y
      exact this.trans h,
    ?_, fun b h1 h2 => absurd h2 (not_lt.mpr h1), fun _ => rfl, fun _ => ⟨[], by simp [saveRare], by simp⟩,
    fun _ => ⟨[], by simp [saveRare], by simp⟩, fun _ => rfl, rfl⟩
  intro y _
  by_cases hy : y = a
  · subst hy; right
    show (setAt g.CTEdgeHeap y _ y).depSet = _
    rw [setAt_same]
  · left
    show (setAt g.CTEdgeHeap a _ y).depSet = _
    rw [setAt_other _ _ _ _ hy]

theorem addRoleLabel_ext (inv : RoleId → RoleId) (g : DlCompletionGraph) (from_ to_ : NodeId)
    (isUpLink : Bool) (R : RoleId) (dep : DepSet) :
    MergeExt dep g (addRoleLabel inv g from_ to_ isUpLink R dep).1 := by
  unfold addRoleLabel
  cases getEdgeLabelled g from_ R to_ with
  | some a => exact addDep_ext dep g a _
  | none => exact createEdge_ext inv g from_ to_ isUpLink R dep

/-- The graph and arc that `moveEdge` gets from `addRoleLabel` for an edge it
moves. -/
theorem moveEdge_move (inv : RoleId → RoleId) (g : DlCompletionGraph) (node : NodeId)
    (edge : ArcId) (isUpLink : Bool) (dep : DepSet)
    (hvalid : (g.CTEdgeHeap edge).iBlocked = false)
    (hlink : (!isUpLink && !(g.NodeBase (g.CTEdgeHeap edge).ArcEnd).nominal) = false)
    (hrefl : isReflexiveEdge g edge = false) :
    moveEdge inv g node edge isUpLink dep =
      (invalidateEdge
        (if (if isUpLink then (g.NodeBase node).Son else (g.NodeBase node).Parent).any
            (fun p => (g.CTEdgeHeap p).ArcEnd == (g.CTEdgeHeap edge).ArcEnd) then
          addRoleLabel inv g node (g.CTEdgeHeap edge).ArcEnd (!isUpLink) (g.CTEdgeHeap edge).Role dep
        else
          addRoleLabel inv g node (g.CTEdgeHeap edge).ArcEnd isUpLink
            (g.CTEdgeHeap edge).Role dep).1 edge,
       some
        (if (if isUpLink then (g.NodeBase node).Son else (g.NodeBase node).Parent).any
            (fun p => (g.CTEdgeHeap p).ArcEnd == (g.CTEdgeHeap edge).ArcEnd) then
          addRoleLabel inv g node (g.CTEdgeHeap edge).ArcEnd (!isUpLink) (g.CTEdgeHeap edge).Role dep
        else
          addRoleLabel inv g node (g.CTEdgeHeap edge).ArcEnd isUpLink
            (g.CTEdgeHeap edge).Role dep).2) := by
  unfold moveEdge
  simp only [hvalid, hlink, hrefl, Bool.false_eq_true, if_false, Bool.not_false, if_true]

theorem moveEdge_cases (inv : RoleId → RoleId) (g : DlCompletionGraph) (node : NodeId)
    (edge : ArcId) (isUpLink : Bool) (dep : DepSet) :
    moveEdge inv g node edge isUpLink dep = (g, none) ∨
    moveEdge inv g node edge isUpLink dep = (invalidateEdge g edge, none) ∨
    ∃ up1, moveEdge inv g node edge isUpLink dep =
      (invalidateEdge (addRoleLabel inv g node (g.CTEdgeHeap edge).ArcEnd up1
          (g.CTEdgeHeap edge).Role dep).1 edge,
        some (addRoleLabel inv g node (g.CTEdgeHeap edge).ArcEnd up1
          (g.CTEdgeHeap edge).Role dep).2) := by
  by_cases hvalid : (g.CTEdgeHeap edge).iBlocked = true
  · left; simp [moveEdge, hvalid]
  · have hvalid0 : (g.CTEdgeHeap edge).iBlocked = false := by simpa using hvalid
    by_cases hlink : (!isUpLink && !(g.NodeBase (g.CTEdgeHeap edge).ArcEnd).nominal) = true
    · left
      unfold moveEdge
      simp only [hvalid0, Bool.false_eq_true, if_false, hlink, if_true]
    · have hlink0 : (!isUpLink && !(g.NodeBase (g.CTEdgeHeap edge).ArcEnd).nominal) = false := by
        simpa using hlink
      by_cases hrefl : isReflexiveEdge g edge = true
      · right; left
        unfold moveEdge
        simp only [hvalid0, hlink0, hrefl, Bool.false_eq_true, if_false, Bool.not_true]
      · have hrefl0 : isReflexiveEdge g edge = false := by simpa using hrefl
        right; right
        rw [moveEdge_move inv g node edge isUpLink dep hvalid0 hlink0 hrefl0]
        by_cases hany : (if isUpLink then (g.NodeBase node).Son else (g.NodeBase node).Parent).any
            (fun p => (g.CTEdgeHeap p).ArcEnd == (g.CTEdgeHeap edge).ArcEnd) = true
        · exact ⟨!isUpLink, by simp only [hany, if_true]⟩
        · exact ⟨isUpLink, by simp only [hany, Bool.false_eq_true, if_false]⟩

theorem moveEdge_ext (inv : RoleId → RoleId) (g : DlCompletionGraph) (node : NodeId)
    (edge : ArcId) (isUpLink : Bool) (dep : DepSet) :
    MergeExt dep g (moveEdge inv g node edge isUpLink dep).1 := by
  rcases moveEdge_cases inv g node edge isUpLink dep with h | h | ⟨up1, h⟩
  · rw [h]; exact MergeExt.ext_refl dep g
  · rw [h]; exact invalidateEdge_ext dep g edge
  · rw [h]
    exact (addRoleLabel_ext inv g node _ up1 _ dep).ext_trans (invalidateEdge_ext dep _ edge)

theorem moveEdges_cons (inv : RoleId → RoleId) (to_ : NodeId) (isUpLink : Bool) (dep : DepSet)
    (q : ArcId) (qs : List ArcId) (g : DlCompletionGraph) (edges : List ArcId) :
    moveEdges inv to_ isUpLink dep (q :: qs) (g, edges) =
      moveEdges inv to_ isUpLink dep qs
        ((moveEdge inv g to_ q isUpLink dep).1,
          match (moveEdge inv g to_ q isUpLink dep).2 with
          | some temp => edges ++ [temp]
          | none => edges) := by
  rw [moveEdges]
  rcases hm : moveEdge inv g to_ q isUpLink dep with ⟨g1, _ | temp⟩ <;> simp

theorem moveEdges_append (inv : RoleId → RoleId) (to_ : NodeId) (isUpLink : Bool) (dep : DepSet) :
    ∀ (l1 l2 : List ArcId) (acc : DlCompletionGraph × List ArcId),
      moveEdges inv to_ isUpLink dep (l1 ++ l2) acc =
        moveEdges inv to_ isUpLink dep l2 (moveEdges inv to_ isUpLink dep l1 acc) := by
  intro l1
  induction l1 with
  | nil => intro l2 acc; simp [moveEdges]
  | cons q qs ih =>
    intro l2 acc
    obtain ⟨g, edges⟩ := acc
    rw [List.cons_append, moveEdges_cons, moveEdges_cons, ih]

theorem moveEdges_ext (inv : RoleId → RoleId) (to_ : NodeId) (isUpLink : Bool) (dep : DepSet) :
    ∀ (l : List ArcId) (g : DlCompletionGraph) (edges : List ArcId),
      MergeExt dep g (moveEdges inv to_ isUpLink dep l (g, edges)).1 ∧
      ∃ l1, (moveEdges inv to_ isUpLink dep l (g, edges)).2 = edges ++ l1 := by
  intro l
  induction l with
  | nil => intro g edges; exact ⟨MergeExt.ext_refl dep g, [], by simp [moveEdges]⟩
  | cons q qs ih =>
    intro g edges
    rw [moveEdges_cons]
    obtain ⟨h1, l1, h2⟩ := ih (moveEdge inv g to_ q isUpLink dep).1
      (match (moveEdge inv g to_ q isUpLink dep).2 with
        | some temp => edges ++ [temp]
        | none => edges)
    refine ⟨(moveEdge_ext inv g to_ q isUpLink dep).ext_trans h1, ?_⟩
    rw [h2]
    cases (moveEdge inv g to_ q isUpLink dep).2 with
    | none => exact ⟨l1, rfl⟩
    | some temp => exact ⟨temp :: l1, by simp⟩

theorem updateIR_ext (dep : DepSet) (g : DlCompletionGraph) (to_ from_ : NodeId) :
    MergeExt dep g (updateIR g to_ from_ dep) := by
  have key : ∀ {β : Type} (f : DlCompletionTree → β),
      (∀ (x : DlCompletionTree) (l : List (NodeId × DepSet)), f { x with IR := l } = f x) →
      ∀ n, f ((updateIR g to_ from_ dep).NodeBase n) = f (g.NodeBase n) := by
    intro β f hf n
    unfold updateIR saveRare
    simp only []
    exact setAt_proj _ _ _ f (hf _ _) n
  exact ⟨le_refl _, fun _ _ => rfl, fun _ _ => rfl, fun _ _ => rfl, fun _ _ h => h,
    fun _ _ => Or.inl rfl, fun b h1 h2 => absurd h2 (not_lt.mpr h1), key _ (fun _ _ => rfl),
    fun n => ⟨[], by simp [key DlCompletionTree.Parent (fun _ _ => rfl) n], by simp⟩,
    fun n => ⟨[], by simp [key DlCompletionTree.Son (fun _ _ => rfl) n], by simp⟩,
    key _ (fun _ _ => rfl), rfl⟩

theorem invalidateEdge_self (g : DlCompletionGraph) (a : ArcId) :
    ((invalidateEdge g a).CTEdgeHeap a).iBlocked = true := by
  unfold invalidateEdge saveRare
  simp only []
  by_cases h : a = (setAt g.CTEdgeHeap a { g.CTEdgeHeap a with iBlocked := true } a).Reverse
  · rw [← h, setAt_same]
  · rw [setAt_other _ _ _ _ h, setAt_same]

theorem invalidateEdge_other (g : DlCompletionGraph) (a b : ArcId) (h1 : b ≠ a)
    (h2 : b ≠ (g.CTEdgeHeap a).Reverse) :
    (invalidateEdge g a).CTEdgeHeap b = g.CTEdgeHeap b := by
  unfold invalidateEdge saveRare
  simp only []
  have hrev : (setAt g.CTEdgeHeap a { g.CTEdgeHeap a with iBlocked := true } a).Reverse
      = (g.CTEdgeHeap a).Reverse := by rw [setAt_same]
  rw [hrev, setAt_other _ _ _ _ h2, setAt_other _ _ _ _ h1]

theorem saveNode_heap (g : DlCompletionGraph) (node : NodeId) (level : Nat) :
    (saveNode g node level).CTEdgeHeap = g.CTEdgeHeap ∧
      (saveNode g node level).nEdges = g.nEdges := by
  unfold saveNode; split <;> exact ⟨rfl, rfl⟩

theorem createEdge_heap (inv : RoleId → RoleId) (g : DlCompletionGraph) (from_ to_ : NodeId)
    (isUpLink : Bool) (R : RoleId) (dep : DepSet) :
    (createEdge inv g from_ to_ isUpLink R dep).1.CTEdgeHeap
        = (initArcs inv g from_ to_ R dep).CTEdgeHeap ∧
      (createEdge inv g from_ to_ isUpLink R dep).1.nEdges = g.nEdges + 2 ∧
      (createEdge inv g from_ to_ isUpLink R dep).2 = g.nEdges := by
  rw [createEdge_fst]
  refine ⟨?_, ?_, rfl⟩
  · cases isUpLink
    · simp only [Bool.false_eq_true, if_false]
      show (saveNode (saveNode _ _ _) _ _).CTEdgeHeap = _
      rw [(saveNode_heap _ _ _).1, (saveNode_heap _ _ _).1]
    · simp only [if_true]
      show (saveNode (saveNode _ _ _) _ _).CTEdgeHeap = _
      rw [(saveNode_heap _ _ _).1, (saveNode_heap _ _ _).1]
  · cases isUpLink
    · simp only [Bool.false_eq_true, if_false]
      show (saveNode (saveNode _ _ _) _ _).nEdges = _
      rw [(saveNode_heap _ _ _).2, (saveNode_heap _ _ _).2]; rfl
    · simp only [if_true]
      show (saveNode (saveNode _ _ _) _ _).nEdges = _
      rw [(saveNode_heap _ _ _).2, (saveNode_heap _ _ _).2]; rfl

theorem initArcs_forward (inv : RoleId → RoleId) (g : DlCompletionGraph) (from_ to_ : NodeId)
    (R : RoleId) (dep : DepSet) :
    (initArcs inv g from_ to_ R dep).CTEdgeHeap g.nEdges =
      { Role := R, depSet := dep, ArcEnd := to_, Reverse := g.nEdges + 1, iBlocked := false } := by
  unfold initArcs
  simp only []
  rw [setAt_other _ _ _ _ (by omega), setAt_same]

theorem initArcs_old (inv : RoleId → RoleId) (g : DlCompletionGraph) (from_ to_ : NodeId)
    (R : RoleId) (dep : DepSet) (b : Nat) (hb : b < g.nEdges) :
    (initArcs inv g from_ to_ R dep).CTEdgeHeap b = g.CTEdgeHeap b := by
  unfold initArcs
  simp only []
  rw [setAt_other _ _ _ _ (by omega), setAt_other _ _ _ _ (by omega)]

theorem addRoleLabel_iBlocked (inv : RoleId → RoleId) (g : DlCompletionGraph)
    (from_ to_ : NodeId) (isUpLink : Bool) (R : RoleId) (dep : DepSet) (b : Nat)
    (hb : b < g.nEdges) :
    ((addRoleLabel inv g from_ to_ isUpLink R dep).1.CTEdgeHeap b).iBlocked
      = (g.CTEdgeHeap b).iBlocked := by
  unfold addRoleLabel
  cases getEdgeLabelled g from_ R to_ with
  | some a =>
    show (setAt g.CTEdgeHeap a _ b).iBlocked = _
    refine setAt_proj _ _ _ DlCompletionTreeArc.iBlocked ?_ b
    rfl
  | none =>
    show ((createEdge inv g from_ to_ isUpLink R dep).1.CTEdgeHeap b).iBlocked = _
    rw [(createEdge_heap inv g from_ to_ isUpLink R dep).1, initArcs_old _ _ _ _ _ _ b hb]

/-- The arc that `addRoleLabel` returns: it is handed out, ends in `to`, carries
the role `R`, is attached to `from`, and its dep-set is the old dep-set plus
`dep` for an arc that was there, `dep` for a new arc. -/
theorem addRoleLabel_result (inv : RoleId → RoleId) (g : DlCompletionGraph)
    (from_ to_ : NodeId) (isUpLink : Bool) (R : RoleId) (dep : DepSet)
    (halloc : ∀ q ∈ (g.NodeBase from_).Parent ++ (g.NodeBase from_).Son, q < g.nEdges) :
    (addRoleLabel inv g from_ to_ isUpLink R dep).2
        < (addRoleLabel inv g from_ to_ isUpLink R dep).1.nEdges ∧
      ((addRoleLabel inv g from_ to_ isUpLink R dep).1.CTEdgeHeap
        (addRoleLabel inv g from_ to_ isUpLink R dep).2).ArcEnd = to_ ∧
      ((addRoleLabel inv g from_ to_ isUpLink R dep).1.CTEdgeHeap
        (addRoleLabel inv g from_ to_ isUpLink R dep).2).Role = R ∧
      (addRoleLabel inv g from_ to_ isUpLink R dep).2 ∈
        ((addRoleLabel inv g from_ to_ isUpLink R dep).1.NodeBase from_).Parent ++
          ((addRoleLabel inv g from_ to_ isUpLink R dep).1.NodeBase from_).Son ∧
      (((addRoleLabel inv g from_ to_ isUpLink R dep).2 < g.nEdges ∧
          ((addRoleLabel inv g from_ to_ isUpLink R dep).1.CTEdgeHeap
            (addRoleLabel inv g from_ to_ isUpLink R dep).2).depSet =
            (g.CTEdgeHeap (addRoleLabel inv g from_ to_ isUpLink R dep).2).depSet ∪ dep) ∨
        (g.nEdges ≤ (addRoleLabel inv g from_ to_ isUpLink R dep).2 ∧
          ((addRoleLabel inv g from_ to_ isUpLink R dep).1.CTEdgeHeap
            (addRoleLabel inv g from_ to_ isUpLink R dep).2).depSet = dep)) := by
  unfold addRoleLabel
  cases hfind : getEdgeLabelled g from_ R to_ with
  | some a =>
    have hmem : a ∈ (g.NodeBase from_).Parent ++ (g.NodeBase from_).Son :=
      List.mem_of_find?_eq_some hfind
    have hp := List.find?_some hfind
    simp only [Bool.and_eq_true, beq_iff_eq] at hp
    have hlt : a < g.nEdges := halloc a hmem
    refine ⟨hlt, ?_, ?_, hmem, Or.inl ⟨hlt, ?_⟩⟩
    · show (setAt g.CTEdgeHeap a _ a).ArcEnd = to_
      rw [setAt_same]; exact hp.1.1
    · show (setAt g.CTEdgeHeap a _ a).Role = R
      rw [setAt_same]; exact hp.1.2
    · show (setAt g.CTEdgeHeap a _ a).depSet = _
      rw [setAt_same]
  | none =>
    obtain ⟨hh, hn, ha⟩ := createEdge_heap inv g from_ to_ isUpLink R dep
    simp only []
    rw [ha, hh, hn, initArcs_forward]
    refine ⟨Nat.lt_add_of_pos_right (by decide), rfl, rfl, ?_, Or.inr ⟨le_refl _, rfl⟩⟩
    rw [createEdge_fst]
    cases isUpLink
    · simp only [Bool.false_eq_true, if_false]
      apply List.mem_append_right
      by_cases hft : from_ = to_
      · subst hft
        simp [addParent, addChild, setAt_same]
      · simp [addParent, addChild, setAt_same, setAt_other _ _ _ _ hft]
    · simp only [if_true]
      apply List.mem_append_left
      by_cases hft : from_ = to_
      · subst hft
        simp [addParent, addChild, setAt_same]
      · simp [addParent, addChild, setAt_same, setAt_other _ _ _ _ hft]

theorem moveEdge_keeps_valid (inv : RoleId → RoleId) (g : DlCompletionGraph) (node : NodeId)
    (edge : ArcId) (isUpLink : Bool) (dep : DepSet) (e : Nat)
    (he : e < g.nEdges) (hedge : edge < g.nEdges) (hne : e ≠ edge)
    (hrev : e ≠ (g.CTEdgeHeap edge).Reverse) (hv : (g.CTEdgeHeap e).iBlocked = false) :
    ((moveEdge inv g node edge isUpLink dep).1.CTEdgeHeap e).iBlocked = false := by
  rcases moveEdge_cases inv g node edge isUpLink dep with h | h | ⟨up1, h⟩
  · rw [h]; exact hv
  · rw [h]
    show ((invalidateEdge g edge).CTEdgeHeap e).iBlocked = false
    rw [invalidateEdge_other g edge e hne hrev]; exact hv
  · rw [h]
    have hext := addRoleLabel_ext inv g node (g.CTEdgeHeap edge).ArcEnd up1
      (g.CTEdgeHeap edge).Role dep
    show ((invalidateEdge _ edge).CTEdgeHeap e).iBlocked = false
    rw [invalidateEdge_other _ edge e hne (by rw [hext.rev edge hedge]; exact hrev),
      addRoleLabel_iBlocked inv g node _ up1 _ dep e he]
    exact hv

theorem moveEdges_keeps_valid (inv : RoleId → RoleId) (g : DlCompletionGraph) (to_ : NodeId)
    (isUpLink : Bool) (dep : DepSet) (e : Nat) (he : e < g.nEdges) :
    ∀ (l : List ArcId) (gi : DlCompletionGraph) (edges : List ArcId),
      MergeExt dep g gi →
      (∀ q ∈ l, q < g.nEdges ∧ q ≠ e ∧ (g.CTEdgeHeap q).Reverse ≠ e) →
      (gi.CTEdgeHeap e).iBlocked = false →
      ((moveEdges inv to_ isUpLink dep l (gi, edges)).1.CTEdgeHeap e).iBlocked = false := by
  intro l
  induction l with
  | nil => intro gi edges _ _ hv; exact hv
  | cons q qs ih =>
    intro gi edges hext hl hv
    rw [moveEdges_cons]
    obtain ⟨hq1, hq2, hq3⟩ := hl q (List.mem_cons_self _ _)
    apply ih _ _ (hext.ext_trans (moveEdge_ext inv gi to_ q isUpLink dep))
      (fun x hx => hl x (List.mem_cons_of_mem _ hx))
    exact moveEdge_keeps_valid inv gi to_ q isUpLink dep e (lt_of_lt_of_le he hext.nEdges)
      (lt_of_lt_of_le hq1 hext.nEdges) (fun h => hq2 h.symm)
      (by rw [hext.rev q hq1]; exact fun h => hq3 h.symm) hv

/-- What `moveEdge` does with a valid, non-reflexive predecessor edge `e`:
the edge is invalidated and the arc returned is attached to `node`, ends where
`e` ended and carries the role of `e`; its dep-set is `dep` for a new arc and
the old dep-set plus `dep` for an arc that `node` had already. -/
theorem moveEdge_up_result (inv : RoleId → RoleId) (g : DlCompletionGraph) (node : NodeId)
    (e : ArcId) (dep : DepSet)
    (hvalid : (g.CTEdgeHeap e).iBlocked = false) (hrefl : isReflexiveEdge g e = false)
    (halloc : ∀ q ∈ (g.NodeBase node).Parent ++ (g.NodeBase node).Son, q < g.nEdges) :
    ∃ a, (moveEdge inv g node e true dep).2 = some a ∧
      ((moveEdge inv g node e true dep).1.CTEdgeHeap e).iBlocked = true ∧
      a < (moveEdge inv g node e true dep).1.nEdges ∧
      ((moveEdge inv g node e true dep).1.CTEdgeHeap a).ArcEnd = (g.CTEdgeHeap e).ArcEnd ∧
      ((moveEdge inv g node e true dep).1.CTEdgeHeap a).Role = (g.CTEdgeHeap e).Role ∧
      a ∈ ((moveEdge inv g node e true dep).1.NodeBase node).Parent ++
        ((moveEdge inv g node e true dep).1.NodeBase node).Son ∧
      ((a < g.nEdges ∧ ((moveEdge inv g node e true dep).1.CTEdgeHeap a).depSet
          = (g.CTEdgeHeap a).depSet ∪ dep) ∨
        (g.nEdges ≤ a ∧ ((moveEdge inv g node e true dep).1.CTEdgeHeap a).depSet = dep)) := by
  have hcase : ∃ up1, moveEdge inv g node e true dep =
      (invalidateEdge (addRoleLabel inv g node (g.CTEdgeHeap e).ArcEnd up1
          (g.CTEdgeHeap e).Role dep).1 e,
        some (addRoleLabel inv g node (g.CTEdgeHeap e).ArcEnd up1
          (g.CTEdgeHeap e).Role dep).2) := by
    rw [moveEdge_move inv g node e true dep hvalid (by simp) hrefl]
    have hsel : (if true = true then (g.NodeBase node).Son else (g.NodeBase node).Parent)
        = (g.NodeBase node).Son := if_pos rfl
    rw [hsel]
    by_cases hany : (g.NodeBase node).Son.any
        (fun p => (g.CTEdgeHeap p).ArcEnd == (g.CTEdgeHeap e).ArcEnd) = true
    · exact ⟨!true, by rw [if_pos hany]⟩
    · exact ⟨true, by rw [if_neg hany]⟩
  obtain ⟨up1, hm⟩ := hcase
  obtain ⟨r1, r2, r3, r4, r5⟩ := addRoleLabel_result inv g node (g.CTEdgeHeap e).ArcEnd up1
    (g.CTEdgeHeap e).Role dep halloc
  have hfr := invalidateEdge_frame (addRoleLabel inv g node (g.CTEdgeHeap e).ArcEnd up1
    (g.CTEdgeHeap e).Role dep).1 e
  rw [hm]
  refine ⟨_, rfl, invalidateEdge_self _ e, ?_, ?_, ?_, r4, ?_⟩
  · show _ < (invalidateEdge _ e).nEdges
    rw [hfr.sizes.2.1]; exact r1
  · show ((invalidateEdge _ e).CTEdgeHeap _).ArcEnd = _
    rw [hfr.arcEnd]; exact r2
  · show ((invalidateEdge _ e).CTEdgeHeap _).Role = _
    rw [hfr.role]; exact r3
  · show (_ ∧ ((invalidateEdge _ e).CTEdgeHeap _).depSet = _) ∨
      (_ ∧ ((invalidateEdge _ e).CTEdgeHeap _).depSet = _)
    rw [hfr.dep]; exact r5


theorem Purge_self_blocked (fuel : Nat) (g : DlCompletionGraph) (p root : NodeId) (dep : DepSet)
    (hp : isPBlocked g p = false) :
    ((Purge (fuel + 1) g p root dep).NodeBase p).pBlocked = some (root, dep) := by
  rw [Purge_unblocked_eq fuel g p root dep hp]
  exact (purgeLoop_frame fuel root dep _ _).blocked p _ (setPBlocked_self g p root dep)

theorem unblockedNodes_card_le (N : Nat) (g : DlCompletionGraph) :
    (unblockedNodes N g).card ≤ N := by
  unfold unblockedNodes
  exact le_trans (Finset.card_filter_le _ _) (by simp)

theorem Purge_reach_blocked (g : DlCompletionGraph) (p root : NodeId) (dep : DepSet) (fuel : Nat)
    (hp : isPBlocked g p = false) (hpN : p < g.endUsed) (hwf : SonsInUse g)
    (hfuel : g.endUsed < fuel) (n : NodeId) (hreach : PurgeReach g p n) :
    isPBlocked (Purge fuel g p root dep) n = true ∧ isPBlocked g n = false := by
  obtain ⟨c1, c2⟩ := Purge_closure root dep g.endUsed fuel g p hwf hpN
    (lt_of_le_of_lt (unblockedNodes_card_le _ g) hfuel)
  induction hreach with
  | refl => exact ⟨c1, hp⟩
  | tail _ hstep ih =>
    obtain ⟨q, hq, hend, hnom, hunb⟩ := hstep
    refine ⟨?_, hunb⟩
    have := c2 _ ih.1 ih.2 q hq (by rw [hend]; exact hnom)
    rw [hend] at this
    exact this

theorem Merge_fst (inv : RoleId → RoleId) (g : DlCompletionGraph) (from_ to_ : NodeId)
    (dep : DepSet) :
    (Merge inv g from_ to_ dep).1 =
      Purge ((updateIR (moveEdges inv to_ false dep (g.NodeBase from_).Son
          (moveEdges inv to_ true dep (g.NodeBase from_).Parent (g, []))).1 to_ from_ dep).endUsed + 1)
        (updateIR (moveEdges inv to_ false dep (g.NodeBase from_).Son
          (moveEdges inv to_ true dep (g.NodeBase from_).Parent (g, []))).1 to_ from_ dep)
        from_ to_ dep := rfl

theorem Merge_ext (inv : RoleId → RoleId) (g : DlCompletionGraph) (from_ to_ : NodeId)
    (dep : DepSet) :
    MergeExt dep g (updateIR (moveEdges inv to_ false dep (g.NodeBase from_).Son
      (moveEdges inv to_ true dep (g.NodeBase from_).Parent (g, []))).1 to_ from_ dep) := by
  have h1 := (moveEdges_ext inv to_ true dep (g.NodeBase from_).Parent g []).1
  have h2 := (moveEdges_ext inv to_ false dep (g.NodeBase from_).Son
    (moveEdges inv to_ true dep (g.NodeBase from_).Parent (g, [])).1
    (moveEdges inv to_ true dep (g.NodeBase from_).Parent (g, [])).2).1
  exact (h1.ext_trans h2).ext_trans (updateIR_ext dep _ to_ from_)

/-- C3 as amended: after `Purge(p, root, dep)` on a node `p` that is not
p-blocked, `p` is p-blocked by `root` with dep-set `dep`, and every node reached
from `p` through successor arcs that pass only through blockable nodes which
were not p-blocked before the call is p-blocked; and after
`Merge(from, to, dep, out)` on a node `from` that was not p-blocked, `from` is
p-blocked by `to` (here `from = p`, `to = root`). -/
theorem Purge_blocks_reachable (inv : RoleId → RoleId) (g : DlCompletionGraph)
    (p root : NodeId) (dep : DepSet)
    (hp : isPBlocked g p = false) (hpN : p < g.endUsed) (hwf : SonsInUse g) :
    ((Purge (g.endUsed + 1) g p root dep).NodeBase p).pBlocked = some (root, dep) ∧
      (∀ n, PurgeReach g p n → isPBlocked (Purge (g.endUsed + 1) g p root dep) n = true) ∧
      ((Merge inv g p root dep).1.NodeBase p).pBlocked = some (root, dep) := by
  refine ⟨Purge_self_blocked _ g p root dep hp, fun n hn =>
    (Purge_reach_blocked g p root dep _ hp hpN hwf (Nat.lt_succ_self _) n hn).1, ?_⟩
  rw [Merge_fst]
  apply Purge_self_blocked
  unfold isPBlocked
  rw [(Merge_ext inv g p root dep).blocked p]
  exact hp

theorem Purge_blocks_reachable_witness :
    ((Purge (chainGraph.endUsed + 1) chainGraph 0 3 {1}).NodeBase 0).pBlocked = some (3, {1}) ∧
      (∀ n, PurgeReach chainGraph 0 n →
        isPBlocked (Purge (chainGraph.endUsed + 1) chainGraph 0 3 {1}) n = true) ∧
      ((Merge pairInverse chainGraph 0 3 {1}).1.NodeBase 0).pBlocked = some (3, {1}) :=
  Purge_blocks_reachable pairInverse chainGraph 0 3 {1} rfl (by decide)
    (by unfold SonsInUse; decide)

/-- C3, the claim as stated fails: in `purgedChainGraph` node `2` is reached from
node `0` through the blockable nodes `1` and `2`, and node `0` is not p-blocked,
yet after `Purge(0, 3, ∅)` node `2` is not p-blocked, because `Purge` returns
at once at node `1`, which was p-blocked before.  And after `Merge(1, 0, ∅)`
node `1` is still p-blocked by node `3`, not by node `0`. -/
theorem Purge_counterexample :
    isPBlocked purgedChainGraph 0 = false ∧ BlockableReach purgedChainGraph 0 2 ∧
      isPBlocked (Purge (purgedChainGraph.endUsed + 1) purgedChainGraph 0 3 ∅) 2 = false ∧
      ((Merge pairInverse purgedChainGraph 1 0 ∅).1.NodeBase 1).pBlocked = some (3, ∅) := by
  refine ⟨rfl, ?_, rfl, rfl⟩
  have h01 : ∃ q ∈ (purgedChainGraph.NodeBase 0).Son,
      (purgedChainGraph.CTEdgeHeap q).ArcEnd = 1 ∧ (purgedChainGraph.NodeBase 1).nominal = false :=
    ⟨0, by decide, rfl, rfl⟩
  have h12 : ∃ q ∈ (purgedChainGraph.NodeBase 1).Son,
      (purgedChainGraph.CTEdgeHeap q).ArcEnd = 2 ∧ (purgedChainGraph.NodeBase 2).nominal = false :=
    ⟨2, by decide, rfl, rfl⟩
  exact Relation.ReflTransGen.tail (Relation.ReflTransGen.single h01) h12


theorem MergeExt.mem_lists {dep : DepSet} {g r : DlCompletionGraph} (h : MergeExt dep g r)
    (n : NodeId) (a : ArcId)
    (ha : a ∈ (g.NodeBase n).Parent ++ (g.NodeBase n).Son) :
    a ∈ (r.NodeBase n).Parent ++ (r.NodeBase n).Son := by
  obtain ⟨l1, e1, _⟩ := h.parent n
  obtain ⟨l2, e2, _⟩ := h.son n
  rw [e1, e2]
  rcases List.mem_append.mp ha with h1 | h1
  · exact List.mem_append_left _ (List.mem_append_left _ h1)
  · exact List.mem_append_right _ (List.mem_append_left _ h1)

theorem MergeExt.lists_alloc {dep : DepSet} {g r : DlCompletionGraph} (h : MergeExt dep g r)
    (n : NodeId)
    (ha : ∀ q ∈ (g.NodeBase n).Parent ++ (g.NodeBase n).Son, q < g.nEdges) :
    ∀ q ∈ (r.NodeBase n).Parent ++ (r.NodeBase n).Son, q < r.nEdges := by
  obtain ⟨l1, e1, b1⟩ := h.parent n
  obtain ⟨l2, e2, b2⟩ := h.son n
  intro q hq
  rw [e1, e2] at hq
  rcases List.mem_append.mp hq with h1 | h1
  · rcases List.mem_append.mp h1 with h2 | h2
    · exact lt_of_lt_of_le (ha q (List.mem_append_left _ h2)) h.nEdges
    · exact b1 q h2
  · rcases List.mem_append.mp h1 with h2 | h2
    · exact lt_of_lt_of_le (ha q (List.mem_append_right _ h2)) h.nEdges
    · exact b2 q h2

/-- A dep-set that has absorbed `dep` is not changed by the further steps of the
merge. -/
theorem MergeExt.dep_absorbed {dep : DepSet} {g r : DlCompletionGraph} (h : MergeExt dep g r)
    (a : Nat) (ha : a < g.nEdges) (habs : (g.CTEdgeHeap a).depSet ∪ dep = (g.CTEdgeHeap a).depSet) :
    (r.CTEdgeHeap a).depSet = (g.CTEdgeHeap a).depSet := by
  rcases h.depOld a ha with e | e
  · exact e
  · rw [e, habs]

/-- The common part of the results on predecessor arcs in `Merge`. -/
theorem Merge_predecessor_aux (inv : RoleId → RoleId) (g : DlCompletionGraph)
    (from_ to_ : NodeId) (dep : DepSet) (e : Nat)
    (hmem : e ∈ (g.NodeBase from_).Parent)
    (hnodup : (g.NodeBase from_).Parent.Nodup)
    (halloc : ∀ q ∈ (g.NodeBase from_).Parent,
      q < g.nEdges ∧ (g.CTEdgeHeap q).Reverse < g.nEdges)
    (hrev : ∀ q ∈ (g.NodeBase from_).Parent, (g.CTEdgeHeap q).Reverse ≠ e)
    (hto : ∀ q ∈ (g.NodeBase to_).Parent ++ (g.NodeBase to_).Son, q < g.nEdges)
    (hvalid : (g.CTEdgeHeap e).iBlocked = false)
    (hrefl : isReflexiveEdge g e = false) :
    ((Merge inv g from_ to_ dep).1.CTEdgeHeap e).iBlocked = true ∧
      ∃ a ∈ (Merge inv g from_ to_ dep).2,
        a ∈ ((Merge inv g from_ to_ dep).1.NodeBase to_).Parent ++
          ((Merge inv g from_ to_ dep).1.NodeBase to_).Son ∧
        ((Merge inv g from_ to_ dep).1.CTEdgeHeap a).ArcEnd = (g.CTEdgeHeap e).ArcEnd ∧
        ((Merge inv g from_ to_ dep).1.CTEdgeHeap a).Role = (g.CTEdgeHeap e).Role ∧
        ((Merge inv g from_ to_ dep).1.CTEdgeHeap a).depSet =
          if a < g.nEdges then (g.CTEdgeHeap a).depSet ∪ dep else dep := by
  obtain ⟨pre, post, hsplit⟩ := List.append_of_mem hmem
  have henodup : e ∉ pre := by
    rw [hsplit] at hnodup
    have := List.nodup_append.mp hnodup
    intro hin
    exact this.2.2 hin (List.mem_cons_self _ _)
  have hpre : ∀ q ∈ pre, q < g.nEdges ∧ q ≠ e ∧ (g.CTEdgeHeap q).Reverse ≠ e := by
    intro q hq
    have hqm : q ∈ (g.NodeBase from_).Parent := by rw [hsplit]; exact List.mem_append_left _ hq
    exact ⟨(halloc q hqm).1, fun h => henodup (h ▸ hq), hrev q hqm⟩
  obtain ⟨he1, he2⟩ := halloc e hmem
  -- the state when the turn of e comes
  obtain ⟨ga, hga⟩ : ∃ ga, ga = moveEdges inv to_ true dep pre (g, []) := ⟨_, rfl⟩
  have hexta : MergeExt dep g ga.1 := by
    rw [hga]; exact (moveEdges_ext inv to_ true dep pre g []).1
  have hvalida : (ga.1.CTEdgeHeap e).iBlocked = false := by
    rw [hga]
    exact moveEdges_keeps_valid inv g to_ true dep e he1 pre g [] (MergeExt.ext_refl dep g) hpre hvalid
  have hrefla : isReflexiveEdge ga.1 e = false := by
    unfold isReflexiveEdge at hrefl ⊢
    rw [hexta.rev e he1, hexta.arcEnd e he1, hexta.arcEnd _ he2]
    exact hrefl
  obtain ⟨a, m1, m2, m3, m4, m5, m6, m7⟩ := moveEdge_up_result inv ga.1 to_ e dep hvalida hrefla
    (hexta.lists_alloc to_ hto)
  obtain ⟨gb, hgb⟩ : ∃ gb, gb = (moveEdge inv ga.1 to_ e true dep).1 := ⟨_, rfl⟩
  rw [← hgb] at m2 m3 m4 m5 m6 m7
  have hextab : MergeExt dep ga.1 gb := by rw [hgb]; exact moveEdge_ext inv ga.1 to_ e true dep
  -- the loop over the predecessor arcs, split at e
  have hloop1 : moveEdges inv to_ true dep (g.NodeBase from_).Parent (g, []) =
      moveEdges inv to_ true dep post (gb, ga.2 ++ [a]) := by
    rw [hsplit, moveEdges_append, ← hga]
    obtain ⟨ga1, ga2⟩ := ga
    rw [moveEdges_cons, m1, ← hgb]
  -- the rest of the merge
  obtain ⟨gc, hgc⟩ : ∃ gc, gc = updateIR (moveEdges inv to_ false dep (g.NodeBase from_).Son
      (moveEdges inv to_ true dep (g.NodeBase from_).Parent (g, []))).1 to_ from_ dep := ⟨_, rfl⟩
  have hextbc : MergeExt dep gb gc := by
    rw [hgc, hloop1]
    have h1 := (moveEdges_ext inv to_ true dep post gb (ga.2 ++ [a])).1
    have h2 := (moveEdges_ext inv to_ false dep (g.NodeBase from_).Son
      (moveEdges inv to_ true dep post (gb, ga.2 ++ [a])).1
      (moveEdges inv to_ true dep post (gb, ga.2 ++ [a])).2).1
    exact (h1.ext_trans h2).ext_trans (updateIR_ext dep _ to_ from_)
  have hout : a ∈ (Merge inv g from_ to_ dep).2 := by
    show a ∈ (moveEdges inv to_ false dep (g.NodeBase from_).Son
      (moveEdges inv to_ true dep (g.NodeBase from_).Parent (g, []))).2
    rw [hloop1]
    obtain ⟨l1, h1⟩ := (moveEdges_ext inv to_ true dep post gb (ga.2 ++ [a])).2
    obtain ⟨l2, h2⟩ := (moveEdges_ext inv to_ false dep (g.NodeBase from_).Son
      (moveEdges inv to_ true dep post (gb, ga.2 ++ [a])).1
      (moveEdges inv to_ true dep post (gb, ga.2 ++ [a])).2).2
    rw [h2, h1]
    simp
  have hfr : PurgeFrame gc (Merge inv g from_ to_ dep).1 := by
    rw [Merge_fst, ← hgc]
    exact Purge_frame to_ dep _ gc from_
  have heb : e < gb.nEdges := lt_of_lt_of_le he1 (hexta.ext_trans hextab).nEdges
  -- the dep-set of the new arc when it is put into the list
  have hdepb : (gb.CTEdgeHeap a).depSet = if a < g.nEdges then (g.CTEdgeHeap a).depSet ∪ dep
      else dep := by
    by_cases hag : a < g.nEdges
    · rw [if_pos hag]
      rcases m7 with ⟨_, h7⟩ | ⟨h7, _⟩
      · rw [h7]
        rcases hexta.depOld a hag with e1 | e1
        · rw [e1]
        · rw [e1, Finset.union_assoc, Finset.union_self]
      · exact absurd (lt_of_lt_of_le hag hexta.nEdges) (not_lt.mpr h7)
    · rw [if_neg hag]
      rcases m7 with ⟨h7a, h7⟩ | ⟨_, h7⟩
      · rw [h7, hexta.depNew a (not_lt.mp hag) h7a, Finset.union_self]
      · exact h7
  have habs : (gb.CTEdgeHeap a).depSet ∪ dep = (gb.CTEdgeHeap a).depSet := by
    rw [hdepb]
    split
    · rw [Finset.union_assoc, Finset.union_self]
    · rw [Finset.union_self]
  refine ⟨hfr.iBlocked e (hextbc.iBlocked e heb m2), a, hout, ?_, ?_, ?_, ?_⟩
  · have := hextbc.mem_lists to_ a m6
    rw [← hfr.parent to_, ← hfr.son to_] at this
    exact this
  · rw [hfr.arcEnd, hextbc.arcEnd a m3, m4, hexta.arcEnd e he1]
  · rw [hfr.role, hextbc.role a m3, m5, hexta.role e he1]
  · rw [hfr.dep, hextbc.dep_absorbed a m3 habs, hdepb]

/-- C2 as amended: for every valid, non-reflexive predecessor arc `e` of `from`
(linking `from` and a node `x` with role `R`), in a graph whose arcs at `from`
and `to` are handed out and where `e` occurs once among the predecessor arcs of
`from` and is not the reverse of one of them, `Merge(from, to, dep, out)`
invalidates `e` and puts into `out` an arc attached to `to` that ends in `x`
and carries the same role `R`; its dep-set is `dep` when the arc is new, and
the dep-set it had before the merge plus `dep` when `to` had the arc already.
The dep-set of `e` is not carried over. -/
theorem Merge_moves_predecessor_arc (inv : RoleId → RoleId) (g : DlCompletionGraph)
    (from_ to_ : NodeId) (dep : DepSet) (e : Nat)
    (hmem : e ∈ (g.NodeBase from_).Parent)
    (hnodup : (g.NodeBase from_).Parent.Nodup)
    (halloc : ∀ q ∈ (g.NodeBase from_).Parent,
      q < g.nEdges ∧ (g.CTEdgeHeap q).Reverse < g.nEdges)
    (hrev : ∀ q ∈ (g.NodeBase from_).Parent, (g.CTEdgeHeap q).Reverse ≠ e)
    (hto : ∀ q ∈ (g.NodeBase to_).Parent ++ (g.NodeBase to_).Son, q < g.nEdges)
    (hvalid : (g.CTEdgeHeap e).iBlocked = false)
    (hrefl : isReflexiveEdge g e = false) :
    ((Merge inv g from_ to_ dep).1.CTEdgeHeap e).iBlocked = true ∧
      ∃ a ∈ (Merge inv g from_ to_ dep).2,
        a ∈ ((Merge inv g from_ to_ dep).1.NodeBase to_).Parent ++
          ((Merge inv g from_ to_ dep).1.NodeBase to_).Son ∧
        ((Merge inv g from_ to_ dep).1.CTEdgeHeap a).ArcEnd = (g.CTEdgeHeap e).ArcEnd ∧
        ((Merge inv g from_ to_ dep).1.CTEdgeHeap a).Role = (g.CTEdgeHeap e).Role ∧
        ((Merge inv g from_ to_ dep).1.CTEdgeHeap a).depSet =
          if a < g.nEdges then (g.CTEdgeHeap a).depSet ∪ dep else dep :=
  Merge_predecessor_aux inv g from_ to_ dep e hmem hnodup halloc hrev hto hvalid hrefl

theorem Merge_moves_predecessor_arc_witness :
    ((Merge pairInverse mergeGraph 1 2 {2}).1.CTEdgeHeap 1).iBlocked = true ∧
      ∃ a ∈ (Merge pairInverse mergeGraph 1 2 {2}).2,
        a ∈ ((Merge pairInverse mergeGraph 1 2 {2}).1.NodeBase 2).Parent ++
          ((Merge pairInverse mergeGraph 1 2 {2}).1.NodeBase 2).Son ∧
        ((Merge pairInverse mergeGraph 1 2 {2}).1.CTEdgeHeap a).ArcEnd
          = (mergeGraph.CTEdgeHeap 1).ArcEnd ∧
        ((Merge pairInverse mergeGraph 1 2 {2}).1.CTEdgeHeap a).Role
          = (mergeGraph.CTEdgeHeap 1).Role ∧
        ((Merge pairInverse mergeGraph 1 2 {2}).1.CTEdgeHeap a).depSet =
          if a < mergeGraph.nEdges then (mergeGraph.CTEdgeHeap a).depSet ∪ {2} else {2} :=
  Merge_moves_predecessor_arc pairInverse mergeGraph 1 2 {2} 1 (by decide) (by decide)
    (by decide) (by decide) (by decide) rfl rfl

/-- C2, the claim as stated fails: node `1` of `mergeGraph` has the valid,
non-reflexive predecessor arc `1` (to node `0`, role `3`, dep-set `{1}`);
`Merge(1, 2, {2}, out)` invalidates it and puts the new arc `2` into `out`, which
ends in node `0` and carries role `3`, but its dep-set is `{2}`, not
`{1} ∪ {2}`. -/
theorem Merge_depSet_counterexample :
    (mergeGraph.NodeBase 1).Parent = [1] ∧ (mergeGraph.CTEdgeHeap 1).iBlocked = false ∧
      isReflexiveEdge mergeGraph 1 = false ∧ (mergeGraph.CTEdgeHeap 1).depSet = {1} ∧
      (Merge pairInverse mergeGraph 1 2 {2}).2 = [2] ∧
      ((Merge pairInverse mergeGraph 1 2 {2}).1.CTEdgeHeap 2).ArcEnd = 0 ∧
      ((Merge pairInverse mergeGraph 1 2 {2}).1.CTEdgeHeap 2).Role
        = (mergeGraph.CTEdgeHeap 1).Role ∧
      ((Merge pairInverse mergeGraph 1 2 {2}).1.CTEdgeHeap 2).depSet = {2} ∧
      ({2} : DepSet) ≠ {1} ∪ {2} :=
  ⟨rfl, rfl, rfl, rfl, rfl, rfl, rfl, rfl, by decide⟩

/-! ### Save and restore of the completion graph -/

/-! ### Completion graph: save and restore -/

theorem RareEqOn.rare_refl (N A : Nat) (g : DlCompletionGraph) : RareEqOn N A g g :=
  ⟨fun _ _ => ⟨rfl, rfl⟩, fun _ _ => rfl⟩

theorem RareEqOn.rare_trans {N A : Nat} {g r s : DlCompletionGraph} (h1 : RareEqOn N A g r)
    (h2 : RareEqOn N A r s) : RareEqOn N A g s :=
  ⟨fun n hn => ⟨(h1.1 n hn).1.trans (h2.1 n hn).1, (h1.1 n hn).2.trans (h2.1 n hn).2⟩,
    fun a ha => (h1.2 a ha).trans (h2.2 a ha)⟩

theorem applyRestorer_congr (N A : Nat) (x : Restorer) (g r : DlCompletionGraph)
    (h : RareEqOn N A g r) : RareEqOn N A (applyRestorer x g) (applyRestorer x r) := by
  cases x with
  | pBlocked node old =>
    refine ⟨fun n hn => ?_, fun a ha => h.2 a ha⟩
    show ((setAt g.NodeBase node _) n).pBlocked = ((setAt r.NodeBase node _) n).pBlocked ∧
      ((setAt g.NodeBase node _) n).IR = ((setAt r.NodeBase node _) n).IR
    by_cases hn1 : n = node
    · subst hn1
      rw [setAt_same, setAt_same]
      exact ⟨rfl, (h.1 n hn).2⟩
    · rw [setAt_other _ _ _ _ hn1, setAt_other _ _ _ _ hn1]
      exact h.1 n hn
  | ir node oldSize =>
    refine ⟨fun n hn => ?_, fun a ha => h.2 a ha⟩
    show ((setAt g.NodeBase node _) n).pBlocked = ((setAt r.NodeBase node _) n).pBlocked ∧
      ((setAt g.NodeBase node _) n).IR = ((setAt r.NodeBase node _) n).IR
    by_cases hn1 : n = node
    · subst hn1
      rw [setAt_same, setAt_same]
      refine ⟨(h.1 n hn).1, ?_⟩
      show (g.NodeBase n).IR.take oldSize = (r.NodeBase n).IR.take oldSize
      rw [(h.1 n hn).2]
    · rw [setAt_other _ _ _ _ hn1, setAt_other _ _ _ _ hn1]
      exact h.1 n hn
  | arc a old =>
    refine ⟨fun n hn => h.1 n hn, fun b hb => ?_⟩
    show setAt g.CTEdgeHeap a old b = setAt r.CTEdgeHeap a old b
    by_cases hb1 : b = a
    · subst hb1; rw [setAt_same, setAt_same]
    · rw [setAt_other _ _ _ _ hb1, setAt_other _ _ _ _ hb1]; exact h.2 b hb

theorem undoAll_congr (N A : Nat) :
    ∀ (l : List (Nat × Restorer)) (g r : DlCompletionGraph),
      RareEqOn N A g r → RareEqOn N A (undoAll l g) (undoAll l r) := by
  intro l
  induction l with
  | nil => intro g r h; exact h
  | cons e rest ih => intro g r h; exact ih _ _ (applyRestorer_congr N A e.2 g r h)

theorem undoAll_append :
    ∀ (l1 l2 : List (Nat × Restorer)) (g : DlCompletionGraph),
      undoAll (l1 ++ l2) g = undoAll l2 (undoAll l1 g) := by
  intro l1
  induction l1 with
  | nil => intro l2 g; rfl
  | cons e rest ih => intro l2 g; exact ih l2 _

theorem NodeStructEq.struct_refl (g : DlCompletionGraph) : NodeStructEq g g :=
  fun _ => ⟨rfl, rfl, rfl, rfl, rfl⟩

theorem NodeStructEq.struct_trans {g r s : DlCompletionGraph} (h1 : NodeStructEq g r)
    (h2 : NodeStructEq r s) : NodeStructEq g s := fun n =>
  ⟨(h2 n).1.trans (h1 n).1, (h2 n).2.1.trans (h1 n).2.1, (h2 n).2.2.1.trans (h1 n).2.2.1,
    (h2 n).2.2.2.1.trans (h1 n).2.2.2.1, (h2 n).2.2.2.2.trans (h1 n).2.2.2.2⟩

/-- A restorer changes nothing but the blocker or inequality relation of a node
or an arc. -/
theorem applyRestorer_frame (x : Restorer) (g : DlCompletionGraph) :
    NodeStructEq g (applyRestorer x g) ∧ (applyRestorer x g).endUsed = g.endUsed ∧
      (applyRestorer x g).nEdges = g.nEdges ∧ (applyRestorer x g).SavedNodes = g.SavedNodes ∧
      (applyRestorer x g).Stack = g.Stack ∧
      (applyRestorer x g).branchingLevel = g.branchingLevel ∧
      (applyRestorer x g).RareStack = g.RareStack := by
  cases x with
  | pBlocked node old =>
    refine ⟨fun n => ?_, rfl, rfl, rfl, rfl, rfl, rfl⟩
    have key : ∀ {β : Type} (f : DlCompletionTree → β),
        (∀ (y : DlCompletionTree) (o : Option (NodeId × DepSet)),
          f { y with pBlocked := o } = f y) →
        f ((applyRestorer (.pBlocked node old) g).NodeBase n) = f (g.NodeBase n) := by
      intro β f hf
      exact setAt_proj _ _ _ f (hf _ _) n
    exact ⟨key _ (fun _ _ => rfl), key _ (fun _ _ => rfl), key _ (fun _ _ => rfl),
      key _ (fun _ _ => rfl), key _ (fun _ _ => rfl)⟩
  | ir node oldSize =>
    refine ⟨fun n => ?_, rfl, rfl, rfl, rfl, rfl, rfl⟩
    have key : ∀ {β : Type} (f : DlCompletionTree → β),
        (∀ (y : DlCompletionTree) (o : List (NodeId × DepSet)), f { y with IR := o } = f y) →
        f ((applyRestorer (.ir node oldSize) g).NodeBase n) = f (g.NodeBase n) := by
      intro β f hf
      exact setAt_proj _ _ _ f (hf _ _) n
    exact ⟨key _ (fun _ _ => rfl), key _ (fun _ _ => rfl), key _ (fun _ _ => rfl),
      key _ (fun _ _ => rfl), key _ (fun _ _ => rfl)⟩
  | arc a old => exact ⟨NodeStructEq.struct_refl g, rfl, rfl, rfl, rfl, rfl, rfl⟩

theorem undoAll_frame :
    ∀ (l : List (Nat × Restorer)) (g : DlCompletionGraph),
      NodeStructEq g (undoAll l g) ∧ (undoAll l g).endUsed = g.endUsed ∧
        (undoAll l g).nEdges = g.nEdges ∧ (undoAll l g).SavedNodes = g.SavedNodes ∧
        (undoAll l g).Stack = g.Stack ∧ (undoAll l g).branchingLevel = g.branchingLevel ∧
        (undoAll l g).RareStack = g.RareStack := by
  intro l
  induction l with
  | nil => intro g; exact ⟨NodeStructEq.struct_refl g, rfl, rfl, rfl, rfl, rfl, rfl⟩
  | cons e rest ih =>
    intro g
    obtain ⟨a1, a2, a3, a4, a5, a6, a7⟩ := applyRestorer_frame e.2 g
    obtain ⟨b1, b2, b3, b4, b5, b6, b7⟩ := ih (applyRestorer e.2 g)
    exact ⟨a1.struct_trans b1, b2.trans a2, b3.trans a3, b4.trans a4, b5.trans a5, b6.trans a6,
      b7.trans a7⟩

/-- One step after a save: what has to be shown of a graph `r1` reached from
`r` to keep the relation with the graph `g` before the save. -/
theorem SaveSim.step {g r r1 : DlCompletionGraph} (h : SaveSim g r)
    (hlevel : r1.branchingLevel = r.branchingLevel) (hstack : r1.Stack = r.Stack)
    (hend : r.endUsed ≤ r1.endUsed) (hned : r.nEdges ≤ r1.nEdges)
    (hsaved : ∃ l, r1.SavedNodes = r.SavedNodes ++ l ∧
      ∀ n < g.endUsed, g.branchingLevel < (r1.NodeBase n).curLevel →
        g.branchingLevel < (r.NodeBase n).curLevel ∨ n ∈ l)
    (hnodes : ∀ n < g.endUsed, NodeSim g.branchingLevel (g.NodeBase n) (r1.NodeBase n))
    (hrare : ∃ pushed, r1.RareStack = pushed ++ r.RareStack ∧
      (∀ e ∈ pushed, g.branchingLevel < e.1) ∧
      RareEqOn g.endUsed g.nEdges (undoAll pushed r1) r) : SaveSim g r1 := by
  obtain ⟨extra, e1, e2⟩ := h.saved
  obtain ⟨l, l1, l2⟩ := hsaved
  obtain ⟨new, n1, n2, n3⟩ := h.rare
  obtain ⟨pushed, p1, p2, p3⟩ := hrare
  refine ⟨hlevel.trans h.level, hstack.trans h.stack, le_trans h.endUsed hend,
    le_trans h.nEdges hned, ⟨extra ++ l, by rw [l1, e1, List.append_assoc], ?_⟩, hnodes,
    ⟨pushed ++ new, by rw [p1, n1, List.append_assoc], ?_, ?_⟩⟩
  · intro n hn hlv
    rcases l2 n hn hlv with h1 | h1
    · exact List.mem_append_left _ (e2 n hn h1)
    · exact List.mem_append_right _ h1
  · intro e he
    rcases List.mem_append.mp he with h1 | h1
    · exact p2 e h1
    · exact n2 e h1
  · rw [undoAll_append]
    exact (undoAll_congr _ _ new _ _ p3).rare_trans n3

theorem NodeSim.congr {L : Nat} {old a b : DlCompletionTree} (h : NodeSim L old a)
    (h1 : b.nominal = a.nominal) (h2 : b.curLevel = a.curLevel) (h3 : b.saves = a.saves)
    (h4 : b.Parent = a.Parent) (h5 : b.Son = a.Son) : NodeSim L old b := by
  unfold NodeSim at h ⊢
  rw [h1, h2, h3, h4, h5]
  exact h

/-- A step that keeps levels, save stacks and arc lists of all nodes and only
logs rare edits keeps the relation. -/
theorem SaveSim.rare_step {g r r1 : DlCompletionGraph} (h : SaveSim g r)
    (hstruct : NodeStructEq r r1)
    (hlevel : r1.branchingLevel = r.branchingLevel) (hstack : r1.Stack = r.Stack)
    (hend : r1.endUsed = r.endUsed) (hned : r1.nEdges = r.nEdges)
    (hsaved : r1.SavedNodes = r.SavedNodes)
    (pushed : List (Nat × Restorer)) (hpush : r1.RareStack = pushed ++ r.RareStack)
    (hlv : ∀ e ∈ pushed, e.1 = r.branchingLevel)
    (hundo : RareEqOn g.endUsed g.nEdges (undoAll pushed r1) r) : SaveSim g r1 := by
  apply h.step hlevel hstack (le_of_eq hend.symm) (le_of_eq hned.symm)
  · refine ⟨[], by simp [hsaved], fun n _ hlv1 => Or.inl ?_⟩
    rw [← (hstruct n).2.1]; exact hlv1
  · intro n hn
    exact (h.nodes n hn).congr (hstruct n).1 (hstruct n).2.1 (hstruct n).2.2.1
      (hstruct n).2.2.2.1 (hstruct n).2.2.2.2
  · refine ⟨pushed, hpush, fun e he => ?_, hundo⟩
    rw [hlv e he, h.level]; exact Nat.lt_succ_self _

theorem setPBlocked_node_other (r : DlCompletionGraph) (p root : NodeId) (dep : DepSet)
    (n : NodeId) (hn : n ≠ p) : (setPBlocked r p root dep).NodeBase n = r.NodeBase n := by
  show setAt r.NodeBase p _ n = _
  rw [setAt_other _ _ _ _ hn]

theorem setPBlocked_node_self (r : DlCompletionGraph) (p root : NodeId) (dep : DepSet) :
    (setPBlocked r p root dep).NodeBase p
      = { r.NodeBase p with pBlocked := some (root, dep) } := by
  show setAt r.NodeBase p _ p = _
  rw [setAt_same]

theorem setPBlocked_sim {g r : DlCompletionGraph} (h : SaveSim g r) (p root : NodeId)
    (dep : DepSet) : SaveSim g (setPBlocked r p root dep) := by
  have key : ∀ {β : Type} (f : DlCompletionTree → β),
      (∀ (y : DlCompletionTree) (o : Option (NodeId × DepSet)),
        f { y with pBlocked := o } = f y) →
      ∀ n, f ((setPBlocked r p root dep).NodeBase n) = f (r.NodeBase n) := by
    intro β f hf n
    exact setAt_proj _ _ _ f (hf _ _) n
  refine h.rare_step ?_ ?_ ?_ ?_ ?_ ?_
    [(r.branchingLevel, .pBlocked p (r.NodeBase p).pBlocked)] ?_ ?_ ?_
  · exact fun n => ⟨key DlCompletionTree.nominal (fun _ _ => rfl) n,
      key DlCompletionTree.curLevel (fun _ _ => rfl) n,
      key DlCompletionTree.saves (fun _ _ => rfl) n,
      key DlCompletionTree.Parent (fun _ _ => rfl) n,
      key DlCompletionTree.Son (fun _ _ => rfl) n⟩
  · rfl
  · rfl
  · rfl
  · rfl
  · rfl
  · rfl
  · intro e he; simp at he; rw [he]
  · refine ⟨fun n _ => ?_, fun a _ => rfl⟩
    show ((setAt (setPBlocked r p root dep).NodeBase p _) n).pBlocked = _ ∧
      ((setAt (setPBlocked r p root dep).NodeBase p _) n).IR = _
    by_cases hn : n = p
    · subst hn
      rw [setAt_same]
      exact ⟨rfl, key DlCompletionTree.IR (fun _ _ => rfl) n⟩
    · rw [setAt_other _ _ _ _ hn, setPBlocked_node_other r p root dep n hn]
      exact ⟨rfl, rfl⟩

theorem updateIR_node_other (r : DlCompletionGraph) (to_ from_ : NodeId) (dep : DepSet)
    (n : NodeId) (hn : n ≠ to_) : (updateIR r to_ from_ dep).NodeBase n = r.NodeBase n := by
  show setAt r.NodeBase to_ _ n = _
  rw [setAt_other _ _ _ _ hn]

theorem updateIR_node_self (r : DlCompletionGraph) (to_ from_ : NodeId) (dep : DepSet) :
    (updateIR r to_ from_ dep).NodeBase to_ =
      { r.NodeBase to_ with
        IR := (r.NodeBase to_).IR ++ (r.NodeBase from_).IR.map fun x => (x.1, x.2 ∪ dep) } := by
  show setAt r.NodeBase to_ _ to_ = _
  rw [setAt_same]

theorem updateIR_sim {g r : DlCompletionGraph} (h : SaveSim g r) (to_ from_ : NodeId)
    (dep : DepSet) : SaveSim g (updateIR r to_ from_ dep) := by
  have key : ∀ {β : Type} (f : DlCompletionTree → β),
      (∀ (y : DlCompletionTree) (o : List (NodeId × DepSet)), f { y with IR := o } = f y) →
      ∀ n, f ((updateIR r to_ from_ dep).NodeBase n) = f (r.NodeBase n) := by
    intro β f hf n
    exact setAt_proj _ _ _ f (hf _ _) n
  refine h.rare_step ?_ ?_ ?_ ?_ ?_ ?_
    [(r.branchingLevel, .ir to_ (r.NodeBase to_).IR.length)] ?_ ?_ ?_
  · exact fun n => ⟨key DlCompletionTree.nominal (fun _ _ => rfl) n,
      key DlCompletionTree.curLevel (fun _ _ => rfl) n,
      key DlCompletionTree.saves (fun _ _ => rfl) n,
      key DlCompletionTree.Parent (fun _ _ => rfl) n,
      key DlCompletionTree.Son (fun _ _ => rfl) n⟩
  · rfl
  · rfl
  · rfl
  · rfl
  · rfl
  · rfl
  · intro e he; simp at he; rw [he]
  · refine ⟨fun n _ => ?_, fun a _ => rfl⟩
    show ((setAt (updateIR r to_ from_ dep).NodeBase to_ _) n).pBlocked = _ ∧
      ((setAt (updateIR r to_ from_ dep).NodeBase to_ _) n).IR = _
    by_cases hn : n = to_
    · subst hn
      rw [setAt_same]
      refine ⟨key DlCompletionTree.pBlocked (fun _ _ => rfl) n, ?_⟩
      show ((updateIR r n from_ dep).NodeBase n).IR.take _ = _
      rw [updateIR_node_self]
      simp
    · rw [setAt_other _ _ _ _ hn, updateIR_node_other r to_ from_ dep n hn]
      exact ⟨rfl, rfl⟩

theorem addDep_sim {g r : DlCompletionGraph} (h : SaveSim g r) (a : ArcId) (dep : DepSet) :
    SaveSim g (saveRare
      { r with
        CTEdgeHeap := setAt r.CTEdgeHeap a
          { r.CTEdgeHeap a with depSet := (r.CTEdgeHeap a).depSet ∪ dep } }
      (.arc a (r.CTEdgeHeap a))) := by
  refine h.rare_step ?_ ?_ ?_ ?_ ?_ ?_ [(r.branchingLevel, .arc a (r.CTEdgeHeap a))] ?_ ?_ ?_
  · exact NodeStructEq.struct_refl r
  · rfl
  · rfl
  · rfl
  · rfl
  · rfl
  · rfl
  · intro e he; simp at he; rw [he]
  refine ⟨fun n _ => ⟨rfl, rfl⟩, fun b _ => ?_⟩
  show setAt (setAt r.CTEdgeHeap a _) a (r.CTEdgeHeap a) b = r.CTEdgeHeap b
  by_cases hb : b = a
  · subst hb; rw [setAt_same]
  · rw [setAt_other _ _ _ _ hb, setAt_other _ _ _ _ hb]

theorem invalidateEdge_sim {g r : DlCompletionGraph} (h : SaveSim g r) (a : ArcId) :
    SaveSim g (invalidateEdge r a) := by
  obtain ⟨b, hb⟩ : ∃ b, b = (setAt r.CTEdgeHeap a { r.CTEdgeHeap a with iBlocked := true }
    a).Reverse := ⟨_, rfl⟩
  refine h.rare_step ?_ ?_ ?_ ?_ ?_ ?_
    [(r.branchingLevel, .arc b
        (setAt r.CTEdgeHeap a { r.CTEdgeHeap a with iBlocked := true } b)),
      (r.branchingLevel, .arc a (r.CTEdgeHeap a))] ?_ ?_ ?_
  · exact NodeStructEq.struct_refl r
  · rfl
  · rfl
  · rfl
  · rfl
  · rfl
  · rw [hb]; rfl
  · intro e he
    simp at he
    rcases he with h1 | h1 <;> rw [h1]
  refine ⟨fun n _ => ⟨rfl, rfl⟩, fun y _ => ?_⟩
  show setAt (setAt (invalidateEdge r a).CTEdgeHeap b _) a (r.CTEdgeHeap a) y = r.CTEdgeHeap y
  by_cases hy : y = a
  · subst hy; rw [setAt_same]
  · rw [setAt_other _ _ _ _ hy]
    by_cases hyb : y = b
    · subst hyb; rw [setAt_same, setAt_other _ _ _ _ hy]
    · rw [setAt_other _ _ _ _ hyb]
      have hbrev : b = (r.CTEdgeHeap a).Reverse := by rw [hb, setAt_same]
      exact invalidateEdge_other r a y hy (by rw [← hbrev]; exact hyb)

theorem SaveSim.plain_step {g r r1 : DlCompletionGraph} (h : SaveSim g r)
    (hlevel : r1.branchingLevel = r.branchingLevel) (hstack : r1.Stack = r.Stack)
    (hend : r.endUsed ≤ r1.endUsed) (hned : r.nEdges ≤ r1.nEdges)
    (hsaved : ∃ l, r1.SavedNodes = r.SavedNodes ++ l ∧
      ∀ n < g.endUsed, g.branchingLevel < (r1.NodeBase n).curLevel →
        g.branchingLevel < (r.NodeBase n).curLevel ∨ n ∈ l)
    (hnodes : ∀ n < g.endUsed, NodeSim g.branchingLevel (g.NodeBase n) (r1.NodeBase n))
    (hstackR : r1.RareStack = r.RareStack)
    (hrare : RareEqOn g.endUsed g.nEdges r1 r) : SaveSim g r1 :=
  h.step hlevel hstack hend hned hsaved hnodes ⟨[], by simp [hstackR], by simp, hrare⟩

theorem getNewNode_sim {g r : DlCompletionGraph} (h : SaveSim g r) (nominal : Bool) :
    SaveSim g (getNewNode r nominal).1 := by
  have hne : ∀ n, n < g.endUsed → n ≠ r.endUsed := fun n hn =>
    Nat.ne_of_lt (lt_of_lt_of_le hn h.endUsed)
  have hnode : ∀ n, n < g.endUsed → (getNewNode r nominal).1.NodeBase n = r.NodeBase n := by
    intro n hn
    show setAt r.NodeBase r.endUsed _ n = _
    rw [setAt_other _ _ _ _ (hne n hn)]
  refine h.plain_step rfl rfl (Nat.le_succ _) (le_refl _) ⟨[], by simp [getNewNode], ?_⟩ ?_ rfl
    ⟨fun n hn => by rw [hnode n hn]; exact ⟨rfl, rfl⟩, fun a _ => rfl⟩
  · intro n hn hl
    rw [hnode n hn] at hl
    exact Or.inl hl
  · intro n hn
    rw [hnode n hn]
    exact h.nodes n hn

theorem initArcs_sim {g r : DlCompletionGraph} (h : SaveSim g r) (inv : RoleId → RoleId)
    (from_ to_ : NodeId) (R : RoleId) (dep : DepSet) :
    SaveSim g (initArcs inv r from_ to_ R dep) := by
  refine h.plain_step rfl rfl (le_refl _) (Nat.le_add_right _ 2) ⟨[], by simp [initArcs], ?_⟩
    (fun n hn => h.nodes n hn) rfl
    ⟨fun n _ => ⟨rfl, rfl⟩, fun a ha =>
      initArcs_old inv r from_ to_ R dep a (lt_of_lt_of_le ha h.nEdges)⟩
  intro n _ hl
  exact Or.inl hl

theorem saveNode_unchanged (r : DlCompletionGraph) (node : NodeId) (level : Nat)
    (hlv : ¬ (r.NodeBase node).curLevel < level) : saveNode r node level = r := by
  unfold saveNode
  rw [if_neg hlv]

theorem saveNode_changed (r : DlCompletionGraph) (node : NodeId) (level : Nat)
    (hlv : (r.NodeBase node).curLevel < level) :
    saveNode r node level =
      { r with
        NodeBase := setAt r.NodeBase node
          { r.NodeBase node with
            saves := { curLevel := (r.NodeBase node).curLevel,
                       nPars := (r.NodeBase node).Parent.length,
                       nSons := (r.NodeBase node).Son.length } :: (r.NodeBase node).saves
            curLevel := level }
        SavedNodes := r.SavedNodes ++ [node] } := by
  unfold saveNode
  rw [if_pos hlv]

theorem saveNode_level (r : DlCompletionGraph) (node : NodeId) (level : Nat) :
    level ≤ ((saveNode r node level).NodeBase node).curLevel ∧
      ∀ n, (r.NodeBase n).curLevel ≤ ((saveNode r node level).NodeBase n).curLevel := by
  by_cases hlv : (r.NodeBase node).curLevel < level
  · rw [saveNode_changed r node level hlv]
    refine ⟨?_, fun n => ?_⟩
    · show level ≤ (setAt r.NodeBase node _ node).curLevel
      rw [setAt_same]
    · show _ ≤ (setAt r.NodeBase node _ n).curLevel
      by_cases hn : n = node
      · subst hn; rw [setAt_same]; exact le_of_lt hlv
      · rw [setAt_other _ _ _ _ hn]
  · rw [saveNode_unchanged r node level hlv]
    exact ⟨not_lt.mp hlv, fun _ => le_refl _⟩

theorem saveNode_sim {g r : DlCompletionGraph} (h : SaveSim g r) (node : NodeId) :
    SaveSim g (saveNode r node r.branchingLevel) := by
  by_cases hlv : (r.NodeBase node).curLevel < r.branchingLevel
  · rw [saveNode_changed r node _ hlv]
    refine h.plain_step rfl rfl (le_refl _) (le_refl _) ⟨[node], rfl, ?_⟩ ?_ rfl
      ⟨fun n _ => ?_, fun a _ => rfl⟩
    · intro n _ hl
      by_cases hn : n = node
      · exact Or.inr (by simp [hn])
      · left
        have : (setAt r.NodeBase node
            { r.NodeBase node with
              saves := { curLevel := (r.NodeBase node).curLevel,
                         nPars := (r.NodeBase node).Parent.length,
                         nSons := (r.NodeBase node).Son.length } :: (r.NodeBase node).saves
              curLevel := r.branchingLevel } n) = r.NodeBase n := setAt_other _ _ _ _ hn
        rw [← this]; exact hl
    · intro n hn
      show NodeSim _ _ (setAt r.NodeBase node _ n)
      by_cases hnn : n = node
      · subst hnn
        rw [setAt_same]
        obtain ⟨hnom, hcase⟩ := h.nodes n hn
        refine ⟨hnom, Or.inr ?_⟩
        rcases hcase with ⟨c1, c2, c3, c4⟩ | ⟨c1, _⟩
        · refine ⟨?_, ?_, ⟨[], ?_⟩, ⟨[], ?_⟩⟩
          · show g.branchingLevel < r.branchingLevel
            rw [h.level]; exact Nat.lt_succ_self _
          · show _ :: (r.NodeBase n).saves = _
            rw [c1, c2, c3, c4]
          · show (r.NodeBase n).Parent = _
            rw [c3]; simp
          · show (r.NodeBase n).Son = _
            rw [c4]; simp
        · exfalso
          rw [h.level] at hlv
          omega
      · rw [setAt_other _ _ _ _ hnn]
        exact h.nodes n hn
    · show (setAt r.NodeBase node _ n).pBlocked = _ ∧ (setAt r.NodeBase node _ n).IR = _
      by_cases hnn : n = node
      · subst hnn; rw [setAt_same]; exact ⟨rfl, rfl⟩
      · rw [setAt_other _ _ _ _ hnn]; exact ⟨rfl, rfl⟩
  · rw [saveNode_unchanged r node _ hlv]
    exact h

/-- An old node whose level is above the level of the save is in its saved
form. -/
theorem SaveSim.saved_form {g r : DlCompletionGraph} (h : SaveSim g r)
    (hlev : ∀ n < g.endUsed, (g.NodeBase n).curLevel ≤ g.branchingLevel) (n : NodeId)
    (hn : n < g.endUsed) (hl : g.branchingLevel < (r.NodeBase n).curLevel) :
    (r.NodeBase n).saves =
        { curLevel := (g.NodeBase n).curLevel,
          nPars := (g.NodeBase n).Parent.length,
          nSons := (g.NodeBase n).Son.length } :: (g.NodeBase n).saves ∧
      (∃ l, (r.NodeBase n).Parent = (g.NodeBase n).Parent ++ l) ∧
      ∃ l, (r.NodeBase n).Son = (g.NodeBase n).Son ++ l := by
  obtain ⟨_, hcase⟩ := h.nodes n hn
  rcases hcase with ⟨c1, _⟩ | ⟨_, c2, c3, c4⟩
  · exfalso
    have := hlev n hn
    rw [c1] at hl
    omega
  · exact ⟨c2, c3, c4⟩

theorem addParent_sim {g r : DlCompletionGraph} (h : SaveSim g r)
    (hlev : ∀ n < g.endUsed, (g.NodeBase n).curLevel ≤ g.branchingLevel) (node : NodeId)
    (a : ArcId) (hsv : node < g.endUsed → g.branchingLevel < (r.NodeBase node).curLevel) :
    SaveSim g (addParent r node a) := by
  have key : ∀ {β : Type} (f : DlCompletionTree → β),
      (∀ (x : DlCompletionTree) (l : List ArcId), f { x with Parent := l } = f x) →
      ∀ n, f ((addParent r node a).NodeBase n) = f (r.NodeBase n) := by
    intro β f hf n
    exact setAt_proj _ _ _ f (hf _ _) n
  refine h.plain_step rfl rfl (le_refl _) (le_refl _) ⟨[], by simp [addParent], ?_⟩ ?_ rfl
    ⟨fun n _ => ⟨key DlCompletionTree.pBlocked (fun _ _ => rfl) n,
      key DlCompletionTree.IR (fun _ _ => rfl) n⟩, fun _ _ => rfl⟩
  · intro n _ hl
    rw [key DlCompletionTree.curLevel (fun _ _ => rfl) n] at hl
    exact Or.inl hl
  · intro n hn
    by_cases hnn : n = node
    · subst hnn
      obtain ⟨s1, ⟨l2, s2⟩, s3⟩ := h.saved_form hlev n hn (hsv hn)
      refine ⟨(key DlCompletionTree.nominal (fun _ _ => rfl) n).trans (h.nodes n hn).1,
        Or.inr ⟨?_, ?_, ⟨l2 ++ [a], ?_⟩, ?_⟩⟩
      · rw [key DlCompletionTree.curLevel (fun _ _ => rfl) n]; exact hsv hn
      · rw [key DlCompletionTree.saves (fun _ _ => rfl) n]; exact s1
      · show (setAt r.NodeBase n _ n).Parent = _
        rw [setAt_same]
        show (r.NodeBase n).Parent ++ [a] = _
        rw [s2, List.append_assoc]
      · rw [key DlCompletionTree.Son (fun _ _ => rfl) n]; exact s3
    · have : (addParent r node a).NodeBase n = r.NodeBase n := setAt_other _ _ _ _ hnn
      rw [this]
      exact h.nodes n hn

theorem addChild_sim {g r : DlCompletionGraph} (h : SaveSim g r)
    (hlev : ∀ n < g.endUsed, (g.NodeBase n).curLevel ≤ g.branchingLevel) (node : NodeId)
    (a : ArcId) (hsv : node < g.endUsed → g.branchingLevel < (r.NodeBase node).curLevel) :
    SaveSim g (addChild r node a) := by
  have key : ∀ {β : Type} (f : DlCompletionTree → β),
      (∀ (x : DlCompletionTree) (l : List ArcId), f { x with Son := l } = f x) →
      ∀ n, f ((addChild r node a).NodeBase n) = f (r.NodeBase n) := by
    intro β f hf n
    exact setAt_proj _ _ _ f (hf _ _) n
  refine h.plain_step rfl rfl (le_refl _) (le_refl _) ⟨[], by simp [addChild], ?_⟩ ?_ rfl
    ⟨fun n _ => ⟨key DlCompletionTree.pBlocked (fun _ _ => rfl) n,
      key DlCompletionTree.IR (fun _ _ => rfl) n⟩, fun _ _ => rfl⟩
  · intro n _ hl
    rw [key DlCompletionTree.curLevel (fun _ _ => rfl) n] at hl
    exact Or.inl hl
  · intro n hn
    by_cases hnn : n = node
    · subst hnn
      obtain ⟨s1, s2, ⟨l3, s3⟩⟩ := h.saved_form hlev n hn (hsv hn)
      refine ⟨(key DlCompletionTree.nominal (fun _ _ => rfl) n).trans (h.nodes n hn).1,
        Or.inr ⟨?_, ?_, ?_, ⟨l3 ++ [a], ?_⟩⟩⟩
      · rw [key DlCompletionTree.curLevel (fun _ _ => rfl) n]; exact hsv hn
      · rw [key DlCompletionTree.saves (fun _ _ => rfl) n]; exact s1
      · rw [key DlCompletionTree.Parent (fun _ _ => rfl) n]; exact s2
      · show (setAt r.NodeBase n _ n).Son = _
        rw [setAt_same]
        show (r.NodeBase n).Son ++ [a] = _
        rw [s3, List.append_assoc]
    · have : (addChild r node a).NodeBase n = r.NodeBase n := setAt_other _ _ _ _ hnn
      rw [this]
      exact h.nodes n hn

theorem saveNode_sim_at {g r : DlCompletionGraph} (h : SaveSim g r) (node : NodeId)
    (level : Nat) (hl : level = r.branchingLevel) : SaveSim g (saveNode r node level) := by
  subst hl
  exact saveNode_sim h node

theorem saveNode_branchingLevel (r : DlCompletionGraph) (node : NodeId) (level : Nat) :
    (saveNode r node level).branchingLevel = r.branchingLevel := by
  unfold saveNode; split <;> rfl

theorem addParent_curLevel (r : DlCompletionGraph) (node : NodeId) (a : ArcId) (n : NodeId) :
    ((addParent r node a).NodeBase n).curLevel = (r.NodeBase n).curLevel := by
  refine setAt_proj _ _ _ DlCompletionTree.curLevel ?_ n
  rfl

theorem addChild_curLevel (r : DlCompletionGraph) (node : NodeId) (a : ArcId) (n : NodeId) :
    ((addChild r node a).NodeBase n).curLevel = (r.NodeBase n).curLevel := by
  refine setAt_proj _ _ _ DlCompletionTree.curLevel ?_ n
  rfl

theorem createEdge_sim {g r : DlCompletionGraph} (h : SaveSim g r)
    (hlev : ∀ n < g.endUsed, (g.NodeBase n).curLevel ≤ g.branchingLevel)
    (inv : RoleId → RoleId) (from_ to_ : NodeId) (isUpLink : Bool) (R : RoleId) (dep : DepSet) :
    SaveSim g (createEdge inv r from_ to_ isUpLink R dep).1 := by
  rw [createEdge_fst]
  have h1 := initArcs_sim h inv from_ to_ R dep
  have h2 := saveNode_sim_at h1 from_ r.branchingLevel rfl
  have h3 := saveNode_sim_at h2 to_ r.branchingLevel
    (by rw [saveNode_branchingLevel]; rfl)
  have hL : g.branchingLevel < r.branchingLevel := by rw [h.level]; exact Nat.lt_succ_self _
  have lf := saveNode_level (initArcs inv r from_ to_ R dep) from_ r.branchingLevel
  have lt := saveNode_level (saveNode (initArcs inv r from_ to_ R dep) from_ r.branchingLevel)
    to_ r.branchingLevel
  have hfrom : g.branchingLevel < ((saveNode (saveNode (initArcs inv r from_ to_ R dep) from_
      r.branchingLevel) to_ r.branchingLevel).NodeBase from_).curLevel :=
    lt_of_lt_of_le hL (le_trans lf.1 (lt.2 from_))
  have hto : g.branchingLevel < ((saveNode (saveNode (initArcs inv r from_ to_ R dep) from_
      r.branchingLevel) to_ r.branchingLevel).NodeBase to_).curLevel :=
    lt_of_lt_of_le hL lt.1
  cases isUpLink with
  | true =>
    simp only [if_true]
    have h4 := addParent_sim h3 hlev from_ r.nEdges (fun _ => hfrom)
    exact addChild_sim h4 hlev to_ (r.nEdges + 1)
      (fun _ => by rw [addParent_curLevel]; exact hto)
  | false =>
    simp only [Bool.false_eq_true, if_false]
    have h4 := addChild_sim h3 hlev from_ r.nEdges (fun _ => hfrom)
    exact addParent_sim h4 hlev to_ (r.nEdges + 1)
      (fun _ => by rw [addChild_curLevel]; exact hto)

theorem addRoleLabel_sim {g r : DlCompletionGraph} (h : SaveSim g r)
    (hlev : ∀ n < g.endUsed, (g.NodeBase n).curLevel ≤ g.branchingLevel)
    (inv : RoleId → RoleId) (from_ to_ : NodeId) (isUpLink : Bool) (R : RoleId) (dep : DepSet) :
    SaveSim g (addRoleLabel inv r from_ to_ isUpLink R dep).1 := by
  unfold addRoleLabel
  cases getEdgeLabelled r from_ R to_ with
  | some a => exact addDep_sim h a dep
  | none => exact createEdge_sim h hlev inv from_ to_ isUpLink R dep

theorem moveEdge_sim {g r : DlCompletionGraph} (h : SaveSim g r)
    (hlev : ∀ n < g.endUsed, (g.NodeBase n).curLevel ≤ g.branchingLevel)
    (inv : RoleId → RoleId) (node : NodeId) (edge : ArcId) (isUpLink : Bool) (dep : DepSet) :
    SaveSim g (moveEdge inv r node edge isUpLink dep).1 := by
  rcases moveEdge_cases inv r node edge isUpLink dep with hm | hm | ⟨up1, hm⟩
  · rw [hm]; exact h
  · rw [hm]; exact invalidateEdge_sim h edge
  · rw [hm]
    exact invalidateEdge_sim (addRoleLabel_sim h hlev inv node _ up1 _ dep) edge

theorem moveEdges_sim {g : DlCompletionGraph}
    (hlev : ∀ n < g.endUsed, (g.NodeBase n).curLevel ≤ g.branchingLevel)
    (inv : RoleId → RoleId) (to_ : NodeId) (isUpLink : Bool) (dep : DepSet) :
    ∀ (l : List ArcId) (acc : DlCompletionGraph × List ArcId), SaveSim g acc.1 →
      SaveSim g (moveEdges inv to_ isUpLink dep l acc).1 := by
  intro l
  induction l with
  | nil => intro acc h; simpa [moveEdges] using h
  | cons q qs ih =>
    intro acc h
    obtain ⟨r, edges⟩ := acc
    rw [moveEdges_cons]
    exact ih _ (moveEdge_sim h hlev inv to_ q isUpLink dep)

theorem Purge_sim {g : DlCompletionGraph} (root : NodeId) (dep : DepSet) :
    ∀ (fuel : Nat) (r : DlCompletionGraph) (p : NodeId), SaveSim g r →
      SaveSim g (Purge fuel r p root dep) := by
  intro fuel
  induction fuel with
  | zero => intro r p h; exact h
  | succ fuel ih =>
    intro r p h
    by_cases hp : isPBlocked r p = true
    · rw [Purge_blocked_eq fuel r p root dep hp]; exact h
    · have hp0 : isPBlocked r p = false := by simpa using hp
      rw [Purge_unblocked_eq fuel r p root dep hp0]
      apply foldl_mem_invariant _ (fun acc => SaveSim g acc)
      · exact setPBlocked_sim h p root dep
      · intro acc q _ hacc
        by_cases hn : (acc.NodeBase (acc.CTEdgeHeap q).ArcEnd).nominal = true
        · simp only [hn, Bool.not_true, Bool.false_eq_true, if_false]
          exact invalidateEdge_sim hacc q
        · have hn0 : (acc.NodeBase (acc.CTEdgeHeap q).ArcEnd).nominal = false := by
            simpa using hn
          simp only [hn0, Bool.not_false, if_true]
          exact ih acc _ hacc

theorem applyMutation_sim {g r : DlCompletionGraph} (h : SaveSim g r)
    (hlev : ∀ n < g.endUsed, (g.NodeBase n).curLevel ≤ g.branchingLevel)
    (inv : RoleId → RoleId) (m : Mutation) : SaveSim g (applyMutation inv r m) := by
  cases m with
  | newNode nominal => exact getNewNode_sim h nominal
  | createEdge from_ to_ isUpLink R dep => exact createEdge_sim h hlev inv from_ to_ isUpLink R dep
  | merge from_ to_ dep =>
    show SaveSim g (Merge inv r from_ to_ dep).1
    rw [Merge_fst]
    apply Purge_sim
    apply updateIR_sim
    apply moveEdges_sim hlev
    apply moveEdges_sim hlev
    exact h
  | purge p root dep => exact Purge_sim root dep _ r p h

theorem applyMutations_sim {g : DlCompletionGraph}
    (hlev : ∀ n < g.endUsed, (g.NodeBase n).curLevel ≤ g.branchingLevel)
    (inv : RoleId → RoleId) :
    ∀ (ms : List Mutation) (r : DlCompletionGraph), SaveSim g r →
      SaveSim g (applyMutations inv ms r) := by
  intro ms
  induction ms with
  | nil => intro r h; exact h
  | cons m ms ih => intro r h; exact ih _ (applyMutation_sim h hlev inv m)

theorem save_sim (g : DlCompletionGraph)
    (hlev : ∀ n < g.endUsed, (g.NodeBase n).curLevel ≤ g.branchingLevel) :
    SaveSim g (save g) where
  level := rfl
  stack := rfl
  endUsed := le_refl _
  nEdges := le_refl _
  saved := ⟨[], by simp [save], fun n hn hl => absurd (hlev n hn) (not_le.mpr hl)⟩
  nodes := fun n _ => ⟨rfl, Or.inl ⟨rfl, rfl, rfl, rfl⟩⟩
  rare := ⟨[], rfl, by simp, ⟨fun _ _ => ⟨rfl, rfl⟩, fun _ _ => rfl⟩⟩

theorem restoreRareLoop_append (L : Nat) :
    ∀ (new old : List (Nat × Restorer)) (x : DlCompletionGraph),
      (∀ e ∈ new, L < e.1) → (∀ e ∈ old, e.1 ≤ L) →
      restoreRareLoop L (new ++ old) x = { undoAll new x with RareStack := old } := by
  intro new
  induction new with
  | nil =>
    intro old x _ hold
    cases old with
    | nil => rfl
    | cons e rest =>
      obtain ⟨l, r⟩ := e
      have hl : ¬ L < l := not_lt.mpr (hold (l, r) (List.mem_cons_self _ _))
      show restoreRareLoop L ((l, r) :: rest) x = _
      rw [restoreRareLoop, if_neg hl]
      rfl
  | cons e rest ih =>
    intro old x hnew hold
    obtain ⟨l, r⟩ := e
    have hl : L < l := hnew (l, r) (List.mem_cons_self _ _)
    show restoreRareLoop L ((l, r) :: (rest ++ old)) x = _
    rw [restoreRareLoop, if_pos hl,
      ih old _ (fun e he => hnew e (List.mem_cons_of_mem _ he)) hold]
    rfl

theorem popStack_top (stack : List SaveState) (s : SaveState) :
    popStack (stack ++ [s]) (stack.length + 1) = some (s, stack) := by
  unfold popStack
  simp

/-- What `restoreNode` leaves alone. -/
theorem restoreNode_frame (x : DlCompletionGraph) (p : NodeId) (L : Nat) :
    (restoreNode x p L).endUsed = x.endUsed ∧ (restoreNode x p L).SavedNodes = x.SavedNodes ∧
      (restoreNode x p L).Stack = x.Stack ∧ (restoreNode x p L).RareStack = x.RareStack ∧
      (restoreNode x p L).CTEdgeHeap = x.CTEdgeHeap ∧
      (restoreNode x p L).branchingLevel = x.branchingLevel ∧
      (restoreNode x p L).nEdges = x.nEdges ∧
      (∀ n, n ≠ p → (restoreNode x p L).NodeBase n = x.NodeBase n) ∧
      ∀ n, ((restoreNode x p L).NodeBase n).nominal = (x.NodeBase n).nominal ∧
        ((restoreNode x p L).NodeBase n).IR = (x.NodeBase n).IR ∧
        ((restoreNode x p L).NodeBase n).pBlocked = (x.NodeBase n).pBlocked := by
  unfold restoreNode
  by_cases hl : L < (x.NodeBase p).curLevel
  · rw [if_pos hl]
    rcases hps : popSaves L (x.NodeBase p).saves with ⟨_ | s, rest⟩
    · refine ⟨rfl, rfl, rfl, rfl, rfl, rfl, rfl, fun n hn => setAt_other _ _ _ _ hn, fun n => ?_⟩
      refine ⟨?_, ?_, ?_⟩
      · refine setAt_proj _ _ _ DlCompletionTree.nominal ?_ n; rfl
      · refine setAt_proj _ _ _ DlCompletionTree.IR ?_ n; rfl
      · refine setAt_proj _ _ _ DlCompletionTree.pBlocked ?_ n; rfl
    · refine ⟨rfl, rfl, rfl, rfl, rfl, rfl, rfl, fun n hn => setAt_other _ _ _ _ hn, fun n => ?_⟩
      refine ⟨?_, ?_, ?_⟩
      · refine setAt_proj _ _ _ DlCompletionTree.nominal ?_ n; rfl
      · refine setAt_proj _ _ _ DlCompletionTree.IR ?_ n; rfl
      · refine setAt_proj _ _ _ DlCompletionTree.pBlocked ?_ n; rfl
  · rw [if_neg hl]
    exact ⟨rfl, rfl, rfl, rfl, rfl, rfl, rfl, fun _ _ => rfl, fun _ => ⟨rfl, rfl, rfl⟩⟩

/-- A node saved once above level `L` gets its old level, save stack and arc
lists back from `restoreNode`. -/
theorem restoreNode_saved (x : DlCompletionGraph) (p : NodeId) (L : Nat)
    (old : DlCompletionTree) (hold : old.curLevel ≤ L) (hl : L < (x.NodeBase p).curLevel)
    (hsaves : (x.NodeBase p).saves =
      { curLevel := old.curLevel, nPars := old.Parent.length, nSons := old.Son.length }
        :: old.saves)
    (hpar : ∃ l, (x.NodeBase p).Parent = old.Parent ++ l)
    (hson : ∃ l, (x.NodeBase p).Son = old.Son ++ l) :
    ((restoreNode x p L).NodeBase p).curLevel = old.curLevel ∧
      ((restoreNode x p L).NodeBase p).saves = old.saves ∧
      ((restoreNode x p L).NodeBase p).Parent = old.Parent ∧
      ((restoreNode x p L).NodeBase p).Son = old.Son := by
  obtain ⟨l1, hpar⟩ := hpar
  obtain ⟨l2, hson⟩ := hson
  have hps : popSaves L (x.NodeBase p).saves =
      (some { curLevel := old.curLevel, nPars := old.Parent.length, nSons := old.Son.length },
        old.saves) := by
    rw [hsaves, popSaves, if_neg (not_lt.mpr hold)]
  unfold restoreNode
  rw [if_pos hl, hps]
  simp only []
  rw [setAt_same]
  refine ⟨rfl, rfl, ?_, ?_⟩
  · show (x.NodeBase p).Parent.take old.Parent.length = old.Parent
    rw [hpar]; simp
  · show (x.NodeBase p).Son.take old.Son.length = old.Son
    rw [hson]; simp

theorem restoreNode_inv {g x0 x : DlCompletionGraph} (h : RestoreInv g x0 x)
    (hlev : ∀ n < g.endUsed, (g.NodeBase n).curLevel ≤ g.branchingLevel) (p : NodeId)
    (hp : p < g.endUsed) :
    RestoreInv g x0 (restoreNode x p g.branchingLevel) ∧
      ((restoreNode x p g.branchingLevel).NodeBase p).curLevel ≤ g.branchingLevel := by
  obtain ⟨f1, f2, f3, f4, f5, f6, _, f8, f9⟩ := restoreNode_frame x p g.branchingLevel
  have hnodes : NodeSim g.branchingLevel (g.NodeBase p)
        ((restoreNode x p g.branchingLevel).NodeBase p) ∧
      ((restoreNode x p g.branchingLevel).NodeBase p).curLevel ≤ g.branchingLevel := by
    obtain ⟨hnom, hcase⟩ := h.nodes p hp
    rcases hcase with ⟨c1, c2, c3, c4⟩ | ⟨c1, c2, c3, c4⟩
    · have hno : ¬ g.branchingLevel < (x.NodeBase p).curLevel := by
        rw [c1]; exact not_lt.mpr (hlev p hp)
      have heq : restoreNode x p g.branchingLevel = x := by
        unfold restoreNode; rw [if_neg hno]
      rw [heq]
      exact ⟨⟨hnom, Or.inl ⟨c1, c2, c3, c4⟩⟩, not_lt.mp hno⟩
    · obtain ⟨r1, r2, r3, r4⟩ :=
        restoreNode_saved x p g.branchingLevel (g.NodeBase p) (hlev p hp) c1 c2 c3 c4
      exact ⟨⟨(f9 p).1.trans hnom, Or.inl ⟨r1, r2, r3, r4⟩⟩, by rw [r1]; exact hlev p hp⟩
  refine ⟨⟨f1.trans h.endUsed, f2.trans h.saved, f3.trans h.stack, f4.trans h.rareStack,
    f5.trans h.heap, f6.trans h.level,
    fun n => ⟨(f9 n).2.1.trans (h.rare n).1, (f9 n).2.2.trans (h.rare n).2⟩, ?_⟩, hnodes.2⟩
  intro n hn
  by_cases hnp : n = p
  · subst hnp; exact hnodes.1
  · rw [f8 n hnp]; exact h.nodes n hn

theorem restoreNodes_inv {g x0 : DlCompletionGraph}
    (hlev : ∀ n < g.endUsed, (g.NodeBase n).curLevel ≤ g.branchingLevel)
    (hend : x0.endUsed = g.endUsed) :
    ∀ (ps : List NodeId) (x : DlCompletionGraph), RestoreInv g x0 x →
      (∀ n < g.endUsed, g.branchingLevel < (x.NodeBase n).curLevel → n ∈ ps) →
      RestoreInv g x0 (restoreNodes g.branchingLevel ps x) ∧
        ∀ n < g.endUsed,
          ((restoreNodes g.branchingLevel ps x).NodeBase n).curLevel ≤ g.branchingLevel := by
  intro ps
  induction ps with
  | nil =>
    intro x h hall
    refine ⟨h, fun n hn => not_lt.mp fun hl => ?_⟩
    have := hall n hn hl
    simp at this
  | cons p ps ih =>
    intro x h hall
    by_cases hp : p < x.endUsed
    · have hp1 : p < g.endUsed := by rw [← hend, ← h.endUsed]; exact hp
      rw [restoreNodes, if_pos hp]
      obtain ⟨h1, hle⟩ := restoreNode_inv h hlev p hp1
      refine ih _ h1 fun n hn hl => ?_
      have hnp : n ≠ p := by
        intro e
        subst e
        exact absurd hl (not_lt.mpr hle)
      rw [(restoreNode_frame x p g.branchingLevel).2.2.2.2.2.2.2.1 n hnp] at hl
      have := hall n hn hl
      simp only [List.mem_cons] at this
      exact this.resolve_left hnp
    · rw [restoreNodes, if_neg hp]
      refine ih _ h fun n hn hl => ?_
      have hnp : n ≠ p := by
        intro e
        subst e
        rw [h.endUsed, hend] at hp
        exact hp hn
      have := hall n hn hl
      simp only [List.mem_cons] at this
      exact this.resolve_left hnp

theorem DlCompletionTree.ext_fields (a b : DlCompletionTree) (h1 : a.nominal = b.nominal)
    (h2 : a.Parent = b.Parent) (h3 : a.Son = b.Son) (h4 : a.IR = b.IR)
    (h5 : a.pBlocked = b.pBlocked) (h6 : a.curLevel = b.curLevel) (h7 : a.saves = b.saves) :
    a = b := by
  cases a
  cases b
  simp only [DlCompletionTree.mk.injEq]
  simp only [] at h1 h2 h3 h4 h5 h6 h7
  exact ⟨h1, h2, h3, h4, h5, h6, h7⟩

/-- The effect of `restore` at the level of the save on a graph that simulates
the saved one. -/
theorem restore_of_sim {g r : DlCompletionGraph} (hok : LevelsOK g) (h : SaveSim g r) :
    ∃ g1, restore r g.branchingLevel = some g1 ∧ g1.endUsed = g.endUsed ∧
      g1.SavedNodes = g.SavedNodes ∧ g1.branchingLevel = g.branchingLevel ∧
      g1.Stack = g.Stack ∧ g1.RareStack = g.RareStack ∧
      (∀ n < g.endUsed, g1.NodeBase n = g.NodeBase n) ∧
      ∀ a < g.nEdges, g1.CTEdgeHeap a = g.CTEdgeHeap a := by
  obtain ⟨new, hnew, hnewl, hundo⟩ := h.rare
  obtain ⟨extra, hextra, hmem⟩ := h.saved
  have hL : g.branchingLevel ≠ 0 := by
    rw [← hok.stack]; exact Nat.succ_ne_zero _
  obtain ⟨x1, hx1⟩ : ∃ x1 : DlCompletionGraph, x1 = { r with branchingLevel := g.branchingLevel } :=
    ⟨_, rfl⟩
  have hrr : restoreRare g.branchingLevel x1 = { undoAll new x1 with RareStack := g.RareStack } := by
    unfold restoreRare
    have : x1.RareStack = new ++ g.RareStack := by rw [hx1]; exact hnew
    rw [this]
    exact restoreRareLoop_append _ new g.RareStack x1 hnewl hok.rare
  obtain ⟨u1, u2, u3, u4, u5, u6, _⟩ := undoAll_frame new x1
  have hpop : popStack (restoreRare g.branchingLevel x1).Stack g.branchingLevel =
      some ({ nNodes := g.endUsed, sNodes := g.SavedNodes.length }, g.Stack) := by
    rw [hrr]
    show popStack (undoAll new x1).Stack _ = _
    rw [u5, hx1]
    show popStack r.Stack _ = _
    rw [h.stack, ← hok.stack]
    exact popStack_top _ _
  obtain ⟨x0, hx0⟩ : ∃ x0 : DlCompletionGraph, x0 =
      { restoreRare g.branchingLevel x1 with Stack := g.Stack, endUsed := g.endUsed } := ⟨_, rfl⟩
  have hx0nodes : x0.NodeBase = (undoAll new x1).NodeBase := by rw [hx0, hrr]
  have hx0heap : x0.CTEdgeHeap = (undoAll new x1).CTEdgeHeap := by rw [hx0, hrr]
  have hx0saved : x0.SavedNodes = g.SavedNodes ++ extra := by
    rw [hx0, hrr]
    show (undoAll new x1).SavedNodes = _
    rw [u4, hx1]; exact hextra
  have hx0level : x0.branchingLevel = g.branchingLevel := by
    rw [hx0, hrr]
    show (undoAll new x1).branchingLevel = _
    rw [u6, hx1]
  have hx0rare : x0.RareStack = g.RareStack := by rw [hx0, hrr]
  have hx0stack : x0.Stack = g.Stack := by rw [hx0]
  have hx0end : x0.endUsed = g.endUsed := by rw [hx0]
  have hres : restore r g.branchingLevel = some
      { restoreNodes g.branchingLevel (x0.SavedNodes.drop g.SavedNodes.length) x0 with
        SavedNodes := (restoreNodes g.branchingLevel (x0.SavedNodes.drop g.SavedNodes.length)
          x0).SavedNodes.take g.SavedNodes.length } := by
    unfold restore
    rw [if_neg hL, ← hx1]
    simp only []
    rw [hpop]
    simp only []
    rw [← hx0]
    have hsv : (restoreRare g.branchingLevel x1).SavedNodes = x0.SavedNodes := by rw [hx0]
    rw [hsv]
  have hdrop : x0.SavedNodes.drop g.SavedNodes.length = extra := by
    rw [hx0saved]; simp
  have hrareEq : RareEqOn g.endUsed g.nEdges (undoAll new x1) g := by
    have hc : RareEqOn g.endUsed g.nEdges x1 r := by
      rw [hx1]; exact ⟨fun _ _ => ⟨rfl, rfl⟩, fun _ _ => rfl⟩
    exact (undoAll_congr _ _ new x1 r hc).rare_trans hundo
  have hinv0 : RestoreInv g x0 x0 := by
    refine ⟨rfl, rfl, rfl, rfl, rfl, rfl, fun _ => ⟨rfl, rfl⟩, fun n hn => ?_⟩
    rw [hx0nodes]
    have hs := u1 n
    have hr : (x1.NodeBase n) = r.NodeBase n := by rw [hx1]
    rw [hr] at hs
    exact (h.nodes n hn).congr hs.1 hs.2.1 hs.2.2.1 hs.2.2.2.1 hs.2.2.2.2
  have hall : ∀ n < g.endUsed, g.branchingLevel < (x0.NodeBase n).curLevel → n ∈ extra := by
    intro n hn hl
    rw [hx0nodes, (u1 n).2.1] at hl
    have hr : (x1.NodeBase n) = r.NodeBase n := by rw [hx1]
    rw [hr] at hl
    exact hmem n hn hl
  obtain ⟨hinv, hle⟩ := restoreNodes_inv hok.nodes hx0end extra x0 hinv0 hall
  rw [hdrop] at hres
  refine ⟨_, hres, ?_, ?_, ?_, ?_, ?_, ?_, ?_⟩
  · exact hinv.endUsed.trans hx0end
  · show List.take _ (restoreNodes g.branchingLevel extra x0).SavedNodes = _
    rw [hinv.saved, hx0saved]; simp
  · exact hinv.level.trans hx0level
  · exact hinv.stack.trans hx0stack
  · exact hinv.rareStack.trans hx0rare
  · intro n hn
    show (restoreNodes g.branchingLevel extra x0).NodeBase n = _
    obtain ⟨hnom, hcase⟩ := hinv.nodes n hn
    have hrn := hinv.rare n
    rw [hx0nodes] at hrn
    have hq := hrareEq.1 n hn
    rcases hcase with ⟨c1, c2, c3, c4⟩ | ⟨c1, _⟩
    · exact DlCompletionTree.ext_fields _ _ hnom c3 c4 (hrn.1.trans hq.2) (hrn.2.trans hq.1)
        c1 c2
    · exact absurd c1 (not_lt.mpr (hle n hn))
  · intro a ha
    show (restoreNodes g.branchingLevel extra x0).CTEdgeHeap a = _
    rw [hinv.heap, hx0heap]
    exact hrareEq.2 a ha

/-- C1 (amended): in a graph with well-formed levels, after `save()` and any
sequence of mutations (node creation, `createEdge`, `Merge`, `Purge`), the call
of `restore` with the branching level that was current when `save` was called
succeeds and returns the graph to its pre-save state: `endUsed`, `SavedNodes`,
the level, the save stack and the rare log have their pre-save values, every
surviving node has its pre-save content and every arc handed out before the
save is as it was. -/
theorem restore_after_save (inv : RoleId → RoleId) (g : DlCompletionGraph) (hok : LevelsOK g)
    (ms : List Mutation) :
    ∃ g1, restore (applyMutations inv ms (save g)) g.branchingLevel = some g1 ∧
      g1.endUsed = g.endUsed ∧ g1.SavedNodes = g.SavedNodes ∧
      g1.branchingLevel = g.branchingLevel ∧ g1.Stack = g.Stack ∧
      g1.RareStack = g.RareStack ∧ (∀ n < g.endUsed, g1.NodeBase n = g.NodeBase n) ∧
      ∀ a < g.nEdges, g1.CTEdgeHeap a = g.CTEdgeHeap a :=
  restore_of_sim hok (applyMutations_sim hok.nodes inv ms (save g) (save_sim g hok.nodes))

theorem restore_after_save_witness :
    LevelsOK chainGraph ∧
      ∃ g1, restore (applyMutations pairInverse
          [.newNode false, .createEdge 0 4 false 6 {2}, .merge 1 0 {2}, .purge 2 3 ∅]
          (save chainGraph)) chainGraph.branchingLevel = some g1 ∧
        g1.endUsed = chainGraph.endUsed ∧ g1.SavedNodes = chainGraph.SavedNodes ∧
        g1.branchingLevel = chainGraph.branchingLevel ∧ g1.Stack = chainGraph.Stack ∧
        g1.RareStack = chainGraph.RareStack ∧
        (∀ n < chainGraph.endUsed, g1.NodeBase n = chainGraph.NodeBase n) ∧
        ∀ a < chainGraph.nEdges, g1.CTEdgeHeap a = chainGraph.CTEdgeHeap a :=
  ⟨⟨rfl, by decide, by decide⟩,
    restore_after_save pairInverse chainGraph ⟨rfl, by decide, by decide⟩
      [.newNode false, .createEdge 0 4 false 6 {2}, .merge 1 0 {2}, .purge 2 3 ∅]⟩

/-- C1, the claim as stated fails: `save` on `chainGraph` (level 1) produces the
branching level 2.  After one `createEdge(0, 2)`, `restore(2)` finds no state
on the save stack (which holds one state, for level 1), and `restoreNode` at
level 2 leaves node `0`, saved at level 2, with its new successor arc. -/
theorem restore_level_counterexample :
    (save chainGraph).branchingLevel = 2 ∧
      (restore (applyMutations pairInverse [.createEdge 0 2 false 6 ∅] (save chainGraph))
        (save chainGraph).branchingLevel).isNone = true ∧
      ((restoreNode (applyMutations pairInverse [.createEdge 0 2 false 6 ∅] (save chainGraph)) 0
        (save chainGraph).branchingLevel).NodeBase 0).Son = [0, 4] ∧
      (chainGraph.NodeBase 0).Son = [0] := by
  refine ⟨rfl, rfl, rfl, rfl⟩

/-! ### Edge creation and the successor pass of `Merge` -/

theorem addParent_lists (r : DlCompletionGraph) (node : NodeId) (a : ArcId) (n : NodeId) :
    ((addParent r node a).NodeBase n).Son = (r.NodeBase n).Son ∧
      ((addParent r node a).NodeBase n).Parent =
        if n = node then (r.NodeBase n).Parent ++ [a] else (r.NodeBase n).Parent := by
  refine ⟨?_, ?_⟩
  · refine setAt_proj _ _ _ DlCompletionTree.Son ?_ n
    rfl
  · by_cases hn : n = node
    · subst hn
      rw [if_pos rfl]
      show (setAt r.NodeBase n _ n).Parent = _
      rw [setAt_same]
    · rw [if_neg hn]
      show (setAt r.NodeBase node _ n).Parent = _
      rw [setAt_other _ _ _ _ hn]

theorem addChild_lists (r : DlCompletionGraph) (node : NodeId) (a : ArcId) (n : NodeId) :
    ((addChild r node a).NodeBase n).Parent = (r.NodeBase n).Parent ∧
      ((addChild r node a).NodeBase n).Son =
        if n = node then (r.NodeBase n).Son ++ [a] else (r.NodeBase n).Son := by
  refine ⟨?_, ?_⟩
  · refine setAt_proj _ _ _ DlCompletionTree.Parent ?_ n
    rfl
  · by_cases hn : n = node
    · subst hn
      rw [if_pos rfl]
      show (setAt r.NodeBase n _ n).Son = _
      rw [setAt_same]
    · rw [if_neg hn]
      show (setAt r.NodeBase node _ n).Son = _
      rw [setAt_other _ _ _ _ hn]

theorem initArcs_backward (inv : RoleId → RoleId) (g : DlCompletionGraph) (from_ to_ : NodeId)
    (R : RoleId) (dep : DepSet) :
    (initArcs inv g from_ to_ R dep).CTEdgeHeap (g.nEdges + 1) =
      { Role := inv R, depSet := dep, ArcEnd := from_, Reverse := g.nEdges, iBlocked := false } := by
  unfold initArcs
  simp only []
  rw [setAt_same]

theorem initArcs_other (inv : RoleId → RoleId) (g : DlCompletionGraph) (from_ to_ : NodeId)
    (R : RoleId) (dep : DepSet) (b : Nat) (h1 : b ≠ g.nEdges) (h2 : b ≠ g.nEdges + 1) :
    (initArcs inv g from_ to_ R dep).CTEdgeHeap b = g.CTEdgeHeap b := by
  unfold initArcs
  simp only []
  rw [setAt_other _ _ _ _ h2, setAt_other _ _ _ _ h1]

/-- The arc lists after the two `saveNode` calls of `createEdge` are the old
ones. -/
theorem createEdge_saved_lists (inv : RoleId → RoleId) (g : DlCompletionGraph)
    (from_ to_ : NodeId) (R : RoleId) (dep : DepSet) (n : NodeId) :
    ((saveNode (saveNode (initArcs inv g from_ to_ R dep) from_ g.branchingLevel) to_
        g.branchingLevel).NodeBase n).Parent = (g.NodeBase n).Parent ∧
      ((saveNode (saveNode (initArcs inv g from_ to_ R dep) from_ g.branchingLevel) to_
        g.branchingLevel).NodeBase n).Son = (g.NodeBase n).Son := by
  constructor
  · rw [saveNode_node _ _ _ DlCompletionTree.Parent (fun _ _ _ => rfl),
      saveNode_node _ _ _ DlCompletionTree.Parent (fun _ _ _ => rfl)]
    rfl
  · rw [saveNode_node _ _ _ DlCompletionTree.Son (fun _ _ _ => rfl),
      saveNode_node _ _ _ DlCompletionTree.Son (fun _ _ _ => rfl)]
    rfl

/-- C19: `createEdge(from, to, isUpLink, role, dep)` takes exactly two arcs from
the heap (all other arcs are untouched) and returns the first, the forward
arc, which ends at `to` and carries `role` and `dep`; its reverse arc is the
second one, which ends at `from`, carries `role.inverse()` and the same `dep`
and has the forward arc as its reverse; for an up-link the forward arc is
appended to the predecessor list of `from` and the reverse arc to the successor
list of `to`, otherwise the forward arc is appended to the successor list of
`from` and the reverse arc to the predecessor list of `to`. -/
theorem createEdge_arc_pair (inv : RoleId → RoleId) (g : DlCompletionGraph) (from_ to_ : NodeId)
    (isUpLink : Bool) (roleName : RoleId) (dep : DepSet) :
    (createEdge inv g from_ to_ isUpLink roleName dep).1.nEdges = g.nEdges + 2 ∧
      (createEdge inv g from_ to_ isUpLink roleName dep).2 = g.nEdges ∧
      (∀ a, a ≠ g.nEdges → a ≠ g.nEdges + 1 →
        (createEdge inv g from_ to_ isUpLink roleName dep).1.CTEdgeHeap a = g.CTEdgeHeap a) ∧
      (createEdge inv g from_ to_ isUpLink roleName dep).1.CTEdgeHeap
          (createEdge inv g from_ to_ isUpLink roleName dep).2 =
        { Role := roleName, depSet := dep, ArcEnd := to_, Reverse := g.nEdges + 1,
          iBlocked := false } ∧
      (createEdge inv g from_ to_ isUpLink roleName dep).1.CTEdgeHeap
          ((createEdge inv g from_ to_ isUpLink roleName dep).1.CTEdgeHeap
            (createEdge inv g from_ to_ isUpLink roleName dep).2).Reverse =
        { Role := inv roleName, depSet := dep, ArcEnd := from_,
          Reverse := (createEdge inv g from_ to_ isUpLink roleName dep).2, iBlocked := false } ∧
      (if isUpLink then
        ((createEdge inv g from_ to_ isUpLink roleName dep).1.NodeBase from_).Parent =
            (g.NodeBase from_).Parent ++ [g.nEdges] ∧
          ((createEdge inv g from_ to_ isUpLink roleName dep).1.NodeBase to_).Son =
            (g.NodeBase to_).Son ++ [g.nEdges + 1]
      else
        ((createEdge inv g from_ to_ isUpLink roleName dep).1.NodeBase from_).Son =
            (g.NodeBase from_).Son ++ [g.nEdges] ∧
          ((createEdge inv g from_ to_ isUpLink roleName dep).1.NodeBase to_).Parent =
            (g.NodeBase to_).Parent ++ [g.nEdges + 1]) := by
  obtain ⟨hheap, hn, hf⟩ := createEdge_heap inv g from_ to_ isUpLink roleName dep
  have hfw := initArcs_forward inv g from_ to_ roleName dep
  have hbw := initArcs_backward inv g from_ to_ roleName dep
  refine ⟨hn, hf, ?_, ?_, ?_, ?_⟩
  · intro a h1 h2
    rw [hheap]
    exact initArcs_other inv g from_ to_ roleName dep a h1 h2
  · rw [hheap, hf, hfw]
  · rw [hheap, hf, hfw]
    exact hbw
  · have hs := createEdge_saved_lists inv g from_ to_ roleName dep
    rw [createEdge_fst]
    cases isUpLink with
    | true =>
      simp only [if_true]
      refine ⟨?_, ?_⟩
      · rw [(addChild_lists _ _ _ _).1, (addParent_lists _ _ _ _).2, if_pos rfl, (hs from_).1]
      · rw [(addChild_lists _ _ _ _).2, if_pos rfl, (addParent_lists _ _ _ _).1, (hs to_).2]
    | false =>
      simp only [Bool.false_eq_true, if_false]
      refine ⟨?_, ?_⟩
      · rw [(addParent_lists _ _ _ _).1, (addChild_lists _ _ _ _).2, if_pos rfl, (hs from_).2]
      · rw [(addParent_lists _ _ _ _).2, if_pos rfl, (addChild_lists _ _ _ _).1, (hs to_).1]

theorem moveEdge_nonNominal (inv : RoleId → RoleId) (g : DlCompletionGraph) (node : NodeId)
    (edge : ArcId) (dep : DepSet)
    (hnom : (g.NodeBase (g.CTEdgeHeap edge).ArcEnd).nominal = false) :
    moveEdge inv g node edge false dep = (g, none) := by
  unfold moveEdge
  by_cases hb : (g.CTEdgeHeap edge).iBlocked = true
  · rw [if_pos hb]
  · rw [if_neg hb, if_pos (by simp [hnom])]

/-- The successor pass of `Merge` skips the arcs that do not lead to nominal
nodes: it does what the pass over the arcs to nominal nodes alone does. -/
theorem moveEdges_successor_filter (inv : RoleId → RoleId) (to_ : NodeId) (dep : DepSet) :
    ∀ (l : List ArcId) (g : DlCompletionGraph) (out : List ArcId), (∀ q ∈ l, q < g.nEdges) →
      moveEdges inv to_ false dep l (g, out) =
        moveEdges inv to_ false dep
          (l.filter fun q => (g.NodeBase (g.CTEdgeHeap q).ArcEnd).nominal) (g, out) := by
  intro l
  induction l with
  | nil => intro g out _; rfl
  | cons q qs ih =>
    intro g out hl
    have hqs : ∀ x ∈ qs, x < g.nEdges := fun x hx => hl x (List.mem_cons_of_mem _ hx)
    by_cases hnom : (g.NodeBase (g.CTEdgeHeap q).ArcEnd).nominal = true
    · have hf : (q :: qs).filter (fun q => (g.NodeBase (g.CTEdgeHeap q).ArcEnd).nominal) =
          q :: qs.filter (fun q => (g.NodeBase (g.CTEdgeHeap q).ArcEnd).nominal) :=
        List.filter_cons_of_pos hnom
      rw [hf, moveEdges_cons, moveEdges_cons]
      have hext := moveEdge_ext inv g to_ q false dep
      rw [ih _ _ (fun x hx => lt_of_lt_of_le (hqs x hx) hext.nEdges)]
      congr 1
      apply List.filter_congr
      intro x hx
      rw [hext.arcEnd x (hqs x hx), hext.nominal]
    · have hnom0 : (g.NodeBase (g.CTEdgeHeap q).ArcEnd).nominal = false := by simpa using hnom
      have hf : (q :: qs).filter (fun q => (g.NodeBase (g.CTEdgeHeap q).ArcEnd).nominal) =
          qs.filter (fun q => (g.NodeBase (g.CTEdgeHeap q).ArcEnd).nominal) :=
        List.filter_cons_of_neg hnom
      rw [hf, moveEdges_cons, moveEdge_nonNominal inv g to_ q dep hnom0]
      exact ih g out hqs

/-- The successor pass: for a successor arc `q` whose end node is not a nominal
node, the call `moveEdge ( to, q, false, dep )` returns `NULL` and leaves the whole
graph as it was (no arc is created at `to`, the arc is not invalidated), so
nothing is added to `out` for it; the successor pass of `Merge` over arcs
handed out by the heap does what the pass over the arcs to nominal nodes alone
does, and an arc for which `moveEdge` returns an arc leads to a nominal node. -/
theorem Merge_skips_blockable_successor (inv : RoleId → RoleId) (g : DlCompletionGraph)
    (to_ : NodeId) (dep : DepSet) (q : ArcId)
    (hq : (g.NodeBase (g.CTEdgeHeap q).ArcEnd).nominal = false) :
    moveEdge inv g to_ q false dep = (g, none) ∧
      (∀ out, moveEdges inv to_ false dep [q] (g, out) = (g, out)) ∧
      (∀ q1 a, (moveEdge inv g to_ q1 false dep).2 = some a →
        (g.NodeBase (g.CTEdgeHeap q1).ArcEnd).nominal = true) ∧
      ∀ (l out : List ArcId), (∀ x ∈ l, x < g.nEdges) →
        moveEdges inv to_ false dep l (g, out) =
          moveEdges inv to_ false dep
            (l.filter fun x => (g.NodeBase (g.CTEdgeHeap x).ArcEnd).nominal) (g, out) := by
  refine ⟨moveEdge_nonNominal inv g to_ q dep hq, fun out => ?_, fun q1 a ha => ?_,
    fun l out hl => moveEdges_successor_filter inv to_ dep l g out hl⟩
  · rw [moveEdges_cons, moveEdge_nonNominal inv g to_ q dep hq]
    rfl
  · by_contra hnom
    have hnom0 : (g.NodeBase (g.CTEdgeHeap q1).ArcEnd).nominal = false := by simpa using hnom
    rw [moveEdge_nonNominal inv g to_ q1 dep hnom0] at ha
    simp at ha

theorem Merge_skips_blockable_successor_witness :
    (chainGraph.NodeBase (chainGraph.CTEdgeHeap 0).ArcEnd).nominal = false ∧
      moveEdge pairInverse chainGraph 3 0 false {1} = (chainGraph, none) ∧
      (∀ out, moveEdges pairInverse 3 false {1} [0] (chainGraph, out) = (chainGraph, out)) ∧
      (∀ q1 a, (moveEdge pairInverse chainGraph 3 q1 false {1}).2 = some a →
        (chainGraph.NodeBase (chainGraph.CTEdgeHeap q1).ArcEnd).nominal = true) ∧
      ∀ (l out : List ArcId), (∀ x ∈ l, x < chainGraph.nEdges) →
        moveEdges pairInverse 3 false {1} l (chainGraph, out) =
          moveEdges pairInverse 3 false {1}
            (l.filter fun x => (chainGraph.NodeBase (chainGraph.CTEdgeHeap x).ArcEnd).nominal)
            (chainGraph, out) :=
  ⟨rfl, Merge_skips_blockable_successor pairInverse chainGraph 3 {1} 0 rfl⟩

/-! ### SNF constructors -/

theorem connectives_createSNFNot (C : DLTree) :
    ∀ tok ∈ connectives (createSNFNot C), tok = .NOT ∨ tok ∈ connectives C := by
  intro tok htok
  unfold createSNFNot at htok
  split at htok
  · right
    simp only [connectives, isConnective, if_true, List.mem_append, List.mem_singleton]
    exact Or.inl (Or.inr htok)
  · simp only [connectives, isConnective, if_true, List.mem_append, List.mem_singleton,
      List.append_nil, List.singleton_append, List.mem_cons] at htok
    exact htok

theorem OnlyConnectives.of_createSNFNot {allowed : List Token} {C : DLTree}
    (hnot : Token.NOT ∈ allowed) (h : OnlyConnectives allowed C) :
    OnlyConnectives allowed (createSNFNot C) := by
  intro tok htok
  rcases connectives_createSNFNot C tok htok with e | e
  · rw [e]; exact hnot
  · exact h tok e

theorem OnlyConnectives.of_node {allowed : List Token} {l r : DLTree} (e : TLexeme)
    (he : isConnective e.token = true → e.token ∈ allowed) (hl : OnlyConnectives allowed l)
    (hr : OnlyConnectives allowed r) : OnlyConnectives allowed (.node e l r) := by
  intro tok htok
  simp only [connectives, List.mem_append] at htok
  rcases htok with (h1 | h2) | h3
  · by_cases hc : isConnective e.token = true
    · rw [if_pos hc] at h1
      simp only [List.mem_singleton] at h1
      rw [h1]; exact he hc
    · rw [if_neg hc] at h1
      simp at h1
  · exact hl tok h2
  · exact hr tok h3

/-- All SNF constructors keep their results within `snfConnectives`. -/
theorem snf_constructors (C D R : DLTree) (hC : OnlyConnectives snfConnectives C)
    (hD : OnlyConnectives snfConnectives D) (hR : OnlyConnectives snfConnectives R) (n : Nat) :
    OnlyConnectives snfConnectives (createSNFNot C) ∧
      OnlyConnectives snfConnectives (createSNFAnd C D) ∧
      OnlyConnectives snfConnectives (createSNFForall R C) ∧
      OnlyConnectives snfConnectives (createSNFGE n R C) ∧
      OnlyConnectives snfConnectives (createSNFOr C D) ∧
      OnlyConnectives snfConnectives (createSNFExists R C) ∧
      OnlyConnectives snfConnectives (createSNFLE n R C) := by
  have hnot : Token.NOT ∈ snfConnectives := by decide
  have hand : ∀ {X Y : DLTree}, OnlyConnectives snfConnectives X →
      OnlyConnectives snfConnectives Y → OnlyConnectives snfConnectives (createSNFAnd X Y) :=
    fun hX hY => OnlyConnectives.of_node _ (fun _ => by decide) hX hY
  have hall : ∀ {X Y : DLTree}, OnlyConnectives snfConnectives X →
      OnlyConnectives snfConnectives Y → OnlyConnectives snfConnectives (createSNFForall X Y) :=
    fun hX hY => OnlyConnectives.of_node _ (fun _ => by decide) hX hY
  refine ⟨hC.of_createSNFNot hnot, hand hC hD, hall hR hC,
    OnlyConnectives.of_node _ (fun _ => (by decide : Token.GE ∈ snfConnectives)) hR hC,
    (hand (hC.of_createSNFNot hnot) (hD.of_createSNFNot hnot)).of_createSNFNot hnot,
    (hall hR (hC.of_createSNFNot hnot)).of_createSNFNot hnot, ?_⟩
  unfold createSNFLE
  by_cases hn : n ≠ 0
  · rw [if_pos hn]
    exact OnlyConnectives.of_node _ (fun _ => (by decide : Token.LE ∈ snfConnectives)) hR hC
  · rw [if_neg hn]
    exact hall hR (hC.of_createSNFNot hnot)

/-- C11 (amended): every tree returned by the SNF constructors of dltree.h
(`createSNFOr`, `createSNFExists`, `createSNFLE`, `createSNFwC`, `createSNFwR`,
`rebuildSNF`) applied to arguments that contain only `Not`, `And`, `Forall`,
`AtLeast` and `AtMost` (`LE`) as connectives, for every `n`, contains only these
five connectives; `createSNFwC` returns a tree for `AND` and `OR`, `createSNFwR`
for `LE`, `GE`, `EXISTS` and `FORALL`, `rebuildSNF` for `NOT`, `AND`, `FORALL`
and `LE`. -/
theorem snf_constructors_closed (C D R : DLTree) (hC : OnlyConnectives snfConnectives C)
    (hD : OnlyConnectives snfConnectives D) (hR : OnlyConnectives snfConnectives R) (n : Nat)
    (T : Token) (lex : TLexeme) :
    OnlyConnectives snfConnectives (createSNFOr C D) ∧
      OnlyConnectives snfConnectives (createSNFExists R C) ∧
      OnlyConnectives snfConnectives (createSNFLE n R C) ∧
      (∀ t, createSNFwC T C D = some t → OnlyConnectives snfConnectives t) ∧
      (∀ t, createSNFwR T n R C = some t → OnlyConnectives snfConnectives t) ∧
      (∀ t, rebuildSNF lex C D = some t → OnlyConnectives snfConnectives t) ∧
      ((T = .AND ∨ T = .OR) → (createSNFwC T C D).isSome = true) ∧
      ((T = .LE ∨ T = .GE ∨ T = .EXISTS ∨ T = .FORALL) → (createSNFwR T n R C).isSome = true) ∧
      ((lex.token = .NOT ∨ lex.token = .AND ∨ lex.token = .FORALL ∨ lex.token = .LE) →
        (rebuildSNF lex C D).isSome = true) := by
  obtain ⟨h1, h2, h3, h4, h5, h6, h7⟩ := snf_constructors C D R hC hD hR n
  refine ⟨h5, h6, h7, ?_, ?_, ?_, ?_, ?_, ?_⟩
  · intro t ht
    unfold createSNFwC at ht
    split at ht
    · split at ht
      · cases ht; exact h2
      · cases ht; exact h5
    · cases ht
  · intro t ht
    unfold createSNFwR at ht
    split at ht
    · cases ht; exact h7
    · cases ht; exact h4
    · cases ht; exact h6
    · cases ht; exact h3
    · cases ht
  · intro t ht
    obtain ⟨_, g2, g3, _, _, _, g7⟩ := snf_constructors C D C hC hD hC lex.data
    have g7D : OnlyConnectives snfConnectives (createSNFLE lex.data C D) :=
      (snf_constructors D C C hD hC hC lex.data).2.2.2.2.2.2
    have g3D : OnlyConnectives snfConnectives (createSNFForall C D) :=
      (snf_constructors D C C hD hC hC lex.data).2.2.1
    unfold rebuildSNF at ht
    split at ht
    · cases ht; exact h1
    · cases ht; exact h2
    · cases ht; exact g3D
    · cases ht; exact g7D
    · cases ht
  · intro hT
    rcases hT with e | e <;> subst e <;> rfl
  · intro hT
    rcases hT with e | e | e | e <;> subst e <;> rfl
  · intro hT
    unfold rebuildSNF
    rcases hT with e | e | e | e <;> rw [e] <;> rfl

theorem snf_constructors_closed_witness :
    OnlyConnectives snfConnectives (.node ⟨.CNAME, 1⟩ .null .null) ∧
      OnlyConnectives snfConnectives (createSNFOr (.node ⟨.CNAME, 1⟩ .null .null)
        (.node ⟨.LE, 2⟩ (.node ⟨.RNAME, 1⟩ .null .null) (.node ⟨.CNAME, 2⟩ .null .null))) ∧
      (rebuildSNF ⟨.LE, 3⟩ (.node ⟨.CNAME, 1⟩ .null .null)
        (.node ⟨.LE, 2⟩ (.node ⟨.RNAME, 1⟩ .null .null)
          (.node ⟨.CNAME, 2⟩ .null .null))).isSome = true :=
  have h := snf_constructors_closed (.node ⟨.CNAME, 1⟩ .null .null)
    (.node ⟨.LE, 2⟩ (.node ⟨.RNAME, 1⟩ .null .null) (.node ⟨.CNAME, 2⟩ .null .null))
    (.node ⟨.RNAME, 1⟩ .null .null) (by unfold OnlyConnectives; decide)
    (by unfold OnlyConnectives; decide) (by unfold OnlyConnectives; decide) 3 .AND ⟨.LE, 3⟩
  ⟨by unfold OnlyConnectives; decide, h.1, h.2.2.2.2.2.2.2.2 (Or.inr (Or.inr (Or.inr rfl)))⟩

/-- C11, the claim as stated fails: the role name `R` and the concept name `C`
contain no connective at all, yet `createSNFLE(1, R, C)`,
`createSNFwR(LE, 1, R, C)` and `rebuildSNF` of an `LE` lexeme return a tree whose
root is an `LE` node, which is none of `Not`, `And`, `Forall`, `AtLeast`. -/
theorem createSNFLE_counterexample :
    OnlyConnectives specConnectives (.node ⟨.RNAME, 1⟩ .null .null) ∧
      OnlyConnectives specConnectives (.node ⟨.CNAME, 1⟩ .null .null) ∧
      connectives (createSNFLE 1 (.node ⟨.RNAME, 1⟩ .null .null)
        (.node ⟨.CNAME, 1⟩ .null .null)) = [.LE] ∧
      ¬ OnlyConnectives specConnectives (createSNFLE 1 (.node ⟨.RNAME, 1⟩ .null .null)
        (.node ⟨.CNAME, 1⟩ .null .null)) ∧
      createSNFwR .LE 1 (.node ⟨.RNAME, 1⟩ .null .null) (.node ⟨.CNAME, 1⟩ .null .null) =
        some (.node ⟨.LE, 1⟩ (.node ⟨.RNAME, 1⟩ .null .null) (.node ⟨.CNAME, 1⟩ .null .null)) ∧
      rebuildSNF ⟨.LE, 1⟩ (.node ⟨.RNAME, 1⟩ .null .null) (.node ⟨.CNAME, 1⟩ .null .null) =
        some (.node ⟨.LE, 1⟩ (.node ⟨.RNAME, 1⟩ .null .null) (.node ⟨.CNAME, 1⟩ .null .null)) := by
  refine ⟨by unfold OnlyConnectives; decide, by unfold OnlyConnectives; decide, rfl, ?_, rfl, rfl⟩
  unfold OnlyConnectives
  decide

/-! ### Reading and writing numbers -/

theorem digit_char :
    ∀ d, d < 10 → isDigit (Char.ofNat (48 + d)) = true ∧ (Char.ofNat (48 + d)).toNat - 48 = d := by
  decide

theorem isDigit_not_space : ∀ c : Char, isDigit c = true →
    isSpace c = false ∧ c ≠ '-' ∧ c ≠ '+' ∧ c ≠ '\n' := by
  intro c hc
  have hne : ∀ x : Char, isDigit x = false → c ≠ x := by
    intro x hx e
    rw [e, hx] at hc
    exact Bool.false_ne_true hc
  refine ⟨?_, hne _ (by decide), hne _ (by decide), hne _ (by decide)⟩
  unfold isSpace
  simp only [Bool.or_eq_false_iff, beq_eq_false_iff_ne, ne_eq]
  exact ⟨⟨⟨⟨⟨hne _ (by decide), hne _ (by decide)⟩, hne _ (by decide)⟩, hne _ (by decide)⟩,
    hne _ (by decide)⟩, hne _ (by decide)⟩

theorem showNatAux_digits :
    ∀ (fuel n : Nat) (acc : List Char), (∀ c ∈ acc, isDigit c = true) →
      ∀ c ∈ showNatAux fuel n acc, isDigit c = true := by
  intro fuel
  induction fuel with
  | zero => intro n acc hacc; exact hacc
  | succ fuel ih =>
    intro n acc hacc
    unfold showNatAux
    by_cases hn : n < 10
    · rw [if_pos hn]
      intro c hc
      rcases List.mem_cons.mp hc with e | e
      · rw [e]; exact (digit_char n hn).1
      · exact hacc c e
    · rw [if_neg hn]
      apply ih
      intro c hc
      rcases List.mem_cons.mp hc with e | e
      · rw [e]; exact (digit_char (n % 10) (Nat.mod_lt _ (by decide))).1
      · exact hacc c e

theorem showNatAux_value :
    ∀ (fuel n : Nat) (acc : List Char), n < fuel →
      (showNatAux fuel n acc).foldl (fun v c => 10 * v + (c.toNat - 48)) 0 =
        acc.foldl (fun v c => 10 * v + (c.toNat - 48)) n := by
  intro fuel
  induction fuel with
  | zero => intro n acc h; exact absurd h (Nat.not_lt_zero _)
  | succ fuel ih =>
    intro n acc h
    unfold showNatAux
    by_cases hn : n < 10
    · rw [if_pos hn, List.foldl_cons, (digit_char n hn).2]
      simp
    · rw [if_neg hn, ih (n / 10) _ (by omega), List.foldl_cons,
        (digit_char (n % 10) (Nat.mod_lt _ (by decide))).2]
      congr 1
      omega

theorem showNatAux_ne_nil :
    ∀ (fuel n : Nat) (acc : List Char), n < fuel → showNatAux fuel n acc ≠ [] := by
  intro fuel
  induction fuel with
  | zero => intro n acc h; exact absurd h (Nat.not_lt_zero _)
  | succ fuel ih =>
    intro n acc h
    unfold showNatAux
    by_cases hn : n < 10
    · rw [if_pos hn]; exact List.cons_ne_nil _ _
    · rw [if_neg hn]; exact ih _ _ (by omega)

/-- The decimal digits of a number: digits only, at least one, and they denote
the number. -/
theorem showNat_spec (n : Nat) :
    (∀ c ∈ showNat n, isDigit c = true) ∧ showNat n ≠ [] ∧ decimalValue (showNat n) = n := by
  refine ⟨showNatAux_digits _ _ _ (by simp), showNatAux_ne_nil _ _ _ (Nat.lt_succ_self n), ?_⟩
  unfold decimalValue showNat
  rw [showNatAux_value _ _ _ (Nat.lt_succ_self n)]
  rfl

theorem readDigits_append :
    ∀ (ds : List Char) (r : Char) (rs : List Char), (∀ c ∈ ds, isDigit c = true) →
      isDigit r = false → readDigits (ds ++ r :: rs) = (ds, r :: rs) := by
  intro ds
  induction ds with
  | nil =>
    intro r rs _ hr
    show readDigits (r :: rs) = _
    rw [readDigits, hr]
    rfl
  | cons d ds ih =>
    intro r rs hds hr
    show readDigits (d :: (ds ++ r :: rs)) = _
    rw [readDigits, hds d (List.mem_cons_self _ _),
      ih r rs (fun c hc => hds c (List.mem_cons_of_mem _ hc)) hr]
    rfl

theorem skipSpace_cons (c : Char) (cs : List Char) (hc : isSpace c = false) :
    skipSpace (c :: cs) = c :: cs := by
  rw [skipSpace, hc]
  rfl

theorem extractChar_cons (c : Char) (cs : List Char) (hc : isSpace c = false) :
    extractChar (IStream.ofText (c :: cs)) = (some c, IStream.ofText cs) := by
  unfold extractChar
  have hg : (IStream.ofText (c :: cs)).good = true := rfl
  rw [if_pos hg]
  show (match skipSpace (c :: cs) with
    | [] => (none, IStream.atEnd)
    | c1 :: rest => (some c1, { IStream.ofText (c :: cs) with buf := rest })) = _
  rw [skipSpace_cons c cs hc]
  rfl

theorem expectChar_cons (c : Char) (cs : List Char) (hc : isSpace c = false) :
    expectChar (IStream.ofText (c :: cs)) c = .ok (IStream.ofText cs) := by
  unfold expectChar
  rw [extractChar_cons c cs hc]
  simp

/-- Reading a number: over the decimal digits of `n`, followed by a character
that is no digit, the sign is positive, the digits are those of `n` and the
rest starts at that character. -/
theorem readNumber_showNat (n : Nat) (r : Char) (rs : List Char) (hr : isDigit r = false) :
    skipSpace (showNat n ++ r :: rs) = showNat n ++ r :: rs ∧
      (∃ d ds, showNat n ++ r :: rs = d :: ds) ∧
      readNumber (showNat n ++ r :: rs) = (false, showNat n, r :: rs) := by
  obtain ⟨hdig, hne, _⟩ := showNat_spec n
  obtain ⟨d, ds, hd⟩ : ∃ d ds, showNat n = d :: ds := by
    cases h : showNat n with
    | nil => exact absurd h hne
    | cons d ds => exact ⟨d, ds, rfl⟩
  have hdd : isDigit d = true := hdig d (by rw [hd]; exact List.mem_cons_self _ _)
  obtain ⟨hsp, hminus, hplus, _⟩ := isDigit_not_space d hdd
  refine ⟨?_, ⟨d, ds ++ r :: rs, by rw [hd]; rfl⟩, ?_⟩
  · rw [hd]; exact skipSpace_cons d _ hsp
  · have hrd := readDigits_append (showNat n) r rs hdig hr
    rw [hd] at hrd ⊢
    show readNumber (d :: (ds ++ r :: rs)) = _
    rw [readNumber, if_neg hminus, if_neg hplus]
    show (false, readDigits (d :: ds ++ r :: rs)) = _
    rw [hrd]

theorem extractUInt_showNat (b n : Nat) (hn : n < uintBound b) (r : Char) (rs : List Char)
    (hr : isDigit r = false) :
    extractUInt b (IStream.ofText (showNat n ++ r :: rs)) = (some n, IStream.ofText (r :: rs)) := by
  obtain ⟨hskip, ⟨d, ds, hcons⟩, hnum⟩ := readNumber_showNat n r rs hr
  obtain ⟨_, hne, hval⟩ := showNat_spec n
  unfold extractUInt
  have hg : (IStream.ofText (showNat n ++ r :: rs)).good = true := rfl
  rw [if_pos hg]
  show (match skipSpace (showNat n ++ r :: rs) with
    | [] => (none, IStream.atEnd)
    | c :: cs =>
      match readNumber (c :: cs) with
      | (neg, digits, rest) =>
        if digits.isEmpty ∨ uintBound b ≤ decimalValue digits then
          (none, { buf := rest, eofbit := rest.isEmpty, failbit := true })
        else
          (some (if neg then (uintBound b - decimalValue digits) % uintBound b
            else decimalValue digits),
            { IStream.ofText (showNat n ++ r :: rs) with buf := rest, eofbit := rest.isEmpty })) = _
  rw [hskip, hcons]
  simp only []
  rw [← hcons, hnum]
  simp only []
  have hcond : ¬ ((showNat n).isEmpty ∨ uintBound b ≤ decimalValue (showNat n)) := by
    rw [hval]
    intro h
    rcases h with h | h
    · exact hne (List.isEmpty_iff.mp h)
    · exact absurd hn (not_lt.mpr h)
  rw [if_neg hcond, hval]
  rfl

theorem loadUInt_saveUInt (b n : Nat) (hn : n < uintBound b) (rest : List Char) :
    loadUInt b (IStream.ofText (saveUInt n ++ rest)) = .ok (n, IStream.ofText rest) := by
  unfold loadUInt saveUInt
  have h1 : expectChar (IStream.ofText ('(' :: (showNat n ++ [')']) ++ rest)) '(' =
      .ok (IStream.ofText (showNat n ++ ')' :: rest)) := by
    have := expectChar_cons '(' (showNat n ++ ')' :: rest) (by decide)
    simpa using this
  rw [h1]
  simp only []
  rw [extractUInt_showNat b n hn ')' rest (by decide)]
  simp only []
  rw [expectChar_cons ')' rest (by decide)]
  rfl

theorem extractInt_showNat (b n : Nat) (hn : n < intBound b) (r : Char) (rs : List Char)
    (hr : isDigit r = false) :
    extractInt b (IStream.ofText (showNat n ++ r :: rs)) =
      (some (n : Int), IStream.ofText (r :: rs)) := by
  obtain ⟨hskip, ⟨d, ds, hcons⟩, hnum⟩ := readNumber_showNat n r rs hr
  obtain ⟨_, hne, hval⟩ := showNat_spec n
  unfold extractInt
  have hg : (IStream.ofText (showNat n ++ r :: rs)).good = true := rfl
  rw [if_pos hg]
  show (match skipSpace (showNat n ++ r :: rs) with
    | [] => (none, IStream.atEnd)
    | c :: cs =>
      match readNumber (c :: cs) with
      | (neg, digits, rest) =>
        if digits.isEmpty ∨ (if neg then intBound b < decimalValue digits
            else intBound b ≤ decimalValue digits) then
          (none, { buf := rest, eofbit := rest.isEmpty, failbit := true })
        else
          (some (if neg then - (decimalValue digits : Int) else (decimalValue digits : Int)),
            { IStream.ofText (showNat n ++ r :: rs) with buf := rest, eofbit := rest.isEmpty })) = _
  rw [hskip, hcons]
  simp only []
  rw [← hcons, hnum]
  simp only []
  have hcond : ¬ ((showNat n).isEmpty ∨ (if false = true then intBound b < decimalValue (showNat n)
      else intBound b ≤ decimalValue (showNat n))) := by
    rw [hval, if_neg Bool.false_ne_true]
    intro h
    rcases h with h | h
    · exact hne (List.isEmpty_iff.mp h)
    · exact absurd hn (not_lt.mpr h)
  rw [if_neg hcond, hval]
  rfl

theorem extractInt_minus (b n : Nat) (hn : n ≤ intBound b) (r : Char) (rs : List Char)
    (hr : isDigit r = false) :
    extractInt b (IStream.ofText ('-' :: (showNat n ++ r :: rs))) =
      (some (- (n : Int)), IStream.ofText (r :: rs)) := by
  obtain ⟨hdig, hne, hval⟩ := showNat_spec n
  have hnum : readNumber ('-' :: (showNat n ++ r :: rs)) = (true, showNat n, r :: rs) := by
    rw [readNumber, if_pos rfl, readDigits_append (showNat n) r rs hdig hr]
  unfold extractInt
  have hg : (IStream.ofText ('-' :: (showNat n ++ r :: rs))).good = true := rfl
  rw [if_pos hg]
  show (match skipSpace ('-' :: (showNat n ++ r :: rs)) with
    | [] => (none, IStream.atEnd)
    | c :: cs =>
      match readNumber (c :: cs) with
      | (neg, digits, rest) =>
        if digits.isEmpty ∨ (if neg then intBound b < decimalValue digits
            else intBound b ≤ decimalValue digits) then
          (none, { buf := rest, eofbit := rest.isEmpty, failbit := true })
        else
          (some (if neg then - (decimalValue digits : Int) else (decimalValue digits : Int)),
            { IStream.ofText ('-' :: (showNat n ++ r :: rs)) with
              buf := rest, eofbit := rest.isEmpty })) = _
  rw [skipSpace_cons '-' _ (by decide)]
  simp only []
  rw [hnum]
  simp only []
  have hcond : ¬ ((showNat n).isEmpty = true ∨ intBound b < n) := by
    intro h
    rcases h with h | h
    · exact hne (List.isEmpty_iff.mp h)
    · exact absurd hn (not_le.mpr h)
  simp only [if_true, hval]
  rw [if_neg hcond]
  rfl

theorem loadSInt_saveSInt (b : Nat) (n : Int) (hlo : - (intBound b : Int) ≤ n)
    (hhi : n < intBound b) (rest : List Char) :
    loadSInt b (IStream.ofText (saveSInt n ++ rest)) = .ok (n, IStream.ofText rest) := by
  unfold loadSInt saveSInt
  have h1 : expectChar (IStream.ofText ('(' :: (showInt n ++ [')']) ++ rest)) '(' =
      .ok (IStream.ofText (showInt n ++ ')' :: rest)) := by
    have := expectChar_cons '(' (showInt n ++ ')' :: rest) (by decide)
    simpa using this
  rw [h1]
  simp only []
  have h2 : extractInt b (IStream.ofText (showInt n ++ ')' :: rest)) =
      (some n, IStream.ofText (')' :: rest)) := by
    unfold showInt
    by_cases hneg : n < 0
    · rw [if_pos hneg]
      have hb : n.natAbs ≤ intBound b := by omega
      have := extractInt_minus b n.natAbs hb ')' rest (by decide)
      have hn : - (n.natAbs : Int) = n := by omega
      rw [hn] at this
      exact this
    · rw [if_neg hneg]
      have hb : n.natAbs < intBound b := by omega
      have := extractInt_showNat b n.natAbs hb ')' rest (by decide)
      have hn : (n.natAbs : Int) = n := by omega
      rw [hn] at this
      exact this
  rw [h2]
  simp only []
  rw [expectChar_cons ')' rest (by decide)]
  rfl

/-- C18: framed integers round-trip: for every `unsigned int` `n`, `loadUInt`
applied to the text written by `saveUInt(n)` (followed by any text `rest`)
returns `n` and leaves exactly `rest` in a good stream; likewise `loadSInt`
returns `m` on the text written by `saveSInt(m)` for every `int` `m`, negative
values included. -/
theorem framed_integers_roundtrip (bytesInInt n : Nat) (hn : n < uintBound bytesInInt) (m : Int)
    (hlo : - (intBound bytesInInt : Int) ≤ m) (hhi : m < intBound bytesInInt)
    (rest : List Char) :
    loadUInt bytesInInt (IStream.ofText (saveUInt n ++ rest)) = .ok (n, IStream.ofText rest) ∧
      loadSInt bytesInInt (IStream.ofText (saveSInt m ++ rest)) =
        .ok (m, IStream.ofText rest) :=
  ⟨loadUInt_saveUInt bytesInInt n hn rest, loadSInt_saveSInt bytesInInt m hlo hhi rest⟩

theorem framed_integers_roundtrip_witness :
    (4294967295 < uintBound 4 ∧ - (intBound 4 : Int) ≤ -2147483648 ∧
        (-2147483648 : Int) < intBound 4) ∧
      loadUInt 4 (IStream.ofText (saveUInt 4294967295 ++ ['x'])) =
        .ok (4294967295, IStream.ofText ['x']) ∧
      loadSInt 4 (IStream.ofText (saveSInt (-2147483648) ++ ['x'])) =
        .ok (-2147483648, IStream.ofText ['x']) :=
  ⟨by decide, framed_integers_roundtrip 4 4294967295 (by decide) (-2147483648) (by decide)
    (by decide) ['x']⟩

/-! ### Collections of named entries -/

theorem readLine_name :
    ∀ (name : List Char) (k : Nat) (rest : List Char), name.length ≤ k → '\n' ∉ name →
      readLine k (name ++ '\n' :: rest) = (name, '\n' :: rest) := by
  intro name
  induction name with
  | nil =>
    intro k rest _ _
    cases k with
    | zero => rfl
    | succ k =>
      show readLine (k + 1) ('\n' :: rest) = _
      rw [readLine, if_pos rfl]
  | cons c cs ih =>
    intro k rest hk hnl
    cases k with
    | zero => simp at hk
    | succ k =>
      have hc : c ≠ '\n' := fun e => hnl (by rw [e]; exact List.mem_cons_self _ _)
      have hcs : '\n' ∉ cs := fun h => hnl (List.mem_cons_of_mem _ h)
      show readLine (k + 1) (c :: (cs ++ '\n' :: rest)) = _
      rw [readLine, if_neg hc, ih k rest (by simpa using hk) hcs]

theorem getline_name (name : List Char) (count : Nat) (rest : List Char)
    (hlen : name.length ≤ count - 1) (hnl : '\n' ∉ name) :
    getline (IStream.ofText (name ++ '\n' :: rest)) count = (name, IStream.ofText rest) := by
  unfold getline
  have hg : (IStream.ofText (name ++ '\n' :: rest)).good = true := rfl
  rw [if_pos hg]
  have hbuf : (IStream.ofText (name ++ '\n' :: rest)).buf = name ++ '\n' :: rest := rfl
  rw [hbuf, readLine_name name (count - 1) rest hlen hnl]
  simp only [if_true]
  rfl

theorem registerNames_saved (count : Nat) (rest : List Char) :
    ∀ (l names0 : List EntryName), (names0 ++ l).Nodup → (∀ n ∈ l, '\n' ∉ n) →
      (∀ n ∈ l, n.length ≤ count - 1) →
      registerNames count l.length names0
          (IStream.ofText ((l.map fun name => name ++ ['\n']).flatten ++ rest)) =
        (names0 ++ l, IStream.ofText rest) := by
  intro l
  induction l with
  | nil => intro names0 _ _ _; simp [registerNames]
  | cons n l ih =>
    intro names0 hnd hnl hlen
    have htext : ((n :: l).map fun name => name ++ ['\n']).flatten ++ rest =
        n ++ '\n' :: ((l.map fun name => name ++ ['\n']).flatten ++ rest) := by
      simp
    have hget := getline_name n count ((l.map fun name => name ++ ['\n']).flatten ++ rest)
      (hlen n (List.mem_cons_self _ _)) (hnl n (List.mem_cons_self _ _))
    have hnotin : n ∉ names0 := by
      intro hmem
      have := List.nodup_append.mp hnd
      exact this.2.2 hmem (List.mem_cons_self _ _)
    show registerNames count (l.length + 1) names0 _ = _
    rw [registerNames, htext, hget]
    simp only []
    have hreg : TNECollection.get names0 n = names0 ++ [n] := by
      unfold TNECollection.get
      rw [if_neg hnotin]
    rw [hreg, ih (names0 ++ [n]) (by simpa using hnd)
      (fun x hx => hnl x (List.mem_cons_of_mem _ hx))
      (fun x hx => hlen x (List.mem_cons_of_mem _ hx))]
    simp

/-- The first loop of `Save`: the result is the start value or the length of a
name, and it is not below the start value or any length. -/
theorem maxNameLength_fold (B : Nat) :
    ∀ (names : List EntryName) (m0 : Nat), (∀ n ∈ names, n.length < B) →
      names.foldl (fun maxLength name =>
          if maxLength < name.length % B then name.length % B else maxLength) m0 =
        (names.map List.length).foldl max m0 := by
  intro names
  induction names with
  | nil => intro m0 _; rfl
  | cons n ns ih =>
    intro m0 h
    have hn : n.length % B = n.length := Nat.mod_eq_of_lt (h n (List.mem_cons_self _ _))
    simp only [List.foldl_cons, List.map_cons, hn]
    rw [ih _ (fun x hx => h x (List.mem_cons_of_mem _ hx))]
    congr 1
    by_cases hlt : m0 < n.length
    · rw [if_pos hlt, max_eq_right (le_of_lt hlt)]
    · rw [if_neg hlt, max_eq_left (not_lt.mp hlt)]

theorem foldl_max_bounds :
    ∀ (l : List Nat) (m0 : Nat), m0 ≤ l.foldl max m0 ∧ (∀ x ∈ l, x ≤ l.foldl max m0) ∧
      (l.foldl max m0 = m0 ∨ l.foldl max m0 ∈ l) := by
  intro l
  induction l with
  | nil => intro m0; simp
  | cons a l ih =>
    intro m0
    obtain ⟨h1, h2, h3⟩ := ih (max m0 a)
    simp only [List.foldl_cons, List.mem_cons]
    refine ⟨le_trans (le_max_left _ _) h1, ?_, ?_⟩
    · intro x hx
      rcases hx with e | e
      · rw [e]; exact le_trans (le_max_right _ _) h1
      · exact h2 x e
    · rcases h3 with e | e
      · rw [e]
        rcases le_total m0 a with hle | hle
        · rw [max_eq_right hle]; exact Or.inr (Or.inl rfl)
        · rw [max_eq_left hle]; exact Or.inl rfl
      · exact Or.inr (Or.inr e)

/-- Save and load of a collection, as a lemma. -/
theorem TNECollection_Load_Save (b : Nat) (names : List EntryName) (hnodup : names.Nodup)
    (hnl : ∀ n ∈ names, '\n' ∉ n) (hsize : names.length < uintBound b)
    (hlen : ∀ n ∈ names, n.length + 1 < uintBound b) (rest : List Char) :
    TNECollection.Save b names =
        saveUInt names.length ++ saveUInt ((names.map List.length).foldl max 0) ++
          (names.map fun name => name ++ ['\n']).flatten ∧
      TNECollection.Load b [] (IStream.ofText (TNECollection.Save b names ++ rest)) =
        (names, .ok (IStream.ofText rest)) := by
  have hmax : maxNameLength b names = (names.map List.length).foldl max 0 :=
    maxNameLength_fold (uintBound b) names 0 (fun n hn => by have := hlen n hn; omega)
  have hsave : TNECollection.Save b names =
      saveUInt names.length ++ saveUInt ((names.map List.length).foldl max 0) ++
        (names.map fun name => name ++ ['\n']).flatten := by
    unfold TNECollection.Save
    rw [hmax, Nat.mod_eq_of_lt hsize]
  refine ⟨hsave, ?_⟩
  obtain ⟨_, hub, hcases⟩ := foldl_max_bounds (names.map List.length) 0
  obtain ⟨M, hM⟩ : ∃ M, M = (names.map List.length).foldl max 0 := ⟨_, rfl⟩
  rw [← hM] at hub hcases
  have hMlt : names ≠ [] → M + 1 < uintBound b := by
    intro hne
    rcases hcases with e | e
    · rw [e]
      cases names with
      | nil => exact absurd rfl hne
      | cons n ns => have := hlen n (List.mem_cons_self _ _); omega
    · obtain ⟨n, hn, hnM⟩ := List.mem_map.mp e
      rw [← hnM]; exact hlen n hn
  have hM0 : M < uintBound b := by
    cases names with
    | nil => simp at hM; omega
    | cons n ns => have := hMlt (List.cons_ne_nil _ _); omega
  rw [hsave, ← hM]
  unfold TNECollection.Load
  rw [if_neg (by simp)]
  rw [List.append_assoc, List.append_assoc, loadUInt_saveUInt b names.length hsize]
  simp only []
  rw [loadUInt_saveUInt b M hM0]
  simp only []
  cases hnames : names with
  | nil => simp [registerNames]
  | cons n ns =>
    rw [← hnames]
    have hcount : (M + 1) % uintBound b = M + 1 :=
      Nat.mod_eq_of_lt (hMlt (by rw [hnames]; exact List.cons_ne_nil _ _))
    rw [hcount]
    have hreg := registerNames_saved (M + 1) rest names [] (by simpa using hnodup) hnl
      (fun x hx => by
        have := hub x.length (List.mem_map.mpr ⟨x, hx, rfl⟩)
        simpa using this)
    rw [hreg]
    simp

/-- C12: for every collection of named entries (unique names, sizes within
`unsigned int`) whose names contain no newline, `TNECollection::Save` writes
`(size)(maxLen)`, where `maxLen` is the maximal length of a name (0 for an empty
collection), followed by each name terminated by a newline, and
`TNECollection::Load` of that text (followed by any text `rest`) into an empty
collection registers exactly the same names in the same order and leaves
`rest` in a good stream. -/
theorem TNECollection_roundtrip (bytesInInt : Nat) (names : List EntryName)
    (hnodup : names.Nodup) (hnl : ∀ n ∈ names, '\n' ∉ n)
    (hsize : names.length < uintBound bytesInInt)
    (hlen : ∀ n ∈ names, n.length + 1 < uintBound bytesInInt) (rest : List Char) :
    TNECollection.Save bytesInInt names =
        saveUInt names.length ++ saveUInt ((names.map List.length).foldl max 0) ++
          (names.map fun name => name ++ ['\n']).flatten ∧
      (∀ n ∈ names, n.length ≤ (names.map List.length).foldl max 0) ∧
      ((names.map List.length).foldl max 0 = 0 ∨
        (names.map List.length).foldl max 0 ∈ names.map List.length) ∧
      TNECollection.Load bytesInInt [] (IStream.ofText (TNECollection.Save bytesInInt names ++ rest)) =
        (names, .ok (IStream.ofText rest)) := by
  obtain ⟨h1, h2⟩ := TNECollection_Load_Save bytesInInt names hnodup hnl hsize hlen rest
  obtain ⟨_, hub, hcases⟩ := foldl_max_bounds (names.map List.length) 0
  exact ⟨h1, fun n hn => hub n.length (List.mem_map.mpr ⟨n, hn, rfl⟩), hcases, h2⟩

theorem TNECollection_roundtrip_witness :
    (["A".toList, "Bc".toList].Nodup ∧ (∀ n ∈ ["A".toList, "Bc".toList], '\n' ∉ n) ∧
        ["A".toList, "Bc".toList].length < uintBound 4 ∧
        ∀ n ∈ ["A".toList, "Bc".toList], n.length + 1 < uintBound 4) ∧
      TNECollection.Save 4 ["A".toList, "Bc".toList] = "(2)(2)A\nBc\n".toList ∧
      TNECollection.Load 4 [] (IStream.ofText
          (TNECollection.Save 4 ["A".toList, "Bc".toList] ++ ['I'])) =
        (["A".toList, "Bc".toList], .ok (IStream.ofText ['I'])) :=
  ⟨⟨by decide, by decide, by decide, by decide⟩, by decide,
    (TNECollection_roundtrip 4 ["A".toList, "Bc".toList] (by decide) (by decide) (by decide)
      (by decide) ['I']).2.2.2⟩

/-! ### Header, options and KB -/

theorem extractChar_skip (c : Char) (cs : List Char) (hc : isSpace c = true) :
    extractChar (IStream.ofText (c :: cs)) = extractChar (IStream.ofText cs) := by
  simp [extractChar, IStream.ofText, IStream.good, skipSpace, hc]

theorem expectChar_skip (c : Char) (cs : List Char) (hc : isSpace c = true) (C : Char) :
    expectChar (IStream.ofText (c :: cs)) C = expectChar (IStream.ofText cs) C := by
  unfold expectChar
  rw [extractChar_skip c cs hc]

theorem extractString_skip (c : Char) (cs : List Char) (hc : isSpace c = true) :
    extractString (IStream.ofText (c :: cs)) = extractString (IStream.ofText cs) := by
  simp [extractString, IStream.ofText, IStream.good, skipSpace, hc]

theorem extractInt_skip (b : Nat) (c : Char) (cs : List Char) (hc : isSpace c = true) :
    extractInt b (IStream.ofText (c :: cs)) = extractInt b (IStream.ofText cs) := by
  simp [extractInt, IStream.ofText, IStream.good, skipSpace, hc]

theorem loadUInt_skip (b : Nat) (c : Char) (cs : List Char) (hc : isSpace c = true) :
    loadUInt b (IStream.ofText (c :: cs)) = loadUInt b (IStream.ofText cs) := by
  unfold loadUInt
  rw [expectChar_skip c cs hc]

theorem readWord_append :
    ∀ (w : List Char) (r : Char) (rs : List Char), (∀ c ∈ w, isSpace c = false) →
      isSpace r = true → readWord (w ++ r :: rs) = (w, r :: rs) := by
  intro w
  induction w with
  | nil =>
    intro r rs _ hr
    show readWord (r :: rs) = _
    rw [readWord, if_pos hr]
  | cons d ds ih =>
    intro r rs hw hr
    show readWord (d :: (ds ++ r :: rs)) = _
    rw [readWord, hw d (List.mem_cons_self _ _),
      ih r rs (fun c hc => hw c (List.mem_cons_of_mem _ hc)) hr]
    rfl

/-- Reading a word that is followed by white space. -/
theorem extractString_word (w : List Char) (hne : w ≠ []) (hw : ∀ c ∈ w, isSpace c = false)
    (r : Char) (rs : List Char) (hr : isSpace r = true) :
    extractString (IStream.ofText (w ++ r :: rs)) = (some w, IStream.ofText (r :: rs)) := by
  have hrw := readWord_append w r rs hw hr
  cases w with
  | nil => exact absurd rfl hne
  | cons d ds =>
    have hd : isSpace d = false := hw d (List.mem_cons_self _ _)
    unfold extractString
    have hg : (IStream.ofText (d :: ds ++ r :: rs)).good = true := rfl
    have hbuf : (IStream.ofText (d :: ds ++ r :: rs)).buf = d :: (ds ++ r :: rs) := rfl
    rw [if_pos hg, hbuf, skipSpace_cons d _ hd]
    simp only []
    have hrw2 : readWord (d :: (ds ++ r :: rs)) = (d :: ds, r :: rs) := hrw
    rw [hrw2]
    rfl

theorem bytes_lt_intBound (b : Nat) : b < intBound b := by
  unfold intBound
  cases b with
  | zero => decide
  | succ b =>
    calc b + 1 < 2 ^ (b + 1) := Nat.lt_two_pow (b + 1)
      _ ≤ 2 ^ (8 * (b + 1) - 1) := Nat.pow_le_pow_right (by decide) (by omega)

theorem showInt_ofNat (n : Nat) : showInt (n : Int) = showNat n := by
  unfold showInt
  rw [if_neg (by omega)]
  rfl

theorem InternalStateFileHeader_word :
    InternalStateFileHeader ≠ [] ∧ (∀ c ∈ InternalStateFileHeader, isSpace c = false) := by
  decide

/-- Save and load of the header, as a lemma. -/
theorem LoadHeader_SaveHeader (Version : List Char) (b : Nat) (hne : Version ≠ [])
    (hws : ∀ c ∈ Version, isSpace c = false) (rest : List Char) :
    LoadHeader Version b (IStream.ofText (SaveHeader Version b ++ rest)) =
      (false, IStream.ofText ('\n' :: rest)) := by
  have htext : SaveHeader Version b ++ rest =
      InternalStateFileHeader ++ '\n' :: (Version ++ '\n' :: (showNat b ++ '\n' :: rest)) := by
    unfold SaveHeader
    rw [showInt_ofNat]
    simp
  have h1 := extractString_word InternalStateFileHeader InternalStateFileHeader_word.1
    InternalStateFileHeader_word.2 '\n' (Version ++ '\n' :: (showNat b ++ '\n' :: rest))
    (by decide)
  have h2 : extractString (IStream.ofText ('\n' :: (Version ++ '\n' :: (showNat b ++ '\n' :: rest))))
      = (some Version, IStream.ofText ('\n' :: (showNat b ++ '\n' :: rest))) := by
    rw [extractString_skip _ _ (by decide)]
    exact extractString_word Version hne hws '\n' _ (by decide)
  have h3 : extractInt b (IStream.ofText ('\n' :: (showNat b ++ '\n' :: rest))) =
      (some (b : Int), IStream.ofText ('\n' :: rest)) := by
    rw [extractInt_skip _ _ _ (by decide)]
    exact extractInt_showNat b b (bytes_lt_intBound b) '\n' rest (by decide)
  unfold LoadHeader
  rw [htext, h1]
  simp only [Option.getD_some, ne_eq, not_true_eq_false, if_false]
  rw [h2]
  simp only []
  rw [h3]
  simp

/-- C13: `SaveHeader` writes exactly three lines, the magic string
`FaCT++InternalStateDump1.0`, the `Version` string and the decimal byte width of
`int`, each ended by a newline, and for every non-empty `Version` string without
white space `LoadHeader` applied to that output (followed by any text `rest`)
reports success (returns `false`), with the stream good and placed at the last
newline of the header. -/
theorem SaveHeader_three_lines (Version : List Char) (bytesInInt : Nat) (hne : Version ≠ [])
    (hws : ∀ c ∈ Version, isSpace c = false) (rest : List Char) :
    SaveHeader Version bytesInInt =
        "FaCT++InternalStateDump1.0".toList ++ ['\n'] ++ Version ++ ['\n'] ++
          showNat bytesInInt ++ ['\n'] ∧
      (SaveHeader Version bytesInInt).count '\n' = 3 ∧
      LoadHeader Version bytesInInt (IStream.ofText (SaveHeader Version bytesInInt ++ rest)) =
        (false, IStream.ofText ('\n' :: rest)) := by
  have hsave : SaveHeader Version bytesInInt =
      "FaCT++InternalStateDump1.0".toList ++ ['\n'] ++ Version ++ ['\n'] ++
        showNat bytesInInt ++ ['\n'] := by
    unfold SaveHeader
    rw [showInt_ofNat]
    rfl
  refine ⟨hsave, ?_, LoadHeader_SaveHeader Version bytesInInt hne hws rest⟩
  have hv : Version.count '\n' = 0 := by
    apply List.count_eq_zero.mpr
    intro hmem
    have := hws '\n' hmem
    revert this
    decide
  have hd : (showNat bytesInInt).count '\n' = 0 := by
    apply List.count_eq_zero.mpr
    intro hmem
    exact (isDigit_not_space '\n' ((showNat_spec bytesInInt).1 '\n' hmem)).2.2.2 rfl
  have hh : ("FaCT++InternalStateDump1.0".toList).count '\n' = 0 := by decide
  rw [hsave]
  simp only [List.count_append, hv, hd, hh]
  decide

theorem SaveHeader_three_lines_witness :
    ("1.1.11".toList ≠ [] ∧ ∀ c ∈ "1.1.11".toList, isSpace c = false) ∧
      SaveHeader "1.1.11".toList 4 =
        "FaCT++InternalStateDump1.0".toList ++ ['\n'] ++ "1.1.11".toList ++ ['\n'] ++
          showNat 4 ++ ['\n'] ∧
      (SaveHeader "1.1.11".toList 4).count '\n' = 3 ∧
      LoadHeader "1.1.11".toList 4 (IStream.ofText (SaveHeader "1.1.11".toList 4 ++ [])) =
        (false, IStream.ofText ['\n']) :=
  ⟨⟨by decide, by decide⟩,
    SaveHeader_three_lines "1.1.11".toList 4 (by decide) (by decide) []⟩

/-- C14, evaluated: the kernel's `Version` is `1.1.11`, the header has the right
magic string and integer width and the version line `0.9`; `LoadHeader` returns
`false`, that is, it accepts the header. -/
theorem LoadHeader_accepts_version_mismatch :
    "0.9".toList ≠ "1.1.11".toList ∧
      (LoadHeader "1.1.11".toList 4
        (IStream.ofText "FaCT++InternalStateDump1.0\n0.9\n4\n".toList)).1 = false := by
  decide

theorem TBox_Load_Save (b : Nat) (t : TBox) (hC : SavableNames b t.Concepts)
    (hI : SavableNames b t.Individuals) (status : KBStatus) (rest : List Char) :
    TBox.Load b { Status := kbLoading, Concepts := [], Individuals := [] }
        (IStream.ofText (TBox.Save b t ++ rest)) status =
      ({ Status := status, Concepts := t.Concepts, Individuals := t.Individuals },
        .ok (IStream.ofText rest)) := by
  have htext : TBox.Save b t ++ rest =
      '\n' :: 'C' :: (TNECollection.Save b t.Concepts ++
        ('I' :: (TNECollection.Save b t.Individuals ++ ('K' :: 'B' :: rest)))) := by
    unfold TBox.Save
    simp
  have h1 : expectChar (IStream.ofText ('\n' :: 'C' :: (TNECollection.Save b t.Concepts ++
      ('I' :: (TNECollection.Save b t.Individuals ++ ('K' :: 'B' :: rest)))))) 'C' =
      .ok (IStream.ofText (TNECollection.Save b t.Concepts ++
        ('I' :: (TNECollection.Save b t.Individuals ++ ('K' :: 'B' :: rest))))) := by
    rw [expectChar_skip _ _ (by decide)]
    exact expectChar_cons 'C' _ (by decide)
  have h2 := (TNECollection_Load_Save b t.Concepts hC.1 hC.2.1 hC.2.2.1 hC.2.2.2
    ('I' :: (TNECollection.Save b t.Individuals ++ ('K' :: 'B' :: rest)))).2
  have h3 := (TNECollection_Load_Save b t.Individuals hI.1 hI.2.1 hI.2.2.1 hI.2.2.2
    ('K' :: 'B' :: rest)).2
  unfold TBox.Load
  rw [htext, h1]
  simp only []
  rw [h2]
  simp only []
  rw [expectChar_cons 'I' _ (by decide)]
  simp only []
  rw [h3]
  simp only []
  rw [expectChar_cons 'K' _ (by decide)]
  simp only []
  rw [expectChar_cons 'B' _ (by decide)]

/-- Save and load of the KB block, as a lemma. -/
theorem LoadKB_SaveKB (b : Nat) (k : ReasoningKernel) (hst : getStatus k ≠ kbLoading)
    (hrange : getStatus k < uintBound b)
    (hnames : ∀ t, k.pTBox = some t → SavableNames b t.Concepts ∧ SavableNames b t.Individuals)
    (rest : List Char) :
    (SaveKB b k).2 = none ∧
      LoadKB b { pTBox := none } (IStream.ofText ((SaveKB b k).1 ++ rest)) =
        (loadedKernel k, .ok (IStream.ofText rest)) := by
  by_cases hE : getStatus k = kbEmpty
  · have hs : SaveKB b k = (saveUInt (getStatus k), none) := by
      unfold SaveKB
      rw [if_pos hE, Nat.mod_eq_of_lt hrange]
    refine ⟨by rw [hs], ?_⟩
    rw [hs]
    unfold LoadKB
    simp only []
    rw [loadUInt_saveUInt b _ hrange]
    simp only []
    rw [if_pos hE]
    unfold loadedKernel
    rw [if_pos hE]
  · cases hk : k.pTBox with
    | none =>
      exfalso
      apply hE
      unfold getStatus
      rw [hk]
    | some t =>
      have hs : SaveKB b k = (saveUInt (getStatus k) ++ TBox.Save b t, none) := by
        unfold SaveKB
        rw [if_neg hE, if_neg hst, Nat.mod_eq_of_lt hrange, hk]
      obtain ⟨hC, hI⟩ := hnames t hk
      refine ⟨by rw [hs], ?_⟩
      rw [hs]
      unfold LoadKB
      simp only []
      rw [List.append_assoc, loadUInt_saveUInt b _ hrange]
      simp only []
      rw [if_neg hE]
      have hnew : (newKB { pTBox := none }).pTBox =
          some { Status := kbLoading, Concepts := [], Individuals := [] } := rfl
      rw [hnew]
      simp only []
      rw [TBox_Load_Save b t hC hI]
      unfold loadedKernel
      rw [if_neg hE]
      have hst2 : getStatus k = t.Status := by
        unfold getStatus
        rw [hk]
      have hkk : k = { pTBox := some t } := by
        cases k
        simp only [ReasoningKernel.mk.injEq]
        exact hk
      rw [hst2, hkk]

/-- C17 (amended): for every KB whose status is not `Loading` and whose
collections hold names without a newline (unique, sizes within `unsigned int`),
`SaveKB` succeeds and `LoadKB` applied to its output (followed by any text
`rest`) on a kernel without KB succeeds, leaves `rest`, and reproduces the
status and the two collections: for status `Empty` only the framed status is
written and no KB is created on load; otherwise the block is the framed status,
a newline, `C`, the concept collection, `I`, the individual collection and `KB`,
and the loaded KB is the saved one. -/
theorem SaveKB_LoadKB_roundtrip (bytesInInt : Nat) (k : ReasoningKernel)
    (hst : getStatus k ≠ kbLoading) (hrange : getStatus k < uintBound bytesInInt)
    (hnames : ∀ t, k.pTBox = some t →
      SavableNames bytesInInt t.Concepts ∧ SavableNames bytesInInt t.Individuals)
    (rest : List Char) :
    (SaveKB bytesInInt k).2 = none ∧
      (getStatus k = kbEmpty → (SaveKB bytesInInt k).1 = saveUInt kbEmpty ∧
        (LoadKB bytesInInt { pTBox := none }
          (IStream.ofText ((SaveKB bytesInInt k).1 ++ rest))).1.pTBox = none) ∧
      (∀ t, k.pTBox = some t → getStatus k ≠ kbEmpty →
        (SaveKB bytesInInt k).1 =
          saveUInt t.Status ++ ['\n', 'C'] ++ TNECollection.Save bytesInInt t.Concepts ++ ['I'] ++
            TNECollection.Save bytesInInt t.Individuals ++ ['K', 'B'] ∧
        (LoadKB bytesInInt { pTBox := none }
          (IStream.ofText ((SaveKB bytesInInt k).1 ++ rest))).1.pTBox = some t) ∧
      (LoadKB bytesInInt { pTBox := none }
        (IStream.ofText ((SaveKB bytesInInt k).1 ++ rest))).2 = .ok (IStream.ofText rest) ∧
      getStatus (LoadKB bytesInInt { pTBox := none }
        (IStream.ofText ((SaveKB bytesInInt k).1 ++ rest))).1 = getStatus k := by
  obtain ⟨h1, h2⟩ := LoadKB_SaveKB bytesInInt k hst hrange hnames rest
  refine ⟨h1, ?_, ?_, by rw [h2], ?_⟩
  · intro hE
    refine ⟨?_, ?_⟩
    · unfold SaveKB
      rw [if_pos hE, Nat.mod_eq_of_lt hrange, hE]
    · rw [h2]
      unfold loadedKernel
      rw [if_pos hE]
  · intro t hk hE
    refine ⟨?_, ?_⟩
    · have hst2 : getStatus k = t.Status := by
        unfold getStatus
        rw [hk]
      unfold SaveKB
      rw [if_neg hE, if_neg hst, Nat.mod_eq_of_lt hrange, hk, hst2]
      unfold TBox.Save
      simp
    · rw [h2]
      unfold loadedKernel
      rw [if_neg hE]
      exact hk
  · rw [h2]
    unfold loadedKernel
    by_cases hE : getStatus k = kbEmpty
    · rw [if_pos hE, hE]; rfl
    · rw [if_neg hE]

theorem SaveKB_LoadKB_roundtrip_witness :
    (getStatus classifiedKernel ≠ kbLoading ∧ getStatus classifiedKernel < uintBound 4) ∧
      (LoadKB 4 emptyKernel
        (IStream.ofText ((SaveKB 4 classifiedKernel).1 ++ []))).2 = .ok (IStream.ofText []) ∧
      getStatus (LoadKB 4 emptyKernel
        (IStream.ofText ((SaveKB 4 classifiedKernel).1 ++ []))).1 = getStatus classifiedKernel :=
  have h := SaveKB_LoadKB_roundtrip 4 classifiedKernel (by decide) (by decide)
    (fun t ht => by
      cases ht
      exact ⟨⟨by decide, by decide, by decide, by decide⟩,
        ⟨by decide, by decide, by decide, by decide⟩⟩) []
  ⟨⟨by decide, by decide⟩, h.2.2.2.1, h.2.2.2.2⟩

/-- C17, the claim as stated fails: `newlineKernel` holds a KB with status
`CChecked` (not `Loading`) whose one concept is named `a\nb`.  `SaveKB` writes the
block (with a newline before `C`); `LoadKB` on that output reads the name `a`
alone and then fails at `expectChar(i,'I')`. -/
theorem LoadKB_newline_counterexample :
    getStatus newlineKernel ≠ kbLoading ∧
      SaveKB 4 newlineKernel = ("(2)\nC(1)(3)a\nb\nI(0)(0)KB".toList, none) ∧
      LoadKB 4 emptyKernel (IStream.ofText (SaveKB 4 newlineKernel).1) =
        (⟨some ⟨kbCChecked, ["a".toList], []⟩⟩, .error (.expected 'I')) := by
  refine ⟨by decide, by decide, rfl⟩

/-- C16, evaluated: `SaveKB` in status `Loading` writes `(1)` and throws; `LoadKB`
on a stream whose framed status is `kbLoading`, followed by a well-formed block,
returns normally with a KB in status `Loading`; on the text `(1)` alone it
fails in `TBox::Load`, after `newKB()` has created the KB. -/
theorem LoadKB_accepts_loading_status :
    SaveKB 4 loadingKernel = ("(1)".toList, some .unclassified) ∧
      LoadKB 4 emptyKernel (IStream.ofText "(1)\nC(0)(0)I(0)(0)KB".toList) =
        (loadingKernel, .ok (IStream.ofText [])) ∧
      LoadKB 4 emptyKernel (IStream.ofText "(1)".toList) =
        (loadingKernel, .error (.expected 'C')) := by
  refine ⟨by decide, rfl, rfl⟩

theorem LoadKB_skip (b : Nat) (k : ReasoningKernel) (c : Char) (cs : List Char)
    (hc : isSpace c = true) :
    LoadKB b k (IStream.ofText (c :: cs)) = LoadKB b k (IStream.ofText cs) := by
  unfold LoadKB
  rw [loadUInt_skip b c cs hc]

/-- C15 (amended): `ReasoningKernel::Load` does not reject a kernel that holds a
KB: it releases that KB first (`releaseKB()`) and then loads.  On the file that
`Save` wrote for a kernel `k2` (status not `Loading`, names without newline,
`Version` a word) it succeeds whatever KB the kernel held, and the kernel then
holds the saved state, not its old KB; a file that cannot be opened fails with
a save/load error and the KB is kept; a file with a bad header fails with a
save/load error after the KB was released. -/
theorem Load_replaces_KB (Version : List Char) (bytesInInt : Nat) (k k2 : ReasoningKernel)
    (hne : Version ≠ []) (hws : ∀ c ∈ Version, isSpace c = false)
    (hst : getStatus k2 ≠ kbLoading) (hrange : getStatus k2 < uintBound bytesInInt)
    (hnames : ∀ t, k2.pTBox = some t →
      SavableNames bytesInInt t.Concepts ∧ SavableNames bytesInInt t.Individuals) :
    (Save Version bytesInInt k2).2 = none ∧
      Load Version bytesInInt k (some (Save Version bytesInInt k2).1) = (loadedKernel k2, none) ∧
      Load Version bytesInInt k none = (k, some (.fileState false)) ∧
      ∀ text, (LoadHeader Version bytesInInt (IStream.ofText text)).1 = true →
        Load Version bytesInInt k (some text) = ({ pTBox := none }, some (.fileState false)) := by
  obtain ⟨h1, h2⟩ := LoadKB_SaveKB bytesInInt k2 hst hrange hnames []
  refine ⟨h1, ?_, rfl, ?_⟩
  · have hopt : SaveOptions = "Options".toList ++ ['\n'] := by decide
    have htext : (Save Version bytesInInt k2).1 =
        SaveHeader Version bytesInInt ++
          ("Options".toList ++ '\n' :: (SaveKB bytesInInt k2).1) := by
      unfold Save
      rw [hopt]
      simp
    have hh := LoadHeader_SaveHeader Version bytesInInt hne hws
      ("Options".toList ++ '\n' :: (SaveKB bytesInInt k2).1)
    have ho : LoadOptions (IStream.ofText
        ('\n' :: ("Options".toList ++ '\n' :: (SaveKB bytesInInt k2).1))) =
        IStream.ofText ('\n' :: (SaveKB bytesInInt k2).1) := by
      unfold LoadOptions
      rw [extractString_skip _ _ (by decide),
        extractString_word "Options".toList (by decide) (by decide) '\n' _ (by decide)]
    have hkb : LoadKB bytesInInt (releaseKB k) (IStream.ofText ('\n' :: (SaveKB bytesInInt k2).1))
        = (loadedKernel k2, .ok (IStream.ofText [])) := by
      rw [LoadKB_skip _ _ _ _ (by decide)]
      have : (SaveKB bytesInInt k2).1 = (SaveKB bytesInInt k2).1 ++ [] := by simp
      rw [this]
      exact h2
    unfold Load
    simp only []
    rw [htext, hh]
    simp only [Bool.false_eq_true, if_false]
    rw [ho]
    have hg1 : (IStream.ofText ('\n' :: ("Options".toList ++ '\n' :: (SaveKB bytesInInt k2).1))).good
        = true := rfl
    have hg2 : (IStream.ofText ('\n' :: (SaveKB bytesInInt k2).1)).good = true := rfl
    rw [hg1, hg2, hkb]
    rfl
  · intro text hbad
    unfold Load
    simp only []
    rw [if_pos hbad]
    rfl

theorem Load_replaces_KB_witness :
    ("1.1.11".toList ≠ [] ∧ (∀ c ∈ "1.1.11".toList, isSpace c = false) ∧
        getStatus classifiedKernel ≠ kbLoading ∧ getStatus classifiedKernel < uintBound 4) ∧
      Load "1.1.11".toList 4 realisedKernel (some (Save "1.1.11".toList 4 classifiedKernel).1) =
        (loadedKernel classifiedKernel, none) :=
  ⟨⟨by decide, by decide, by decide, by decide⟩,
    (Load_replaces_KB "1.1.11".toList 4 realisedKernel classifiedKernel
      (by decide) (by decide) (by decide) (by decide)
      (fun t ht => by
        cases ht
        exact ⟨⟨by decide, by decide, by decide, by decide⟩,
          ⟨by decide, by decide, by decide, by decide⟩⟩)).2.1⟩

/-- C15, the claim as stated fails: `classifiedKernel` holds a non-empty KB.  It
loads the file saved by a kernel without KB: `Load` does not fail, and the KB is
gone; and it loads the file saved from another KB: `Load` does not fail, and
the kernel holds the other KB. -/
theorem Load_nonempty_counterexample :
    classifiedKernel.pTBox.isSome = true ∧
      Load "1.1.11".toList 4 classifiedKernel (some (Save "1.1.11".toList 4 emptyKernel).1) =
        (emptyKernel, none) ∧
      Load "1.1.11".toList 4 classifiedKernel (some (Save "1.1.11".toList 4 realisedKernel).1) =
        (realisedKernel, none) := by
  refine ⟨rfl, rfl, rfl⟩

/-! ### SNF expansions, role indices, synonyms, range and domain -/

/-- C30: the derived constructors expand to their SNF definitions: for all `R`,
`C`, `D`, `createSNFOr(C,D) = createSNFNot(createSNFAnd(createSNFNot(C),
createSNFNot(D)))`, `createSNFExists(R,C) = createSNFNot(createSNFForall(R,
createSNFNot(C)))` and `createSNFLE(0,R,C) = createSNFForall(R, createSNFNot(C))`;
`createSNFwC` and `createSNFwR` go through the same expansions. -/
theorem derived_constructors_expand (R C D : DLTree) :
    createSNFOr C D = createSNFNot (createSNFAnd (createSNFNot C) (createSNFNot D)) ∧
      createSNFExists R C = createSNFNot (createSNFForall R (createSNFNot C)) ∧
      createSNFLE 0 R C = createSNFForall R (createSNFNot C) ∧
      createSNFwC .OR C D =
        some (createSNFNot (createSNFAnd (createSNFNot C) (createSNFNot D))) ∧
      createSNFwR .EXISTS 0 R C = some (createSNFNot (createSNFForall R (createSNFNot C))) ∧
      createSNFwR .LE 0 R C = some (createSNFForall R (createSNFNot C)) ∧
      rebuildSNF ⟨.LE, 0⟩ R C = some (createSNFForall R (createSNFNot C)) :=
  ⟨rfl, rfl, rfl, rfl, rfl, rfl, rfl⟩

/-- C28: for every role id `i > 0` (an `int`), `getRoleIndex(i) = 2i` and
`getRoleIndex(-i) = 2i + 1`; so the index of a positive role is even and that
of an inverse role is odd, and two ids (positive, negative or `0`, above
`INT_MIN`) with the same index are the same. -/
theorem getRoleIndex_spec (i : Int) (hpos : 0 < i) (hint : i < 2 ^ 31) :
    getRoleIndex i = (2 * i).toNat ∧ getRoleIndex (-i) = (2 * i + 1).toNat ∧
      getRoleIndex i % 2 = 0 ∧ getRoleIndex (-i) % 2 = 1 ∧
      ∀ j : Int, -(2 ^ 31) < j → j < 2 ^ 31 →
        (getRoleIndex j = getRoleIndex i → j = i) ∧
        (getRoleIndex j = getRoleIndex (-i) → j = -i) := by
  have h1 : getRoleIndex i = (2 * i).toNat := by
    unfold getRoleIndex
    rw [if_pos hpos]
    congr 1
    omega
  have h2 : getRoleIndex (-i) = (2 * i + 1).toNat := by
    unfold getRoleIndex
    rw [if_neg (by omega)]
    congr 1
    omega
  refine ⟨h1, h2, by rw [h1]; omega, by rw [h2]; omega, ?_⟩
  intro j hj1 hj2
  have hj : getRoleIndex j = if j > 0 then (2 * j).toNat else (-2 * j + 1).toNat := by
    unfold getRoleIndex
    by_cases hjp : j > 0
    · rw [if_pos hjp, if_pos hjp]
      congr 1
      omega
    · rw [if_neg hjp, if_neg hjp]
      congr 1
      omega
  rw [hj, h1, h2]
  by_cases hjp : j > 0
  · rw [if_pos hjp]
    exact ⟨fun h => by omega, fun h => by omega⟩
  · rw [if_neg hjp]
    exact ⟨fun h => by omega, fun h => by omega⟩

theorem getRoleIndex_spec_witness :
    ((0 : Int) < 2147483647 ∧ (2147483647 : Int) < 2 ^ 31) ∧
      getRoleIndex 2147483647 = (2 * (2147483647 : Int)).toNat ∧
      getRoleIndex (-2147483647) = (2 * (2147483647 : Int) + 1).toNat :=
  ⟨by decide,
    (getRoleIndex_spec 2147483647 (by decide) (by decide)).1,
    (getRoleIndex_spec 2147483647 (by decide) (by decide)).2.1⟩

/-- C25 (amended): `TRole::resolveSynonym` follows one synonym link.  For every
role `R` whose synonym, if it has one, is not itself a synonym,
`resolveSynonym(resolveSynonym(R)) = resolveSynonym(R)` and the result is not a
synonym; in general the result is `R` itself or the role its synonym link
names. -/
theorem resolveSynonym_idempotent (rb : RoleBox) (R : RoleId)
    (hprim : ∀ s, (rb R).Synonym = some s → (rb s).Synonym = none) :
    resolveSynonym rb (resolveSynonym rb R) = resolveSynonym rb R ∧
      isSynonym rb (resolveSynonym rb R) = false ∧
      (resolveSynonym rb R = R ∨ (rb R).Synonym = some (resolveSynonym rb R)) := by
  cases hs : (rb R).Synonym with
  | none =>
    have h1 : resolveSynonym rb R = R := by
      unfold resolveSynonym
      rw [hs]
    rw [h1]
    refine ⟨h1, ?_, Or.inl rfl⟩
    unfold isSynonym
    rw [hs]
    rfl
  | some s =>
    have h1 : resolveSynonym rb R = s := by
      unfold resolveSynonym
      rw [hs]
    have h2 := hprim s hs
    rw [h1]
    refine ⟨?_, ?_, Or.inr rfl⟩
    · unfold resolveSynonym
      rw [h2]
    · unfold isSynonym
      rw [h2]
      rfl

theorem resolveSynonym_idempotent_witness :
    (∀ s, (synonymBox 0).Synonym = some s → (synonymBox s).Synonym = none) ∧
      resolveSynonym synonymBox (resolveSynonym synonymBox 0) = resolveSynonym synonymBox 0 ∧
      isSynonym synonymBox (resolveSynonym synonymBox 0) = false ∧
      (resolveSynonym synonymBox 0 = 0 ∨
        (synonymBox 0).Synonym = some (resolveSynonym synonymBox 0)) :=
  have h : ∀ s, (synonymBox 0).Synonym = some s → (synonymBox s).Synonym = none := by
    intro s hs
    have : s = 2 := by
      have h0 : (synonymBox 0).Synonym = some 2 := rfl
      rw [h0] at hs
      exact (Option.some.inj hs).symm
    rw [this]
    rfl
  ⟨h, resolveSynonym_idempotent synonymBox 0 h⟩

/-- C25, the claim as stated fails: with the synonym links `0 → 1 → 2`,
`resolveSynonym(0)` is `1`, which is itself a synonym, and
`resolveSynonym(resolveSynonym(0))` is `2`. -/
theorem resolveSynonym_chain_counterexample :
    resolveSynonym synonymChainBox 0 = 1 ∧
      isSynonym synonymChainBox (resolveSynonym synonymChainBox 0) = true ∧
      resolveSynonym synonymChainBox (resolveSynonym synonymChainBox 0) = 2 ∧
      resolveSynonym synonymChainBox (resolveSynonym synonymChainBox 0) ≠
        resolveSynonym synonymChainBox 0 := by
  decide

theorem setDomain_links (rb : RoleBox) (r : RoleId) (p : DLTree) (x : RoleId) :
    ((setDomain rb r p) x).Inverse = (rb x).Inverse ∧
      ((setDomain rb r p) x).Synonym = (rb x).Synonym := by
  unfold setDomain
  split
  · exact ⟨rfl, rfl⟩
  · constructor
    · refine setAt_proj _ _ _ TRole.Inverse ?_ x
      rfl
    · refine setAt_proj _ _ _ TRole.Synonym ?_ x
      rfl

/-- C29: the range of a role is the domain of its inverse: for every role `R`
with its inverse set (`inverse()` gives `i`), `R.setRange(C)` has exactly the
effect of `i->setDomain(C)`, `getTRange(R)` is `getTDomain(i)` and
`getBPRange(R)` is `getBPDomain(i)`; after `setRange` the inverse of `R` is
still `i` and its domain is the old one when that was `C` already, else the
conjunction of the old one and `C`. -/
theorem range_is_inverse_domain (rb : RoleBox) (R i : RoleId) (C : DLTree)
    (hinv : inverse rb R = some i) :
    setRange rb R C = some (setDomain rb i C) ∧
      getTRange rb R = some (getTDomain rb i) ∧
      getBPRange rb R = some (getBPDomain rb i) ∧
      inverse (setDomain rb i C) R = some i ∧
      getTRange (setDomain rb i C) R =
        some (if getTDomain rb i = C then C else createSNFAnd (getTDomain rb i) C) := by
  have hinv2 : inverse (setDomain rb i C) R = some i := by
    unfold inverse at hinv ⊢
    rw [(setDomain_links rb i C R).1]
    cases hI : (rb R).Inverse with
    | none => rw [hI] at hinv; exact absurd hinv (by simp)
    | some j =>
      rw [hI] at hinv
      simp only [] at hinv ⊢
      unfold resolveSynonym at hinv ⊢
      rw [(setDomain_links rb i C j).2]
      exact hinv
  refine ⟨?_, ?_, ?_, hinv2, ?_⟩
  · unfold setRange
    rw [hinv]
  · unfold getTRange getTDomain
    rw [hinv]
  · unfold getBPRange getBPDomain
    rw [hinv]
  · unfold getTRange
    rw [hinv2]
    simp only [Option.some.injEq]
    unfold setDomain getTDomain
    by_cases hC : (rb i).pDomain = C
    · rw [if_pos hC, if_pos hC, hC]
    · rw [if_neg hC, if_neg hC, setAt_same]

theorem range_is_inverse_domain_witness :
    inverse (rangeBox .null) 2 = some 3 ∧
      setRange (rangeBox .null) 2 (.node ⟨.CNAME, 1⟩ .null .null) =
        some (setDomain (rangeBox .null) 3 (.node ⟨.CNAME, 1⟩ .null .null)) ∧
      getTRange (rangeBox .null) 2 = some (getTDomain (rangeBox .null) 3) ∧
      getBPRange (rangeBox .null) 2 = some (getBPDomain (rangeBox .null) 3) :=
  have h := range_is_inverse_domain (rangeBox .null) 2 3 (.node ⟨.CNAME, 1⟩ .null .null) rfl
  ⟨rfl, h.1, h.2.1, h.2.2.1⟩

/-! ### Symmetry of role disjointness -/

theorem mem_disjoint_insert (rb : RoleBox) (a b X Y : RoleId) :
    Y ∈ ((setAt rb a { rb a with Disjoint := b :: (rb a).Disjoint }) X).Disjoint ↔
      Y ∈ (rb X).Disjoint ∨ (X = a ∧ Y = b) := by
  by_cases hX : X = a
  · subst hX
    rw [setAt_same]
    show Y ∈ b :: (rb X).Disjoint ↔ _
    rw [List.mem_cons]
    constructor
    · rintro (h | h)
      · exact Or.inr ⟨rfl, h⟩
      · exact Or.inl h
    · rintro (h | ⟨_, h⟩)
      · exact Or.inr h
      · exact Or.inl h
  · rw [setAt_other _ _ _ _ hX]
    constructor
    · exact Or.inl
    · rintro (h | ⟨h, _⟩)
      · exact h
      · exact absurd h hX

theorem descendant_disjoint_insert (rb : RoleBox) (a b x : RoleId) :
    ((setAt rb a { rb a with Disjoint := b :: (rb a).Disjoint }) x).Descendant =
      (rb x).Descendant := by
  refine setAt_proj _ _ _ TRole.Descendant ?_ x
  rfl

theorem addDisjointLoop_spec (this : RoleId) :
    ∀ (l : List RoleId) (rb : RoleBox),
      (∀ x, ((addDisjointLoop this l rb) x).Descendant = (rb x).Descendant) ∧
      ∀ X Y, Y ∈ ((addDisjointLoop this l rb) X).Disjoint ↔
        Y ∈ (rb X).Disjoint ∨ (X = this ∧ Y ∈ l) ∨ (X ∈ l ∧ Y = this) := by
  intro l
  induction l with
  | nil =>
    intro rb
    refine ⟨fun _ => rfl, fun X Y => ?_⟩
    show Y ∈ (rb X).Disjoint ↔ _
    simp
  | cons p ps ih =>
    intro rb
    obtain ⟨rb1, hrb1⟩ : ∃ rb1 : RoleBox,
        rb1 = setAt rb this { rb this with Disjoint := p :: (rb this).Disjoint } := ⟨_, rfl⟩
    obtain ⟨rb2, hrb2⟩ : ∃ rb2 : RoleBox,
        rb2 = setAt rb1 p { rb1 p with Disjoint := this :: (rb1 p).Disjoint } := ⟨_, rfl⟩
    have hstep : addDisjointLoop this (p :: ps) rb = addDisjointLoop this ps rb2 := by
      rw [hrb2, hrb1]
      rfl
    obtain ⟨ih1, ih2⟩ := ih rb2
    rw [hstep]
    refine ⟨fun x => ?_, fun X Y => ?_⟩
    · rw [ih1 x, hrb2, descendant_disjoint_insert, hrb1, descendant_disjoint_insert]
    · rw [ih2 X Y, hrb2, mem_disjoint_insert, hrb1, mem_disjoint_insert]
      simp only [List.mem_cons]
      constructor
      · rintro (((h | ⟨h1, h2⟩) | ⟨h1, h2⟩) | ⟨h1, h2⟩ | ⟨h1, h2⟩)
        · exact Or.inl h
        · exact Or.inr (Or.inl ⟨h1, Or.inl h2⟩)
        · exact Or.inr (Or.inr ⟨Or.inl h1, h2⟩)
        · exact Or.inr (Or.inl ⟨h1, Or.inr h2⟩)
        · exact Or.inr (Or.inr ⟨Or.inr h1, h2⟩)
      · rintro (h | ⟨h1, h2 | h2⟩ | ⟨h1 | h1, h2⟩)
        · exact Or.inl (Or.inl (Or.inl h))
        · exact Or.inl (Or.inl (Or.inr ⟨h1, h2⟩))
        · exact Or.inr (Or.inl ⟨h1, h2⟩)
        · exact Or.inl (Or.inr ⟨h1, h2⟩)
        · exact Or.inr (Or.inr ⟨h1, h2⟩)

/-- What one call `this.addDisjointRole(R)` records: `R` and the descendants of
`R` at `this`, and `this` at the descendants of `R` (not at `R`). -/
theorem addDisjointRole_spec (rb : RoleBox) (this R : RoleId) :
    (∀ x, ((addDisjointRole rb this R) x).Descendant = (rb x).Descendant) ∧
      ∀ X Y, Y ∈ ((addDisjointRole rb this R) X).Disjoint ↔
        Y ∈ (rb X).Disjoint ∨ (X = this ∧ Y = R) ∨ (X = this ∧ Y ∈ (rb R).Descendant) ∨
          (X ∈ (rb R).Descendant ∧ Y = this) := by
  obtain ⟨rb1, hrb1⟩ : ∃ rb1 : RoleBox,
      rb1 = setAt rb this { rb this with Disjoint := R :: (rb this).Disjoint } := ⟨_, rfl⟩
  have hdef : addDisjointRole rb this R = addDisjointLoop this (rb1 R).Descendant rb1 := by
    rw [hrb1]
    rfl
  have hdesc : ∀ x, (rb1 x).Descendant = (rb x).Descendant := by
    intro x
    rw [hrb1]
    exact descendant_disjoint_insert rb this R x
  obtain ⟨h1, h2⟩ := addDisjointLoop_spec this (rb1 R).Descendant rb1
  rw [hdef]
  refine ⟨fun x => by rw [h1 x, hdesc x], fun X Y => ?_⟩
  rw [h2 X Y, hdesc R, hrb1, mem_disjoint_insert]
  constructor
  · rintro ((h | h) | h | h)
    · exact Or.inl h
    · exact Or.inr (Or.inl h)
    · exact Or.inr (Or.inr (Or.inl h))
    · exact Or.inr (Or.inr (Or.inr h))
  · rintro (h | h | h | h)
    · exact Or.inl (Or.inl h)
    · exact Or.inl (Or.inr h)
    · exact Or.inr (Or.inl h)
    · exact Or.inr (Or.inr h)

/-- C26 (amended): one call `this.addDisjointRole(R)` records `R` at `this` but not
`this` at `R`; the pair of calls `this.addDisjointRole(R); R.addDisjointRole(this)`
keeps role disjointness symmetric: starting from a symmetric `Disjoint`
relation, after both calls `Y` is in `X.Disjoint` if and only if `X` is in
`Y.Disjoint`, for all roles `X`, `Y`. -/
theorem addDisjointRole_pair_symmetric (rb : RoleBox) (this R : RoleId)
    (hsym : DisjointSymmetric rb) :
    DisjointSymmetric (addDisjointRole (addDisjointRole rb this R) R this) := by
  obtain ⟨d1, m1⟩ := addDisjointRole_spec rb this R
  obtain ⟨_, m2⟩ := addDisjointRole_spec (addDisjointRole rb this R) R this
  intro X Y
  rw [m2 X Y, m2 Y X, m1 X Y, m1 Y X, d1 this, hsym X Y]
  tauto

theorem disjointBox_symmetric : DisjointSymmetric disjointBox := by
  have h : ∀ x, (disjointBox x).Disjoint = [] := by
    intro x
    unfold disjointBox
    split <;> rfl
  intro X Y
  rw [h X, h Y]
  simp

theorem addDisjointRole_pair_symmetric_witness :
    DisjointSymmetric disjointBox ∧
      DisjointSymmetric (addDisjointRole (addDisjointRole disjointBox 0 2) 2 0) :=
  ⟨disjointBox_symmetric, addDisjointRole_pair_symmetric disjointBox 0 2 disjointBox_symmetric⟩

/-- C26, the claim as stated fails: in `disjointBox` no role is disjoint with any
other (a symmetric relation); after the one call `0.addDisjointRole(2)` role `2`
is in the `Disjoint` set of role `0`, but role `0` is not in that of role `2`. -/
theorem addDisjointRole_asymmetric_counterexample :
    DisjointSymmetric disjointBox ∧
      2 ∈ ((addDisjointRole disjointBox 0 2) 0).Disjoint ∧
      0 ∉ ((addDisjointRole disjointBox 0 2) 2).Disjoint ∧
      ¬ DisjointSymmetric (addDisjointRole disjointBox 0 2) := by
  have h1 : 2 ∈ ((addDisjointRole disjointBox 0 2) 0).Disjoint := by decide
  have h2 : 0 ∉ ((addDisjointRole disjointBox 0 2) 2).Disjoint := by decide
  exact ⟨disjointBox_symmetric, h1, h2, fun h => h2 ((h 0 2).mp h1)⟩

/-! ### Insertion of the current vertex -/

/-- C24: with a current vertex, `insertEntry` appends `Current` to the taxonomy
`Graph` if and only if `incorporateSynonym()` reports that `Current` is not a
synonym of an existing vertex (it returns `NULL`); otherwise `Graph` is
unchanged; in both cases every vertex that was in `Graph` is still there (the
old `Graph` is a prefix of the new one) and `Current` is `NULL` afterwards. -/
theorem insertEntry_graph (vops : VertexOps) (t : Taxonomy) (cur : VertexId)
    (hcur : t.Current = some cur) :
    ∃ t1, insertEntry vops t = some t1 ∧ t1.Current = none ∧
      (t1.Graph = t.Graph ++ [cur] ↔
        (vops.incorporateSynonym cur (t.entries, t.vertices)).2 = none) ∧
      ((vops.incorporateSynonym cur (t.entries, t.vertices)).2 ≠ none → t1.Graph = t.Graph) ∧
      t.Graph <+: t1.Graph ∧ ∀ v ∈ t.Graph, v ∈ t1.Graph := by
  unfold insertEntry
  rw [hcur]
  simp only []
  rcases hsyn : vops.incorporateSynonym cur (t.entries, t.vertices) with ⟨h, _ | v⟩
  · refine ⟨_, rfl, rfl, ⟨fun _ => rfl, fun _ => rfl⟩, fun hne => absurd rfl hne,
      List.prefix_append _ _, fun v hv => List.mem_append_left _ hv⟩
  · refine ⟨_, rfl, rfl, ⟨fun hg => ?_, fun hn => ?_⟩, fun _ => rfl, List.prefix_refl _,
      fun v hv => hv⟩
    · have hlen := congrArg List.length hg
      simp at hlen
    · simp at hn

theorem insertEntry_graph_witness :
    chainTaxonomyBelow.Current = some 9 ∧
      ∃ t1, insertEntry simpleVertexOps chainTaxonomyBelow = some t1 ∧ t1.Current = none ∧
        (t1.Graph = chainTaxonomyBelow.Graph ++ [9] ↔
          (simpleVertexOps.incorporateSynonym 9
            (chainTaxonomyBelow.entries, chainTaxonomyBelow.vertices)).2 = none) ∧
        ((simpleVertexOps.incorporateSynonym 9
            (chainTaxonomyBelow.entries, chainTaxonomyBelow.vertices)).2 ≠ none →
          t1.Graph = chainTaxonomyBelow.Graph) ∧
        chainTaxonomyBelow.Graph <+: t1.Graph ∧ ∀ v ∈ chainTaxonomyBelow.Graph, v ∈ t1.Graph :=
  ⟨rfl, insertEntry_graph simpleVertexOps chainTaxonomyBelow 9 rfl⟩

/-! ### Automata of role compositions -/

theorem addToChainLoop_isSome {RA : Type} (ops : AutomatonOps RA) (rb : RoleBox) (this : RoleId) :
    ∀ (l : List RoleId) (A : RoleId → RA), (∀ r ∈ l, isSynonym rb r = false ∧ r ≠ this) →
      (addToChainLoop ops rb this l A).isSome = true := by
  intro l
  induction l with
  | nil => intro A _; rfl
  | cons p ps ih =>
    intro A h
    obtain ⟨h1, h2⟩ := h p (List.mem_cons_self _ _)
    have hc : completeAutomatonByRole ops rb this p A = some (ops.completeAutomaton p A) := by
      unfold completeAutomatonByRole
      rw [h1, if_neg Bool.false_ne_true, if_neg h2]
    rw [addToChainLoop, hc]
    exact ih _ (fun r hr => h r (List.mem_cons_of_mem _ hr))

/-- A non-empty chain whose roles are no synonyms and differ from `this` is
built. -/
theorem createChain_isSome {RA : Type} (ops : AutomatonOps RA) (rb : RoleBox) (this : RoleId)
    (l : List RoleId) (A : RoleId → RA) (hne : l ≠ [])
    (h : ∀ r ∈ l, isSynonym rb r = false ∧ r ≠ this) :
    (createChain ops rb this l A).isSome = true := by
  cases l with
  | nil => exact absurd rfl hne
  | cons b rest =>
    obtain ⟨h1, h2⟩ := h b (List.mem_cons_self _ _)
    have hc : completeAutomatonByRole ops rb this b A = some (ops.completeAutomaton b A) := by
      unfold completeAutomatonByRole
      rw [h1, if_neg Bool.false_ne_true, if_neg h2]
    rw [createChain, hc]
    exact addToChainLoop_isSome ops rb this rest _ (fun r hr => h r (List.mem_cons_of_mem _ hr))

theorem composition_ne_nil : ([0, 1, 2] : List RoleId) ≠ [] := by decide

/-! ### The node loop of `restore` -/

theorem restoreRareLoop_frame (level : Nat) :
    ∀ (l : List (Nat × Restorer)) (x : DlCompletionGraph),
      (restoreRareLoop level l x).Stack = x.Stack ∧
      (restoreRareLoop level l x).SavedNodes = x.SavedNodes ∧
      (restoreRareLoop level l x).endUsed = x.endUsed ∧
      (restoreRareLoop level l x).branchingLevel = x.branchingLevel := by
  intro l
  induction l with
  | nil => intro x; exact ⟨rfl, rfl, rfl, rfl⟩
  | cons e rest ih =>
    intro x
    obtain ⟨lv, r⟩ := e
    rw [restoreRareLoop]
    by_cases hl : level < lv
    · rw [if_pos hl]
      obtain ⟨h1, h2, h3, h4⟩ := ih (applyRestorer r x)
      obtain ⟨_, f2, _, f4, f5, f6, _⟩ := applyRestorer_frame r x
      exact ⟨h1.trans f5, h2.trans f4, h3.trans f2, h4.trans f6⟩
    · rw [if_neg hl]
      exact ⟨rfl, rfl, rfl, rfl⟩

theorem restoreNodes_filter (level : Nat) :
    ∀ (ps : List NodeId) (x : DlCompletionGraph),
      restoreNodes level ps x =
        (ps.filter fun p => decide (p < x.endUsed)).foldl (fun acc p => restoreNode acc p level)
          x := by
  intro ps
  induction ps with
  | nil => intro x; rfl
  | cons p ps ih =>
    intro x
    rw [restoreNodes]
    by_cases hp : p < x.endUsed
    · rw [if_pos hp, List.filter_cons_of_pos (by simpa using hp), List.foldl_cons, ih,
        (restoreNode_frame x p level).1]
    · rw [if_neg hp, List.filter_cons_of_neg (by simpa using hp), ih]

theorem foldl_restoreNode_frame (level : Nat) :
    ∀ (l : List NodeId) (x : DlCompletionGraph),
      (l.foldl (fun acc p => restoreNode acc p level) x).endUsed = x.endUsed ∧
      (l.foldl (fun acc p => restoreNode acc p level) x).SavedNodes = x.SavedNodes ∧
      (l.foldl (fun acc p => restoreNode acc p level) x).Stack = x.Stack ∧
      (l.foldl (fun acc p => restoreNode acc p level) x).branchingLevel = x.branchingLevel ∧
      ∀ n, n ∉ l → (l.foldl (fun acc p => restoreNode acc p level) x).NodeBase n = x.NodeBase n := by
  intro l
  induction l with
  | nil => intro x; exact ⟨rfl, rfl, rfl, rfl, fun _ _ => rfl⟩
  | cons p ps ih =>
    intro x
    obtain ⟨h1, h2, h3, h4, h5⟩ := ih (restoreNode x p level)
    obtain ⟨f1, f2, f3, _, _, f6, _, f8, _⟩ := restoreNode_frame x p level
    rw [List.foldl_cons]
    refine ⟨h1.trans f1, h2.trans f2, h3.trans f3, h4.trans f6, fun n hn => ?_⟩
    have hnp : n ≠ p := fun e => hn (by rw [e]; exact List.mem_cons_self _ _)
    rw [h5 n (fun hm => hn (List.mem_cons_of_mem _ hm)), f8 n hnp]

/-- C22 (amended): `restore(level)`, with `s` the state that the save stack holds
for `level`, rewinds `endUsed` to `s.nNodes`, the value recorded by the matching
save, cuts `SavedNodes` back to its recorded size, and invokes per-node
restoration for exactly those nodes saved since that save whose id is less than
the rewound `endUsed`: the nodes are those that `restoreNode`, applied in turn
to the saved nodes with id below `s.nNodes`, gives, and every other node, in
particular every node with an id greater than or equal to the rewound `endUsed`,
is left as the rare log restored it. -/
theorem restore_rewinds (g : DlCompletionGraph) (level : Nat) (s : SaveState)
    (stack : List SaveState) (hlevel : level ≠ 0) (hpop : popStack g.Stack level = some (s, stack)) :
    ∃ g1, restore g level = some g1 ∧ g1.endUsed = s.nNodes ∧ g1.branchingLevel = level ∧
      g1.Stack = stack ∧ g1.SavedNodes = g.SavedNodes.take s.sNodes ∧
      g1.NodeBase =
        (((g.SavedNodes.drop s.sNodes).filter fun p => decide (p < s.nNodes)).foldl
          (fun acc p => restoreNode acc p level)
          { restoreRare level { g with branchingLevel := level } with
            Stack := stack, endUsed := s.nNodes }).NodeBase ∧
      ∀ n, (n ∉ g.SavedNodes.drop s.sNodes ∨ s.nNodes ≤ n) →
        g1.NodeBase n = (restoreRare level { g with branchingLevel := level }).NodeBase n := by
  obtain ⟨r1, r2, r3, r4⟩ := restoreRareLoop_frame level g.RareStack
    { g with branchingLevel := level }
  have hstack : (restoreRare level { g with branchingLevel := level }).Stack = g.Stack := r1
  have hsaved : (restoreRare level { g with branchingLevel := level }).SavedNodes = g.SavedNodes :=
    r2
  have hlev : (restoreRare level { g with branchingLevel := level }).branchingLevel = level := r4
  obtain ⟨x0, hx0⟩ : ∃ x0 : DlCompletionGraph, x0 =
      { restoreRare level { g with branchingLevel := level } with
        Stack := stack, endUsed := s.nNodes } := ⟨_, rfl⟩
  have hx0s : x0.SavedNodes = g.SavedNodes := by rw [hx0]; exact hsaved
  have hx0e : x0.endUsed = s.nNodes := by rw [hx0]
  have hx0n : x0.NodeBase = (restoreRare level { g with branchingLevel := level }).NodeBase := by
    rw [hx0]
  have hres : restore g level = some
      { restoreNodes level (g.SavedNodes.drop s.sNodes) x0 with
        SavedNodes := (restoreNodes level (g.SavedNodes.drop s.sNodes) x0).SavedNodes.take
          s.sNodes } := by
    unfold restore
    rw [if_neg hlevel]
    simp only []
    rw [hstack, hpop]
    simp only []
    rw [← hx0, hsaved]
  rw [restoreNodes_filter, hx0e] at hres
  obtain ⟨f1, f2, f3, f4, f5⟩ := foldl_restoreNode_frame level
    ((g.SavedNodes.drop s.sNodes).filter fun p => decide (p < s.nNodes)) x0
  refine ⟨_, hres, f1.trans hx0e, ?_, ?_, ?_, ?_, ?_⟩
  · show (List.foldl _ x0 _).branchingLevel = level
    rw [f4, hx0]
    exact hlev
  · show (List.foldl _ x0 _).Stack = stack
    rw [f3, hx0]
  · show List.take s.sNodes (List.foldl _ x0 _).SavedNodes = _
    rw [f2, hx0s]
  · show (List.foldl _ x0 _).NodeBase = _
    rw [hx0]
  · intro n hn
    show (List.foldl _ x0 _).NodeBase n = _
    rw [f5 n, hx0n]
    intro hmem
    obtain ⟨hm1, hm2⟩ := List.mem_filter.mp hmem
    have hm3 : n < s.nNodes := by simpa using hm2
    rcases hn with h | h
    · exact h hm1
    · exact absurd hm3 (not_lt.mpr h)

theorem restore_rewinds_witness :
    ((1 : Nat) ≠ 0 ∧ popStack twoSavesGraph.Stack 1 = some (⟨4, 0⟩, [])) ∧
      ∃ g1, restore twoSavesGraph 1 = some g1 ∧ g1.endUsed = 4 ∧ g1.branchingLevel = 1 ∧
        g1.Stack = [] ∧ g1.SavedNodes = twoSavesGraph.SavedNodes.take 0 ∧
        g1.NodeBase =
          (((twoSavesGraph.SavedNodes.drop 0).filter fun p => decide (p < 4)).foldl
            (fun acc p => restoreNode acc p 1)
            { restoreRare 1 { twoSavesGraph with branchingLevel := 1 } with
              Stack := [], endUsed := 4 }).NodeBase ∧
        ∀ n, (n ∉ twoSavesGraph.SavedNodes.drop 0 ∨ 4 ≤ n) →
          g1.NodeBase n = (restoreRare 1 { twoSavesGraph with branchingLevel := 1 }).NodeBase n :=
  ⟨⟨by decide, rfl⟩, restore_rewinds twoSavesGraph 1 ⟨4, 0⟩ [] (by decide) rfl⟩

/-- C22, the claim as stated fails: in `twoSavesGraph` the nodes `0` and `4` were
saved since the first save, which recorded `endUsed = 4`.  `restore(1)` rewinds
`endUsed` to 4 and restores node `0`, whose id is less than 4 (its level is 1
again and its successor list is cut back), but not node `4`, whose id is not
less than 4: it keeps its level 3, its arc and its saved state, which
`restoreNode` would have dropped. -/
theorem restore_saved_ids_counterexample :
    twoSavesGraph.SavedNodes = [0, 4] ∧
      (restore twoSavesGraph 1).map (fun g => g.endUsed) = some 4 ∧
      (restore twoSavesGraph 1).map (fun g => ((g.NodeBase 0).curLevel, (g.NodeBase 0).Son)) =
        some (1, [0]) ∧
      ((twoSavesGraph.NodeBase 0).curLevel, (twoSavesGraph.NodeBase 0).Son) = (3, [0, 4]) ∧
      (restore twoSavesGraph 1).map (fun g => ((g.NodeBase 4).curLevel, (g.NodeBase 4).Parent,
        (g.NodeBase 4).saves.length)) = some (3, [5], 1) ∧
      ((restoreNode twoSavesGraph 4 1).NodeBase 4).saves.length = 0 := by
  refine ⟨rfl, rfl, rfl, rfl, rfl, rfl⟩

/-! ### `Purge` and nominal successors -/

theorem invalidateEdge_nodes (g : DlCompletionGraph) (a : ArcId) :
    (invalidateEdge g a).NodeBase = g.NodeBase := rfl

theorem setPBlocked_node_ne (g : DlCompletionGraph) (p root : NodeId) (dep : DepSet)
    (n : NodeId) (hn : n ≠ p) : (setPBlocked g p root dep).NodeBase n = g.NodeBase n := by
  unfold setPBlocked saveRare
  simp only []
  rw [setAt_other _ _ _ _ hn]

/-- A nominal node other than the one `Purge` is called on is left as it is. -/
theorem Purge_nominal_node (root : NodeId) (dep : DepSet) (n : NodeId) :
    ∀ (fuel : Nat) (g : DlCompletionGraph) (p : NodeId), (g.NodeBase n).nominal = true → n ≠ p →
      (Purge fuel g p root dep).NodeBase n = g.NodeBase n := by
  intro fuel
  induction fuel with
  | zero => intro g p _ _; rfl
  | succ fuel ih =>
    intro g p hnom hnp
    by_cases hp : isPBlocked g p = true
    · rw [Purge_blocked_eq fuel g p root dep hp]
    · have hp0 : isPBlocked g p = false := by simpa using hp
      rw [Purge_unblocked_eq fuel g p root dep hp0]
      exact foldl_mem_invariant
        (fun acc q =>
          if !(acc.NodeBase (acc.CTEdgeHeap q).ArcEnd).nominal then
            Purge fuel acc (acc.CTEdgeHeap q).ArcEnd root dep
          else invalidateEdge acc q)
        (fun acc : DlCompletionGraph => acc.NodeBase n = g.NodeBase n)
        (g.NodeBase p).Son (setPBlocked g p root dep)
        (setPBlocked_node_ne g p root dep n hnp)
        (by
          intro acc q _ hacc
          by_cases hq : (acc.NodeBase (acc.CTEdgeHeap q).ArcEnd).nominal = true
          · simp only [hq, Bool.not_true, Bool.false_eq_true, if_false]
            rw [invalidateEdge_nodes]
            exact hacc
          · have hq0 : (acc.NodeBase (acc.CTEdgeHeap q).ArcEnd).nominal = false := by
              simpa using hq
            simp only [hq0, Bool.not_false, if_true]
            have hne : n ≠ (acc.CTEdgeHeap q).ArcEnd := by
              intro e
              rw [← e, hacc, hnom] at hq0
              exact Bool.noConfusion hq0
            rw [ih acc _ (by rw [hacc]; exact hnom) hne]
            exact hacc)

theorem NoNominalLink.link_of_frame {g r : DlCompletionGraph} (h : PurgeFrame g r) (q : ArcId)
    (hq : NoNominalLink g q) : NoNominalLink r q := by
  intro a q1 hq1 hnom
  rw [h.son a] at hq1
  rw [h.arcEnd q1, h.nominal] at hnom
  rw [h.rev q1]
  exact hq a q1 hq1 hnom

/-- An arc that is neither a successor arc to a nominal node nor the reverse of
one is left as it is by `Purge`. -/
theorem Purge_keeps_arc (root : NodeId) (dep : DepSet) (q : ArcId) :
    ∀ (fuel : Nat) (g : DlCompletionGraph) (p : NodeId), NoNominalLink g q →
      (Purge fuel g p root dep).CTEdgeHeap q = g.CTEdgeHeap q := by
  intro fuel
  induction fuel with
  | zero => intro g p _; rfl
  | succ fuel ih =>
    intro g p hq
    by_cases hp : isPBlocked g p = true
    · rw [Purge_blocked_eq fuel g p root dep hp]
    · have hp0 : isPBlocked g p = false := by simpa using hp
      rw [Purge_unblocked_eq fuel g p root dep hp0]
      have hf0 := setPBlocked_frame g p root dep hp0
      have key := foldl_mem_invariant
        (fun acc q1 =>
          if !(acc.NodeBase (acc.CTEdgeHeap q1).ArcEnd).nominal then
            Purge fuel acc (acc.CTEdgeHeap q1).ArcEnd root dep
          else invalidateEdge acc q1)
        (fun acc => PurgeFrame g acc ∧ acc.CTEdgeHeap q = g.CTEdgeHeap q)
        (g.NodeBase p).Son (setPBlocked g p root dep) ⟨hf0, rfl⟩
        (by
          intro acc q1 hq1 hacc
          obtain ⟨hfr, heq⟩ := hacc
          have hqa : NoNominalLink acc q := NoNominalLink.link_of_frame hfr q hq
          by_cases hn : (acc.NodeBase (acc.CTEdgeHeap q1).ArcEnd).nominal = true
          · simp only [hn, Bool.not_true, Bool.false_eq_true, if_false]
            refine ⟨hfr.frame_trans (invalidateEdge_frame acc q1), ?_⟩
            have hq1a : q1 ∈ (acc.NodeBase p).Son := by rw [hfr.son p]; exact hq1
            obtain ⟨h1, h2⟩ := hqa p q1 hq1a hn
            rw [invalidateEdge_other acc q1 q (Ne.symm h1) (Ne.symm h2)]
            exact heq
          · have hn0 : (acc.NodeBase (acc.CTEdgeHeap q1).ArcEnd).nominal = false := by
              simpa using hn
            simp only [hn0, Bool.not_false, if_true]
            refine ⟨hfr.frame_trans (Purge_frame root dep fuel acc _), ?_⟩
            rw [ih acc _ hqa]
            exact heq)
      exact key.2

/-- A node that `Purge` p-blocks has all its successor arcs to nominal nodes
invalidated. -/
theorem Purge_invalidates (root : NodeId) (dep : DepSet) :
    ∀ (fuel : Nat) (g : DlCompletionGraph) (p : NodeId) (a : NodeId),
      isPBlocked g a = false → isPBlocked (Purge fuel g p root dep) a = true →
      ∀ q ∈ (g.NodeBase a).Son, (g.NodeBase (g.CTEdgeHeap q).ArcEnd).nominal = true →
        ((Purge fuel g p root dep).CTEdgeHeap q).iBlocked = true := by
  intro fuel
  induction fuel with
  | zero =>
    intro g p a h1 h2
    rw [show Purge 0 g p root dep = g from rfl, h1] at h2
    exact Bool.noConfusion h2
  | succ fuel ih =>
    intro g p a h1 h2 q hq hnom
    by_cases hp : isPBlocked g p = true
    · rw [Purge_blocked_eq fuel g p root dep hp, h1] at h2
      exact Bool.noConfusion h2
    · have hp0 : isPBlocked g p = false := by simpa using hp
      rw [Purge_unblocked_eq fuel g p root dep hp0] at h2 ⊢
      have hf0 := setPBlocked_frame g p root dep hp0
      -- the loop, from any state `acc0` reached from `g`
      have loop : ∀ (l : List ArcId) (acc0 : DlCompletionGraph), PurgeFrame g acc0 →
          (∀ b, isPBlocked acc0 b = false →
            isPBlocked (l.foldl
              (fun acc q1 =>
                if !(acc.NodeBase (acc.CTEdgeHeap q1).ArcEnd).nominal then
                  Purge fuel acc (acc.CTEdgeHeap q1).ArcEnd root dep
                else invalidateEdge acc q1) acc0) b = true →
            ∀ q2 ∈ (g.NodeBase b).Son, (g.NodeBase (g.CTEdgeHeap q2).ArcEnd).nominal = true →
              ((l.foldl
                (fun acc q1 =>
                  if !(acc.NodeBase (acc.CTEdgeHeap q1).ArcEnd).nominal then
                    Purge fuel acc (acc.CTEdgeHeap q1).ArcEnd root dep
                  else invalidateEdge acc q1) acc0).CTEdgeHeap q2).iBlocked = true) ∧
          ∀ q2 ∈ l, (g.NodeBase (g.CTEdgeHeap q2).ArcEnd).nominal = true →
            ((l.foldl
              (fun acc q1 =>
                if !(acc.NodeBase (acc.CTEdgeHeap q1).ArcEnd).nominal then
                  Purge fuel acc (acc.CTEdgeHeap q1).ArcEnd root dep
                else invalidateEdge acc q1) acc0).CTEdgeHeap q2).iBlocked = true := by
        intro l
        induction l with
        | nil =>
          intro acc0 _
          refine ⟨fun b hb1 hb2 => ?_, fun q2 hq2 => ?_⟩
          · rw [List.foldl_nil, hb1] at hb2
            exact Bool.noConfusion hb2
          · simp at hq2
        | cons q0 l ihl =>
          intro acc0 hfr
          obtain ⟨acc1, hacc1⟩ : ∃ acc1 : DlCompletionGraph, acc1 =
              (if !(acc0.NodeBase (acc0.CTEdgeHeap q0).ArcEnd).nominal then
                Purge fuel acc0 (acc0.CTEdgeHeap q0).ArcEnd root dep
              else invalidateEdge acc0 q0) := ⟨_, rfl⟩
          have hstep : PurgeFrame acc0 acc1 := by
            rw [hacc1]
            split
            · exact Purge_frame root dep fuel acc0 _
            · exact invalidateEdge_frame acc0 q0
          have hfr1 : PurgeFrame g acc1 := hfr.frame_trans hstep
          obtain ⟨l1, l2⟩ := ihl acc1 hfr1
          have hrest := purgeLoop_frame fuel root dep l acc1
          rw [List.foldl_cons, ← hacc1]
          refine ⟨fun b hb1 hb2 q2 hq2 hn2 => ?_, fun q2 hq2 hn2 => ?_⟩
          · by_cases hb : isPBlocked acc1 b = true
            · -- blocked by this step: the step is a `Purge`
              have hn2a : (acc0.NodeBase (acc0.CTEdgeHeap q2).ArcEnd).nominal = true := by
                rw [hfr.arcEnd q2, hfr.nominal]; exact hn2
              have hq2a : q2 ∈ (acc0.NodeBase b).Son := by rw [hfr.son b]; exact hq2
              have h3 : (acc1.CTEdgeHeap q2).iBlocked = true := by
                by_cases hn : (acc0.NodeBase (acc0.CTEdgeHeap q0).ArcEnd).nominal = true
                · exfalso
                  have : acc1 = invalidateEdge acc0 q0 := by
                    rw [hacc1]
                    simp only [hn, Bool.not_true, Bool.false_eq_true, if_false]
                  rw [this] at hb
                  have hsame : isPBlocked (invalidateEdge acc0 q0) b = isPBlocked acc0 b := rfl
                  rw [hsame, hb1] at hb
                  exact Bool.noConfusion hb
                · have hn0 : (acc0.NodeBase (acc0.CTEdgeHeap q0).ArcEnd).nominal = false := by
                    simpa using hn
                  have : acc1 = Purge fuel acc0 (acc0.CTEdgeHeap q0).ArcEnd root dep := by
                    rw [hacc1]
                    simp only [hn0, Bool.not_false, if_true]
                  rw [this] at hb ⊢
                  exact ih acc0 _ b hb1 hb q2 hq2a hn2a
              exact hrest.iBlocked q2 h3
            · have hb0 : isPBlocked acc1 b = false := by simpa using hb
              exact l1 b hb0 hb2 q2 hq2 hn2
          · rcases List.mem_cons.mp hq2 with e | e
            · subst e
              have hn : (acc0.NodeBase (acc0.CTEdgeHeap q2).ArcEnd).nominal = true := by
                rw [hfr.arcEnd q2, hfr.nominal]; exact hn2
              have : acc1 = invalidateEdge acc0 q2 := by
                rw [hacc1]
                simp only [hn, Bool.not_true, Bool.false_eq_true, if_false]
              apply hrest.iBlocked q2
              rw [this]
              exact invalidateEdge_self acc0 q2
            · exact l2 q2 e hn2
      obtain ⟨L1, L2⟩ := loop (g.NodeBase p).Son (setPBlocked g p root dep) hf0
      by_cases hap : a = p
      · subst hap
        exact L2 q hq hnom
      · have ha0 : isPBlocked (setPBlocked g p root dep) a = false := by
          unfold isPBlocked
          rw [setPBlocked_node_ne g p root dep a hap]
          exact h1
        exact L1 a ha0 h2 q hq hnom

/-- C21 (amended): `Purge(p, root, dep)` on a node `p` in use that is not p-blocked
never p-blocks a nominal successor: every nominal node other than `p` itself is
left as it is (so its blocking status is unchanged), and for every node that
`Purge` p-blocks, each successor arc that leads to a nominal node is
invalidated, while each successor arc `q` that leads to a blockable node has
that node p-blocked (purged) instead and is itself left as it is, provided it
is not the reverse of a successor arc to a nominal node.  The node `p` that
`Purge` is called on is p-blocked also when it is nominal. -/
theorem Purge_nominal_successors (g : DlCompletionGraph) (p root : NodeId) (dep : DepSet)
    (hp : isPBlocked g p = false) (hpN : p < g.endUsed) (hwf : SonsInUse g) :
    ((Purge (g.endUsed + 1) g p root dep).NodeBase p).pBlocked = some (root, dep) ∧
      (∀ n, (g.NodeBase n).nominal = true → n ≠ p →
        (Purge (g.endUsed + 1) g p root dep).NodeBase n = g.NodeBase n) ∧
      ∀ a, isPBlocked g a = false → isPBlocked (Purge (g.endUsed + 1) g p root dep) a = true →
        ∀ q ∈ (g.NodeBase a).Son,
          ((g.NodeBase (g.CTEdgeHeap q).ArcEnd).nominal = true →
            ((Purge (g.endUsed + 1) g p root dep).CTEdgeHeap q).iBlocked = true) ∧
          ((g.NodeBase (g.CTEdgeHeap q).ArcEnd).nominal = false →
            isPBlocked (Purge (g.endUsed + 1) g p root dep) (g.CTEdgeHeap q).ArcEnd = true ∧
            (NoNominalLink g q →
              (Purge (g.endUsed + 1) g p root dep).CTEdgeHeap q = g.CTEdgeHeap q)) := by
  obtain ⟨_, c2⟩ := Purge_closure root dep g.endUsed (g.endUsed + 1) g p hwf hpN
    (lt_of_le_of_lt (unblockedNodes_card_le _ g) (Nat.lt_succ_self _))
  refine ⟨Purge_self_blocked _ g p root dep hp,
    fun n hn hnp => Purge_nominal_node root dep n _ g p hn hnp, fun a ha1 ha2 q hq => ⟨?_, ?_⟩⟩
  · intro hnom
    exact Purge_invalidates root dep _ g p a ha1 ha2 q hq hnom
  · intro hnom
    exact ⟨c2 a ha2 ha1 q hq hnom, fun hlink => Purge_keeps_arc root dep q _ g p hlink⟩

theorem Purge_nominal_successors_witness :
    (isPBlocked nominalCycleGraph 1 = false ∧ 1 < nominalCycleGraph.endUsed ∧
        SonsInUse nominalCycleGraph) ∧
      ((Purge (nominalCycleGraph.endUsed + 1) nominalCycleGraph 1 5 ∅).NodeBase 1).pBlocked =
        some (5, ∅) ∧
      (∀ n, (nominalCycleGraph.NodeBase n).nominal = true → n ≠ 1 →
        (Purge (nominalCycleGraph.endUsed + 1) nominalCycleGraph 1 5 ∅).NodeBase n =
          nominalCycleGraph.NodeBase n) ∧
      ∀ a, isPBlocked nominalCycleGraph a = false →
        isPBlocked (Purge (nominalCycleGraph.endUsed + 1) nominalCycleGraph 1 5 ∅) a = true →
        ∀ q ∈ (nominalCycleGraph.NodeBase a).Son,
          ((nominalCycleGraph.NodeBase (nominalCycleGraph.CTEdgeHeap q).ArcEnd).nominal = true →
            ((Purge (nominalCycleGraph.endUsed + 1) nominalCycleGraph 1 5 ∅).CTEdgeHeap
              q).iBlocked = true) ∧
          ((nominalCycleGraph.NodeBase (nominalCycleGraph.CTEdgeHeap q).ArcEnd).nominal = false →
            isPBlocked (Purge (nominalCycleGraph.endUsed + 1) nominalCycleGraph 1 5 ∅)
              (nominalCycleGraph.CTEdgeHeap q).ArcEnd = true ∧
            (NoNominalLink nominalCycleGraph q →
              (Purge (nominalCycleGraph.endUsed + 1) nominalCycleGraph 1 5 ∅).CTEdgeHeap q =
                nominalCycleGraph.CTEdgeHeap q)) :=
  ⟨⟨rfl, by decide, by unfold SonsInUse; decide⟩,
    Purge_nominal_successors nominalCycleGraph 1 5 ∅ rfl (by decide)
      (by unfold SonsInUse; decide)⟩

/-- C21, the claim as stated fails: in `nominalCycleGraph` the nominal node `0`
and the blockable node `1` are successors of each other.  `Purge(0, 5, ∅)`
p-blocks node `1`, whose successor arc `2` leads to the nominal node `0`: the
arc is invalidated, but the blocking status of node `0` is not unchanged, since
node `0` is the node `Purge` was called on and is p-blocked by it. -/
theorem Purge_nominal_counterexample :
    (nominalCycleGraph.NodeBase 0).nominal = true ∧
      isPBlocked nominalCycleGraph 1 = false ∧
      isPBlocked (Purge (nominalCycleGraph.endUsed + 1) nominalCycleGraph 0 5 ∅) 1 = true ∧
      2 ∈ (nominalCycleGraph.NodeBase 1).Son ∧ (nominalCycleGraph.CTEdgeHeap 2).ArcEnd = 0 ∧
      ((Purge (nominalCycleGraph.endUsed + 1) nominalCycleGraph 0 5 ∅).CTEdgeHeap 2).iBlocked =
        true ∧
      isPBlocked nominalCycleGraph 0 = false ∧
      isPBlocked (Purge (nominalCycleGraph.endUsed + 1) nominalCycleGraph 0 5 ∅) 0 = true := by
  refine ⟨rfl, rfl, rfl, by decide, rfl, rfl, rfl, rfl⟩

/-! ### Classification over an acyclic told-subsumer graph -/

theorem contains_false_of_not_mem (l : List EntryId) (r : EntryId) (h : r ∉ l) :
    l.contains r = false := by
  simpa using h

/-- The scan of `checkToldSubsumers` over told subsumers that are all done and
not on the stack ends with `true` and leaves the state as it is. -/
theorem checkToldLoop_done (ops : TaxonomyOps) (recur : Taxonomy → Option (Taxonomy × Bool))
    (t : Taxonomy) :
    ∀ l : List EntryId, (∀ x ∈ l, toldDone ops t x = true) → (∀ x ∈ l, x ∉ t.waitStack) →
      checkToldLoop ops recur l t = some (t, true) := by
  intro l
  induction l with
  | nil => intro _ _; rfl
  | cons r rest ih =>
    intro hdone hstack
    have hrest := ih (fun x hx => hdone x (List.mem_cons_of_mem _ hx))
      (fun x hx => hstack x (List.mem_cons_of_mem _ hx))
    have hr := hdone r (List.mem_cons_self _ _)
    have hns := contains_false_of_not_mem _ _ (hstack r (List.mem_cons_self _ _))
    rw [checkToldLoop]
    by_cases hc : isClassified t r = true
    · rw [if_pos hc]; exact hrest
    · have hc0 : isClassified t r = false := by simpa using hc
      have hneed : ops.needToldClassification r t = false := by
        unfold toldDone at hr
        rw [hc0] at hr
        simpa using hr
      rw [if_neg hc, hns, if_neg Bool.false_ne_true, hneed]
      simpa using hrest

/-- The scan reaches the first told subsumer that is not done, pushes it and
goes on with the recursive call. -/
theorem checkToldLoop_push (ops : TaxonomyOps) (recur : Taxonomy → Option (Taxonomy × Bool))
    (t : Taxonomy) (r : EntryId) (post : List EntryId) (hr : toldDone ops t r = false)
    (hrs : r ∉ t.waitStack) :
    ∀ pre : List EntryId, (∀ x ∈ pre, toldDone ops t x = true) → (∀ x ∈ pre, x ∉ t.waitStack) →
      checkToldLoop ops recur (pre ++ r :: post) t = recur (pushWait t r) := by
  have hr2 : isClassified t r = false ∧ ops.needToldClassification r t = true := by
    unfold toldDone at hr
    simpa using hr
  intro pre
  induction pre with
  | nil =>
    intro _ _
    show checkToldLoop ops recur (r :: post) t = _
    rw [checkToldLoop, hr2.1, if_neg Bool.false_ne_true, contains_false_of_not_mem _ _ hrs,
      if_neg Bool.false_ne_true, hr2.2]
    simp
  | cons x xs ih =>
    intro hdone hstack
    have hrest := ih (fun y hy => hdone y (List.mem_cons_of_mem _ hy))
      (fun y hy => hstack y (List.mem_cons_of_mem _ hy))
    have hx := hdone x (List.mem_cons_self _ _)
    have hns := contains_false_of_not_mem _ _ (hstack x (List.mem_cons_self _ _))
    show checkToldLoop ops recur (x :: (xs ++ r :: post)) t = _
    rw [checkToldLoop]
    by_cases hc : isClassified t x = true
    · rw [if_pos hc]; exact hrest
    · have hc0 : isClassified t x = false := by simpa using hc
      have hneed : ops.needToldClassification x t = false := by
        unfold toldDone at hx
        rw [hc0] at hx
        simpa using hx
      rw [if_neg hc, hns, if_neg Bool.false_ne_true, hneed]
      simpa using hrest

/-- A list is all done, or splits at its first element that is not done. -/
theorem toldDone_split (ops : TaxonomyOps) (t : Taxonomy) :
    ∀ l : List EntryId, (∀ x ∈ l, toldDone ops t x = true) ∨
      ∃ pre r post, l = pre ++ r :: post ∧ (∀ x ∈ pre, toldDone ops t x = true) ∧
        toldDone ops t r = false := by
  intro l
  induction l with
  | nil => left; simp
  | cons a l ih =>
    by_cases ha : toldDone ops t a = true
    · rcases ih with h | ⟨pre, r, post, h1, h2, h3⟩
      · left
        intro x hx
        rcases List.mem_cons.mp hx with e | e
        · rw [e]; exact ha
        · exact h x e
      · right
        refine ⟨a :: pre, r, post, by rw [h1]; rfl, ?_, h3⟩
        intro x hx
        rcases List.mem_cons.mp hx with e | e
        · rw [e]; exact ha
        · exact h2 x e
    · right
      exact ⟨[], a, l, rfl, by simp, by simpa using ha⟩

/-- In a well-founded told-subsumer graph a told subsumer of the top of a stack
that is a chain of told subsumers is not on the stack. -/
theorem told_not_on_stack {R : EntryId → EntryId → Prop} (hwf : WellFounded R) :
    ∀ (st : List EntryId) (c : EntryId), List.Chain' R (c :: st) →
      ∀ r, R r c → r ∉ c :: st := by
  have reach : ∀ (st : List EntryId) (c : EntryId), List.Chain' R (c :: st) →
      ∀ y ∈ c :: st, Relation.ReflTransGen R c y := by
    intro st
    induction st with
    | nil =>
      intro c _ y hy
      have : y = c := by simpa using hy
      rw [this]
    | cons b st ih =>
      intro c hch y hy
      rw [List.chain'_cons] at hch
      rcases List.mem_cons.mp hy with e | e
      · rw [e]
      · exact Relation.ReflTransGen.head hch.1 (ih b hch.2 y e)
  intro st c hch r hr hmem
  have h1 : Relation.TransGen R r r := Relation.TransGen.head' hr (reach st c hch r hmem)
  exact hwf.transGen.asymmetric _ _ h1 h1

/-- One level of `checkToldSubsumers`: the scan of the told subsumers of the
top of the stack. -/
theorem checkToldSubsumers_succ (ops : TaxonomyOps) (f : Nat) (t : Taxonomy) (c : EntryId)
    (st : List EntryId) (hst : t.waitStack = c :: st) :
    checkToldSubsumers ops (f + 1) t
      = checkToldLoop ops (checkToldSubsumers ops f) (t.entries c).told t := by
  rw [checkToldSubsumers, hst]

/-- With enough fuel `checkToldSubsumers` ends with `true` on a stack that is a
chain of told subsumers of a well-founded told-subsumer graph. -/
theorem checkToldSubsumers_acyclic (ops : TaxonomyOps) (t0 : Taxonomy) (hwf : ToldAcyclic t0) :
    ∀ (c : EntryId) (t : Taxonomy) (st : List EntryId),
      (∀ e, (t.entries e).told = (t0.entries e).told) → t.waitStack = c :: st →
      List.Chain' (ToldSubsumer t0) (c :: st) →
      ∃ tE f0, ∀ f, f0 ≤ f → checkToldSubsumers ops f t = some (tE, true) := by
  intro c
  induction c using hwf.induction with
  | _ c ih =>
    intro t st htold hst hch
    have hnot : ∀ x ∈ (t.entries c).told, x ∉ t.waitStack := by
      intro x hx
      rw [hst]
      exact told_not_on_stack hwf st c hch x (by unfold ToldSubsumer; rw [← htold c]; exact hx)
    rcases toldDone_split ops t (t.entries c).told with hall | ⟨pre, r, post, hsplit, hpre, hr⟩
    · refine ⟨t, 1, ?_⟩
      intro f hf
      obtain ⟨f1, rfl⟩ : ∃ f1, f = f1 + 1 := ⟨f - 1, by omega⟩
      rw [checkToldSubsumers_succ ops f1 t c st hst]
      exact checkToldLoop_done ops _ t _ hall hnot
    · have hrm : r ∈ (t.entries c).told := by rw [hsplit]; simp
      have hrel : ToldSubsumer t0 r c := by unfold ToldSubsumer; rw [← htold c]; exact hrm
      obtain ⟨tE, f0, hE⟩ := ih r hrel (pushWait t r) (c :: st) htold
        (by show r :: t.waitStack = _; rw [hst]) (List.chain'_cons.mpr ⟨hrel, hch⟩)
      refine ⟨tE, f0 + 1, ?_⟩
      intro f hf
      obtain ⟨f1, rfl⟩ : ∃ f1, f = f1 + 1 := ⟨f - 1, by omega⟩
      rw [checkToldSubsumers_succ ops f1 t c st hst, hsplit]
      rw [checkToldLoop_push ops _ t r post hr (hnot r hrm) pre hpre
        (fun x hx => hnot x (by rw [hsplit]; exact List.mem_append_left _ hx))]
      exact hE f1 (by omega)

/-- One round of the loop of `classifyEntry` when `checkToldSubsumers` says
`true`: the top is classified and popped. -/
theorem classifyEntryLoop_step (ops : TaxonomyOps) (fuelTold n : Nat) (t t1 : Taxonomy)
    (c d : EntryId) (st st1 : List EntryId) (hst : t.waitStack = c :: st)
    (hcheck : checkToldSubsumers ops fuelTold t = some (t1, true))
    (hst1 : t1.waitStack = d :: st1) :
    classifyEntryLoop ops fuelTold (n + 1) t
      = classifyEntryLoop ops fuelTold n (popWait (ops.doClassification d t1)) := by
  rw [classifyEntryLoop, hst]
  simp only [List.isEmpty_cons, Bool.false_eq_true, if_false, hcheck, classifyTop, hst1]

/-- A round of the loop of `classifyEntry` depends on the state only through
`checkToldSubsumers`. -/
theorem classifyEntryLoop_congr (ops : TaxonomyOps) (fuelTold n : Nat) (t s : Taxonomy)
    (c d : EntryId) (st st1 : List EntryId) (hst : t.waitStack = c :: st)
    (hss : s.waitStack = d :: st1)
    (hcheck : checkToldSubsumers ops fuelTold t = checkToldSubsumers ops fuelTold s) :
    classifyEntryLoop ops fuelTold (n + 1) t = classifyEntryLoop ops fuelTold (n + 1) s := by
  rw [classifyEntryLoop, classifyEntryLoop, hst, hss, hcheck]
  simp only [List.isEmpty_cons, Bool.false_eq_true, if_false]

/-- The loop of `classifyEntry` returns at once on an empty stack. -/
theorem classifyEntryLoop_empty (ops : TaxonomyOps) (fuelTold n : Nat) (t : Taxonomy)
    (hst : t.waitStack = []) : classifyEntryLoop ops fuelTold n t = .returned t := by
  cases n with
  | zero => rw [classifyEntryLoop, hst]; rfl
  | succ n => rw [classifyEntryLoop, hst]; rfl

/-- Filtering with a smaller predicate that drops an element gives a shorter list. -/
theorem filter_length_lt {α : Type} (p q : α → Bool) (r : α) :
    ∀ l : List α, (∀ x, q x = true → p x = true) → r ∈ l → p r = true → q r = false →
      (l.filter q).length < (l.filter p).length := by
  intro l hsub
  have hle : ∀ l : List α, (l.filter q).length ≤ (l.filter p).length := by
    intro l
    induction l with
    | nil => simp
    | cons a l ih =>
      by_cases hq : q a = true
      · rw [List.filter_cons_of_pos hq, List.filter_cons_of_pos (hsub a hq)]
        simpa using ih
      · rw [List.filter_cons_of_neg hq]
        by_cases hp : p a = true
        · rw [List.filter_cons_of_pos hp]
          simp only [List.length_cons]
          omega
        · rw [List.filter_cons_of_neg hp]
          exact ih
  induction l with
  | nil => intro h; simp at h
  | cons a l ih =>
    intro hmem hp hq
    rcases List.mem_cons.mp hmem with e | e
    · subst e
      rw [List.filter_cons_of_pos hp, List.filter_cons_of_neg (by simp [hq])]
      have := hle l
      simp only [List.length_cons]
      omega
    · have h1 := ih e hp hq
      by_cases hqa : q a = true
      · rw [List.filter_cons_of_pos hqa, List.filter_cons_of_pos (hsub a hqa)]
        simpa using h1
      · rw [List.filter_cons_of_neg hqa]
        by_cases hpa : p a = true
        · rw [List.filter_cons_of_pos hpa]
          simp only [List.length_cons]
          omega
        · rw [List.filter_cons_of_neg hpa]
          exact h1

/-- In a well-founded told-subsumer graph the loop of `classifyEntry` works off
the top `c` of a stack that is a chain of told subsumers: with enough fuel it
reaches a state in which `c` is classified and popped, the rest of the stack
is as before, and no entry has lost its classification. -/
theorem classifyEntryLoop_acyclic (ops : TaxonomyOps) (hops : ClassifiesEntries ops)
    (t0 : Taxonomy) (hwf : ToldAcyclic t0) :
    ∀ (c : EntryId) (m : Nat) (t : Taxonomy) (st : List EntryId),
      (∀ e, (t.entries e).told = (t0.entries e).told) → t.waitStack = c :: st →
      List.Chain' (ToldSubsumer t0) (c :: st) →
      ((t.entries c).told.filter (fun r => !isClassified t r)).length ≤ m →
      ∃ t1 F0 N0, t1.waitStack = st ∧ isClassified t1 c = true ∧
        (∀ e, (t1.entries e).told = (t0.entries e).told) ∧
        (∀ e, isClassified t e = true → isClassified t1 e = true) ∧ 1 ≤ N0 ∧
        ∀ fuelTold, F0 ≤ fuelTold → ∀ k,
          classifyEntryLoop ops fuelTold (N0 + k) t = classifyEntryLoop ops fuelTold k t1 := by
  intro c
  induction c using hwf.induction with
  | _ c ihc =>
    -- the case in which all told subsumers of the top are done
    have hdone : ∀ (t : Taxonomy) (st : List EntryId),
        (∀ e, (t.entries e).told = (t0.entries e).told) → t.waitStack = c :: st →
        List.Chain' (ToldSubsumer t0) (c :: st) →
        (∀ x ∈ (t.entries c).told, toldDone ops t x = true) →
        ∃ t1 F0 N0, t1.waitStack = st ∧ isClassified t1 c = true ∧
          (∀ e, (t1.entries e).told = (t0.entries e).told) ∧
          (∀ e, isClassified t e = true → isClassified t1 e = true) ∧ 1 ≤ N0 ∧
          ∀ fuelTold, F0 ≤ fuelTold → ∀ k,
            classifyEntryLoop ops fuelTold (N0 + k) t = classifyEntryLoop ops fuelTold k t1 := by
      intro t st htold hst hch hall
      have hnot : ∀ x ∈ (t.entries c).told, x ∉ t.waitStack := by
        intro x hx
        rw [hst]
        exact told_not_on_stack hwf st c hch x (by unfold ToldSubsumer; rw [← htold c]; exact hx)
      refine ⟨popWait (ops.doClassification c t), 1, 1, ?_, ?_, ?_, ?_, le_refl _, ?_⟩
      · show (ops.doClassification c t).waitStack.tail = st
        rw [hops.stack, hst]; rfl
      · exact hops.classifies c t
      · intro e
        show ((ops.doClassification c t).entries e).told = _
        rw [hops.told]; exact htold e
      · intro e he
        exact hops.keeps c t e he
      · intro fuelTold hf k
        obtain ⟨f1, rfl⟩ : ∃ f1, fuelTold = f1 + 1 := ⟨fuelTold - 1, by omega⟩
        rw [Nat.add_comm 1 k]
        refine classifyEntryLoop_step ops (f1 + 1) k t t c c st st hst ?_ hst
        rw [checkToldSubsumers_succ ops f1 t c st hst]
        exact checkToldLoop_done ops _ t _ hall hnot
    intro m
    induction m with
    | zero =>
      intro t st htold hst hch hlen
      refine hdone t st htold hst hch ?_
      intro x hx
      by_cases hc : isClassified t x = true
      · unfold toldDone; rw [hc]; rfl
      · exfalso
        have hmem : x ∈ (t.entries c).told.filter (fun r => !isClassified t r) := by
          rw [List.mem_filter]
          exact ⟨hx, by simpa using hc⟩
        have hpos := List.length_pos_of_mem hmem
        omega
    | succ m ihm =>
      intro t st htold hst hch hlen
      have hnot : ∀ x ∈ (t.entries c).told, x ∉ t.waitStack := by
        intro x hx
        rw [hst]
        exact told_not_on_stack hwf st c hch x (by unfold ToldSubsumer; rw [← htold c]; exact hx)
      rcases toldDone_split ops t (t.entries c).told with hall | ⟨pre, r, post, hsplit, hpre, hr⟩
      · exact hdone t st htold hst hch hall
      · have hrm : r ∈ (t.entries c).told := by rw [hsplit]; simp
        have hrc : isClassified t r = false := by
          unfold toldDone at hr
          have : isClassified t r = false ∧ ops.needToldClassification r t = true := by
            simpa using hr
          exact this.1
        have hrel : ToldSubsumer t0 r c := by unfold ToldSubsumer; rw [← htold c]; exact hrm
        have hst2 : (pushWait t r).waitStack = r :: c :: st := by
          show r :: t.waitStack = _; rw [hst]
        have hch2 : List.Chain' (ToldSubsumer t0) (r :: c :: st) :=
          List.chain'_cons.mpr ⟨hrel, hch⟩
        obtain ⟨tE, f0, hE⟩ := checkToldSubsumers_acyclic ops t0 hwf r (pushWait t r) (c :: st)
          htold hst2 hch2
        obtain ⟨t2, F1, N1, hs2, hc2, htold2, hmono2, hN1, hrun2⟩ :=
          ihc r hrel _ (pushWait t r) (c :: st) htold hst2 hch2 (le_refl _)
        have hlen2 : ((t2.entries c).told.filter (fun x => !isClassified t2 x)).length ≤ m := by
          have hlt := filter_length_lt (fun x => !isClassified t x) (fun x => !isClassified t2 x) r
            (t.entries c).told
            (by
              intro x hx
              have hx2 : (!isClassified t2 x) = true := hx
              show (!isClassified t x) = true
              by_cases hcx : isClassified t x = true
              · have := hmono2 x hcx
                rw [this] at hx2
                exact absurd hx2 (by decide)
              · simpa using hcx)
            hrm (by show (!isClassified t r) = true; rw [hrc]; rfl)
            (by show (!isClassified t2 r) = false; rw [hc2]; rfl)
          rw [htold2 c, ← htold c]
          omega
        obtain ⟨t3, F2, N2, hs3, hc3, htold3, hmono3, hN2, hrun3⟩ :=
          ihm t2 st htold2 hs2 hch hlen2
        refine ⟨t3, max (f0 + 1) (max F1 F2), N1 + N2, hs3, hc3, htold3,
          fun e he => hmono3 e (hmono2 e he), by omega, ?_⟩
        intro fuelTold hf k
        have hf0 : f0 + 1 ≤ fuelTold := le_trans (le_max_left _ _) hf
        have hf1 : F1 ≤ fuelTold := le_trans (le_trans (le_max_left _ _) (le_max_right _ _)) hf
        have hf2 : F2 ≤ fuelTold := le_trans (le_trans (le_max_right _ _) (le_max_right _ _)) hf
        obtain ⟨g, rfl⟩ : ∃ g, fuelTold = g + 1 := ⟨fuelTold - 1, by omega⟩
        obtain ⟨n1, rfl⟩ : ∃ n1, N1 = n1 + 1 := ⟨N1 - 1, by omega⟩
        have hcheck : checkToldSubsumers ops (g + 1) t
            = checkToldSubsumers ops (g + 1) (pushWait t r) := by
          rw [hE (g + 1) (by omega), checkToldSubsumers_succ ops g t c st hst, hsplit,
            checkToldLoop_push ops _ t r post hr (hnot r hrm) pre hpre
              (fun x hx => hnot x (by rw [hsplit]; exact List.mem_append_left _ hx))]
          exact hE g (by omega)
        have e1 : n1 + 1 + N2 + k = (n1 + N2 + k) + 1 := by omega
        have e2 : (n1 + N2 + k) + 1 = (n1 + 1) + (N2 + k) := by omega
        rw [e1, classifyEntryLoop_congr ops (g + 1) (n1 + N2 + k) t (pushWait t r) c r st (c :: st)
          hst hst2 hcheck, e2, hrun2 (g + 1) hf1 (N2 + k)]
        exact hrun3 (g + 1) hf2 k

/-- When the scan of `checkToldSubsumers` says `true`, either it left the state
alone and all scanned told subsumers are done, or the recursive call said
`true`. -/
theorem checkToldLoop_true (ops : TaxonomyOps) (recur : Taxonomy → Option (Taxonomy × Bool))
    (t t1 : Taxonomy) :
    ∀ l : List EntryId, checkToldLoop ops recur l t = some (t1, true) →
      (t1 = t ∧ ∀ x ∈ l, toldDone ops t x = true) ∨ ∃ s, recur s = some (t1, true) := by
  intro l
  induction l with
  | nil =>
    intro h
    left
    have : t = t1 := by
      have h2 : some (t, true) = some (t1, true) := h
      injection h2 with h3
      injection h3
    exact ⟨this.symm, by simp⟩
  | cons r rest ih =>
    intro h
    rw [checkToldLoop] at h
    by_cases hc : isClassified t r = true
    · rw [if_pos hc] at h
      rcases ih h with ⟨e, hall⟩ | hrec
      · left
        refine ⟨e, ?_⟩
        intro x hx
        rcases List.mem_cons.mp hx with e | e
        · rw [e]; unfold toldDone; rw [hc]; rfl
        · exact hall x e
      · exact Or.inr hrec
    · rw [if_neg hc] at h
      by_cases hs : t.waitStack.contains r = true
      · rw [if_pos hs] at h
        injection h with h2
        injection h2 with _ h3
        exact absurd h3 (by decide)
      · rw [if_neg hs] at h
        by_cases hn : ops.needToldClassification r t = true
        · rw [hn] at h
          exact Or.inr ⟨pushWait t r, by simpa using h⟩
        · have hn0 : ops.needToldClassification r t = false := by simpa using hn
          rw [hn0] at h
          rcases ih (by simpa using h) with ⟨e, hall⟩ | hrec
          · left
            refine ⟨e, ?_⟩
            intro x hx
            rcases List.mem_cons.mp hx with e | e
            · rw [e]; unfold toldDone; rw [hn0]; simp
            · exact hall x e
          · exact Or.inr hrec

/-- When `checkToldSubsumers` says `true`, all told subsumers of the top of the
stack that need told classification are classified. -/
theorem checkToldSubsumers_true_done (ops : TaxonomyOps) :
    ∀ (f : Nat) (t t1 : Taxonomy), checkToldSubsumers ops f t = some (t1, true) →
      ∃ d st, t1.waitStack = d :: st ∧ toldSubsumersDone ops t1 d = true := by
  intro f
  induction f with
  | zero => intro t t1 h; rw [checkToldSubsumers] at h; exact absurd h (by simp)
  | succ f ih =>
    intro t t1 h
    cases hst : t.waitStack with
    | nil => rw [checkToldSubsumers, hst] at h; exact absurd h (by simp)
    | cons c st =>
      rw [checkToldSubsumers_succ ops f t c st hst] at h
      rcases checkToldLoop_true ops _ t t1 _ h with ⟨e, hall⟩ | ⟨s, hs⟩
      · refine ⟨c, st, by rw [e]; exact hst, ?_⟩
        rw [e]
        unfold toldSubsumersDone
        rw [List.all_eq_true]
        exact hall
      · exact ih s t1 hs

/-- The monitor never fires: the monitored loop is the loop of `classifyEntry`. -/
theorem classifyEntryLoopMonitored_eq (ops : TaxonomyOps) (fuelTold : Nat) :
    ∀ (fuel : Nat) (t : Taxonomy),
      classifyEntryLoopMonitored ops fuelTold fuel t = classifyEntryLoop ops fuelTold fuel t := by
  intro fuel
  induction fuel with
  | zero => intro t; rw [classifyEntryLoopMonitored, classifyEntryLoop]
  | succ fuel ih =>
    intro t
    rw [classifyEntryLoopMonitored, classifyEntryLoop]
    by_cases he : t.waitStack.isEmpty = true
    · rw [if_pos he, if_pos he]
    · rw [if_neg he, if_neg he]
      cases hchk : checkToldSubsumers ops fuelTold t with
      | none => rfl
      | some pr =>
        obtain ⟨t1, b⟩ := pr
        cases b with
        | false => rfl
        | true =>
          obtain ⟨d, st, hst, hd⟩ := checkToldSubsumers_true_done ops fuelTold t t1 hchk
          simp only [hst, hd, if_true, classifyTop]
          exact ih _

/-- The contract of `doClassification` holds for the stand-in `simpleOps`. -/
theorem simpleOps_classifies : ClassifiesEntries simpleOps where
  stack := fun _ _ => rfl
  told := by
    intro p t e
    show ((setAt t.entries p { t.entries p with taxVertex := some p }) e).told = _
    by_cases h : e = p
    · rw [h, setAt_same]
    · rw [setAt_other _ _ _ _ h]
  classifies := by
    intro p t
    show ((setAt t.entries p { t.entries p with taxVertex := some p }) p).taxVertex.isSome = true
    rw [setAt_same]; rfl
  keeps := by
    intro p t e he
    show ((setAt t.entries p { t.entries p with taxVertex := some p }) e).taxVertex.isSome = true
    by_cases h : e = p
    · rw [h, setAt_same]; rfl
    · rw [setAt_other _ _ _ _ h]; exact he

/-- The told-subsumer graph of `diamondTaxonomy` is acyclic: told subsumers have
smaller numbers. -/
theorem diamondTaxonomy_acyclic : ToldAcyclic diamondTaxonomy := by
  have hlt : ∀ a b : Nat, b ∈ (diamondTaxonomy.entries a).told → b < a := by
    intro a b h
    unfold diamondTaxonomy at h
    simp only at h
    split at h
    · have hb : b = 0 := by simpa using h
      omega
    · have hb : b = 0 := by simpa using h
      omega
    · have hb : b = 1 ∨ b = 2 := by simpa using h
      omega
    · simp at h
  exact Subrelation.wf (fun {b a} h => hlt a b h) (Nat.lt_wfRel.wf)

/-- C23. On a finite, acyclic told-subsumer graph (no infinite chain of told
subsumers), with a `doClassification` that classifies its entry and leaves
stack, told subsumers and other classifications alone, `classifyEntry(p)`
started with an empty wait stack returns, for all large enough fuel, one
state with an empty wait stack in which `p` is classified; and the run is
the monitored run, in which entries are only classified when all their told
subsumers that need told classification are classified. -/
theorem classifyEntry_acyclic (ops : TaxonomyOps) (hops : ClassifiesEntries ops) (t : Taxonomy)
    (p : EntryId) (hstack : t.waitStack = []) (hwf : ToldAcyclic t) :
    ∃ t1 F0 N0, t1.waitStack = [] ∧ isClassified t1 p = true ∧
      ∀ fuelTold fuel, F0 ≤ fuelTold → N0 ≤ fuel →
        classifyEntry ops fuelTold fuel t p = .returned t1 ∧
        classifyEntryMonitored ops fuelTold fuel t p = .returned t1 := by
  obtain ⟨t1, F0, N0, hs1, hc1, _, _, _, hrun⟩ :=
    classifyEntryLoop_acyclic ops hops t hwf p _ (pushWait t p) [] (fun _ => rfl)
      (by show p :: t.waitStack = _; rw [hstack]) (List.chain'_singleton p) (le_refl _)
  refine ⟨t1, F0, N0, hs1, hc1, ?_⟩
  intro fuelTold fuel hf hn
  obtain ⟨k, rfl⟩ : ∃ k, fuel = N0 + k := ⟨fuel - N0, by omega⟩
  have hloop : classifyEntryLoop ops fuelTold (N0 + k) (pushWait t p) = .returned t1 := by
    rw [hrun fuelTold hf k]
    exact classifyEntryLoop_empty ops fuelTold k t1 hs1
  constructor
  · unfold classifyEntry
    rw [hstack]
    exact hloop
  · unfold classifyEntryMonitored
    rw [hstack, ← hloop]
    exact classifyEntryLoopMonitored_eq ops fuelTold _ _

/-- C23 at the diamond of four entries, classified from its bottom entry `3`. -/
theorem classifyEntry_acyclic_witness :
    ClassifiesEntries simpleOps ∧ diamondTaxonomy.waitStack = [] ∧ ToldAcyclic diamondTaxonomy ∧
    ∃ t1 F0 N0, t1.waitStack = [] ∧ isClassified t1 3 = true ∧
      ∀ fuelTold fuel, F0 ≤ fuelTold → N0 ≤ fuel →
        classifyEntry simpleOps fuelTold fuel diamondTaxonomy 3 = .returned t1 ∧
        classifyEntryMonitored simpleOps fuelTold fuel diamondTaxonomy 3 = .returned t1 :=
  ⟨simpleOps_classifies, rfl, diamondTaxonomy_acyclic,
    classifyEntry_acyclic simpleOps simpleOps_classifies diamondTaxonomy 3 rfl
      diamondTaxonomy_acyclic⟩

/-! ### Datatype reasoner -/

/-- C31: after `DataTypeReasoner::clear()`, whatever the state before, the map
and the number of appearances are unchanged, and every appearance has no
positive and no negative type, no negated values, an empty accumulated
dep-set and exactly one interval, the fresh one with empty dep-sets; a
registered datatype still leads to its index. -/
theorem clear_resets_appearances {I : Type} (iops : IntervalOps I) (r : DataTypeReasoner I) :
    (r.clear iops).Map = r.Map ∧ (r.clear iops).Types.length = r.Types.length ∧
      (∀ a ∈ (r.clear iops).Types, a.hasPType = false ∧ a.hasNType = false ∧ a.negValues = [] ∧
        a.accDep = ∅ ∧
        a.Constraints = [{ Constraints := iops.fresh, minDep := ∅, maxDep := ∅ }]) ∧
      (∀ p i, r.Map p = some i → i < r.Types.length →
        (r.clear iops).getDTAbyType p = some (r.clear iops, i) ∧
        ∃ a, (r.clear iops).Types[i]? = some a) := by
  refine ⟨rfl, by simp [DataTypeReasoner.clear], ?_, ?_⟩
  · intro a ha
    have ha2 : a ∈ r.Types.map (DataTypeAppearance.clear iops) := ha
    rw [List.mem_map] at ha2
    obtain ⟨b, _, hb⟩ := ha2
    rw [← hb]
    exact ⟨rfl, rfl, rfl, rfl, rfl⟩
  · intro p i hp hi
    have hlen : (r.clear iops).Types.length = r.Types.length := by simp [DataTypeReasoner.clear]
    have hmap : (r.clear iops).Map p = some i := hp
    refine ⟨?_, ?_⟩
    · unfold DataTypeReasoner.getDTAbyType
      rw [hmap]
      simp only []
      rw [hlen, if_pos hi]
    · have hi2 : i < (r.clear iops).Types.length := by rw [hlen]; exact hi
      exact ⟨(r.clear iops).Types[i], List.getElem?_eq_getElem hi2⟩

/-- One `registerDataType` keeps the indices valid and distinct. -/
theorem registerDataType_inv {I : Type} (r : DataTypeReasoner I) (p : DataPtr)
    (hvalid : ∀ q i, r.Map q = some i → i < r.Types.length)
    (hinj : ∀ q1 q2 i, r.Map q1 = some i → r.Map q2 = some i → q1 = q2) :
    (∀ q i, (r.registerDataType p).Map q = some i → i < (r.registerDataType p).Types.length) ∧
      (∀ q1 q2 i, (r.registerDataType p).Map q1 = some i → (r.registerDataType p).Map q2 = some i →
        q1 = q2) ∧
      ((r.registerDataType p).Map p).isSome = true ∧
      ∀ q, (r.Map q).isSome = true → ((r.registerDataType p).Map q).isSome = true := by
  have hlen : (r.registerDataType p).Types.length = r.Types.length + 1 := by
    simp [DataTypeReasoner.registerDataType]
  have hmap : ∀ q, (r.registerDataType p).Map q = if q = p then some r.Types.length else r.Map q := by
    intro q
    show Function.update r.Map p (some r.Types.length) q = _
    by_cases h : q = p
    · rw [h, Function.update_same, if_pos rfl]
    · rw [Function.update_noteq h, if_neg h]
  refine ⟨?_, ?_, ?_, ?_⟩
  · intro q i hq
    rw [hmap q] at hq
    rw [hlen]
    by_cases h : q = p
    · rw [if_pos h] at hq
      have : r.Types.length = i := by injection hq
      omega
    · rw [if_neg h] at hq
      have := hvalid q i hq
      omega
  · intro q1 q2 i h1 h2
    rw [hmap q1] at h1
    rw [hmap q2] at h2
    by_cases e1 : q1 = p
    · by_cases e2 : q2 = p
      · rw [e1, e2]
      · rw [if_pos e1] at h1
        rw [if_neg e2] at h2
        have hi : r.Types.length = i := by injection h1
        have := hvalid q2 i h2
        omega
    · by_cases e2 : q2 = p
      · rw [if_neg e1] at h1
        rw [if_pos e2] at h2
        have hi : r.Types.length = i := by injection h2
        have := hvalid q1 i h1
        omega
      · rw [if_neg e1] at h1
        rw [if_neg e2] at h2
        exact hinj q1 q2 i h1 h2
  · rw [hmap p, if_pos rfl]; rfl
  · intro q hq
    rw [hmap q]
    by_cases h : q = p
    · rw [if_pos h]; rfl
    · rw [if_neg h]; exact hq

/-- A sequence of `registerDataType` calls keeps the indices valid and distinct,
and all its datatypes are in the map. -/
theorem registerDataType_foldl_inv {I : Type} :
    ∀ (ps : List DataPtr) (r : DataTypeReasoner I),
      (∀ q i, r.Map q = some i → i < r.Types.length) →
      (∀ q1 q2 i, r.Map q1 = some i → r.Map q2 = some i → q1 = q2) →
      (∀ q i, (ps.foldl DataTypeReasoner.registerDataType r).Map q = some i →
        i < (ps.foldl DataTypeReasoner.registerDataType r).Types.length) ∧
      (∀ q1 q2 i, (ps.foldl DataTypeReasoner.registerDataType r).Map q1 = some i →
        (ps.foldl DataTypeReasoner.registerDataType r).Map q2 = some i → q1 = q2) ∧
      (∀ p ∈ ps, ((ps.foldl DataTypeReasoner.registerDataType r).Map p).isSome = true) ∧
      ∀ q, (r.Map q).isSome = true →
        ((ps.foldl DataTypeReasoner.registerDataType r).Map q).isSome = true := by
  intro ps
  induction ps with
  | nil =>
    intro r hv hi
    exact ⟨hv, hi, fun p hp => absurd hp (List.not_mem_nil p), fun _ h => h⟩
  | cons p ps ih =>
    intro r hv hi
    obtain ⟨s1, s2, s3, s4⟩ := registerDataType_inv r p hv hi
    obtain ⟨t1, t2, t3, t4⟩ := ih (r.registerDataType p) s1 s2
    refine ⟨t1, t2, ?_, fun q hq => t4 q (s4 q hq)⟩
    intro q hq
    rcases List.mem_cons.mp hq with e | e
    · rw [e]; exact t4 p s3
    · exact t3 q e

/-- C38: after any sequence `ps` of `registerDataType` calls on a new reasoner,
every registered datatype `p` has an index `Map[p]` below `Types.size()`, so
`getDTAbyType(p)` stays within bounds (and leaves the reasoner as it is), and
no other datatype has the same index. -/
theorem registerDataType_indices {I : Type} (ps : List DataPtr) :
    (ps.foldl DataTypeReasoner.registerDataType (DataTypeReasoner.new : DataTypeReasoner I)).Types.length
        = ps.length ∧
      ∀ p ∈ ps, ∃ i,
        (ps.foldl DataTypeReasoner.registerDataType (DataTypeReasoner.new : DataTypeReasoner I)).Map p
          = some i ∧
        i < (ps.foldl DataTypeReasoner.registerDataType
          (DataTypeReasoner.new : DataTypeReasoner I)).Types.length ∧
        (ps.foldl DataTypeReasoner.registerDataType
            (DataTypeReasoner.new : DataTypeReasoner I)).getDTAbyType p
          = some (ps.foldl DataTypeReasoner.registerDataType DataTypeReasoner.new, i) ∧
        ∀ q, q ≠ p →
          (ps.foldl DataTypeReasoner.registerDataType
            (DataTypeReasoner.new : DataTypeReasoner I)).Map q ≠ some i := by
  have hlen : ∀ (l : List DataPtr) (r : DataTypeReasoner I),
      (l.foldl DataTypeReasoner.registerDataType r).Types.length = r.Types.length + l.length := by
    intro l
    induction l with
    | nil => intro r; rfl
    | cons a l ih =>
      intro r
      rw [List.foldl_cons, ih]
      simp [DataTypeReasoner.registerDataType]
      omega
  obtain ⟨t1, t2, t3, _⟩ := registerDataType_foldl_inv ps (DataTypeReasoner.new : DataTypeReasoner I)
    (fun q i h => by cases h) (fun q1 q2 i h => by cases h)
  refine ⟨by rw [hlen]; simp [DataTypeReasoner.new], ?_⟩
  intro p hp
  obtain ⟨i, hi⟩ := Option.isSome_iff_exists.mp (t3 p hp)
  refine ⟨i, hi, t1 p i hi, ?_, ?_⟩
  · unfold DataTypeReasoner.getDTAbyType
    rw [hi]
    simp only []
    rw [if_pos (t1 p i hi)]
  · intro q hq hqi
    exact hq (t2 q p i hqi hi)

/-- C33: processing a negative data value `(v, dep)` whose datatype is registered
with the index `i` appends it to the `negValues` of the appearance `i` and
changes nothing else: the positive and negative type, the intervals and the
accumulated dep-set of that appearance, all other appearances and the map are
as before; the answer is `false` (no clash). -/
theorem processNegativeDV_appends {I : Type} (aops : AppearanceOps I) (r : DataTypeReasoner I)
    (v : Nat) (dep : DepSet) (i : Nat) (a : DataTypeAppearance I)
    (hmap : r.Map (aops.getType v) = some i) (hi : r.Types[i]? = some a) :
    ∃ r1, r.processNegativeDV aops (some v, dep) = some (r1, false) ∧ r1.Map = r.Map ∧
      r1.Types.length = r.Types.length ∧
      r1.Types[i]? = some { a with negValues := a.negValues ++ [(some v, dep)] } ∧
      ∀ j, j ≠ i → r1.Types[j]? = r.Types[j]? := by
  have hlt : i < r.Types.length := by
    obtain ⟨h, _⟩ := List.getElem?_eq_some.mp hi
    exact h
  refine ⟨{ r with Types := r.Types.set i (a.addNegValue (some v, dep)) }, ?_, rfl, ?_, ?_, ?_⟩
  · unfold DataTypeReasoner.processNegativeDV DataTypeReasoner.getDTAbyValue
      DataTypeReasoner.getDTAbyType
    simp only [hmap, if_pos hlt, hi]
  · simp
  · show (r.Types.set i (a.addNegValue (some v, dep)))[i]? = _
    rw [List.getElem?_set_self hlt]
    rfl
  · intro j hj
    show (r.Types.set i (a.addNegValue (some v, dep)))[j]? = _
    rw [List.getElem?_set_ne (Ne.symm hj)]

/-- C33 at the reasoner with two datatypes: the negative value `5` of the
datatype `1` goes to the appearance `1`. -/
theorem processNegativeDV_appends_witness :
    twoTypesReasoner.Map (valueOps.getType 5) = some 1 ∧
    twoTypesReasoner.Types[1]? = some (DataTypeAppearance.clear borderOps DataTypeAppearance.new) ∧
    ∃ r1, twoTypesReasoner.processNegativeDV valueOps (some 5, {3}) = some (r1, false) ∧
      r1.Map = twoTypesReasoner.Map ∧ r1.Types.length = twoTypesReasoner.Types.length ∧
      r1.Types[1]? = some { DataTypeAppearance.clear borderOps DataTypeAppearance.new with
        negValues := (DataTypeAppearance.clear borderOps DataTypeAppearance.new).negValues
          ++ [(some 5, {3})] } ∧
      ∀ j, j ≠ 1 → r1.Types[j]? = twoTypesReasoner.Types[j]? :=
  ⟨rfl, rfl, processNegativeDV_appends valueOps twoTypesReasoner 5 {3} 1 _ rfl rfl⟩

/-- What `DepInterval::update` does with the dep-sets: when the interval is
changed, `dep` goes to `maxDep` and `minDep` is kept, whatever `min` is; when
it is not changed, both dep-sets are kept. -/
theorem DepInterval_update_deps {I : Type} (iops : IntervalOps I) (d : DepInterval I)
    (min excl : Bool) (value : DataPtr) (dep : DepSet) :
    (DepInterval.update iops d min excl value dep).2 = (iops.update min excl value d.Constraints).2 ∧
      (DepInterval.update iops d min excl value dep).1.minDep = d.minDep ∧
      (DepInterval.update iops d min excl value dep).1.maxDep =
        if (iops.update min excl value d.Constraints).2 then dep else d.maxDep := by
  unfold DepInterval.update
  by_cases h : (iops.update min excl value d.Constraints).2 = true
  · rw [if_pos h, if_pos h]; exact ⟨h.symm, rfl, rfl⟩
  · rw [if_neg h, if_neg h]
    exact ⟨by simpa using h, rfl, rfl⟩

/-- C34, the code against the claim: `DepInterval::update` with `min = true`
that changes the interval (lower border `5` on a fresh interval, dep-sets
`{1}` for the min border and `{2}` for the max border, `dep = {3}`) answers
`true`, keeps `minDep = {1}` and puts `dep` into `maxDep`, although the max
border is as before; and in general `dep` goes to `maxDep` whenever the
interval is changed, and `minDep` is never written. -/
theorem DepInterval_update_min_border :
    DepInterval.update borderOps ⟨(none, none), {1}, {2}⟩ true false (some 5) {3}
        = (⟨(some 5, none), {1}, {3}⟩, true) ∧
      ∀ (d : DepInterval (Option Nat × Option Nat)) (min excl : Bool) (value : DataPtr)
        (dep : DepSet),
        (DepInterval.update borderOps d min excl value dep).1.minDep = d.minDep ∧
        (DepInterval.update borderOps d min excl value dep).1.maxDep =
          if (DepInterval.update borderOps d min excl value dep).2 then dep else d.maxDep := by
  refine ⟨by decide, ?_⟩
  intro d min excl value dep
  obtain ⟨h1, h2, h3⟩ := DepInterval_update_deps borderOps d min excl value dep
  rw [h1]
  exact ⟨h2, h3⟩

/-- The appearance that `processRestriction` and `processDataExpr` look up. -/
theorem getDTAbyValue_registered {I : Type} (aops : AppearanceOps I) (r : DataTypeReasoner I)
    (c i : Nat) (a : DataTypeAppearance I) (hmap : r.Map (aops.getType c) = some i)
    (hi : r.Types[i]? = some a) : r.getDTAbyValue aops c = some (r, i) := by
  have hlt : i < r.Types.length := by
    obtain ⟨h, _⟩ := List.getElem?_eq_some.mp hi
    exact h
  unfold DataTypeReasoner.getDTAbyValue DataTypeReasoner.getDTAbyType
  simp only [hmap, if_pos hlt]

/-- The positive type after `setPType ( const DepDTE& type )`. -/
theorem setPType_PType {I : Type} (a : DataTypeAppearance I) (type : DepDTE) :
    (a.setPType type).PType = if a.hasPType then a.PType else type := by
  unfold DataTypeAppearance.setPType
  by_cases h : a.hasPType = true
  · simp [h]
  · have h0 : a.hasPType = false := by simpa using h
    simp [h0]

/-- C32 as amended: when a positive data value or expression `c` with dep-set
`dep` is processed (`processRestriction`, or `processDataExpr` on a facet that
is not empty, with `pos = true`) and its datatype is registered, the positive
type of the appearance becomes the pair of the entry `c` itself and `dep` when
none was recorded, and is unchanged when one was recorded; `processDataExpr`
on an empty facet changes nothing.  The methods `update` and `addInterval` of
the appearance are taken to leave `PType` alone. -/
theorem processRestriction_PType {I : Type} (iops : IntervalOps I) (aops : AppearanceOps I)
    (r : DataTypeReasoner I) (min excl : Bool) (c : Nat) (dep : DepSet) (i : Nat)
    (a : DataTypeAppearance I)
    (hmap : r.Map (aops.getType c) = some i) (hi : r.Types[i]? = some a)
    (hupd : ∀ min excl c dep x, (aops.update min excl c dep x).1.PType = x.PType)
    (hadd : ∀ pos f dep x, (aops.addInterval pos f dep x).1.PType = x.PType) :
    (∃ r1 b a1, r.processRestriction aops true min excl c dep = some (r1, b) ∧
        r1.Map = r.Map ∧ r1.Types[i]? = some a1 ∧
        a1.PType = if a.hasPType then a.PType else (some c, dep)) ∧
      (iops.empty (aops.getFacet c) = false →
        ∃ r1 b a1, r.processDataExpr iops aops true c dep = some (r1, b) ∧
          r1.Map = r.Map ∧ r1.Types[i]? = some a1 ∧
          a1.PType = if a.hasPType then a.PType else (some c, dep)) ∧
      (iops.empty (aops.getFacet c) = true →
        r.processDataExpr iops aops true c dep = some (r, false)) := by
  have hlt : i < r.Types.length := by
    obtain ⟨h, _⟩ := List.getElem?_eq_some.mp hi
    exact h
  have hget := getDTAbyValue_registered aops r c i a hmap hi
  refine ⟨?_, ?_, ?_⟩
  · refine ⟨⟨r.Types.set i (aops.update min excl c dep (a.setPType (some c, dep))).1, r.Map⟩,
      (aops.update min excl c dep (a.setPType (some c, dep))).2,
      (aops.update min excl c dep (a.setPType (some c, dep))).1, ?_, rfl, ?_, ?_⟩
    · unfold DataTypeReasoner.processRestriction
      simp only [hget, hi, if_true]
    · show (r.Types.set i _)[i]? = _
      rw [List.getElem?_set_self hlt]
    · rw [hupd, setPType_PType]
  · intro hne
    refine ⟨⟨r.Types.set i
        (aops.addInterval true (aops.getFacet c) dep (a.setPType (some c, dep))).1, r.Map⟩,
      (aops.addInterval true (aops.getFacet c) dep (a.setPType (some c, dep))).2,
      (aops.addInterval true (aops.getFacet c) dep (a.setPType (some c, dep))).1,
      ?_, rfl, ?_, ?_⟩
    · unfold DataTypeReasoner.processDataExpr
      simp only [hne, Bool.false_eq_true, if_false, hget, hi, if_true]
    · show (r.Types.set i _)[i]? = _
      rw [List.getElem?_set_self hlt]
    · rw [hadd, setPType_PType]
  · intro he
    unfold DataTypeReasoner.processDataExpr
    rw [if_pos he]

/-- The stand-in `update` leaves the positive type alone. -/
theorem valueOps_update_PType (min excl : Bool) (c : Nat) (dep : DepSet)
    (x : DataTypeAppearance (Option Nat × Option Nat)) :
    (valueOps.update min excl c dep x).1.PType = x.PType := rfl

/-- C32 at the reasoner with two datatypes and the positive value `5` of the
datatype `1`. -/
theorem processRestriction_PType_witness :
    twoTypesReasoner.Map (valueOps.getType 5) = some 1 ∧
    twoTypesReasoner.Types[1]? = some (DataTypeAppearance.clear borderOps DataTypeAppearance.new) ∧
    ∃ r1 b a1, twoTypesReasoner.processRestriction valueOps true true false 5 {3} = some (r1, b) ∧
      r1.Map = twoTypesReasoner.Map ∧ r1.Types[1]? = some a1 ∧
      a1.PType =
        if (DataTypeAppearance.clear borderOps DataTypeAppearance.new).hasPType then
          (DataTypeAppearance.clear borderOps DataTypeAppearance.new).PType
        else (some 5, {3}) :=
  ⟨rfl, rfl, (processRestriction_PType borderOps valueOps twoTypesReasoner true false 5 {3} 1 _
    rfl rfl valueOps_update_PType (fun _ _ _ _ => rfl)).1⟩

/-- C32, the claim as stated fails: the positive value `5` of the datatype `1`
is processed with dep-set `{3}` while the appearance of the datatype has no
positive type; afterwards the first component of `PType` is the entry `5`
itself, not its datatype `1`. -/
theorem processRestriction_PType_counterexample :
    valueOps.getType 5 = some 1 ∧
    (twoTypesReasoner.Types[1]?.map fun a => a.hasPType) = some false ∧
    ((twoTypesReasoner.processRestriction valueOps true true false 5 {3}).bind
      fun x => x.1.Types[1]?.map fun a => a.PType) = some (some 5, {3}) ∧
    ((twoTypesReasoner.processDataExpr borderOps valueOps true 5 {3}).bind
      fun x => x.1.Types[1]?.map fun a => a.PType) = some (some 5, {3}) := by
  refine ⟨rfl, ?_, ?_, ?_⟩ <;> decide

/-! ### Synonyms of classified entries, and the stack of a cycle -/

/-- The loop of `classifySynonym` follows a chain of synonyms to its end. -/
theorem realRepresentative_chain (t : Taxonomy) :
    ∀ (rest : List EntryId) (s : EntryId) (fuel : Nat),
      List.Chain' (SynonymLink t) (s :: rest) →
      (t.entries ((s :: rest).getLast (List.cons_ne_nil _ _))).pSynonym = none →
      (s :: rest).length ≤ fuel →
      realRepresentative t fuel s = some ((s :: rest).getLast (List.cons_ne_nil _ _)) := by
  intro rest
  induction rest with
  | nil =>
    intro s fuel _ hlast hfuel
    obtain ⟨f, rfl⟩ : ∃ f, fuel = f + 1 := ⟨fuel - 1, by simp at hfuel; omega⟩
    have h : (t.entries s).pSynonym = none := hlast
    rw [realRepresentative, h]
    rfl
  | cons b rest ih =>
    intro s fuel hch hlast hfuel
    obtain ⟨f, rfl⟩ : ∃ f, fuel = f + 1 := ⟨fuel - 1, by simp at hfuel; omega⟩
    rw [List.chain'_cons] at hch
    have hlink : (t.entries s).pSynonym = some b := hch.1
    rw [realRepresentative, hlink]
    have hl : (s :: b :: rest).getLast (List.cons_ne_nil _ _)
        = (b :: rest).getLast (List.cons_ne_nil _ _) := List.getLast_cons (List.cons_ne_nil _ _)
    rw [hl] at hlast ⊢
    exact ih b f hch.2 hlast (by simp at hfuel ⊢; omega)

/-- C35: when the current entry `cur` is a synonym with the chain of synonyms
`chain` (from its synonym to an entry that is no synonym), `classifySynonym`
adds `cur` to the synonym list of the taxonomy vertex of the last entry of the
chain, returns `true` and clears `Current` and `curEntry`, given fuel for the
length of the chain; when `cur` has no synonym it returns `false` and changes
nothing.  The asserts of the method are hypotheses: `willInsertIntoTaxonomy`
holds and the last entry of the chain has a taxonomy vertex. -/
theorem classifySynonym_representative (t : SynonymTaxonomy) (cur : EntryId)
    (hcur : t.curEntry = some cur) :
    ((t.entries cur).pSynonym = none → ∀ fuel, classifySynonym fuel t = .returned t false) ∧
      ∀ (chain : List EntryId) (hne : chain ≠ []) (v : VertexId) (fuel : Nat),
        List.Chain' (SynonymLink t.toTaxonomy) (cur :: chain) →
        (t.entries (chain.getLast hne)).pSynonym = none →
        t.willInsertIntoTaxonomy = true →
        (t.entries (chain.getLast hne)).taxVertex = some v →
        chain.length ≤ fuel →
        classifySynonym fuel t =
          .returned
            { t with
              synonyms := setAt t.synonyms v (t.synonyms v ++ [cur])
              Current := none
              curEntry := none }
            true := by
  refine ⟨?_, ?_⟩
  · intro hno fuel
    unfold classifySynonym
    simp only [hcur, hno]
  · intro chain hne v fuel hch hlast hwill hv hfuel
    cases chain with
    | nil => exact absurd rfl hne
    | cons s rest =>
      rw [List.chain'_cons] at hch
      have hlink : (t.entries cur).pSynonym = some s := hch.1
      have hrep := realRepresentative_chain t.toTaxonomy rest s fuel hch.2 hlast hfuel
      unfold classifySynonym
      simp only [hcur, hlink, hwill, Bool.not_true, Bool.false_eq_true, if_false, hrep, hv]

theorem synonymTaxonomy_chain :
    List.Chain' (SynonymLink synonymTaxonomy.toTaxonomy) (2 :: [1, 0]) := by
  have h21 : SynonymLink synonymTaxonomy.toTaxonomy 2 1 := rfl
  have h10 : SynonymLink synonymTaxonomy.toTaxonomy 1 0 := rfl
  simp [List.chain'_cons, h21, h10]

theorem synonymChain_ne_nil : ([1, 0] : List EntryId) ≠ [] := by decide

/-- C35 at the entry `2`, a synonym of `1`, which is a synonym of the classified
entry `0`: entry `2` goes to the synonym list of the vertex `7` of entry `0`. -/
theorem classifySynonym_representative_witness :
    synonymTaxonomy.curEntry = some 2 ∧
      classifySynonym 2 synonymTaxonomy =
        .returned
          { synonymTaxonomy with
            synonyms := setAt synonymTaxonomy.synonyms 7 (synonymTaxonomy.synonyms 7 ++ [2])
            Current := none
            curEntry := none }
          true :=
  ⟨rfl, (classifySynonym_representative synonymTaxonomy 2 rfl).2 [1, 0] synonymChain_ne_nil 7 2
    synonymTaxonomy_chain rfl rfl rfl (by decide)⟩

/-- C37: `classifyCycle` on a stack with the top `p` and the rest `st` classifies
`p`, then gives the taxonomy vertex of `p` to every entry of `st`, whether it
belongs to the cycle or was pushed before its first element, and leaves the
wait stack empty; all other entries keep their vertex.  The state is the one
in which the method reaches its closing `assert (0)`.  The virtual method
`doClassification` is taken to leave the wait stack alone. -/
theorem classifyCycle_whole_stack (ops : TaxonomyOps) (t : Taxonomy) (p : EntryId)
    (st : List EntryId) (hst : t.waitStack = p :: st)
    (hframe : (ops.doClassification p t).waitStack = t.waitStack) :
    ∃ t1, classifyCycle ops t = .assertFailed t1 ∧ t1.waitStack = [] ∧
      ∀ e, (t1.entries e).taxVertex =
        if e ∈ st then ((ops.doClassification p t).entries p).taxVertex
        else ((ops.doClassification p t).entries e).taxVertex := by
  have hw : (popWait (ops.doClassification p t)).waitStack = st := by
    show (ops.doClassification p t).waitStack.tail = st
    rw [hframe, hst]; rfl
  obtain ⟨h1, h2⟩ := classifyCycleLoop_spec p (popWait (ops.doClassification p t)).waitStack.length
    (popWait (ops.doClassification p t)) (le_refl _)
  refine ⟨classifyCycleLoop p (popWait (ops.doClassification p t)).waitStack.length
    (popWait (ops.doClassification p t)), ?_, h1, ?_⟩
  · unfold classifyCycle classifyTop
    simp only [hst]
  · intro e
    rw [h2 e, hw]
    rfl

/-- C37 at the stack `1, 2, 1, 0` that `checkToldSubsumers` builds for
`classifyEntry(0)` on `lassoTaxonomy`: entry `0`, pushed before the cycle of
`1` and `2`, gets the vertex of entry `1` like entry `2`. -/
theorem classifyCycle_whole_stack_witness :
    (lassoCycleFound.waitStack = 1 :: [2, 1, 0] ∧
      (simpleOps.doClassification 1 lassoCycleFound).waitStack = lassoCycleFound.waitStack ∧
      (checkToldSubsumers simpleOps 3 (pushWait lassoTaxonomy 0)).map
        (fun x => (x.1.waitStack, x.2)) = some ([1, 2, 1, 0], false)) ∧
    ∃ t1, classifyCycle simpleOps lassoCycleFound = .assertFailed t1 ∧ t1.waitStack = [] ∧
      ∀ e, (t1.entries e).taxVertex =
        if e ∈ [2, 1, 0] then ((simpleOps.doClassification 1 lassoCycleFound).entries 1).taxVertex
        else ((simpleOps.doClassification 1 lassoCycleFound).entries e).taxVertex :=
  ⟨⟨rfl, rfl, by decide⟩, classifyCycle_whole_stack simpleOps lassoCycleFound 1 [2, 1, 0] rfl rfl⟩

/-! ### The chain of a role composition, and `Load` on a bad file -/

theorem completeAutomatonByRole_isSome {RA : Type} (ops : AutomatonOps RA) (rb : RoleBox)
    (this R : RoleId) (A : RoleId → RA) :
    (completeAutomatonByRole ops rb this R A).isSome = true ↔ isSynonym rb R = false ∧ R ≠ this := by
  unfold completeAutomatonByRole
  by_cases h1 : isSynonym rb R = true
  · rw [if_pos h1]
    simp [h1]
  · have h10 : isSynonym rb R = false := by simpa using h1
    rw [if_neg h1]
    by_cases h2 : R = this
    · rw [if_pos h2]; simp [h2]
    · rw [if_neg h2]; simp [h10, h2]

theorem addToChainLoop_isSome_iff {RA : Type} (ops : AutomatonOps RA) (rb : RoleBox)
    (this : RoleId) :
    ∀ (l : List RoleId) (A : RoleId → RA),
      (addToChainLoop ops rb this l A).isSome = true ↔
        ∀ r ∈ l, isSynonym rb r = false ∧ r ≠ this := by
  intro l
  induction l with
  | nil => intro A; simp [addToChainLoop]
  | cons p ps ih =>
    intro A
    have hc := completeAutomatonByRole_isSome ops rb this p A
    rw [addToChainLoop]
    cases hres : completeAutomatonByRole ops rb this p A with
    | none =>
      rw [hres] at hc
      simp only [Option.isSome_none, Bool.false_eq_true, false_iff]
      intro hall
      have := hc.mpr (hall p (List.mem_cons_self _ _))
      exact absurd this (by simp)
    | some A1 =>
      rw [hres] at hc
      simp only []
      rw [ih]
      have hp := hc.mp rfl
      constructor
      · intro h r hr
        rcases List.mem_cons.mp hr with e | e
        · rw [e]; exact hp
        · exact h r e
      · intro h r hr
        exact h r (List.mem_cons_of_mem _ hr)

/-- `createChain` gets through exactly when its range is not empty and none of
its roles is a synonym or `this`. -/
theorem createChain_isSome_iff {RA : Type} (ops : AutomatonOps RA) (rb : RoleBox) (this : RoleId)
    (l : List RoleId) (A : RoleId → RA) :
    (createChain ops rb this l A).isSome = true ↔
      l ≠ [] ∧ ∀ r ∈ l, isSynonym rb r = false ∧ r ≠ this := by
  cases l with
  | nil => simp [createChain]
  | cons b rest =>
    have hc := completeAutomatonByRole_isSome ops rb this b A
    rw [createChain]
    cases hres : completeAutomatonByRole ops rb this b A with
    | none =>
      rw [hres] at hc
      simp only [Option.isSome_none, Bool.false_eq_true, false_iff]
      intro hall
      have := hc.mpr (hall.2 b (List.mem_cons_self _ _))
      exact absurd this (by simp)
    | some A1 =>
      rw [hres] at hc
      simp only []
      rw [addToChainLoop_isSome_iff]
      have hp := hc.mp rfl
      constructor
      · intro h
        refine ⟨List.cons_ne_nil _ _, fun r hr => ?_⟩
        rcases List.mem_cons.mp hr with e | e
        · rw [e]; exact hp
        · exact h r e
      · intro h r hr
        exact h.2 r (List.mem_cons_of_mem _ hr)

/-- C40: `ReasoningKernel::Load` releases the KB before it validates the header:
when `LoadHeader` rejects the header (as it does for a wrong magic string and
for a wrong integer width), `Load` fails with a save/load error and the kernel
holds no KB (status `kbEmpty`), whatever KB it held; when the file cannot be
opened, `Load` fails with a save/load error and the kernel is as before.  At a
kernel with a classified KB: a file with a wrong magic string and a file with
the integer width `8` instead of `4` both leave the kernel without KB. -/
theorem Load_bad_header_releases_KB (Version : List Char) (bytesInInt : Nat)
    (k : ReasoningKernel) :
    (∀ text, (LoadHeader Version bytesInInt (IStream.ofText text)).1 = true →
        Load Version bytesInInt k (some text) = ({ pTBox := none }, some (.fileState false)) ∧
        getStatus (Load Version bytesInInt k (some text)).1 = kbEmpty) ∧
      Load Version bytesInInt k none = (k, some (.fileState false)) ∧
      (∀ text, (extractString (IStream.ofText text)).1.getD [] ≠ InternalStateFileHeader →
        (LoadHeader Version bytesInInt (IStream.ofText text)).1 = true) ∧
      (∀ text n i3, (extractString (IStream.ofText text)).1.getD [] = InternalStateFileHeader →
        extractInt bytesInInt (extractString (extractString (IStream.ofText text)).2).2
          = (some n, i3) →
        n ≠ (bytesInInt : Int) → (LoadHeader Version bytesInInt (IStream.ofText text)).1 = true) ∧
      Load "1.1.11".toList 4 classifiedKernel (some "Bad\n1.1.11\n4\nOptions\n(0)".toList)
        = (emptyKernel, some (.fileState false)) ∧
      Load "1.1.11".toList 4 classifiedKernel
          (some "FaCT++InternalStateDump1.0\n1.1.11\n8\nOptions\n(0)".toList)
        = (emptyKernel, some (.fileState false)) ∧
      Load "1.1.11".toList 4 classifiedKernel none = (classifiedKernel, some (.fileState false)) := by
  refine ⟨?_, rfl, ?_, ?_, ?_, ?_, rfl⟩
  · intro text hbad
    have h : Load Version bytesInInt k (some text) = ({ pTBox := none }, some (.fileState false)) := by
      unfold Load
      simp only []
      rw [if_pos hbad]
      rfl
    rw [h]
    exact ⟨rfl, rfl⟩
  · intro text hne
    unfold LoadHeader
    rw [if_pos hne]
  · intro text n i3 heq hint hn
    unfold LoadHeader
    rw [if_neg (by rw [heq]; exact fun h => h rfl), hint]
    simp only []
    rw [if_pos hn]
  · rfl
  · rfl

/-! ### Purge: the depth of the recursion and the rare log -/

theorem foldlM_eq_foldl {α β : Type} (fm : β → α → Option β) (f : β → α → β) (P : β → Prop) :
    ∀ (l : List α) (b : β), P b →
      (∀ acc, ∀ a ∈ l, P acc → fm acc a = some (f acc a) ∧ P (f acc a)) →
      l.foldlM fm b = some (l.foldl f b) := by
  intro l
  induction l with
  | nil => intro b _ _; rfl
  | cons a l ih =>
    intro b hb hstep
    obtain ⟨h1, h2⟩ := hstep b a (List.mem_cons_self _ _) hb
    rw [List.foldlM_cons, h1, List.foldl_cons]
    exact ih (f b a) h2 (fun acc c hc hacc => hstep acc c (List.mem_cons_of_mem _ hc) hacc)

theorem foldlM_mono_some {α β : Type} (fm1 fm2 : β → α → Option β)
    (h : ∀ acc a r, fm1 acc a = some r → fm2 acc a = some r) :
    ∀ (l : List α) (b r : β), l.foldlM fm1 b = some r → l.foldlM fm2 b = some r := by
  intro l
  induction l with
  | nil => intro b r hr; exact hr
  | cons a l ih =>
    intro b r hr
    rw [List.foldlM_cons] at hr ⊢
    cases h1 : fm1 b a with
    | none => rw [h1] at hr; cases hr
    | some x =>
      rw [h1] at hr
      rw [h b a x h1]
      exact ih x r hr

theorem PurgeBounded_succ (fuel : Nat) (g : DlCompletionGraph) (p root : NodeId) (dep : DepSet) :
    PurgeBounded (fuel + 1) g p root dep =
      if isPBlocked g p then some g
      else
        (g.NodeBase p).Son.foldlM
          (fun acc q =>
            if !(acc.NodeBase (acc.CTEdgeHeap q).ArcEnd).nominal then
              PurgeBounded fuel acc (acc.CTEdgeHeap q).ArcEnd root dep
            else some (invalidateEdge acc q))
          (setPBlocked g p root dep) := by
  rw [PurgeBounded]

/-- More fuel does not change the answer of the bounded `Purge`. -/
theorem PurgeBounded_mono (root : NodeId) (dep : DepSet) :
    ∀ (fuel : Nat) (g : DlCompletionGraph) (p : NodeId) (r : DlCompletionGraph),
      PurgeBounded fuel g p root dep = some r → PurgeBounded (fuel + 1) g p root dep = some r := by
  intro fuel
  induction fuel with
  | zero => intro g p r h; rw [PurgeBounded] at h; cases h
  | succ fuel ih =>
    intro g p r h
    rw [PurgeBounded_succ] at h ⊢
    by_cases hp : isPBlocked g p = true
    · rw [if_pos hp] at h ⊢; exact h
    · rw [if_neg hp] at h ⊢
      refine foldlM_mono_some _ _ ?_ _ _ _ h
      intro acc q x hx
      by_cases hn : (acc.NodeBase (acc.CTEdgeHeap q).ArcEnd).nominal = true
      · simp only [hn, Bool.not_true, Bool.false_eq_true, if_false] at hx ⊢
        exact hx
      · have hn0 : (acc.NodeBase (acc.CTEdgeHeap q).ArcEnd).nominal = false := by simpa using hn
        simp only [hn0, Bool.not_false, if_true] at hx ⊢
        exact ih acc _ x hx

theorem PurgeBounded_mono_le (root : NodeId) (dep : DepSet) (g : DlCompletionGraph) (p : NodeId)
    (r : DlCompletionGraph) (fuel : Nat) (h : PurgeBounded fuel g p root dep = some r) :
    ∀ k, PurgeBounded (fuel + k) g p root dep = some r := by
  intro k
  induction k with
  | zero => exact h
  | succ k ih => exact PurgeBounded_mono root dep (fuel + k) g p r ih

/-- With more fuel than there are nodes that are not p-blocked, the bounded
`Purge` does not reach its bound. -/
theorem PurgeBounded_eq_Purge (root : NodeId) (dep : DepSet) (N : Nat) :
    ∀ (fuel : Nat) (g : DlCompletionGraph) (p : NodeId),
      (∀ n < N, ∀ q ∈ (g.NodeBase n).Son, (g.CTEdgeHeap q).ArcEnd < N) → p < N →
      (unblockedNodes N g).card < fuel →
      PurgeBounded fuel g p root dep = some (Purge fuel g p root dep) := by
  intro fuel
  induction fuel with
  | zero => intro g p _ _ hf; omega
  | succ fuel ih =>
    intro g p hwf hpN hfuel
    rw [PurgeBounded_succ]
    by_cases hp : isPBlocked g p = true
    · rw [if_pos hp, Purge_blocked_eq fuel g p root dep hp]
    · have hp0 : isPBlocked g p = false := by simpa using hp
      rw [if_neg hp, Purge_unblocked_eq fuel g p root dep hp0]
      have hfr1 : PurgeFrame g (setPBlocked g p root dep) := setPBlocked_frame g p root dep hp0
      have hcard1 : (unblockedNodes N (setPBlocked g p root dep)).card < fuel := by
        have := unblockedNodes_setPBlocked N g p root dep hp0 hpN
        omega
      refine foldlM_eq_foldl _ _ (fun acc => PurgeFrame (setPBlocked g p root dep) acc) _ _
        (PurgeFrame.frame_refl _) ?_
      intro acc q hq hacc
      by_cases hn : (acc.NodeBase (acc.CTEdgeHeap q).ArcEnd).nominal = true
      · simp only [hn, Bool.not_true, Bool.false_eq_true, if_false]
        exact ⟨trivial, hacc.frame_trans (invalidateEdge_frame acc q)⟩
      · have hn0 : (acc.NodeBase (acc.CTEdgeHeap q).ArcEnd).nominal = false := by simpa using hn
        simp only [hn0, Bool.not_false, if_true]
        have hfr : PurgeFrame g acc := hfr1.frame_trans hacc
        refine ⟨?_, hacc.frame_trans (Purge_frame root dep fuel acc _)⟩
        apply ih
        · intro n hn q1 hq1
          rw [hfr.son n] at hq1
          rw [hfr.arcEnd q1]
          exact hwf n hn q1 hq1
        · rw [hfr.arcEnd q]
          exact hwf p hpN q hq
        · exact lt_of_le_of_lt (Finset.card_le_card (unblockedNodes_mono N hacc)) hcard1

theorem pBlockedLog_append (l1 l2 : List (Nat × Restorer)) :
    pBlockedLog (l1 ++ l2) = pBlockedLog l1 ++ pBlockedLog l2 := by
  unfold pBlockedLog
  exact List.filterMap_append _ _ _

theorem isPBlocked_false_of_frame {g r : DlCompletionGraph} (h : PurgeFrame g r) (n : NodeId)
    (hn : isPBlocked r n = false) : isPBlocked g n = false := by
  by_contra hc
  have : isPBlocked g n = true := by simpa using hc
  rw [isPBlocked_mono h n this] at hn
  exact absurd hn (by decide)

/-- What `Purge` adds to the rare log: the `setPBlocked` entries it adds are for
distinct nodes, each of which was not p-blocked before and is p-blocked
afterwards. -/
theorem Purge_log (root : NodeId) (dep : DepSet) :
    ∀ (fuel : Nat) (g : DlCompletionGraph) (p : NodeId),
      ∃ new, (Purge fuel g p root dep).RareStack = new ++ g.RareStack ∧
        (pBlockedLog new).Nodup ∧
        ∀ n ∈ pBlockedLog new, isPBlocked g n = false ∧
          isPBlocked (Purge fuel g p root dep) n = true := by
  intro fuel
  induction fuel with
  | zero =>
    intro g p
    exact ⟨[], rfl, List.nodup_nil, fun n hn => absurd hn (List.not_mem_nil n)⟩
  | succ fuel ih =>
    intro g p
    by_cases hp : isPBlocked g p = true
    · rw [Purge_blocked_eq fuel g p root dep hp]
      exact ⟨[], rfl, List.nodup_nil, fun n hn => absurd hn (List.not_mem_nil n)⟩
    · have hp0 : isPBlocked g p = false := by simpa using hp
      rw [Purge_unblocked_eq fuel g p root dep hp0]
      have hinv := foldl_mem_invariant
        (fun (acc : DlCompletionGraph) (q : ArcId) =>
          if !(acc.NodeBase (acc.CTEdgeHeap q).ArcEnd).nominal then
            Purge fuel acc (acc.CTEdgeHeap q).ArcEnd root dep
          else invalidateEdge acc q)
        (fun acc : DlCompletionGraph => PurgeFrame g acc ∧
          ∃ new, acc.RareStack = new ++ g.RareStack ∧ (pBlockedLog new).Nodup ∧
            ∀ n ∈ pBlockedLog new, isPBlocked g n = false ∧ isPBlocked acc n = true)
        (g.NodeBase p).Son (setPBlocked g p root dep)
        (by
          refine ⟨setPBlocked_frame g p root dep hp0,
            [(g.branchingLevel, .pBlocked p (g.NodeBase p).pBlocked)], rfl, ?_, ?_⟩
          · show ([p] : List NodeId).Nodup
            exact List.nodup_singleton p
          · intro n hn
            have hnp : n = p := by
              have : n ∈ ([p] : List NodeId) := hn
              simpa using this
            rw [hnp]
            refine ⟨hp0, ?_⟩
            unfold isPBlocked
            rw [setPBlocked_self]
            rfl)
        (by
          intro acc q _ hacc
          obtain ⟨hfr, new, hlog, hnd, hall⟩ := hacc
          by_cases hn : (acc.NodeBase (acc.CTEdgeHeap q).ArcEnd).nominal = true
          · simp only [hn, Bool.not_true, Bool.false_eq_true, if_false]
            refine ⟨hfr.frame_trans (invalidateEdge_frame acc q), ?_⟩
            obtain ⟨e1, e2, he, hpb⟩ : ∃ e1 e2, (invalidateEdge acc q).RareStack
                = e2 :: e1 :: acc.RareStack ∧ pBlockedLog [e2, e1] = [] := ⟨_, _, rfl, rfl⟩
            refine ⟨[e2, e1] ++ new, ?_, ?_, ?_⟩
            · rw [he, hlog]; rfl
            · rw [pBlockedLog_append, hpb]; exact hnd
            · intro n hn2
              rw [pBlockedLog_append, hpb] at hn2
              exact hall n hn2
          · have hn0 : (acc.NodeBase (acc.CTEdgeHeap q).ArcEnd).nominal = false := by
              simpa using hn
            simp only [hn0, Bool.not_false, if_true]
            have hfr2 := Purge_frame root dep fuel acc (acc.CTEdgeHeap q).ArcEnd
            refine ⟨hfr.frame_trans hfr2, ?_⟩
            obtain ⟨new2, hlog2, hnd2, hall2⟩ := ih acc (acc.CTEdgeHeap q).ArcEnd
            refine ⟨new2 ++ new, ?_, ?_, ?_⟩
            · rw [hlog2, hlog, List.append_assoc]
            · rw [pBlockedLog_append]
              refine List.nodup_append.mpr ⟨hnd2, hnd, ?_⟩
              intro n h1 h2
              have a1 := (hall2 n h1).1
              have a2 := (hall n h2).2
              rw [a2] at a1
              exact absurd a1 (by decide)
            · intro n hn2
              rw [pBlockedLog_append] at hn2
              rcases List.mem_append.mp hn2 with h1 | h1
              · exact ⟨isPBlocked_false_of_frame hfr n (hall2 n h1).1, (hall2 n h1).2⟩
              · exact ⟨(hall n h1).1, isPBlocked_mono hfr2 n (hall n h1).2⟩)
      exact hinv.2

/-- C36: on a finite completion graph (all successor arcs of the nodes in use
end in nodes in use; cycles of successor arcs are allowed) `Purge` of a node in
use terminates: with more fuel than there are nodes, the bounded `Purge` gives
one result, which does not depend on the fuel.  A call on a p-blocked node
changes nothing, and no node is p-blocked twice: the `setPBlocked` entries
that the call adds to the rare log are for distinct nodes, none of which was
p-blocked before. -/
theorem Purge_terminates (g : DlCompletionGraph) (p root : NodeId) (dep : DepSet)
    (hwf : SonsInUse g) (hpN : p < g.endUsed) :
    (∀ fuel, g.endUsed < fuel →
        PurgeBounded fuel g p root dep = some (Purge (g.endUsed + 1) g p root dep)) ∧
      (isPBlocked g p = true → Purge (g.endUsed + 1) g p root dep = g) ∧
      ∃ new, (Purge (g.endUsed + 1) g p root dep).RareStack = new ++ g.RareStack ∧
        (pBlockedLog new).Nodup ∧
        ∀ n ∈ pBlockedLog new, isPBlocked g n = false ∧
          isPBlocked (Purge (g.endUsed + 1) g p root dep) n = true := by
  refine ⟨?_, fun hp => Purge_blocked_eq _ g p root dep hp, Purge_log root dep _ g p⟩
  intro fuel hfuel
  have h0 := PurgeBounded_eq_Purge root dep g.endUsed (g.endUsed + 1) g p hwf hpN
    (Nat.lt_succ_of_le (unblockedNodes_card_le _ g))
  obtain ⟨k, rfl⟩ : ∃ k, fuel = g.endUsed + 1 + k := ⟨fuel - (g.endUsed + 1), by omega⟩
  exact PurgeBounded_mono_le root dep g p _ _ h0 k

/-- C36 at two blockable nodes `0` and `1` whose successor arcs form a cycle:
`Purge(0)` terminates and p-blocks both nodes, each once. -/
theorem Purge_terminates_witness :
    (SonsInUse blockableCycleGraph ∧ 0 < blockableCycleGraph.endUsed ∧
      PurgeReach blockableCycleGraph 0 1 ∧ PurgeReach blockableCycleGraph 1 0) ∧
    (∀ fuel, blockableCycleGraph.endUsed < fuel →
        PurgeBounded fuel blockableCycleGraph 0 2 ∅ =
          some (Purge (blockableCycleGraph.endUsed + 1) blockableCycleGraph 0 2 ∅)) ∧
    pBlockedLog (Purge (blockableCycleGraph.endUsed + 1) blockableCycleGraph 0 2 ∅).RareStack
      = [1, 0] :=
  ⟨⟨by unfold SonsInUse; decide, by decide,
      Relation.ReflTransGen.single ⟨0, by decide, rfl, rfl, rfl⟩,
      Relation.ReflTransGen.single ⟨2, by decide, rfl, rfl, rfl⟩⟩,
    (Purge_terminates blockableCycleGraph 0 2 ∅ (by unfold SonsInUse; decide) (by decide)).1,
    by decide⟩

/-! ### The chain that `createChain` builds -/

theorem completeAutomatonByRole_eq {RA : Type} (ops : AutomatonOps RA) (rb : RoleBox)
    (this R : RoleId) (A : RoleId → RA) (h1 : isSynonym rb R = false) (h2 : R ≠ this) :
    completeAutomatonByRole ops rb this R A = some (ops.completeAutomaton R A) := by
  unfold completeAutomatonByRole
  rw [h1, if_neg Bool.false_ne_true, if_neg h2]

theorem addToChainLoop_eq {RA : Type} (ops : AutomatonOps RA) (rb : RoleBox) (this : RoleId) :
    ∀ (l : List RoleId) (A : RoleId → RA), (∀ r ∈ l, isSynonym rb r = false ∧ r ≠ this) →
      addToChainLoop ops rb this l A =
        some (l.foldl
          (fun A1 p =>
            setAt (ops.completeAutomaton p A1) this
              (ops.addToChain (ops.completeAutomaton p A1 this) (ops.completeAutomaton p A1 p)))
          A) := by
  intro l
  induction l with
  | nil => intro A _; rfl
  | cons p ps ih =>
    intro A h
    obtain ⟨h1, h2⟩ := h p (List.mem_cons_self _ _)
    rw [addToChainLoop, completeAutomatonByRole_eq ops rb this p A h1 h2]
    exact ih _ (fun r hr => h r (List.mem_cons_of_mem _ hr))

/-- On a range whose roles are no synonyms and differ from `this`, `createChain`
builds the chain of the automata of these roles, in order. -/
theorem createChain_eq {RA : Type} (ops : AutomatonOps RA) (rb : RoleBox) (this : RoleId)
    (l : List RoleId) (A : RoleId → RA) (hne : l ≠ [])
    (h : ∀ r ∈ l, isSynonym rb r = false ∧ r ≠ this) :
    createChain ops rb this l A = some (chainFrom ops this l A) := by
  cases l with
  | nil => exact absurd rfl hne
  | cons b rest =>
    obtain ⟨h1, h2⟩ := h b (List.mem_cons_self _ _)
    rw [createChain, completeAutomatonByRole_eq ops rb this b A h1 h2]
    exact addToChainLoop_eq ops rb this rest _ (fun r hr => h r (List.mem_cons_of_mem _ hr))

/-- C27: for every non-empty composition `RS` recorded for the role `this`,
`addSubCompositionAutomaton` builds the chain from `RS` without its first
element and adds it with `addRBegRA` when the first element resolves to `this`;
otherwise, when the last element resolves to `this`, it builds the chain from
`RS` without its last element and adds it with `addREndRA`; otherwise it builds
the chain from all of `RS` and adds it with `addChainRA`; for an empty `RS` the
automaton is unchanged.  The chain built from a range is `chainFrom`: the
completed automaton of the first role starts the chain, the completed automata
of the other roles are added to it in order; `createChain` builds it whenever
the range is not empty and its roles are no synonyms and differ from `this`
(the asserts of `completeAutomatonByRole`), and builds nothing otherwise. -/
theorem addSubCompositionAutomaton_cases {RA : Type} (ops : AutomatonOps RA) (rb : RoleBox)
    (this : RoleId) (RS : List RoleId) (A : RoleId → RA) (hne : RS ≠ []) :
    (resolveSynonym rb (RS.head hne) = this →
        addSubCompositionAutomaton ops rb this RS A =
          (createChain ops rb this RS.tail A).map
            fun A1 => setAt A1 this (ops.addRBegRA (A1 this))) ∧
      (resolveSynonym rb (RS.head hne) ≠ this → resolveSynonym rb (RS.getLast hne) = this →
        addSubCompositionAutomaton ops rb this RS A =
          (createChain ops rb this RS.dropLast A).map
            fun A1 => setAt A1 this (ops.addREndRA (A1 this))) ∧
      (resolveSynonym rb (RS.head hne) ≠ this → resolveSynonym rb (RS.getLast hne) ≠ this →
        addSubCompositionAutomaton ops rb this RS A =
          (createChain ops rb this RS A).map
            fun A1 => setAt A1 this (ops.addChainRA (A1 this))) ∧
      addSubCompositionAutomaton ops rb this [] A = some A ∧
      (∀ (l : List RoleId) (A0 : RoleId → RA), l ≠ [] →
        (∀ r ∈ l, isSynonym rb r = false ∧ r ≠ this) →
        createChain ops rb this l A0 = some (chainFrom ops this l A0)) ∧
      (∀ (l : List RoleId) (A0 : RoleId → RA),
        ¬ (l ≠ [] ∧ ∀ r ∈ l, isSynonym rb r = false ∧ r ≠ this) →
        createChain ops rb this l A0 = none) ∧
      (chainRange rb this RS ≠ [] →
        (∀ r ∈ chainRange rb this RS, isSynonym rb r = false ∧ r ≠ this) →
        ∃ add, add ∈ [ops.addRBegRA, ops.addREndRA, ops.addChainRA] ∧
          addSubCompositionAutomaton ops rb this RS A =
            some (setAt (chainFrom ops this (chainRange rb this RS) A) this
              (add (chainFrom ops this (chainRange rb this RS) A this)))) := by
  cases RS with
  | nil => exact absurd rfl hne
  | cons front rest =>
    refine ⟨fun h1 => ?_, fun h1 h2 => ?_, fun h1 h2 => ?_, rfl,
      fun l A0 hl h => createChain_eq ops rb this l A0 hl h, fun l A0 hno => ?_,
      fun hr hall => ?_⟩
    · have h1a : resolveSynonym rb front = this := h1
      unfold addSubCompositionAutomaton
      simp only []
      rw [if_pos h1a]
      rfl
    · have h1a : ¬ resolveSynonym rb front = this := h1
      unfold addSubCompositionAutomaton
      simp only []
      rw [if_neg h1a, if_pos h2]
    · have h1a : ¬ resolveSynonym rb front = this := h1
      unfold addSubCompositionAutomaton
      simp only []
      rw [if_neg h1a, if_neg h2]
    · cases hc : createChain ops rb this l A0 with
      | none => rfl
      | some x =>
        exfalso
        exact hno ((createChain_isSome_iff ops rb this l A0).mp (by rw [hc]; rfl))
    · by_cases h1 : resolveSynonym rb front = this
      · have hcr : chainRange rb this (front :: rest) = rest := by
          unfold chainRange
          simp only []
          rw [if_pos h1]
        rw [hcr] at hr hall ⊢
        have hch := createChain_eq ops rb this rest A hr hall
        refine ⟨ops.addRBegRA, by simp, ?_⟩
        unfold addSubCompositionAutomaton
        simp only []
        rw [if_pos h1, hch]
        rfl
      · by_cases h2 : resolveSynonym rb ((front :: rest).getLast (List.cons_ne_nil _ _)) = this
        · have hcr : chainRange rb this (front :: rest) = (front :: rest).dropLast := by
            unfold chainRange
            simp only []
            rw [if_neg h1, if_pos h2]
          rw [hcr] at hr hall ⊢
          have hch := createChain_eq ops rb this _ A hr hall
          refine ⟨ops.addREndRA, by simp, ?_⟩
          unfold addSubCompositionAutomaton
          simp only []
          rw [if_neg h1, if_pos h2, hch]
          rfl
        · have hcr : chainRange rb this (front :: rest) = front :: rest := by
            unfold chainRange
            simp only []
            rw [if_neg h1, if_neg h2]
          rw [hcr] at hr hall ⊢
          have hch := createChain_eq ops rb this _ A hr hall
          refine ⟨ops.addChainRA, by simp, ?_⟩
          unfold addSubCompositionAutomaton
          simp only []
          rw [if_neg h1, if_neg h2, hch]
          rfl

/-- C27 at the composition `0, 1, 2` of the role `0` with the automata as logs of
calls: the automata of the roles `1` and `2` are completed, the automaton of
the role `0` gets the chain of the two (`initChain`, `addToChain`) and then
`addRBegRA`. -/
theorem addSubCompositionAutomaton_cases_witness :
    ([0, 1, 2] : List RoleId) ≠ [] ∧
      addSubCompositionAutomaton logOps disjointBox 0 [0, 1, 2] (fun _ => []) =
        (createChain logOps disjointBox 0 [1, 2] (fun _ => [])).map
          (fun A1 => setAt A1 0 (logOps.addRBegRA (A1 0))) ∧
      createChain logOps disjointBox 0 [1, 2] (fun _ => []) =
        some (chainFrom logOps 0 [1, 2] (fun _ => [])) ∧
      (chainFrom logOps 0 [1, 2] (fun _ => []) 0, chainFrom logOps 0 [1, 2] (fun _ => []) 1,
          chainFrom logOps 0 [1, 2] (fun _ => []) 2) =
        ([("initChain", 1), ("addToChain", 1)], [("complete", 0)], [("complete", 0)]) ∧
      (addSubCompositionAutomaton logOps disjointBox 0 [0, 1, 2] (fun _ => [])).map
          (fun A1 => A1 0) =
        some [("initChain", 1), ("addToChain", 1), ("addRBegRA", 0)] :=
  have h := addSubCompositionAutomaton_cases logOps disjointBox 0 [0, 1, 2] (fun _ => [])
    composition_ne_nil
  ⟨composition_ne_nil, h.1 (by decide), h.2.2.2.2.1 [1, 2] _ (by decide) (by decide), by decide,
    by decide⟩

/-- A step that keeps what `MergeExt` keeps, and whose new successor arcs are
new arcs with new reverse arcs, keeps the guard of the arc `q`. -/
theorem ArcGuard.of_ext {dep : DepSet} {q : ArcId} {r s : DlCompletionGraph}
    (hext : MergeExt dep r s)
    (hson : ∀ a, ∀ q1 ∈ (s.NodeBase a).Son, q1 ∈ (r.NodeBase a).Son ∨
      (r.nEdges ≤ q1 ∧ q1 < s.nEdges ∧ r.nEdges ≤ (s.CTEdgeHeap q1).Reverse))
    (h : ArcGuard q r) : ArcGuard q s := by
  refine ⟨lt_of_lt_of_le h.hq hext.nEdges, ?_, ?_⟩
  · intro a q1 hq1
    rcases hson a q1 hq1 with h1 | ⟨_, h2, _⟩
    · exact lt_of_lt_of_le (h.alloc a q1 h1) hext.nEdges
    · exact h2
  · intro a q1 hq1 hnom
    rcases hson a q1 hq1 with h1 | ⟨h2, _, h3⟩
    · have hlt := h.alloc a q1 h1
      rw [hext.arcEnd q1 hlt, hext.nominal] at hnom
      rw [hext.rev q1 hlt]
      exact h.link a q1 h1 hnom
    · constructor
      · intro e
        rw [e] at h2
        exact absurd h.hq (Nat.not_lt.mpr h2)
      · intro e
        rw [e] at h3
        exact absurd h.hq (Nat.not_lt.mpr h3)

theorem ArcGuard.of_createEdge (inv : RoleId → RoleId) (r : DlCompletionGraph) (from_ to_ : NodeId)
    (isUpLink : Bool) (R : RoleId) (dep : DepSet) (q : ArcId) (h : ArcGuard q r) :
    ArcGuard q (createEdge inv r from_ to_ isUpLink R dep).1 := by
  refine ArcGuard.of_ext (createEdge_ext inv r from_ to_ isUpLink R dep) ?_ h
  obtain ⟨hheap, hn, _⟩ := createEdge_heap inv r from_ to_ isUpLink R dep
  have hfw := initArcs_forward inv r from_ to_ R dep
  have hbw := initArcs_backward inv r from_ to_ R dep
  have hs := createEdge_saved_lists inv r from_ to_ R dep
  have hnewf : r.nEdges ≤ r.nEdges ∧ r.nEdges < (createEdge inv r from_ to_ isUpLink R dep).1.nEdges ∧
      r.nEdges ≤ ((createEdge inv r from_ to_ isUpLink R dep).1.CTEdgeHeap r.nEdges).Reverse := by
    rw [hn, hheap, hfw]
    exact ⟨le_refl _, by omega, Nat.le_succ _⟩
  have hnewb : r.nEdges ≤ r.nEdges + 1 ∧
      r.nEdges + 1 < (createEdge inv r from_ to_ isUpLink R dep).1.nEdges ∧
      r.nEdges ≤ ((createEdge inv r from_ to_ isUpLink R dep).1.CTEdgeHeap (r.nEdges + 1)).Reverse := by
    rw [hn, hheap, hbw]
    exact ⟨Nat.le_succ _, by omega, le_refl _⟩
  intro a q1 hq1
  rw [createEdge_fst] at hq1
  cases isUpLink with
  | true =>
    simp only [if_true] at hq1
    rw [(addChild_lists _ _ _ _).2, (addParent_lists _ _ _ _).1, (hs a).2] at hq1
    by_cases ha : a = to_
    · rw [if_pos ha] at hq1
      rcases List.mem_append.mp hq1 with h1 | h1
      · exact Or.inl h1
      · have : q1 = r.nEdges + 1 := by simpa using h1
        rw [this]
        exact Or.inr hnewb
    · rw [if_neg ha] at hq1
      exact Or.inl hq1
  | false =>
    simp only [Bool.false_eq_true, if_false] at hq1
    rw [(addParent_lists _ _ _ _).1, (addChild_lists _ _ _ _).2, (hs a).2] at hq1
    by_cases ha : a = from_
    · rw [if_pos ha] at hq1
      rcases List.mem_append.mp hq1 with h1 | h1
      · exact Or.inl h1
      · have : q1 = r.nEdges := by simpa using h1
        rw [this]
        exact Or.inr hnewf
    · rw [if_neg ha] at hq1
      exact Or.inl hq1

theorem ArcGuard.of_addRoleLabel (inv : RoleId → RoleId) (r : DlCompletionGraph) (from_ to_ : NodeId)
    (isUpLink : Bool) (R : RoleId) (dep : DepSet) (q : ArcId) (h : ArcGuard q r) :
    ArcGuard q (addRoleLabel inv r from_ to_ isUpLink R dep).1 := by
  have hext := addRoleLabel_ext inv r from_ to_ isUpLink R dep
  unfold addRoleLabel at hext ⊢
  cases hc : getEdgeLabelled r from_ R to_ with
  | some a =>
    rw [hc] at hext
    exact ArcGuard.of_ext hext (fun _ _ h1 => Or.inl h1) h
  | none => exact ArcGuard.of_createEdge inv r from_ to_ isUpLink R dep q h

theorem ArcGuard.of_invalidateEdge (r : DlCompletionGraph) (e q : ArcId) (h : ArcGuard q r) :
    ArcGuard q (invalidateEdge r e) :=
  ArcGuard.of_ext (invalidateEdge_ext ∅ r e) (fun _ _ h1 => Or.inl h1) h

theorem ArcGuard.of_moveEdge (inv : RoleId → RoleId) (r : DlCompletionGraph) (node : NodeId)
    (edge : ArcId) (isUpLink : Bool) (dep : DepSet) (q : ArcId) (h : ArcGuard q r) :
    ArcGuard q (moveEdge inv r node edge isUpLink dep).1 := by
  rcases moveEdge_cases inv r node edge isUpLink dep with h1 | h1 | ⟨up1, h1⟩
  · rw [h1]; exact h
  · rw [h1]; exact ArcGuard.of_invalidateEdge r edge q h
  · rw [h1]
    exact ArcGuard.of_invalidateEdge _ edge q (ArcGuard.of_addRoleLabel inv r node _ up1 _ dep q h)

theorem ArcGuard.of_moveEdges (inv : RoleId → RoleId) (to_ : NodeId) (isUpLink : Bool) (dep : DepSet)
    (q : ArcId) :
    ∀ (l : List ArcId) (r : DlCompletionGraph) (edges : List ArcId), ArcGuard q r →
      ArcGuard q (moveEdges inv to_ isUpLink dep l (r, edges)).1 := by
  intro l
  induction l with
  | nil => intro r edges h; exact h
  | cons x xs ih =>
    intro r edges h
    rw [moveEdges_cons]
    exact ih _ _ (ArcGuard.of_moveEdge inv r to_ x isUpLink dep q h)

theorem ArcGuard.of_updateIR (r : DlCompletionGraph) (to_ from_ : NodeId) (dep : DepSet) (q : ArcId)
    (h : ArcGuard q r) : ArcGuard q (updateIR r to_ from_ dep) := by
  refine ArcGuard.of_ext (updateIR_ext dep r to_ from_) ?_ h
  intro a q1 hq1
  left
  have : ((updateIR r to_ from_ dep).NodeBase a).Son = (r.NodeBase a).Son := by
    unfold updateIR saveRare
    simp only []
    refine setAt_proj _ _ _ DlCompletionTree.Son ?_ a
    rfl
  rw [this] at hq1
  exact hq1

/-- The successor pass of `Merge` is the pass over the successor arcs that lead
to nominal nodes. -/
theorem Merge_eq_MergeNominalOnly (inv : RoleId → RoleId) (g : DlCompletionGraph)
    (from_ to_ : NodeId) (dep : DepSet)
    (halloc : ∀ x ∈ (g.NodeBase from_).Son, x < g.nEdges) :
    Merge inv g from_ to_ dep = MergeNominalOnly inv g from_ to_ dep := by
  have hext := (moveEdges_ext inv to_ true dep (g.NodeBase from_).Parent g []).1
  have hfil := moveEdges_successor_filter inv to_ dep (g.NodeBase from_).Son
    (moveEdges inv to_ true dep (g.NodeBase from_).Parent (g, [])).1
    (moveEdges inv to_ true dep (g.NodeBase from_).Parent (g, [])).2
    (fun x hx => lt_of_lt_of_le (halloc x hx) hext.nEdges)
  have hcongr : (g.NodeBase from_).Son.filter
      (fun x => ((moveEdges inv to_ true dep (g.NodeBase from_).Parent (g, [])).1.NodeBase
        ((moveEdges inv to_ true dep (g.NodeBase from_).Parent (g, [])).1.CTEdgeHeap x).ArcEnd).nominal)
      = (g.NodeBase from_).Son.filter
        (fun x => (g.NodeBase (g.CTEdgeHeap x).ArcEnd).nominal) := by
    apply List.filter_congr
    intro x hx
    rw [hext.arcEnd x (halloc x hx), hext.nominal]
  rw [hcongr] at hfil
  have hpair : moveEdges inv to_ false dep (g.NodeBase from_).Son
      (moveEdges inv to_ true dep (g.NodeBase from_).Parent (g, []))
      = moveEdges inv to_ false dep
        ((g.NodeBase from_).Son.filter (fun x => (g.NodeBase (g.CTEdgeHeap x).ArcEnd).nominal))
        (moveEdges inv to_ true dep (g.NodeBase from_).Parent (g, [])) := hfil
  unfold Merge MergeNominalOnly
  simp only []
  rw [hpair]

/-- C20 as amended: for a successor arc `q` of `from` whose end node is not a
nominal node, `Merge(from, to, dep, out)` creates no arc at `to` and adds
nothing to `out` for it: the call of `moveEdge` for `q` returns `NULL` and
leaves the graph as it was, at every stage of the merge, so that `Merge` does
what it does with the successor pass restricted to the arcs that lead to
nominal nodes (`MergeNominalOnly`); and after `Merge` the arc has its end, its
role and its reverse and is still valid, provided it is not tied to an arc
that `Merge` does move: it is no predecessor arc of `from` nor the reverse of
one (no edge from `from` to itself), and not the reverse of a successor arc
that leads to a nominal node.  Successor arcs are taken to be arcs handed out
by the heap. -/
theorem Merge_blockable_successor (inv : RoleId → RoleId) (g : DlCompletionGraph)
    (from_ to_ : NodeId) (dep : DepSet) (q : ArcId)
    (hq : q ∈ (g.NodeBase from_).Son)
    (hnom : (g.NodeBase (g.CTEdgeHeap q).ArcEnd).nominal = false)
    (hvalid : (g.CTEdgeHeap q).iBlocked = false)
    (halloc : ∀ a, ∀ x ∈ (g.NodeBase a).Son, x < g.nEdges)
    (hpar : ∀ p ∈ (g.NodeBase from_).Parent,
      p < g.nEdges ∧ p ≠ q ∧ (g.CTEdgeHeap p).Reverse ≠ q)
    (hlink : NoNominalLink g q) :
    Merge inv g from_ to_ dep = MergeNominalOnly inv g from_ to_ dep ∧
      (∀ gi, MergeExt dep g gi → moveEdge inv gi to_ q false dep = (gi, none)) ∧
      ((Merge inv g from_ to_ dep).1.CTEdgeHeap q).iBlocked = false ∧
      ((Merge inv g from_ to_ dep).1.CTEdgeHeap q).ArcEnd = (g.CTEdgeHeap q).ArcEnd ∧
      ((Merge inv g from_ to_ dep).1.CTEdgeHeap q).Role = (g.CTEdgeHeap q).Role ∧
      ((Merge inv g from_ to_ dep).1.CTEdgeHeap q).Reverse = (g.CTEdgeHeap q).Reverse := by
  have hqn : q < g.nEdges := halloc from_ q hq
  have hguard : ArcGuard q g := ⟨hqn, halloc, hlink⟩
  have heq := Merge_eq_MergeNominalOnly inv g from_ to_ dep (halloc from_)
  refine ⟨heq, ?_, ?_⟩
  · intro gi hgi
    apply moveEdge_nonNominal
    rw [hgi.arcEnd q hqn, hgi.nominal]
    exact hnom
  · -- the predecessor pass
    obtain ⟨r1, hr1⟩ : ∃ r1, r1 = moveEdges inv to_ true dep (g.NodeBase from_).Parent (g, []) :=
      ⟨_, rfl⟩
    have hext1 : MergeExt dep g r1.1 := by
      rw [hr1]; exact (moveEdges_ext inv to_ true dep (g.NodeBase from_).Parent g []).1
    have hg1 : ArcGuard q r1.1 := by
      rw [hr1]; exact ArcGuard.of_moveEdges inv to_ true dep q _ g [] hguard
    have hv1 : (r1.1.CTEdgeHeap q).iBlocked = false := by
      rw [hr1]
      exact moveEdges_keeps_valid inv g to_ true dep q hqn (g.NodeBase from_).Parent g []
        (MergeExt.ext_refl dep g) hpar hvalid
    -- the successor pass, over the arcs to nominal nodes
    obtain ⟨r2, hr2⟩ : ∃ r2, r2 = moveEdges inv to_ false dep
        ((g.NodeBase from_).Son.filter fun x => (g.NodeBase (g.CTEdgeHeap x).ArcEnd).nominal)
        (r1.1, r1.2) := ⟨_, rfl⟩
    have hext2 : MergeExt dep g r2.1 := by
      rw [hr2]
      exact hext1.ext_trans (moveEdges_ext inv to_ false dep _ r1.1 r1.2).1
    have hg2 : ArcGuard q r2.1 := by
      rw [hr2]; exact ArcGuard.of_moveEdges inv to_ false dep q _ r1.1 r1.2 hg1
    have hv2 : (r2.1.CTEdgeHeap q).iBlocked = false := by
      rw [hr2]
      refine moveEdges_keeps_valid inv g to_ false dep q hqn _ r1.1 r1.2 hext1 ?_ hv1
      intro x hx
      obtain ⟨hx1, hx2⟩ := List.mem_filter.mp hx
      have hx3 : (g.NodeBase (g.CTEdgeHeap x).ArcEnd).nominal = true := hx2
      refine ⟨halloc from_ x hx1, ?_, (hlink from_ x hx1 hx3).2⟩
      intro e
      rw [e, hnom] at hx3
      exact absurd hx3 (by decide)
    -- the inequality relation and the purge
    have hg3 : ArcGuard q (updateIR r2.1 to_ from_ dep) := ArcGuard.of_updateIR r2.1 to_ from_ dep q hg2
    have hm : (Merge inv g from_ to_ dep).1.CTEdgeHeap q = r2.1.CTEdgeHeap q := by
      rw [heq]
      show (Purge _ (updateIR (moveEdges inv to_ false dep _
        (moveEdges inv to_ true dep (g.NodeBase from_).Parent (g, []))).1 to_ from_ dep)
        from_ to_ dep).CTEdgeHeap q = _
      rw [← hr1]
      have hp : (moveEdges inv to_ false dep
          ((g.NodeBase from_).Son.filter fun x => (g.NodeBase (g.CTEdgeHeap x).ArcEnd).nominal)
          r1) = r2 := by rw [hr2]
      rw [hp, Purge_keeps_arc to_ dep q _ _ from_ hg3.link]
      rfl
    rw [hm]
    exact ⟨hv2, hext2.arcEnd q hqn, hext2.role q hqn, hext2.rev q hqn⟩

theorem mergeSuccessorsGraph_sons :
    ∀ a, (mergeSuccessorsGraph.NodeBase a).Son = if a = 0 then [0, 2] else [] := by
  intro a
  by_cases h0 : a = 0
  · subst h0; rfl
  · by_cases h1 : a = 1
    · subst h1; rfl
    · by_cases h2 : a = 2
      · subst h2; rfl
      · by_cases h3 : a = 3
        · subst h3; rfl
        · rw [if_neg h0]
          simp [mergeSuccessorsGraph, applyMutations, applyMutation, getNewNode, createEdge,
            initArcs, saveNode, addChild, addParent, emptyGraph, setAt, h0, h1, h2, h3]

theorem mergeSuccessorsGraph_alloc :
    ∀ a, ∀ x ∈ (mergeSuccessorsGraph.NodeBase a).Son, x < mergeSuccessorsGraph.nEdges := by
  intro a x hx
  rw [mergeSuccessorsGraph_sons] at hx
  by_cases h0 : a = 0
  · rw [if_pos h0] at hx
    have : x = 0 ∨ x = 2 := by simpa using hx
    rcases this with e | e <;> rw [e] <;> decide
  · rw [if_neg h0] at hx
    exact absurd hx (List.not_mem_nil x)

theorem mergeSuccessorsGraph_link : NoNominalLink mergeSuccessorsGraph 0 := by
  intro a q1 hq1 hnom
  rw [mergeSuccessorsGraph_sons] at hq1
  by_cases h0 : a = 0
  · rw [if_pos h0] at hq1
    have : q1 = 0 ∨ q1 = 2 := by simpa using hq1
    rcases this with e | e
    · rw [e] at hnom
      exact absurd hnom (by decide)
    · rw [e]
      exact ⟨by decide, by decide⟩
  · rw [if_neg h0] at hq1
    exact absurd hq1 (List.not_mem_nil q1)

theorem mergeSuccessorsGraph_pred :
    ∀ p ∈ (mergeSuccessorsGraph.NodeBase 0).Parent,
      p < mergeSuccessorsGraph.nEdges ∧ p ≠ 0 ∧ (mergeSuccessorsGraph.CTEdgeHeap p).Reverse ≠ 0 := by
  intro p hp
  have h : (mergeSuccessorsGraph.NodeBase 0).Parent = [] := rfl
  rw [h] at hp
  exact absurd hp (List.not_mem_nil p)

/-- C20 at the node `0` of `mergeSuccessorsGraph`, merged into the nominal node
`3`: the successor arc `0` to the blockable node `1` is left as it was, the
successor arc `2` to the nominal node `2` is redirected (new arc `4` in `out`)
and invalidated. -/
theorem Merge_blockable_successor_witness :
    ((0 : ArcId) ∈ (mergeSuccessorsGraph.NodeBase 0).Son ∧
      (mergeSuccessorsGraph.NodeBase (mergeSuccessorsGraph.CTEdgeHeap 0).ArcEnd).nominal = false ∧
      (mergeSuccessorsGraph.CTEdgeHeap 0).iBlocked = false) ∧
    (Merge pairInverse mergeSuccessorsGraph 0 3 ∅ =
        MergeNominalOnly pairInverse mergeSuccessorsGraph 0 3 ∅ ∧
      (∀ gi, MergeExt ∅ mergeSuccessorsGraph gi → moveEdge pairInverse gi 3 0 false ∅ = (gi, none)) ∧
      ((Merge pairInverse mergeSuccessorsGraph 0 3 ∅).1.CTEdgeHeap 0).iBlocked = false ∧
      ((Merge pairInverse mergeSuccessorsGraph 0 3 ∅).1.CTEdgeHeap 0).ArcEnd
        = (mergeSuccessorsGraph.CTEdgeHeap 0).ArcEnd ∧
      ((Merge pairInverse mergeSuccessorsGraph 0 3 ∅).1.CTEdgeHeap 0).Role
        = (mergeSuccessorsGraph.CTEdgeHeap 0).Role ∧
      ((Merge pairInverse mergeSuccessorsGraph 0 3 ∅).1.CTEdgeHeap 0).Reverse
        = (mergeSuccessorsGraph.CTEdgeHeap 0).Reverse) ∧
    (Merge pairInverse mergeSuccessorsGraph 0 3 ∅).2 = [4] ∧
    ((Merge pairInverse mergeSuccessorsGraph 0 3 ∅).1.CTEdgeHeap 2).iBlocked = true :=
  ⟨⟨by decide, rfl, rfl⟩,
    Merge_blockable_successor pairInverse mergeSuccessorsGraph 0 3 ∅ 0 (by decide) rfl rfl
      mergeSuccessorsGraph_alloc mergeSuccessorsGraph_pred mergeSuccessorsGraph_link,
    by decide, by decide⟩

/-- C20, the claim as stated fails: the blockable node `0` of `selfLoopGraph` has
the valid successor arc `0`, which leads to node `0` itself, no nominal node.
The call of `moveEdge` for it returns `NULL` and nothing is added to `out`,
but `Merge(0, 1, ∅, out)` does not leave the arc as it was: the predecessor
pass takes the predecessor arc `1` of node `0`, the reverse of arc `0`, and
invalidates both directions, so arc `0` is invalid after the merge. -/
theorem Merge_self_loop_counterexample :
    (0 : ArcId) ∈ (selfLoopGraph.NodeBase 0).Son ∧
      (selfLoopGraph.NodeBase (selfLoopGraph.CTEdgeHeap 0).ArcEnd).nominal = false ∧
      (selfLoopGraph.CTEdgeHeap 0).iBlocked = false ∧
      (selfLoopGraph.NodeBase 0).Parent = [1] ∧ (selfLoopGraph.CTEdgeHeap 1).Reverse = 0 ∧
      (moveEdge pairInverse selfLoopGraph 1 0 false ∅).2 = none ∧
      (Merge pairInverse selfLoopGraph 0 1 ∅).2 = [] ∧
      ((Merge pairInverse selfLoopGraph 0 1 ∅).1.CTEdgeHeap 0).iBlocked = true := by
  refine ⟨by decide, rfl, rfl, rfl, rfl, ?_, ?_, ?_⟩ <;> decide

end FaCT
